import Mathlib

/-!
# gomapinfer: geometry, Fréchet matching, road segments, RDP, Viterbi, OSM regions

Shallow embedding of `common/geom.go`, `common/grid_index.go`,
`common/graph_index.go`, `common/graph_rs.go`, `common/rdp.go`,
`common/viterbi2.go`, `common/osm.go` (the region lookup of `LoadOSMMultiple2`),
`spmetric/nodepaths.go`, `spmetric/frechet.go` and `spmetric/spmetric.go` (the
source node of `SamplePath`).

Number model.  A Go `float64` is read in two ways.  Where a statement depends only on
comparisons of values that the code computes once, on values that `float64`
represents and computes exactly, or holds whatever the values are, a `float64` is an
element of a linearly ordered field `K` with exact arithmetic; `math.Sqrt` is then a
function parameter `sqrt : K → K` (the theorems say which of its properties they
use), `math.Inf(1)` is the top element of `WithTop K`, coordinates that may be
`math.Inf(-1)` as well are in `WithBot (WithTop K)`, and the other functions of
package `math` are the fields of a `MathLib K`.  Where a statement depends on how an
arithmetic result is rounded, a `float64` is the rational number it stands for and
every operation is followed by `round64`, the rounding to the nearest number of 53
significant binary digits, ties to even (the definitions whose name ends in `64`);
no two operations are fused, as in the code the amd64 compiler produces, the
exponent is not bounded, and infinities and NaN are not modelled.  The
conversion `int(x)` is `goInt64` of the integer part: the value itself inside the
range of a 64-bit `int` and the least `int` outside it.  Slices are lists; an index
out of range (a Go panic) is `none`.

Choices the code leaves open are oracles: the iteration order of a map is a
`MapOrder`, the numbers of `rand.Float64()` are a stream `rand : Nat → K`, those
of `rand.Intn` a stream `rand : Nat → Nat`, and the scheduling of traces to worker
goroutines is a function `assign`.
-/

namespace Gomapinfer

/-! ## common/geom.go -/

/-- Go `type Point struct { X, Y float64 }`. -/
structure Point (K : Type) where
  X : K
  Y : K
deriving DecidableEq, Repr

/-- Go `type Segment struct { Start, End Point }`. -/
structure Segment (K : Type) where
  Start : Point K
  End : Point K
deriving DecidableEq, Repr

section Geom

variable {K : Type} [LinearOrderedField K]

instance : Inhabited (Point K) := ⟨⟨0, 0⟩⟩

/-- Go `Point.Dot`. -/
def Point.Dot (point other : Point K) : K :=
  point.X * other.X + point.Y * other.Y

/-- Go `Point.Magnitude`. -/
def Point.Magnitude (sqrt : K → K) (point : Point K) : K :=
  sqrt (point.X * point.X + point.Y * point.Y)

/-- Go `Point.Distance`. -/
def Point.Distance (sqrt : K → K) (point other : Point K) : K :=
  let dx := point.X - other.X
  let dy := point.Y - other.Y
  sqrt (dx * dx + dy * dy)

/-- Go `Point.Add`. -/
def Point.Add (point other : Point K) : Point K :=
  ⟨point.X + other.X, point.Y + other.Y⟩

/-- Go `Point.Sub`. -/
def Point.Sub (point other : Point K) : Point K :=
  ⟨point.X - other.X, point.Y - other.Y⟩

/-- Go `Point.Scale`. -/
def Point.Scale (point : Point K) (f : K) : Point K :=
  ⟨f * point.X, f * point.Y⟩

/-- Go `Segment.Length`. -/
def Segment.Length (sqrt : K → K) (segment : Segment K) : K :=
  segment.Start.Distance sqrt segment.End

/-- Go `Segment.Project`: the clamped projection parameter of `point`. -/
def Segment.Project (sqrt : K → K) (segment : Segment K) (point : Point K)
    (normalized : Bool) : K :=
  let l := segment.Length sqrt
  if l = 0 then 0
  else
    let t := (point.Sub segment.Start).Dot (segment.End.Sub segment.Start) / l / l
    let t := max 0 (min 1 t)
    if !normalized then t * l else t

/-- Go `Segment.PointAtFactor`. -/
def Segment.PointAtFactor (sqrt : K → K) (segment : Segment K) (factor : K)
    (normalized : Bool) : Point K :=
  if segment.Length sqrt = 0 then segment.Start
  else
    let factor := if !normalized then factor / segment.Length sqrt else factor
    segment.Start.Add ((segment.End.Sub segment.Start).Scale factor)

/-- Go `Segment.ProjectPoint`. -/
def Segment.ProjectPoint (sqrt : K → K) (segment : Segment K) (point : Point K) : Point K :=
  let t := segment.Project sqrt point true
  segment.PointAtFactor sqrt t true

/-- Go `Segment.Distance`: distance from the segment to a point. -/
def Segment.Distance (sqrt : K → K) (segment : Segment K) (point : Point K) : K :=
  let p := segment.ProjectPoint sqrt point
  p.Distance sqrt point

/-- Go `Segment.Vector`. -/
def Segment.Vector (segment : Segment K) : Point K :=
  segment.End.Sub segment.Start

end Geom

/-- The properties of `math.Sqrt` on exact numbers that the geometric theorems use:
it is non-negative and squares back to its (non-negative) argument. -/
structure IsSqrt {K : Type} [LinearOrderedField K] (sqrt : K → K) : Prop where
  nonneg : ∀ x, 0 ≤ sqrt x
  mul_self : ∀ x, 0 ≤ x → sqrt x * sqrt x = x

/-- The point of the segment at parameter `t`, `Start + t * (End - Start)`; the
closed segment is the set of these points for `0 ≤ t ≤ 1`. -/
def Segment.pointAt {K : Type} [LinearOrderedField K] (segment : Segment K) (t : K) : Point K :=
  segment.Start.Add (segment.Vector.Scale t)

/-- Squared Euclidean distance, the argument of the square root in `Point.Distance`. -/
def Point.sqDist {K : Type} [LinearOrderedField K] (point other : Point K) : K :=
  (point.X - other.X) * (point.X - other.X) + (point.Y - other.Y) * (point.Y - other.Y)

/-! ## spmetric/frechet.go -/

section Frechet

variable {K : Type} [LinearOrderedField K]

/-- Read `m[i][j]`; the loops below only read cells that are in range. -/
def tableGet (m : List (List (WithTop K))) (i j : Nat) : WithTop K :=
  (m.getD i []).getD j 0

/-- Assign `m[i][j] = v`. -/
def tableSet (m : List (List (WithTop K))) (i j : Nat) (v : WithTop K) :
    List (List (WithTop K)) :=
  m.set i ((m.getD i []).set j v)

/-- Body of the inner loop of `ComputeFrechetDistance` at cell `(i, j)`. -/
def frechetCell (sqrt : K → K) (a b : List (Point K)) (m : List (List (WithTop K)))
    (i j : Nat) : List (List (WithTop K)) :=
  if i = 0 ∧ j = 0 then
    tableSet m i j ((a.getD i default).Distance sqrt (b.getD j default) : K)
  else
    let best : WithTop K := ⊤
    let best := if i > 0 then min best (tableGet m (i - 1) j) else best
    let best := if j > 0 then min best (tableGet m i (j - 1)) else best
    let best := if i > 0 ∧ j > 0 then min best (tableGet m (i - 1) (j - 1)) else best
    tableSet m i j (max best ((a.getD i default).Distance sqrt (b.getD j default) : K))

/-- The table `m` after the two nested loops of `ComputeFrechetDistance`. -/
def frechetTable (sqrt : K → K) (a b : List (Point K)) : List (List (WithTop K)) :=
  let m : List (List (WithTop K)) := List.replicate a.length (List.replicate b.length 0)
  (List.range m.length).foldl
    (fun m i => (List.range (m.getD i []).length).foldl (fun m j => frechetCell sqrt a b m i j) m)
    m

/-- Go `ComputeFrechetDistance`.  The final read `m[len(a)-1][len(b)-1]` panics
when either slice is empty. -/
def ComputeFrechetDistance (sqrt : K → K) (a b : List (Point K)) : Option (WithTop K) :=
  let m := frechetTable sqrt a b
  if a.length = 0 ∨ b.length = 0 then none
  else some (tableGet m (a.length - 1) (b.length - 1))

end Frechet

/-! ## Specification side of the Fréchet distance -/

section FrechetSpec

/-- The recurrence of the specification,
`m[i][j] = max (min (m[i-1][j], m[i][j-1], m[i-1][j-1])) (d i j)` with
`m[0][0] = d 0 0`, over any linear order of values. -/
def frechetRec {α : Type} [LinearOrder α] (d : Nat → Nat → α) : Nat → Nat → α
  | 0, 0 => d 0 0
  | i + 1, 0 => max (frechetRec d i 0) (d (i + 1) 0)
  | 0, j + 1 => max (frechetRec d 0 j) (d 0 (j + 1))
  | i + 1, j + 1 =>
    max (min (min (frechetRec d i (j + 1)) (frechetRec d (i + 1) j)) (frechetRec d i j))
      (d (i + 1) (j + 1))

/-- One step of a coupling: advance `i`, `j`, or both by exactly one. -/
def couplingStep (p q : Nat × Nat) : Prop :=
  q = (p.1 + 1, p.2) ∨ q = (p.1, p.2 + 1) ∨ q = (p.1 + 1, p.2 + 1)

instance (p q : Nat × Nat) : Decidable (couplingStep p q) :=
  inferInstanceAs (Decidable (q = (p.1 + 1, p.2) ∨ q = (p.1, p.2 + 1) ∨ q = (p.1 + 1, p.2 + 1)))

/-- A coupling of index ranges ending at `last`: a sequence of index pairs
that starts at `(0, 0)`, ends at `last` and advances by `couplingStep`. -/
def IsCoupling (last : Nat × Nat) (c : List (Nat × Nat)) : Prop :=
  c.head? = some (0, 0) ∧ c.getLast? = some last ∧ c.Chain' couplingStep

instance (last : Nat × Nat) (c : List (Nat × Nat)) : Decidable (IsCoupling last c) :=
  inferInstanceAs
    (Decidable (c.head? = some (0, 0) ∧ c.getLast? = some last ∧ c.Chain' couplingStep))

/-- The cost of a coupling: the largest `d i j` over its pairs (a coupling is
never empty; the empty list is given `d 0 0`). -/
def couplingCost {α : Type} [LinearOrder α] (d : Nat → Nat → α) : List (Nat × Nat) → α
  | [] => d 0 0
  | p :: ps => ps.foldl (fun acc q => max acc (d q.1 q.2)) (d p.1 p.2)

end FrechetSpec

/-- Distance between the `i`-th point of `a` and the `j`-th point of `b`. -/
def pairDist {K : Type} [LinearOrderedField K] (sqrt : K → K) (a b : List (Point K))
    (i j : Nat) : K :=
  (a.getD i default).Distance sqrt (b.getD j default)

/-- Loop invariant of `ComputeFrechetDistance`: the table has its shape and every
cell before `(i, j)` in row-major order holds the value of the recurrence. -/
def FrechetInv {K : Type} [LinearOrderedField K] (sqrt : K → K) (a b : List (Point K))
    (m : List (List (WithTop K))) (i j : Nat) : Prop :=
  m.length = a.length ∧ (∀ r, r < a.length → (m.getD r []).length = b.length) ∧
  ∀ i2 j2, i2 < a.length → j2 < b.length → (i2 < i ∨ (i2 = i ∧ j2 < j)) →
    tableGet m i2 j2 = frechetRec (fun i j => ((pairDist sqrt a b i j : K) : WithTop K)) i2 j2

/-! ## common/geom.go: rectangles -/

/-- Go `type Rectangle struct { Min, Max Point }`. -/
structure Rectangle (K : Type) where
  Min : Point K
  Max : Point K
deriving DecidableEq, Repr

section RectOrder

variable {α : Type} [LinearOrder α]

/-- Go `Rectangle.Extend`. The function only compares coordinates (`math.Min`,
`math.Max`), so it is stated over any linearly ordered coordinate type; this
covers both finite coordinates and the infinite ones of `EmptyRectangle`. -/
def Rectangle.Extend (rect : Rectangle α) (point : Point α) : Rectangle α :=
  ⟨⟨min rect.Min.X point.X, min rect.Min.Y point.Y⟩,
   ⟨max rect.Max.X point.X, max rect.Max.Y point.Y⟩⟩

/-- Go `Rectangle.Contains`. -/
def Rectangle.Contains (rect : Rectangle α) (point : Point α) : Bool :=
  decide (point.X ≥ rect.Min.X) && decide (point.X ≤ rect.Max.X) &&
    decide (point.Y ≥ rect.Min.Y) && decide (point.Y ≤ rect.Max.Y)

end RectOrder

section Rect

variable {K : Type} [LinearOrderedField K]

/-- Go `Point.RectangleTol`. -/
def Point.RectangleTol (point : Point K) (tol : K) : Rectangle K :=
  let t : Point K := ⟨tol, tol⟩
  ⟨point.Sub t, point.Add t⟩

/-- Go `Point.Rectangle`. -/
def Point.Rectangle (point : Point K) : Rectangle K :=
  point.RectangleTol 0

/-- Go `Point.Bounds`. -/
def Point.Bounds (point : Point K) : Gomapinfer.Rectangle K :=
  point.Rectangle

/-- Go `Rectangle.AddTol`. -/
def Rectangle.AddTol (rect : Rectangle K) (tol : K) : Rectangle K :=
  ⟨⟨rect.Min.X - tol, rect.Min.Y - tol⟩, ⟨rect.Max.X + tol, rect.Max.Y + tol⟩⟩

/-- Go `Segment.Bounds`. -/
def Segment.Bounds (segment : Segment K) : Rectangle K :=
  segment.Start.Rectangle.Extend segment.End

end Rect

/-! ## Iteration order of Go maps -/

/-- Go leaves the iteration order of `range` over a map unspecified.  An order
oracle maps a key naming the loop (which loop, which iteration) and the list of
the map's keys to the order in which the loop visits them. -/
abbrev MapOrder := List Nat → List Nat → List Nat

/-- An oracle is valid when every loop visits exactly the keys of its map. -/
def MapOrder.Valid (order : MapOrder) : Prop :=
  ∀ (key l : List Nat), (order key l).Perm l

/-- The oracle that visits keys in the order they were first inserted. -/
def MapOrder.insertion : MapOrder := fun _ l => l

/-- A Go `map[int]V` as an association list with distinct keys: read `m[k]`. -/
def mapGet {β : Type} (m : List (Nat × β)) (k : Nat) : Option β :=
  (m.find? (fun kv => kv.1 = k)).map Prod.snd

/-- A Go `map[int]V` as an association list with distinct keys: assign `m[k] = v`. -/
def mapSet {β : Type} (m : List (Nat × β)) (k : Nat) (v : β) : List (Nat × β) :=
  if (mapGet m k).isSome then m.map (fun kv => if kv.1 = k then (k, v) else kv)
  else m ++ [(k, v)]

/-- The key/value pairs of a map in the order a `range` loop named `key` visits them. -/
def mapRange {β : Type} (order : MapOrder) (key : List Nat) (m : List (Nat × β)) :
    List (Nat × β) :=
  (order key (m.map Prod.fst)).filterMap (fun k => (mapGet m k).map (fun v => (k, v)))

/-! ## common/grid_index.go -/

/-- Go `type GridIndex struct { gridSize float64; grid map[[2]int][]int }`; a
missing cell reads as the empty list. -/
structure GridIndex (K : Type) where
  gridSize : K
  grid : Int × Int → List Nat

section Grid

variable {K : Type} [LinearOrderedField K] [FloorRing K]

/-- Go `NewGridIndex`. -/
def NewGridIndex (gridSize : K) : GridIndex K :=
  ⟨gridSize, fun _ => []⟩

/-- The integers `lo, lo + 1, ..., hi` of `for i := lo; i <= hi; i++`. -/
def intRange (lo hi : Int) : List Int :=
  (List.range (hi + 1 - lo).toNat).map (fun k => lo + (k : Int))

/-- The Go conversion `int(x)` of a `float64` whose integral part is `z` to the
64-bit `int`. For a value outside the range of `int` the Go specification leaves the
result to the implementation; this is the result of the amd64 compiler, the least
`int`. -/
def goInt64 (z : Int) : Int :=
  if -2 ^ 63 ≤ z ∧ z < 2 ^ 63 then z else -2 ^ 63

/-- Go `GridIndex.eachCell`: the cells `(i, j)` the callback is called with, in order. -/
def GridIndex.eachCell (idx : GridIndex K) (rect : Rectangle K) : List (Int × Int) :=
  (intRange (goInt64 ⌊rect.Min.X / idx.gridSize⌋)
      (goInt64 ⌊rect.Max.X / idx.gridSize⌋)).flatMap fun i =>
    (intRange (goInt64 ⌊rect.Min.Y / idx.gridSize⌋)
      (goInt64 ⌊rect.Max.Y / idx.gridSize⌋)).map fun j => (i, j)

/-- The cell indices of the four corner coordinates of `rect` are at most `2 ^ 62`
in magnitude, so that the conversion to `int` in `eachCell` is in range (also after
the rounding of the division). -/
def GridIndex.InRange (gridSize : K) (rect : Rectangle K) : Prop :=
  ∀ x ∈ [rect.Min.X, rect.Min.Y, rect.Max.X, rect.Max.Y],
    -2 ^ 62 ≤ x / gridSize ∧ x / gridSize ≤ 2 ^ 62

/-- Go `GridIndex.Search`: the ids of the covered cells, collected in a set and
listed in the (unspecified) iteration order of that set. -/
def GridIndex.Search (order : List Nat → List Nat) (idx : GridIndex K) (rect : Rectangle K) :
    List Nat :=
  order ((idx.eachCell rect).foldl (fun ids c =>
    (idx.grid c).foldl (fun ids id => if id ∈ ids then ids else ids ++ [id]) ids) [])

/-- Go `GridIndex.Insert`: append `id` to every covered cell. -/
def GridIndex.Insert (idx : GridIndex K) (id : Nat) (rect : Rectangle K) : GridIndex K :=
  (idx.eachCell rect).foldl
    (fun idx c => { idx with grid := Function.update idx.grid c (idx.grid c ++ [id]) }) idx

end Grid

/-! ## Graph data model (`common/graph.go` is not part of the sources) -/

/-- Modelled from the spec: `Node`, missing from the sources (§3 Graph:
`NodeID → (point, Out: ordered list of outgoing EdgeIDs)`).  A Go `*Node` is the
node id, the index of the node in `Graph.Nodes`; `node.ID` is that id. -/
structure Node (K : Type) where
  Point : Point K
  Out : List Nat
deriving DecidableEq, Repr

/-- Modelled from the spec: `Edge`, missing from the sources (§3 Graph:
`EdgeID → (Src, Dst)`, edges refer to nodes by id).  A Go `*Edge` is the edge id,
the index of the edge in `Graph.Edges`; `edge.ID` is that id. -/
structure Edge where
  Src : Nat
  Dst : Nat
deriving DecidableEq, Repr

/-- Modelled from the spec: `Graph`, missing from the sources (§3 Graph: nodes and
edges in arenas keyed by dense integer ids assigned in insertion order). -/
structure Graph (K : Type) where
  Nodes : List (Node K)
  Edges : List Edge

/-- Modelled from the spec: `EdgePos`, missing from the sources (§3 and glossary:
`(edge, distance-from-source)`). -/
structure EdgePos (K : Type) where
  Edge : Nat
  Position : K
deriving DecidableEq, Repr

section GraphModel

variable {K : Type} [LinearOrderedField K]

/-- The node behind a node pointer (pointers of a graph are never dangling). -/
def Graph.node (graph : Graph K) (id : Nat) : Node K :=
  graph.Nodes.getD id ⟨default, []⟩

/-- The edge behind an edge pointer (pointers of a graph are never dangling). -/
def Graph.edge (graph : Graph K) (id : Nat) : Edge :=
  graph.Edges.getD id ⟨0, 0⟩

/-- Modelled from the spec: `Edge.Segment`, missing from the sources (§3: the
segment view from `Src.point` to `Dst.point`). -/
def Edge.Segment (graph : Graph K) (edge : Nat) : Segment K :=
  ⟨(graph.node (graph.edge edge).Src).Point, (graph.node (graph.edge edge).Dst).Point⟩

/-- Modelled from the spec: `Edge.ClosestPos`, missing from the sources (§4.F
Output: an `EdgePos` is the edge with the projected position, as `Viterbi2` builds it
with `Segment.Project(point, false)`). -/
def Edge.ClosestPos (sqrt : K → K) (graph : Graph K) (edge : Nat) (point : Point K) :
    EdgePos K :=
  ⟨edge, (Edge.Segment graph edge).Project sqrt point false⟩

/-- Modelled from the spec: `EdgePos.Point`, missing from the sources (§3 EdgePos:
the point at distance `position` along the edge). -/
def EdgePos.Point (sqrt : K → K) (graph : Graph K) (pos : EdgePos K) : Point K :=
  (Edge.Segment graph pos.Edge).PointAtFactor sqrt pos.Position false

/-- Modelled from the spec: `Graph.AddNode`, missing from the sources (§3: ids are
assigned in insertion order); returns the graph and the new node. -/
def Graph.AddNode (graph : Graph K) (p : Point K) : Graph K × Nat :=
  (⟨graph.Nodes ++ [⟨p, []⟩], graph.Edges⟩, graph.Nodes.length)

/-- Modelled from the spec: `Graph.AddEdge`, missing from the sources (§3): the new
edge is recorded in the `Out` list of its source node. -/
def Graph.AddEdge (graph : Graph K) (src dst : Nat) : Graph K × Nat :=
  (⟨graph.Nodes.modify (fun n => { n with Out := n.Out ++ [graph.Edges.length] }) src,
    graph.Edges ++ [⟨src, dst⟩]⟩, graph.Edges.length)

/-- Modelled from the spec: `Graph.AddBidirectionalEdge`, missing from the sources
(§4.C: adds `(u, v)` and `(v, u)` and returns the pair). -/
def Graph.AddBidirectionalEdge (graph : Graph K) (src dst : Nat) : Graph K × Nat × Nat :=
  let r1 := graph.AddEdge src dst
  let r2 := r1.1.AddEdge dst src
  (r2.1, r1.2, r2.2)

end GraphModel

/-! ## common/graph_index.go -/

/-- Go `type GraphGridIndex struct { idx *GridIndex; graph *Graph }`. -/
structure GraphGridIndex (K : Type) where
  idx : GridIndex K
  graph : Graph K

section GraphIndex

variable {K : Type} [LinearOrderedField K] [FloorRing K]

/-- Go `GraphGridIndex.Search`; `graph.Edges[edgeID]` out of range is a panic (`none`). -/
def GraphGridIndex.Search (order : List Nat → List Nat) (idx : GraphGridIndex K)
    (rect : Rectangle K) : Option (List Nat) :=
  let edgeIDs := idx.idx.Search order rect
  if edgeIDs.all (fun edgeID => edgeID < idx.graph.Edges.length) then some edgeIDs else none

/-- Go `Graph.GridIndex`. -/
def Graph.GridIndex (graph : Graph K) (gridSize : K) : GraphGridIndex K :=
  ⟨(List.range graph.Edges.length).foldl
    (fun idx edge => idx.Insert edge (Edge.Segment graph edge).Bounds)
    (NewGridIndex gridSize), graph⟩

end GraphIndex

/-! ## spmetric/nodepaths.go -/

/-- Go `type NodePaths struct { Backpointers map[int]int; Distances map[int]float64 }`. -/
structure NodePaths (K : Type) where
  Backpointers : List (Nat × Nat)
  Distances : List (Nat × K)

/-- Go `type NodePathsGraph struct { Graph *Graph; NodePaths map[int]NodePaths }`. -/
structure NodePathsGraph (K : Type) where
  Graph : Graph K
  NodePaths : List (Nat × NodePaths K)

section NodePathsDefs

variable {K : Type} [LinearOrderedField K]

/-- The loop `for curNode.ID != src.ID` of `GetShortestPath`, with fuel; `none` is
a panic (node index out of range) or, when the fuel runs out, a loop that does not
end.  A missing backpointer reads as `0`. -/
def followBackpointers (g : NodePathsGraph K) (np : NodePaths K) (src : Nat) :
    Nat → Nat → List Nat → Option (List Nat)
  | 0, _, _ => none
  | fuel + 1, curNode, reverseSeq =>
    if curNode ≠ src then
      let next := (mapGet np.Backpointers curNode).getD 0
      if next < g.Graph.Nodes.length then
        followBackpointers g np src fuel next (reverseSeq ++ [curNode])
      else none
    else some reverseSeq

/-- Go `NodePathsGraph.GetShortestPath`.  The outer `none` is no result (panic or
endless loop), `some none` is the Go `nil`.  More than `len(Nodes) + 1` iterations
of the loop revisit a node, so that much fuel decides whether it ends. -/
def NodePathsGraph.GetShortestPath (g : NodePathsGraph K) (src dst : Nat)
    (maxDistance : K) : Option (Option (List Nat)) :=
  let np : Gomapinfer.NodePaths K := (mapGet g.NodePaths src).getD ⟨[], []⟩
  if (mapGet np.Backpointers dst).isNone then some none
  else if (mapGet np.Distances dst).getD 0 > maxDistance then some none
  else
    match followBackpointers g np src (g.Graph.Nodes.length + 2) dst [] with
    | none => none
    | some reverseSeq => some (some reverseSeq.reverse)

end NodePathsDefs

/-! ## spmetric/frechet.go: GetClosestPath -/

/-- Go `type GraphPath struct { Start EdgePos; Path []*Node; End EdgePos }`. -/
structure GraphPath (K : Type) where
  Start : EdgePos K
  Path : List Nat
  End : EdgePos K
deriving DecidableEq

/-- The local `type Entry struct` of `GetClosestPath`. -/
structure Entry (K : Type) where
  MaxDistance : WithTop K
  EdgePos : EdgePos K
  Nodes : List Nat
  CurDistance : WithTop K
  EndpointDistance : K

section ClosestPath

variable {K : Type} [LinearOrderedField K] [FloorRing K]

/-- The closure `less` of `GetClosestPath`: true if `a` is a strictly better entry. -/
def Entry.less (a b : Entry K) : Bool :=
  if a.MaxDistance < b.MaxDistance then true
  else if a.MaxDistance = b.MaxDistance then
    if a.CurDistance < b.CurDistance then true
    else if a.CurDistance = b.CurDistance then
      if a.EndpointDistance < b.EndpointDistance then true
      else if a.EndpointDistance = b.EndpointDistance then
        if a.Nodes.length < b.Nodes.length then true else false
      else false
    else false
  else false

/-- The loop "fill in initial entries" of `GetClosestPath`. -/
def initialEntries (sqrt : K → K) (graph : Graph K) (candidates : List Nat) (p0 : Point K)
    (radius : K) : List (Nat × Entry K) :=
  candidates.foldl (fun entries edge =>
    let distance := (Edge.Segment graph edge).Distance sqrt p0
    if distance > radius then entries
    else mapSet entries edge
      { MaxDistance := (distance : K), EdgePos := Edge.ClosestPos sqrt graph edge p0,
        Nodes := [], CurDistance := (distance : K), EndpointDistance := 0 }) []

/-- The body of the loop over `entries[i - 1]` up to the construction of `entry`:
`some none` is `continue`, the outer `none` is no result (panic or endless loop). -/
def transitionEntry (sqrt : K → K) (graph : NodePathsGraph K) (prevPoint curPoint : Point K)
    (edge : Nat) (prevEntry : Entry K) : Option (Option (Entry K)) :=
  let shortestPath : Option (Option (List Nat)) :=
    if prevEntry.EdgePos.Edge ≠ edge then
      if (graph.Graph.edge prevEntry.EdgePos.Edge).Dst = (graph.Graph.edge edge).Src then
        some (some [(graph.Graph.edge edge).Src])
      else
        match graph.GetShortestPath (graph.Graph.edge prevEntry.EdgePos.Edge).Dst
            (graph.Graph.edge edge).Src (curPoint.Distance sqrt prevPoint * 4) with
        | none => none
        | some none => some none
        | some (some resultPath) =>
          some (some ((graph.Graph.edge prevEntry.EdgePos.Edge).Dst :: resultPath))
    else some (some [])
  match shortestPath with
  | none => none
  | some none => some none
  | some (some shortestPath) =>
    let closestPos := Edge.ClosestPos sqrt graph.Graph edge curPoint
    let closestPos : EdgePos K :=
      if prevEntry.EdgePos.Edge = edge then
        { closestPos with Position := max closestPos.Position prevEntry.EdgePos.Position }
      else closestPos
    let graphPath : List (Point K) :=
      [prevEntry.EdgePos.Point sqrt graph.Graph] ++
        shortestPath.map (fun node => (graph.Graph.node node).Point) ++
        [closestPos.Point sqrt graph.Graph]
    match ComputeFrechetDistance sqrt graphPath [prevPoint, curPoint] with
    | none => none
    | some curDistance =>
      let maxDistance := max prevEntry.MaxDistance curDistance
      some (some
        { MaxDistance := maxDistance, EdgePos := closestPos, Nodes := shortestPath,
          CurDistance := curDistance,
          EndpointDistance :=
            max ((prevEntry.EdgePos.Point sqrt graph.Graph).Distance sqrt prevPoint)
              ((closestPos.Point sqrt graph.Graph).Distance sqrt curPoint) })

/-- The state of one iteration `i` of the recurrence loop: `entries[i]` and
`backpointers[i]`. -/
abbrev StepTables (K : Type) := List (Nat × Entry K) × List (Nat × Nat)

/-- The loop over `entries[i - 1]` for one candidate `edge`. -/
def closestPathEdge (order : MapOrder) (sqrt : K → K) (graph : NodePathsGraph K)
    (radius : K) (i : Nat) (prevPoint curPoint : Point K) (prevEntries : List (Nat × Entry K))
    (tables : StepTables K) (edge : Nat) : Option (StepTables K) :=
  if (Edge.Segment graph.Graph edge).Distance sqrt curPoint > radius then some tables
  else
    (mapRange order [1, i, edge] prevEntries).foldlM (fun (tables : StepTables K) kv =>
      match transitionEntry sqrt graph prevPoint curPoint edge kv.2 with
      | none => none
      | some none => some tables
      | some (some entry) =>
        if (match mapGet tables.1 edge with
            | none => true
            | some old => entry.less old) then
          some (mapSet tables.1 edge entry, mapSet tables.2 edge kv.1)
        else some tables) tables

/-- One iteration `i` of the loop "apply recurrence relation". -/
def closestPathStep (order : MapOrder) (sqrt : K → K) (graph : NodePathsGraph K)
    (edgeIndex : GraphGridIndex K) (radius : K) (i : Nat) (prevPoint curPoint : Point K)
    (prevEntries : List (Nat × Entry K)) : Option (StepTables K) :=
  match edgeIndex.Search (order [0, i]) (curPoint.Bounds.AddTol radius) with
  | none => none
  | some candidates =>
    candidates.foldlM
      (closestPathEdge order sqrt graph radius i prevPoint curPoint prevEntries) ([], [])

/-- The loop "apply recurrence relation" from iteration `i` on; `done` holds the
tables of the iterations before `i`, latest first, and `prevEntries` is
`entries[i - 1]`. -/
def closestPathLoop (order : MapOrder) (sqrt : K → K) (graph : NodePathsGraph K)
    (edgeIndex : GraphGridIndex K) (radius : K) :
    Nat → Point K → List (Point K) → List (Nat × Entry K) → List (StepTables K) →
      Option (List (StepTables K))
  | _, _, [], _, done => some done
  | i, prevPoint, curPoint :: rest, prevEntries, done =>
    match closestPathStep order sqrt graph edgeIndex radius i prevPoint curPoint prevEntries with
    | none => none
    | some tables =>
      closestPathLoop order sqrt graph edgeIndex radius (i + 1) curPoint rest tables.1
        (tables :: done)

/-- The loop "get best entry from the last map". -/
def bestEndEntry (order : MapOrder) (lastEntries : List (Nat × Entry K)) : Option (Entry K) :=
  (mapRange order [2] lastEntries).foldl (fun (best : Option (Entry K)) kv =>
    match best with
    | none => some kv.2
    | some b => if kv.2.less b then some kv.2 else some b) none

/-- The loop "follow backpointers to extract path" over the tables of iterations
`len(path) - 1` down to `1`; a missing map entry is a nil dereference (`none`). -/
def followPath : List (StepTables K) → Nat → List Nat → Option (Nat × List Nat)
  | [], curEdgeID, nodeSeq => some (curEdgeID, nodeSeq)
  | tables :: earlier, curEdgeID, nodeSeq =>
    match mapGet tables.1 curEdgeID with
    | none => none
    | some entry =>
      followPath earlier ((mapGet tables.2 curEdgeID).getD 0) (entry.Nodes ++ nodeSeq)

/-- Go `GetClosestPath`.  The outer `none` is no result (a panic, as for an empty
`path`, or an endless loop); the inner `none` is the Go `nil` path. -/
def GetClosestPath (order : MapOrder) (sqrt : K → K) (graph : NodePathsGraph K)
    (path : List (Point K)) (radius : K) : Option (Option (GraphPath K) × WithTop K) :=
  let edgeIndex := graph.Graph.GridIndex (radius * 8)
  match path with
  | [] => none
  | p0 :: rest =>
    match edgeIndex.Search (order [0, 0]) (p0.Bounds.AddTol radius) with
    | none => none
    | some candidates =>
      let entries0 := initialEntries sqrt graph.Graph candidates p0 radius
      match closestPathLoop order sqrt graph edgeIndex radius 1 p0 rest entries0 [] with
      | none => none
      | some done =>
        let lastEntries := match done with
          | [] => entries0
          | tables :: _ => tables.1
        match bestEndEntry order lastEntries with
        | none => some (none, 0)
        | some best =>
          match followPath done best.EdgePos.Edge [] with
          | none => none
          | some (curEdgeID, nodeSeq) =>
            match mapGet entries0 curEdgeID with
            | none => none
            | some first => some (some ⟨first.EdgePos, nodeSeq, best.EdgePos⟩, best.MaxDistance)

end ClosestPath

/-- What `closestPathEdge` and `closestPathStep` maintain: every entry of
`entries[i]` was built by `transitionEntry` from the entry of `entries[i - 1]` that
its backpointer names. -/
def TablesFrom {K : Type} [LinearOrderedField K] (sqrt : K → K) (graph : NodePathsGraph K) (prevPoint curPoint : Point K)
    (prevEntries : List (Nat × Entry K)) (tables : StepTables K) : Prop :=
  ∀ e y, mapGet tables.1 e = some y →
    ∃ k prev, mapGet prevEntries k = some prev ∧
      transitionEntry sqrt graph prevPoint curPoint e prev = some (some y) ∧
      mapGet tables.2 e = some k

/-- The tuple that `less` compares: `(MaxDistance, CurDistance, EndpointDistance,
number of path nodes)` in lexicographic order. -/
def Entry.key {K : Type} [LinearOrderedField K] (a : Entry K) :
    WithTop K ×ₗ WithTop K ×ₗ K ×ₗ Nat :=
  toLex (a.MaxDistance, toLex (a.CurDistance, toLex (a.EndpointDistance, a.Nodes.length)))

/-- The entry that the first loop of `GetClosestPath` stores for `edge`. -/
def initialEntry {K : Type} [LinearOrderedField K] (sqrt : K → K) (graph : Graph K)
    (edge : Nat) (p0 : Point K) : Entry K :=
  { MaxDistance := (((Edge.Segment graph edge).Distance sqrt p0 : K) : WithTop K),
    EdgePos := Edge.ClosestPos sqrt graph edge p0, Nodes := [],
    CurDistance := (((Edge.Segment graph edge).Distance sqrt p0 : K) : WithTop K),
    EndpointDistance := 0 }

/-- Minimality that the recurrence loop maintains: the entry stored for an edge is
not beaten by any entry `transitionEntry` builds for that edge from `entries[i - 1]`. -/
def TablesMinimal {K : Type} [LinearOrderedField K] (sqrt : K → K) (graph : NodePathsGraph K)
    (prevPoint curPoint : Point K) (prevEntries : List (Nat × Entry K))
    (tables : StepTables K) : Prop :=
  ∀ e y, mapGet tables.1 e = some y →
    ∀ k prev y2, mapGet prevEntries k = some prev →
      transitionEntry sqrt graph prevPoint curPoint e prev = some (some y2) → y.key ≤ y2.key

/-- The returned path's point sequence that `SPMetric` builds from a `GraphPath`:
the start position point, the points of the path nodes, the end position point. -/
def GraphPath.points {K : Type} [LinearOrderedField K] (sqrt : K → K) (graph : Graph K)
    (p : GraphPath K) : List (Point K) :=
  [p.Start.Point sqrt graph] ++ p.Path.map (fun node => (graph.node node).Point) ++
    [p.End.Point sqrt graph]

/-- A graph with the single edge from `(0, 0)` to `(8, 0)`, and no shortest-path tables. -/
def oneEdgeGraph {K : Type} [LinearOrderedField K] : NodePathsGraph K :=
  let graph : Graph K := ⟨[], []⟩
  let (graph, a) := graph.AddNode ⟨0, 0⟩
  let (graph, b) := graph.AddNode ⟨8, 0⟩
  ⟨(graph.AddEdge a b).1, []⟩

/-! ## spmetric/frechet_test.go: the graph of `TestGetClosestPath` -/

section TestGraph

variable {K : Type} [LinearOrderedField K]

/-- The graph built by `TestGetClosestPath`: nodes `v11, v12, v31, v32, v51, v52`
(ids `0..5`) and six bidirectional edges (edge ids `0..11`). -/
def testGraph : Graph K :=
  let graph : Graph K := ⟨[], []⟩
  let (graph, v11) := graph.AddNode ⟨1, 1⟩
  let (graph, v12) := graph.AddNode ⟨1, 2⟩
  let (graph, v31) := graph.AddNode ⟨3, 1⟩
  let (graph, v32) := graph.AddNode ⟨3, 2⟩
  let (graph, v51) := graph.AddNode ⟨5, 1⟩
  let (graph, v52) := graph.AddNode ⟨5, 2⟩
  let graph := (graph.AddBidirectionalEdge v11 v12).1
  let graph := (graph.AddBidirectionalEdge v11 v31).1
  let graph := (graph.AddBidirectionalEdge v31 v32).1
  let graph := (graph.AddBidirectionalEdge v31 v51).1
  let graph := (graph.AddBidirectionalEdge v32 v52).1
  let graph := (graph.AddBidirectionalEdge v51 v52).1
  graph

/-- Modelled from the spec: the shortest-path table of source node `src` in the
test graph, as `compute_shortest_paths.go` stores the result of
`Graph.ShortestPath` (missing from the sources; §4.E: `Distances` is the finalized
shortest distance, `Backpointers` the predecessor on the best path, edge weight the
length of the segment).  One node per source has two equally good predecessors;
`tie` selects one. -/
def testNodePathsOf (src : Nat) (tie : Bool) : NodePaths K :=
  match src with
  | 0 => ⟨[(1, 0), (2, 0), (3, 2), (4, 2), (5, if tie then 3 else 4)],
          [(0, 0), (1, 1), (2, 2), (3, 3), (4, 4), (5, 5)]⟩
  | 1 => ⟨[(0, 1), (2, 0), (3, 2), (4, 2), (5, if tie then 3 else 4)],
          [(1, 0), (0, 1), (2, 3), (3, 4), (4, 5), (5, 6)]⟩
  | 2 => ⟨[(0, 2), (1, 0), (3, 2), (4, 2), (5, if tie then 3 else 4)],
          [(2, 0), (0, 2), (1, 3), (3, 1), (4, 2), (5, 3)]⟩
  | 3 => ⟨[(2, 3), (5, 3), (0, 2), (1, 0), (4, if tie then 2 else 5)],
          [(3, 0), (2, 1), (5, 2), (0, 3), (1, 4), (4, 3)]⟩
  | 4 => ⟨[(2, 4), (5, 4), (0, 2), (1, 0), (3, if tie then 2 else 5)],
          [(4, 0), (2, 2), (5, 1), (0, 4), (1, 5), (3, 3)]⟩
  | 5 => ⟨[(3, 5), (4, 5), (2, if tie then 3 else 4), (0, 2), (1, 0)],
          [(5, 0), (3, 2), (4, 1), (2, 3), (0, 5), (1, 6)]⟩
  | _ => ⟨[], []⟩

/-- The shortest-path tables of the test graph, one per source node; `tie src` is
the choice between equally good predecessors in the table of `src`. -/
def testNodePaths (tie : Nat → Bool) : List (Nat × NodePaths K) :=
  (List.range 6).map (fun src => (src, testNodePathsOf src (tie src)))

/-- The `NodePathsGraph` of the test graph with its shortest-path tables. -/
def testNodePathsGraph (tie : Nat → Bool) : NodePathsGraph K :=
  ⟨testGraph, testNodePaths tie⟩

end TestGraph

/-! ## common/geom.go: segment intersection, rectangle intersection -/

section GeomMore

variable {K : Type} [LinearOrderedField K]

/-- Go `Segment.Intersection`; `none` is the Go `nil`. -/
def Segment.Intersection (sqrt : K → K) (segment other : Segment K) : Option (Point K) :=
  let d1 := segment.Vector
  let d2 := other.Vector
  let d12 := other.Start.Sub segment.Start
  let den := d1.Y * d2.X - d1.X * d2.Y
  let u1 := d1.X * d12.Y - d1.Y * d12.X
  let u2 := d2.X * d12.Y - d2.Y * d12.X
  if den = 0 then
    if u1 = 0 ∧ u2 = 0 then some segment.Start else none
  else if u1 / den < 0 ∨ u1 / den > 1 ∨ u2 / den < 0 ∨ u2 / den > 1 then none
  else some (segment.PointAtFactor sqrt (u2 / den) true)

/-- Go `Rectangle.Intersects`. -/
def Rectangle.Intersects (rect other : Rectangle K) : Bool :=
  decide (rect.Max.Y ≥ other.Min.Y) && decide (other.Max.Y ≥ rect.Min.Y) &&
    decide (rect.Max.X ≥ other.Min.X) && decide (other.Max.X ≥ rect.Min.X)

end GeomMore

/-- The two segments have a point in common: `Start + t * (End - Start)` of one is
`Start + u * (End - Start)` of the other for some `t`, `u` in `[0, 1]`. -/
def Segment.Meets {K : Type} [LinearOrderedField K] (a b : Segment K) : Prop :=
  ∃ t u : K, 0 ≤ t ∧ t ≤ 1 ∧ 0 ≤ u ∧ u ≤ 1 ∧ a.pointAt t = b.pointAt u

/-- The test `den == 0 && u1 == 0 && u2 == 0` of `Intersection`: the direction
vectors of the two segments and the vector between their start points are
pairwise parallel, the branch commented `collinear` in the source. -/
def Segment.Collinear {K : Type} [LinearOrderedField K] (a b : Segment K) : Prop :=
  a.Vector.Y * b.Vector.X - a.Vector.X * b.Vector.Y = 0 ∧
  a.Vector.X * (b.Start.Sub a.Start).Y - a.Vector.Y * (b.Start.Sub a.Start).X = 0 ∧
  b.Vector.X * (b.Start.Sub a.Start).Y - b.Vector.Y * (b.Start.Sub a.Start).X = 0

/-- The coordinates of the point are integers of magnitude at most `2 ^ 24`. The
differences of such coordinates, the products of two such differences and the sums
and differences of two such products are integers of magnitude at most `2 ^ 52`,
which `float64` represents and computes without rounding. -/
def Point.IsGrid {K : Type} [LinearOrderedField K] (p : Point K) : Prop :=
  ∃ x y : Int, |x| ≤ 2 ^ 24 ∧ |y| ≤ 2 ^ 24 ∧ p = ⟨(x : K), (y : K)⟩

/-! ## common/graph_rs.go -/

/-- Go `type RoadSegment struct { ID int; Edges []*Edge; EdgeDistances []float64 }`. -/
structure RoadSegment (K : Type) where
  ID : Nat
  Edges : List Nat
  EdgeDistances : List K

section RoadSegments

variable {K : Type} [LinearOrderedField K]

/-- The loop of `NewRoadSegment` from some iteration on: `cur` is the Go `cur`
(`none` is `nil`); the result `none` is the error `edges do not form a path`. -/
def newRoadSegmentLoop (sqrt : K → K) (graph : Graph K) :
    List Nat → Option Nat → List K → Option (List K)
  | [], _, edgeDistances => some edgeDistances
  | edge :: rest, none, edgeDistances =>
    newRoadSegmentLoop sqrt graph rest (some (graph.edge edge).Dst)
      (edgeDistances ++ [(Edge.Segment graph edge).Length sqrt])
  | edge :: rest, some cur, edgeDistances =>
    if cur ≠ (graph.edge edge).Src then none
    else
      newRoadSegmentLoop sqrt graph rest (some (graph.edge edge).Dst)
        (edgeDistances ++
          [edgeDistances.getD (edgeDistances.length - 1) 0 + (Edge.Segment graph edge).Length sqrt])

/-- Go `NewRoadSegment`; `none` is the returned error. -/
def NewRoadSegment (sqrt : K → K) (graph : Graph K) (edges : List Nat) :
    Option (RoadSegment K) :=
  match newRoadSegmentLoop sqrt graph edges none [0] with
  | none => none
  | some edgeDistances => some { ID := 0, Edges := edges, EdgeDistances := edgeDistances }

/-- Go `RoadSegment.Length`; `none` is the panic of indexing an empty
`EdgeDistances`. -/
def RoadSegment.Length (rs : RoadSegment K) : Option K :=
  rs.EdgeDistances[rs.EdgeDistances.length - 1]?

/-- The state of `GetRoadSegments` that the closure `incorporate` updates:
`roadSegments` and the keys of `seenEdges`. -/
structure RoadSegmentsState (K : Type) where
  roadSegments : List (RoadSegment K)
  seenEdges : List Nat

/-- The choice of `nextEdge` in the closure `incorporate`: the first of the two
outgoing edges of `prevEdge.Dst` that does not lead back to `prevEdge.Src`; `none`
is the panic `got stuck following edge`. -/
def Graph.nextEdge (graph : Graph K) (prevEdge : Nat) : Option Nat :=
  let out := (graph.node (graph.edge prevEdge).Dst).Out
  if (graph.edge (out.getD 0 0)).Dst ≠ (graph.edge prevEdge).Src then some (out.getD 0 0)
  else if (graph.edge (out.getD 1 0)).Dst ≠ (graph.edge prevEdge).Src then some (out.getD 1 0)
  else none

/-- The `for` loop of the closure `incorporate`, with fuel: returns `edges` and
`seenEdges`; `none` is one of the three panics or, when the fuel runs out, a loop
that does not end. -/
def incorporateLoop (graph : Graph K) (initialEdge : Nat) (expectLoop : Bool) :
    Nat → List Nat → List Nat → Nat → Option (List Nat × List Nat)
  | 0, _, _, _ => none
  | fuel + 1, edges, seenEdges, prevEdge =>
    if (graph.node (graph.edge prevEdge).Dst).Out.length ≠ 2 then
      if expectLoop then none else some (edges, seenEdges)
    else
      match graph.nextEdge prevEdge with
      | none => none
      | some nextEdge =>
        if nextEdge = initialEdge then
          if !expectLoop then none else some (edges, seenEdges)
        else
          incorporateLoop graph initialEdge expectLoop fuel (edges ++ [nextEdge])
            (seenEdges ++ [nextEdge]) nextEdge

/-- The closure `incorporate` of `GetRoadSegments`.  The loop depends on `prevEdge`
alone, so more than `len(Edges)` iterations repeat one and never end: that much
fuel decides whether the loop ends. -/
def incorporate (sqrt : K → K) (graph : Graph K) (st : RoadSegmentsState K)
    (initialEdge : Nat) (expectLoop : Bool) : Option (RoadSegmentsState K) :=
  match incorporateLoop graph initialEdge expectLoop (graph.Edges.length + 1) [initialEdge]
      (st.seenEdges ++ [initialEdge]) initialEdge with
  | none => none
  | some (edges, seenEdges) =>
    match NewRoadSegment sqrt graph edges with
    | none => none
    | some rs =>
      some ⟨st.roadSegments ++ [{ rs with ID := st.roadSegments.length }], seenEdges⟩

/-- The first loop of `GetRoadSegments`, over the nodes. -/
def roadSegmentsOfJunctions (sqrt : K → K) (graph : Graph K) (st : RoadSegmentsState K) :
    Option (RoadSegmentsState K) :=
  graph.Nodes.foldlM (fun st node =>
    if node.Out.length = 2 then some st
    else node.Out.foldlM (fun st edge => incorporate sqrt graph st edge false) st) st

/-- The second loop of `GetRoadSegments`, over the edges. -/
def roadSegmentsOfLoops (sqrt : K → K) (graph : Graph K) (st : RoadSegmentsState K) :
    Option (RoadSegmentsState K) :=
  (List.range graph.Edges.length).foldlM (fun st edge =>
    if edge ∈ st.seenEdges then some st
    else if (graph.node (graph.edge edge).Src).Out.length ≠ 2 ∨
        (graph.node (graph.edge edge).Dst).Out.length ≠ 2 then none
    else incorporate sqrt graph st edge true) st

/-- Go `Graph.GetRoadSegments`; `none` is a panic (or a loop that does not end). -/
def Graph.GetRoadSegments (sqrt : K → K) (graph : Graph K) : Option (List (RoadSegment K)) :=
  match roadSegmentsOfJunctions sqrt graph ⟨[], []⟩ with
  | none => none
  | some st =>
    match roadSegmentsOfLoops sqrt graph st with
    | none => none
    | some st => some st.roadSegments

end RoadSegments

/-- Well-formed graph arenas: every edge joins nodes of the graph, and the `Out`
list of a node holds exactly the edges that start at it, each once. -/
def Graph.WF {K : Type} [LinearOrderedField K] (graph : Graph K) : Prop :=
  (∀ e, e < graph.Edges.length →
    (graph.edge e).Src < graph.Nodes.length ∧ (graph.edge e).Dst < graph.Nodes.length ∧
    e ∈ (graph.node (graph.edge e).Src).Out) ∧
  (∀ n, n < graph.Nodes.length →
    (graph.node n).Out.Nodup ∧
    ∀ e, e ∈ (graph.node n).Out → e < graph.Edges.length ∧ (graph.edge e).Src = n)

/-- A graph is bidirectional when every edge `(u, v)` is accompanied by an edge
`(v, u)` (§3). -/
def Graph.Bidirectional {K : Type} [LinearOrderedField K] (graph : Graph K) : Prop :=
  ∀ e, e < graph.Edges.length → ∃ r, r < graph.Edges.length ∧
    (graph.edge r).Src = (graph.edge e).Dst ∧ (graph.edge r).Dst = (graph.edge e).Src

/-- No two edges of the graph have the same source and the same destination. -/
def Graph.NoParallel {K : Type} [LinearOrderedField K] (graph : Graph K) : Prop :=
  ∀ e f, e < graph.Edges.length → f < graph.Edges.length →
    (graph.edge e).Src = (graph.edge f).Src → (graph.edge e).Dst = (graph.edge f).Dst → e = f

/-- The chain invariant of a road segment: consecutive edges share a node. -/
def ChainInvariant {K : Type} [LinearOrderedField K] (graph : Graph K) (edges : List Nat) : Prop :=
  ∀ i, i + 1 < edges.length →
    (graph.edge (edges.getD i 0)).Dst = (graph.edge (edges.getD (i + 1) 0)).Src

/-- The sum of the lengths of the edges of a list. -/
def edgeLengthSum {K : Type} [LinearOrderedField K] (sqrt : K → K) (graph : Graph K)
    (edges : List Nat) : K :=
  (edges.map (fun edge => (Edge.Segment graph edge).Length sqrt)).sum

/-! ## common/grid_index.go: sequences of `Insert` calls -/

/-- A sequence of `Insert(id, rect)` calls on an index, in order. -/
def GridIndex.insertAll {K : Type} [LinearOrderedField K] [FloorRing K] (idx : GridIndex K)
    (inserts : List (Nat × Rectangle K)) : GridIndex K :=
  inserts.foldl (fun idx ir => idx.Insert ir.1 ir.2) idx

/-- The edge with which the walk of `incorporate` continues after `e`: none when
`e.Dst` does not have exactly two outgoing edges (or no choice exists). -/
def Graph.step {K : Type} [LinearOrderedField K] (graph : Graph K) (e : Nat) : Option Nat :=
  if (graph.node (graph.edge e).Dst).Out.length ≠ 2 then none else graph.nextEdge e

/-- An edge that starts at a junction or dead end: its source does not have
exactly two outgoing edges. -/
def Graph.IsStart {K : Type} [LinearOrderedField K] (graph : Graph K) (e : Nat) : Prop :=
  (graph.node (graph.edge e).Src).Out.length ≠ 2

/-- Two nodes joined by two bidirectional edges, as two calls of
`AddBidirectionalEdge` build it. -/
def parallelGraph {K : Type} [LinearOrderedField K] : Graph K :=
  let graph : Graph K := ⟨[], []⟩
  let (graph, u) := graph.AddNode ⟨0, 0⟩
  let (graph, v) := graph.AddNode ⟨1, 0⟩
  let graph := (graph.AddBidirectionalEdge u v).1
  let graph := (graph.AddBidirectionalEdge u v).1
  graph

/-- Invariant of the `for` loop of `incorporate`, started at `initialEdge` with the
edges of `seen` marked before: `edges` ends with `prevEdge`, has no repetition and
no edge of `seen`, is a chain, every edge but the last steps to an edge of the
list, every edge but the first is stepped to from an edge of the list other than
the last, and the remaining fuel covers the edges not yet walked. -/
def WalkInv {K : Type} [LinearOrderedField K] (graph : Graph K) (seen : List Nat)
    (initialEdge fuel : Nat) (edges : List Nat) (prevEdge : Nat) : Prop :=
  edges.getLast? = some prevEdge ∧ initialEdge ∈ edges ∧ edges.Nodup ∧
  (∀ e ∈ edges, e < graph.Edges.length ∧ e ∉ seen) ∧
  List.Chain' (fun a b => (graph.edge a).Dst = (graph.edge b).Src) edges ∧
  (∀ e ∈ edges, e ≠ prevEdge → ∃ g ∈ edges, graph.step e = some g) ∧
  (∀ g ∈ edges, g ≠ initialEdge → ∃ e ∈ edges, e ≠ prevEdge ∧ graph.step e = some g) ∧
  graph.Edges.length + 1 ≤ edges.length + fuel

/-- What the `for` loop of `incorporate` returns: a chain of new edges without
repetition that holds `initialEdge`, is closed under steps forwards and backwards,
and in which only `initialEdge` may be a start edge. -/
def WalkDone {K : Type} [LinearOrderedField K] (graph : Graph K) (seen : List Nat)
    (initialEdge : Nat) (edges : List Nat) : Prop :=
  edges.Nodup ∧ (∀ e ∈ edges, e < graph.Edges.length ∧ e ∉ seen) ∧ initialEdge ∈ edges ∧
  List.Chain' (fun a b => (graph.edge a).Dst = (graph.edge b).Src) edges ∧
  (∀ e ∈ edges, ∀ f, graph.step e = some f → f ∈ edges) ∧
  (∀ e, e < graph.Edges.length → ∀ f ∈ edges, graph.step e = some f → e ∈ edges) ∧
  (∀ g ∈ edges, g ≠ initialEdge → ¬ graph.IsStart g)

/-- Invariant of the state of `GetRoadSegments`: the seen edges are the edges of the
road segments so far, in order, each once; they are edges of the graph, and closed
under steps forwards and backwards. -/
def SeenInv {K : Type} [LinearOrderedField K] (graph : Graph K) (st : RoadSegmentsState K) :
    Prop :=
  st.seenEdges = st.roadSegments.flatMap (fun rs => rs.Edges) ∧ st.seenEdges.Nodup ∧
  (∀ e ∈ st.seenEdges, e < graph.Edges.length) ∧
  (∀ e ∈ st.seenEdges, ∀ f, graph.step e = some f → f ∈ st.seenEdges) ∧
  (∀ e, e < graph.Edges.length → ∀ f ∈ st.seenEdges, graph.step e = some f →
    e ∈ st.seenEdges)

/-! ## common/geom.go: rectangles and polygons -/

/-- Go `type Polygon []Point`. -/
abbrev Polygon (K : Type) := List (Point K)

/-- Extended coordinates: a `float64` that may also be `math.Inf(-1)` (`⊥`) or
`math.Inf(1)` (`⊤`), as the corners of `EmptyRectangle` are. -/
abbrev EFloat (K : Type) := WithBot (WithTop K)

section Polygons

variable {K : Type} [LinearOrderedField K]

/-- A finite coordinate as an extended one. -/
def EFloat.ofFinite (x : K) : EFloat K := ((x : WithTop K) : WithBot (WithTop K))

/-- The finite value of an extended coordinate (`0` for the two infinities, which
`Polygon.Contains` never converts: it has returned before for an empty polygon). -/
def EFloat.toFinite (x : EFloat K) : K := (x.unbot' ⊤).untop' 0

/-- A point with finite coordinates as a point with extended ones. -/
def Point.toEFloat (point : Point K) : Point (EFloat K) :=
  ⟨EFloat.ofFinite point.X, EFloat.ofFinite point.Y⟩

/-- The rectangle with the finite values of the corners. -/
def Rectangle.toFinite (rect : Rectangle (EFloat K)) : Rectangle K :=
  ⟨⟨rect.Min.X.toFinite, rect.Min.Y.toFinite⟩, ⟨rect.Max.X.toFinite, rect.Max.Y.toFinite⟩⟩

/-- Go `Point.Cross`. -/
def Point.Cross (point other : Point K) : K :=
  point.X * other.Y - point.Y * other.X

/-- Go `var EmptyRectangle`: `Min` is `(+Inf, +Inf)` and `Max` is `(-Inf, -Inf)`. -/
def EmptyRectangle : Rectangle (EFloat K) :=
  ⟨⟨((⊤ : WithTop K) : WithBot (WithTop K)), ((⊤ : WithTop K) : WithBot (WithTop K))⟩, ⟨⊥, ⊥⟩⟩

/-- Go `Rectangle.Lengths`. -/
def Rectangle.Lengths (rect : Rectangle K) : Point K :=
  rect.Max.Sub rect.Min

/-- Go `Rectangle.Intersection`. -/
def Rectangle.Intersection (rect other : Rectangle K) : Rectangle K :=
  let mn : Point K := ⟨max rect.Min.X other.Min.X, max rect.Min.Y other.Min.Y⟩
  let mx : Point K := ⟨min rect.Max.X other.Max.X, min rect.Max.Y other.Max.Y⟩
  let mx : Point K := if mx.X ≤ mn.X then ⟨mn.X, mx.Y⟩ else mx
  let mx : Point K := if mx.Y ≤ mn.Y then ⟨mx.X, mn.Y⟩ else mx
  ⟨mn, mx⟩

/-- Go `Rectangle.ToPolygon`. -/
def Rectangle.ToPolygon (rect : Rectangle K) : Polygon K :=
  [rect.Min, ⟨rect.Min.X, rect.Max.Y⟩, rect.Max, ⟨rect.Max.X, rect.Min.Y⟩]

/-- Go `Polygon.Segments`. -/
def Polygon.Segments (poly : Polygon K) : List (Segment K) :=
  (List.range poly.length).map fun i =>
    ⟨poly.getD i default, poly.getD ((i + 1) % poly.length) default⟩

/-- Go `Polygon.Bounds`: the fold of `Extend` over the vertices, from
`EmptyRectangle`. -/
def Polygon.Bounds (poly : Polygon K) : Rectangle (EFloat K) :=
  poly.foldl (fun r p => r.Extend p.toEFloat) EmptyRectangle

/-- Go closure `sampleRayStart` of `Polygon.Contains`: the endless `for` loop
draws two numbers of `rand.Float64()` per round, here the stream `rand` read from
position `pos`; `none` when `fuel` rounds found no point outside `smallBounds`. -/
def sampleRayStart (rand : Nat → K) (smallBounds bigBounds : Rectangle K) :
    Nat → Nat → Option (Point K × Nat)
  | 0, _ => none
  | fuel + 1, pos =>
    let p : Point K := ⟨bigBounds.Lengths.X * rand pos, bigBounds.Lengths.Y * rand (pos + 1)⟩
    let p := p.Add bigBounds.Min
    if !smallBounds.Contains p then some (p, pos + 2)
    else sampleRayStart rand smallBounds bigBounds fuel (pos + 2)

/-- The loop `for i := 0; i < 5; i++` of `Polygon.Contains` that picks the ray:
`tries` rounds are left, `ray` is the current value of the variable. -/
def pickRay (sqrt : K → K) (rand : Nat → K) (fuel : Nat) (poly : Polygon K) (p : Point K)
    (magnitude threshold : K) (smallBounds bigBounds : Rectangle K) :
    Nat → Nat → Segment K → Option (Segment K)
  | 0, _, ray => some ray
  | tries + 1, pos, _ =>
    match sampleRayStart rand smallBounds bigBounds fuel pos with
    | none => none
    | some (rayStart, pos2) =>
      let vector := rayStart.Sub p
      let vector := vector.Scale (10 * magnitude / vector.Magnitude sqrt)
      let ray : Segment K := ⟨p, p.Add vector⟩
      let good := poly.foldl
        (fun good q => if ray.Distance sqrt q < threshold then false else good) true
      if good then some ray
      else pickRay sqrt rand fuel poly p magnitude threshold smallBounds bigBounds tries pos2 ray

/-- Go `Polygon.Contains`. The random numbers are the stream `rand`; `none` when
a call of `sampleRayStart` does not return within `fuel` rounds. The argument of
`lengths.Scale(1/100)` is the Go constant expression `1/100` of two integer
constants, which is `0`. -/
def Polygon.Contains (sqrt : K → K) (rand : Nat → K) (fuel : Nat) (poly : Polygon K)
    (p : Point K) : Option Bool :=
  let bounds := Polygon.Bounds poly
  if !bounds.Contains p.toEFloat then some false
  else
    let segments := Polygon.Segments poly
    let lengths := (Polygon.Bounds poly).toFinite.Lengths
    let magnitude := lengths.Magnitude sqrt
    let threshold := (lengths.Scale 0).Magnitude sqrt
    let smallBounds := (Polygon.Bounds poly).toFinite.AddTol threshold
    let bigBounds := (Polygon.Bounds poly).toFinite.AddTol magnitude
    match pickRay sqrt rand fuel poly p magnitude threshold smallBounds bigBounds 5 0
        ⟨⟨0, 0⟩, ⟨0, 0⟩⟩ with
    | none => none
    | some ray =>
      let count := segments.foldl
        (fun (count : Nat) segment =>
          if (segment.Intersection sqrt ray).isSome then count + 1 else count) 0
      some (decide (count % 2 = 1))

end Polygons

/-! ## common/rdp.go -/

section RDPDefs

variable {K : Type} [LinearOrderedField K]

/-- The loop of `RDP` over the interior points: the pair `(index, dmax)`. -/
def rdpFarthest (sqrt : K → K) (segment : Segment K) (points : List (Point K)) : Nat × K :=
  (List.range (points.length - 2)).foldl
    (fun (acc : Nat × K) k =>
      let d := segment.Distance sqrt (points.getD (k + 1) default)
      if d > acc.2 then (k + 1, d) else acc)
    (0, 0)

/-- Go `RDP`. The recursion is not bounded by the code, so the model takes the
recursion depth `fuel`: `none` when the call has not returned within that depth,
`some none` for a runtime panic (index out of range on an empty slice) and
`some (some l)` when the call returns `l`. The argument `epsilon` may be
`math.Inf(1)`, here `⊤`. -/
def RDP (sqrt : K → K) : Nat → List (Point K) → WithTop K → Option (Option (List (Point K)))
  | 0, _, _ => none
  | fuel + 1, points, epsilon =>
    match points with
    | [] => some none
    | p0 :: rest =>
      let segment : Segment K := ⟨p0, (p0 :: rest).getLast (List.cons_ne_nil _ _)⟩
      let r := rdpFarthest sqrt segment points
      let index := r.1
      let dmax := r.2
      if (dmax : WithTop K) ≥ epsilon then
        match RDP sqrt fuel (points.take (index + 1)) epsilon with
        | none => none
        | some none => some none
        | some (some pre) =>
          match RDP sqrt fuel (points.drop index) epsilon with
          | none => none
          | some none => some none
          | some (some suffix) =>
            if pre.length = 0 then some none
            else some (some (pre.take (pre.length - 1) ++ suffix))
      else some (some [p0, (p0 :: rest).getLast (List.cons_ne_nil _ _)])

end RDPDefs


/-! ## Relating two runs of `GetClosestPath` -/

/-- Every entry of the map `m1` has a counterpart under the same key in `m2`, with
the same `EdgePos` and the same `MaxDistance`. -/
def EntriesAgree {K : Type} [LinearOrderedField K] (m1 m2 : List (Nat × Entry K)) : Prop :=
  ∀ k x1, mapGet m1 k = some x1 →
    ∃ x2, mapGet m2 k = some x2 ∧ x1.EdgePos = x2.EdgePos ∧ x1.MaxDistance = x2.MaxDistance

/-- The entry stored under an edge id is an entry on that edge. -/
def KeyEdge {K : Type} [LinearOrderedField K] (m : List (Nat × Entry K)) : Prop :=
  ∀ k x, mapGet m k = some x → x.EdgePos.Edge = k

/-- The map `entries[len(path) - 1]` given the tables of the iterations done,
latest first. -/
def lastEntries {K : Type} [LinearOrderedField K] (entries0 : List (Nat × Entry K))
    (done : List (StepTables K)) : List (Nat × Entry K) :=
  match done with
  | [] => entries0
  | tables :: _ => tables.1

/-- Every entry has a backpointer, and the backpointer names an entry of the map
of the iteration before. -/
def BackChain {K : Type} [LinearOrderedField K] (entries0 : List (Nat × Entry K)) :
    List (StepTables K) → Prop
  | [] => True
  | tables :: earlier =>
    (∀ e y, mapGet tables.1 e = some y →
      ∃ k, mapGet tables.2 e = some k ∧ (mapGet (lastEntries entries0 earlier) k).isSome) ∧
    BackChain entries0 earlier


/-! ## common/geom.go: convex hull -/

section ConvexHull

variable {K : Type} [LinearOrderedField K]

/-- The closure `crossProduct` of `GetConvexHull`. -/
def crossProduct (o a b : Point K) : K :=
  (a.Sub o).Cross (b.Sub o)

/-- The order that the `sort.Slice` call of `GetConvexHull` sorts by: by `X`, then
by `Y`. Two points that neither is `less` than the other are equal, so the sorted
slice is the same for every sorting algorithm. -/
def hullLE (a b : Point K) : Prop :=
  a.X < b.X ∨ (a.X = b.X ∧ a.Y ≤ b.Y)

instance (a b : Point K) : Decidable (hullLE a b) := by
  unfold hullLE
  infer_instance

/-- The inner loops of `GetConvexHull` that remove points: `hull` holds `count`
points, and points are removed while more than `base` are left (`count > 1` in
the first loop, `count - count0 > 0` in the second) and the last two make a right
turn with `p`. -/
def hullPop (base : Nat) (p : Point K) : Nat → List (Point K) → List (Point K) × Nat
  | 0, hull => (hull, 0)
  | count + 1, hull =>
    if count + 1 > base ∧
        crossProduct (hull.getD (count + 1 - 2) default) (hull.getD (count + 1 - 1) default) p < 0
    then hullPop base p count (hull.take count)
    else (hull, count + 1)

/-- The body of the two outer loops of `GetConvexHull`: remove points, then
append `p`. -/
def hullPush (base : Nat) (hc : List (Point K) × Nat) (p : Point K) : List (Point K) × Nat :=
  let r := hullPop base p hc.2 hc.1
  (r.1 ++ [p], r.2 + 1)

/-- Go `GetConvexHull`. The first loop runs over `points[1:]` in order, the second
over `points[:len(points)-1]` backwards. -/
def GetConvexHull (points : List (Point K)) : Polygon K :=
  if points.length = 0 then []
  else
    let points := points.insertionSort hullLE
    let lower := points.tail.foldl (hullPush 1) ([points.getD 0 default], 1)
    let count0 := lower.2
    let upper := points.dropLast.reverse.foldl (hullPush count0) lower
    upper.1.take (upper.1.length - 1)

end ConvexHull

/-! ## common/geom.go: convex hull, as computed in `float64` -/

section ConvexHullFloat

/-- The number of binary digits of `n`, counted in at most `fuel` halvings;
`bitLen n n` is the number of digits. -/
def bitLen : Nat → Nat → Nat
  | 0, _ => 0
  | fuel + 1, n => if n = 0 then 0 else bitLen fuel (n / 2) + 1

/-- The binary exponent of a rational `q ≠ 0`: the `e` with `2^e ≤ |q| < 2^(e+1)`.
The difference of the digit counts of numerator and denominator is `e` or `e + 1`. -/
def binaryExponent (q : ℚ) : Int :=
  let e : Int := (bitLen q.num.natAbs q.num.natAbs : Int) - (bitLen q.den q.den : Int)
  if (2 : ℚ) ^ e ≤ |q| then e else e - 1

/-- The integer nearest to `x`, the even one of the two when `x` lies half way. -/
def roundHalfEven (x : ℚ) : Int :=
  let f := ⌊x⌋
  let r := x - f
  if r < 1 / 2 then f else if 1 / 2 < r then f + 1 else if f % 2 = 0 then f else f + 1

/-- The rounding of every `float64` operation: the `float64` nearest to the exact
result `q`, ties to the even significand, which is `q` rounded to 53 significant
binary digits. The exponent is not bounded: overflow to an infinity and the subnormal
numbers are not modelled. -/
def round64 (q : ℚ) : ℚ :=
  if q = 0 then 0
  else
    let ulp : ℚ := 2 ^ (binaryExponent q - 52)
    (roundHalfEven (q / ulp) : ℚ) * ulp

/-- Go `Point.Sub` with the rounding of its two `float64` subtractions. -/
def Point.Sub64 (point other : Point ℚ) : Point ℚ :=
  ⟨round64 (point.X - other.X), round64 (point.Y - other.Y)⟩

/-- Go `Point.Cross` with the rounding of its two `float64` multiplications and of
the subtraction (the amd64 compiler does not fuse them). -/
def Point.Cross64 (point other : Point ℚ) : ℚ :=
  round64 (round64 (point.X * other.Y) - round64 (point.Y * other.X))

/-- The closure `crossProduct` of `GetConvexHull` as computed in `float64`. -/
def crossProduct64 (o a b : Point ℚ) : ℚ :=
  (a.Sub64 o).Cross64 (b.Sub64 o)

variable {K : Type} [LinearOrderedField K]

/-- The function `hullPop` with the closure `crossProduct` as a parameter. -/
def hullPopWith (cross : Point K → Point K → Point K → K) (base : Nat) (p : Point K) :
    Nat → List (Point K) → List (Point K) × Nat
  | 0, hull => (hull, 0)
  | count + 1, hull =>
    if count + 1 > base ∧
        cross (hull.getD (count + 1 - 2) default) (hull.getD (count + 1 - 1) default) p < 0
    then hullPopWith cross base p count (hull.take count)
    else (hull, count + 1)

/-- The function `hullPush` with the closure `crossProduct` as a parameter. -/
def hullPushWith (cross : Point K → Point K → Point K → K) (base : Nat)
    (hc : List (Point K) × Nat) (p : Point K) : List (Point K) × Nat :=
  let r := hullPopWith cross base p hc.2 hc.1
  (r.1 ++ [p], r.2 + 1)

/-- Go `GetConvexHull` with the closure `crossProduct` as a parameter. The
comparisons of the sort are exact in `float64`. -/
def GetConvexHullWith (cross : Point K → Point K → Point K → K) (points : List (Point K)) :
    Polygon K :=
  if points.length = 0 then []
  else
    let points := points.insertionSort hullLE
    let lower := points.tail.foldl (hullPushWith cross 1) ([points.getD 0 default], 1)
    let count0 := lower.2
    let upper := points.dropLast.reverse.foldl (hullPushWith cross count0) lower
    upper.1.take (upper.1.length - 1)

/-- Go `GetConvexHull` on `float64` coordinates, every arithmetic operation
rounded. -/
def GetConvexHull64 (points : List (Point ℚ)) : Polygon ℚ :=
  GetConvexHullWith crossProduct64 points

end ConvexHullFloat

/-! ## common/geom.go: segment intersection, as computed in `float64` -/

section IntersectionFloat

/-- Go `Point.Add` with the rounding of its two `float64` additions. -/
def Point.Add64 (point other : Point ℚ) : Point ℚ :=
  ⟨round64 (point.X + other.X), round64 (point.Y + other.Y)⟩

/-- Go `Point.Scale` with the rounding of its two `float64` multiplications. -/
def Point.Scale64 (point : Point ℚ) (f : ℚ) : Point ℚ :=
  ⟨round64 (f * point.X), round64 (f * point.Y)⟩

/-- Go `Point.Distance` as computed in `float64`; `sqrt` is `math.Sqrt`. -/
def Point.Distance64 (sqrt : ℚ → ℚ) (point other : Point ℚ) : ℚ :=
  let dx := round64 (point.X - other.X)
  let dy := round64 (point.Y - other.Y)
  sqrt (round64 (round64 (dx * dx) + round64 (dy * dy)))

/-- Go `Segment.Length` as computed in `float64`. -/
def Segment.Length64 (sqrt : ℚ → ℚ) (segment : Segment ℚ) : ℚ :=
  segment.Start.Distance64 sqrt segment.End

/-- Go `Segment.Vector` as computed in `float64`. -/
def Segment.Vector64 (segment : Segment ℚ) : Point ℚ :=
  segment.End.Sub64 segment.Start

/-- Go `Segment.PointAtFactor` as computed in `float64`. -/
def Segment.PointAtFactor64 (sqrt : ℚ → ℚ) (segment : Segment ℚ) (factor : ℚ)
    (normalized : Bool) : Point ℚ :=
  if segment.Length64 sqrt = 0 then segment.Start
  else
    let factor := if !normalized then round64 (factor / segment.Length64 sqrt) else factor
    segment.Start.Add64 ((segment.End.Sub64 segment.Start).Scale64 factor)

/-- Go `Segment.Intersection` as computed in `float64`, every subtraction,
multiplication and division rounded; `none` is the Go `nil`. -/
def Segment.Intersection64 (sqrt : ℚ → ℚ) (segment other : Segment ℚ) : Option (Point ℚ) :=
  let d1 := segment.Vector64
  let d2 := other.Vector64
  let d12 := other.Start.Sub64 segment.Start
  let den := round64 (round64 (d1.Y * d2.X) - round64 (d1.X * d2.Y))
  let u1 := round64 (round64 (d1.X * d12.Y) - round64 (d1.Y * d12.X))
  let u2 := round64 (round64 (d2.X * d12.Y) - round64 (d2.Y * d12.X))
  if den = 0 then
    if u1 = 0 ∧ u2 = 0 then some segment.Start else none
  else if round64 (u1 / den) < 0 ∨ round64 (u1 / den) > 1 ∨ round64 (u2 / den) < 0 ∨
      round64 (u2 / den) > 1 then none
  else some (segment.PointAtFactor64 sqrt (round64 (u2 / den)) true)

end IntersectionFloat

/-! ## common/graph_rs.go: positions on a road segment, as computed in `float64` -/

section RoadSegmentsFloat

/-- The loop of the integer square root: the bits `2^(i-1), ..., 2^0` are added to
`r` from the highest down while the square stays at most `n`. -/
def natSqrtLoop (n : Nat) : Nat → Nat → Nat
  | 0, r => r
  | i + 1, r =>
    if (r + 2 ^ i) * (r + 2 ^ i) ≤ n then natSqrtLoop n i (r + 2 ^ i) else natSqrtLoop n i r

/-- Go `math.Sqrt` on a `float64` that is not negative: the `float64` nearest to the
square root. The argument is scaled by a power of four to a number of at least 110
binary digits, the integer square root `r` of its integral part has at least 55, and
half a unit is added to `r` when the root is not exact, so that the rounding to 53
digits sees on which side of `r` the root lies. The NaN of a negative argument is not
modelled. -/
def sqrtFloat64 (q : ℚ) : ℚ :=
  if q ≤ 0 then 0
  else
    let k : Nat := (110 - binaryExponent q).toNat
    let n : Nat := ⌊q * 4 ^ k⌋₊
    let r : Nat := natSqrtLoop n (bitLen n n) 0
    round64 (((r : ℚ) + (if (r * r : ℚ) = q * 4 ^ k then 0 else 1 / 2)) / 2 ^ k)

/-- The loop of `NewRoadSegment` as computed in `float64`: the addition of the
running length is rounded. -/
def newRoadSegmentLoop64 (sqrt : ℚ → ℚ) (graph : Graph ℚ) :
    List Nat → Option Nat → List ℚ → Option (List ℚ)
  | [], _, edgeDistances => some edgeDistances
  | edge :: rest, none, edgeDistances =>
    newRoadSegmentLoop64 sqrt graph rest (some (graph.edge edge).Dst)
      (edgeDistances ++ [(Edge.Segment graph edge).Length64 sqrt])
  | edge :: rest, some cur, edgeDistances =>
    if cur ≠ (graph.edge edge).Src then none
    else
      newRoadSegmentLoop64 sqrt graph rest (some (graph.edge edge).Dst)
        (edgeDistances ++
          [round64 (edgeDistances.getD (edgeDistances.length - 1) 0 +
            (Edge.Segment graph edge).Length64 sqrt)])

/-- Go `NewRoadSegment` as computed in `float64`; `none` is the returned error. -/
def NewRoadSegment64 (sqrt : ℚ → ℚ) (graph : Graph ℚ) (edges : List Nat) :
    Option (RoadSegment ℚ) :=
  match newRoadSegmentLoop64 sqrt graph edges none [0] with
  | none => none
  | some edgeDistances => some { ID := 0, Edges := edges, EdgeDistances := edgeDistances }

/-- The loop of `DistanceToIndex` over the edges from index `i` on, as computed in
`float64`: the subtraction `t -= edge.Segment().Length()` is rounded. -/
def distanceToIndexLoop64 (sqrt : ℚ → ℚ) (graph : Graph ℚ) (last : Int) :
    List Nat → Nat → ℚ → Int
  | [], _, _ => last
  | edge :: rest, i, t =>
    let t := round64 (t - (Edge.Segment graph edge).Length64 sqrt)
    if t ≤ 0 then (i : Int) else distanceToIndexLoop64 sqrt graph last rest (i + 1) t

/-- Go `RoadSegment.DistanceToIndex` as computed in `float64`. -/
def RoadSegment.DistanceToIndex64 (sqrt : ℚ → ℚ) (graph : Graph ℚ) (rs : RoadSegment ℚ)
    (t : ℚ) : Int :=
  distanceToIndexLoop64 sqrt graph ((rs.Edges.length : Int) - 1) rs.Edges 0 t

/-- Go `RoadSegment.PosAtFactor` as computed in `float64`; `none` is the panic of an
index out of range. -/
def RoadSegment.PosAtFactor64 (sqrt : ℚ → ℚ) (graph : Graph ℚ) (rs : RoadSegment ℚ)
    (t : ℚ) : Option (EdgePos ℚ) :=
  let idx := rs.DistanceToIndex64 sqrt graph t
  if idx < 0 then none
  else
    match rs.Edges[idx.toNat]?, rs.EdgeDistances[idx.toNat]? with
    | some edge, some d =>
      let position := round64 (t - d)
      let position :=
        if position > (Edge.Segment graph edge).Length64 sqrt
        then (Edge.Segment graph edge).Length64 sqrt else position
      some ⟨edge, position⟩
    | _, _ => none

/-- The sum of the `float64` lengths of the edges of a list, in exact arithmetic. -/
def edgeLengthSum64 (sqrt : ℚ → ℚ) (graph : Graph ℚ) (edges : List Nat) : ℚ :=
  (edges.map (fun edge => (Edge.Segment graph edge).Length64 sqrt)).sum

/-- The inputs of `PosAtFactor` on which every `float64` addition and subtraction of
`NewRoadSegment`, `DistanceToIndex` and `PosAtFactor` is exact: every edge length is a
whole number up to `2^26`, there are at most `2^20` edges, and `t` is a whole number
from `0` to `2^52`. -/
def RoadSegment.WholeLengths64 (sqrt : ℚ → ℚ) (graph : Graph ℚ) (edges : List Nat)
    (t : ℚ) : Prop :=
  (∀ e ∈ edges, ∃ l : Nat, l ≤ 2 ^ 26 ∧ (Edge.Segment graph e).Length64 sqrt = (l : ℚ)) ∧
  edges.length ≤ 2 ^ 20 ∧ ∃ k : Nat, k ≤ 2 ^ 52 ∧ t = (k : ℚ)

/-- A chain of five edges (ids `0..4`) through the nodes `(47,1)`, `(44,7)`,
`(49,16)`, `(35,8)`, `(20,9)`, `(0,14)`. -/
def chainGraph : Graph ℚ :=
  let graph : Graph ℚ := ⟨[], []⟩
  let (graph, a) := graph.AddNode ⟨47, 1⟩
  let (graph, b) := graph.AddNode ⟨44, 7⟩
  let (graph, c) := graph.AddNode ⟨49, 16⟩
  let (graph, d) := graph.AddNode ⟨35, 8⟩
  let (graph, e) := graph.AddNode ⟨20, 9⟩
  let (graph, f) := graph.AddNode ⟨0, 14⟩
  let graph := (graph.AddEdge a b).1
  let graph := (graph.AddEdge b c).1
  let graph := (graph.AddEdge c d).1
  let graph := (graph.AddEdge d e).1
  (graph.AddEdge e f).1

end RoadSegmentsFloat

/-! ## The stack of the hull loops with the removed points -/

section HullGhost

variable {K : Type} [LinearOrderedField K]

/-- The point under the entries `T` of the stack (top first): the top of `T`, or
the anchor `a` below them. -/
def topG (a : Point K) (T : List (Point K × List (Point K))) : Point K :=
  match T with
  | [] => a
  | (t, _) :: _ => t

/-- The removal loop on a stack (top first) whose entries carry the points that
were removed between them and the entry below; `acc` collects the points removed
for the new point `p`. -/
def popG (a p : Point K) :
    List (Point K × List (Point K)) → List (Point K) →
      List (Point K × List (Point K)) × List (Point K)
  | [], acc => ([], acc)
  | (t, g) :: T, acc =>
    if crossProduct (topG a T) t p < 0 then popG a p T (g ++ t :: acc)
    else ((t, g) :: T, acc)

/-- One round of the outer loop on the stack with removed points. -/
def stepG (a : Point K) (T : List (Point K × List (Point K))) (p : Point K) :
    List (Point K × List (Point K)) :=
  (p, (popG a p T []).2) :: (popG a p T []).1

/-- The points processed so far, in order: the stack entries bottom to top, each
after the points removed below it. -/
def flattenG : List (Point K × List (Point K)) → List (Point K)
  | [] => []
  | (t, g) :: T => flattenG T ++ g ++ [t]

/-- The points on the stack, bottom first. -/
def stackG (T : List (Point K × List (Point K))) : List (Point K) :=
  (T.map Prod.fst).reverse

/-- What the loops maintain: every removed point is on the left of (or on) the
stack edge that replaced it, and each three consecutive stack points make no right
turn. -/
def GhostInv (a : Point K) : List (Point K × List (Point K)) → Prop
  | [] => True
  | (t, g) :: T =>
    (∀ x ∈ g, 0 ≤ crossProduct (topG a T) t x) ∧
    (match T with
      | [] => True
      | (b, _) :: T2 => 0 ≤ crossProduct (topG a T2) b t) ∧
    GhostInv a T

/-- No three consecutive points of the list make a right turn. -/
def NoRightTurn : List (Point K) → Prop
  | a :: b :: c :: rest => 0 ≤ crossProduct a b c ∧ NoRightTurn (b :: c :: rest)
  | _ => True

end HullGhost


/-! ## common/viterbi2.go -/

/-- The functions and the constant of the Go package `math` that `Viterbi2` and
`Point.AngleTo` use. -/
structure MathLib (K : Type) where
  sqrt : K → K
  exp : K → K
  log : K → K
  acos : K → K
  pi : K

/-- Go `type Viterbi2Options struct`; a `nil` map is `none`. -/
structure Viterbi2Options (K : Type) where
  Granularity : K
  Sigma : K
  StartTolerance : K
  Threads : Int
  HitsOnly : Bool
  EdgeWeights : Option (List (Nat × K))
  NewMode : Bool
  Output : Option (List (Nat × List (EdgePos K)))

/-- Modelled from the spec: a `Trace` is an ordered sequence of observations, each
carrying a `Point` (§3 Trace); `Viterbi2` reads only the points. -/
abbrev Trace (K : Type) := List (Point K)

/-- What a run of `matchTrace` calls writes: the `edgeHits` map of the worker, its
`output` map, and the `"viterbi"` metadata attached to the observations of each
trace (keyed by trace index, one `EdgePos` per observation in order). -/
structure MatchState (K : Type) where
  edgeHits : List (Nat × Int)
  output : Option (List (Nat × List (EdgePos K)))
  metadata : List (Nat × List (EdgePos K))

section Viterbi

variable {K : Type} [LinearOrderedField K] [FloorRing K]

instance : Inhabited (MatchState K) := ⟨⟨[], none, []⟩⟩

/-- Go `Viterbi2Options.GetGranularity`. -/
def Viterbi2Options.GetGranularity (opts : Viterbi2Options K) : K :=
  if opts.Granularity ≠ 0 then opts.Granularity else 50

/-- Go `Viterbi2Options.GetSigma`. -/
def Viterbi2Options.GetSigma (opts : Viterbi2Options K) : K :=
  if opts.Sigma ≠ 0 then opts.Sigma else 30

/-- Go `Viterbi2Options.GetStartTolerance`. -/
def Viterbi2Options.GetStartTolerance (opts : Viterbi2Options K) : K :=
  if opts.StartTolerance ≠ 0 then opts.StartTolerance else 100

/-- Go `Viterbi2Options.GetThreads`. -/
def Viterbi2Options.GetThreads (opts : Viterbi2Options K) : Int :=
  if opts.Threads ≠ 0 then opts.Threads else 36

/-- Go `Point.AngleTo`. For a vector of magnitude zero the Go quotient is NaN; the
quotient of the field is `0` there, so the value is meaningful only for vectors that
are not zero. -/
def Point.AngleTo (m : MathLib K) (point other : Point K) : K :=
  let s := point.Dot other / point.Magnitude m.sqrt / other.Magnitude m.sqrt
  let s := max (-1) (min 1 s)
  let angle := m.acos s
  if angle > m.pi then 2 * m.pi - angle else angle

/-- Go `Segment.AngleTo`. -/
def Segment.AngleTo (m : MathLib K) (segment other : Segment K) : K :=
  segment.Vector.AngleTo m other.Vector

/-- Modelled from the spec: `Edge.AngleTo`, missing from the sources (§4.F: the
angle between the two edges, that is between their segments). -/
def Edge.AngleTo (m : MathLib K) (graph : Graph K) (edge other : Nat) : K :=
  (Edge.Segment graph edge).AngleTo m (Edge.Segment graph other)

/-- Modelled from the spec: `graph.Rtree()` and `rtree.Search`, missing from the
sources (§4.C, §4.F: a spatial index over edge bounding boxes; the candidates are
the edges whose bounding box intersects the query rectangle). The order of the
result is not specified; `order key` gives it. -/
def Graph.rtreeSearch (order : MapOrder) (key : List Nat) (graph : Graph K)
    (rect : Rectangle K) : List Nat :=
  order key ((List.range graph.Edges.length).filter
    (fun edge => (Edge.Segment graph edge).Bounds.Intersects rect))

/-- The body of the loop "precompute transition probabilities" of `Viterbi2` for
one edge: the map `transitionProbs[edge.ID]`. The values are those of exact
arithmetic: the rounding of the weights is not modelled. -/
def transitionProbsOf (m : MathLib K) (graph : Graph K) (opts : Viterbi2Options K)
    (edge : Nat) : List (Nat × K) :=
  let adjacentEdges := (graph.node (graph.edge edge).Dst).Out.filter
    (fun other => !(opts.NewMode && decide ((graph.edge other).Dst = (graph.edge edge).Src)))
  let probs : List (Nat × K) := mapSet [] edge (1 / 2)
  let totalProb : K := 1 / 2
  let weights : List (Nat × K) :=
    match opts.EdgeWeights with
    | some weights => weights
    | none =>
      adjacentEdges.foldl (fun weights other =>
        if opts.NewMode then
          if adjacentEdges.length = 1 then mapSet weights other (1 / 2)
          else mapSet weights other (1 / 20)
        else
          let negAngle := m.pi / 2 - Edge.AngleTo m graph edge other
          let negAngle := if negAngle < 0 then 0 else negAngle
          mapSet weights other (negAngle * negAngle + 1 / 20)) []
  let totalWeight : K :=
    adjacentEdges.foldl (fun total other => total + (mapGet weights other).getD 0) 0
  let averageWeight := totalWeight / (adjacentEdges.length : K)
  let averageProb : K :=
    if 1 / 20 * (adjacentEdges.length : K) + totalProb > 9 / 10 then
      (9 / 10 - totalProb) / (adjacentEdges.length : K)
    else 1 / 20
  (adjacentEdges.foldl (fun (st : List (Nat × K) × K) other =>
    let prob :=
      if opts.NewMode then (mapGet weights other).getD 0
      else averageProb * (mapGet weights other).getD 0 / averageWeight
    (mapSet st.1 other prob, st.2 + prob)) (probs, totalProb)).1

/-- The slice `transitionProbs` of `Viterbi2`, indexed by edge id. -/
def transitionProbs (m : MathLib K) (graph : Graph K) (opts : Viterbi2Options K) :
    List (List (Nat × K)) :=
  (List.range graph.Edges.length).map (transitionProbsOf m graph opts)

/-- The closure `emissionProbs` of `Viterbi2`; the `nil` map returned for no
candidates is the empty map (both give `0` for every key). -/
def emissionProbs (order : MapOrder) (key : List Nat) (m : MathLib K) (graph : Graph K)
    (sigma : K) (point : Point K) (tolerance : K) : List (Nat × K) :=
  let candidates := graph.rtreeSearch order key (point.RectangleTol tolerance)
  if candidates.length = 0 then []
  else
    let st := candidates.foldl (fun (st : List (Nat × K) × K) edge =>
      let distance := (Edge.Segment graph edge).Distance m.sqrt point
      let score := m.exp (-(1 / 2) * distance * distance / sigma / sigma)
      (mapSet st.1 edge score, st.2 + score)) ([], 0)
    st.1.map (fun kv => (kv.1, kv.2 / st.2))

/-- The two nested loops over `probs` and `transitions` in the loop of the extra
transitions: the new `(nextProbs, nextBackpointers)`. -/
def transitionStep (order : MapOrder) (key : List Nat) (m : MathLib K)
    (tp : List (List (Nat × K))) (probs : List (Nat × K)) :
    List (Nat × K) × List (Nat × Nat) :=
  (mapRange order (0 :: key) probs).foldl (fun st prev =>
    (mapRange order (1 :: prev.1 :: key) (tp.getD prev.1 [])).foldl (fun st next =>
      let prob := prev.2 + m.log next.2
      if (match mapGet st.1 next.1 with
          | none => true
          | some curProb => decide (prob > curProb)) then
        (mapSet st.1 next.1 prob, mapSet st.2 next.1 prev.1)
      else st) st) ([], [])

/-- The two nested loops over `probs` and `transitions` in the loop over `factor`:
the new `(nextProbs, nextBackpointers)`. -/
def emissionStep (order : MapOrder) (key : List Nat) (m : MathLib K)
    (tp : List (List (Nat × K))) (emissions : List (Nat × K)) (probs : List (Nat × K)) :
    List (Nat × K) × List (Nat × Nat) :=
  (mapRange order (0 :: key) probs).foldl (fun st prev =>
    (mapRange order (1 :: prev.1 :: key) (tp.getD prev.1 [])).foldl (fun st next =>
      if (mapGet emissions next.1).getD 0 = 0 then st
      else
        let prob := prev.2 + m.log next.2 + m.log ((mapGet emissions next.1).getD 0)
        if (match mapGet st.1 next.1 with
            | none => true
            | some curProb => decide (prob > curProb)) then
          (mapSet st.1 next.1 prob, mapSet st.2 next.1 prev.1)
        else st) st) ([], [])

/-- The loop `for distance > granularity && granularity > 0` of `matchTrace`, for
at most `fuel` rounds: the new `probs` and the backpointer maps appended to
`backpointers[i]`. -/
def extraTransitions (order : MapOrder) (key : List Nat) (m : MathLib K)
    (tp : List (List (Nat × K))) (granularity : K) :
    Nat → K → List (Nat × K) → List (List (Nat × Nat)) →
      List (Nat × K) × List (List (Nat × Nat))
  | 0, _, probs, bps => (probs, bps)
  | fuel + 1, distance, probs, bps =>
    if distance > granularity ∧ granularity > 0 then
      let next := transitionStep order (bps.length :: key) m tp probs
      extraTransitions order key m tp granularity fuel (distance - granularity) next.1
        (bps ++ [next.2])
    else (probs, bps)

/-- The number of rounds of the loop `for distance > granularity && granularity > 0`
among at most `fuel`. -/
def extraCount (granularity : K) : Nat → K → Nat
  | 0, _ => 0
  | fuel + 1, distance =>
    if distance > granularity ∧ granularity > 0 then
      extraCount granularity fuel (distance - granularity) + 1
    else 0

/-- The number of rounds of the loop `for distance > granularity && granularity > 0`
among at most `fuel`, as computed in `float64`: the subtraction
`distance -= granularity` is rounded. Every round appends one backpointer map to
`backpointers[i]`. -/
def extraCount64 (granularity : ℚ) : Nat → ℚ → Nat
  | 0, _ => 0
  | fuel + 1, distance =>
    if distance > granularity ∧ granularity > 0 then
      extraCount64 granularity fuel (round64 (distance - granularity)) + 1
    else 0

/-- A number of rounds after which the loop `for distance > granularity &&
granularity > 0` has ended. -/
def extraFuel (granularity distance : K) : Nat :=
  ⌈distance / granularity⌉₊

/-- The loop `for factor := float64(1); len(nextProbs) < 2 && factor <= 4;
factor *= 2` of `matchTrace` over the remaining values of `factor`. -/
def emissionLoop (order : MapOrder) (key : List Nat) (m : MathLib K) (graph : Graph K)
    (tp : List (List (Nat × K))) (sigma startTolerance : K) (point : Point K)
    (probs : List (Nat × K)) :
    List K → List (Nat × K) × List (Nat × Nat) → List (Nat × K) × List (Nat × Nat)
  | [], st => st
  | factor :: rest, st =>
    if st.1.length < 2 then
      let emissions := emissionProbs order (2 :: rest.length :: key) m graph sigma point
        (startTolerance * factor)
      emissionLoop order key m graph tp sigma startTolerance point probs rest
        (emissionStep order (rest.length :: key) m tp emissions probs)
    else st

/-- One round `i` of the loop over the observations in `matchTrace`; `none` is the
`return` for no surviving candidate. The state is `probs` and the slices
`backpointers[1], ..., backpointers[i - 1]`. -/
def forwardStep (order : MapOrder) (key : List Nat) (m : MathLib K) (graph : Graph K)
    (opts : Viterbi2Options K) (tp : List (List (Nat × K)))
    (st : List (Nat × K) × List (List (List (Nat × Nat)))) (obs : Point K × Point K) :
    Option (List (Nat × K) × List (List (List (Nat × Nat)))) :=
  let distance := obs.2.Distance m.sqrt obs.1
  let extra := extraTransitions order (st.2.length :: key) m tp opts.GetGranularity
    (extraFuel opts.GetGranularity distance) distance st.1 []
  let next := emissionLoop order (st.2.length :: key) m graph tp opts.GetSigma
    opts.GetStartTolerance obs.2 extra.1 [1, 2, 4] ([], [])
  if next.1.length = 0 then none
  else some (next.1, st.2 ++ [extra.2 ++ [next.2]])

/-- The first part of `matchTrace`, up to the loop over the observations: `probs`
and `backpointers` (with the empty `backpointers[0]`), or `none` for the `return`
when no candidate survives. -/
def viterbiForward (order : MapOrder) (key : List Nat) (m : MathLib K) (graph : Graph K)
    (opts : Viterbi2Options K) (tp : List (List (Nat × K))) (trace : Trace K) :
    Option (List (Nat × K) × List (List (List (Nat × Nat)))) :=
  let probs : List (Nat × K) :=
    (graph.rtreeSearch order (3 :: key)
      ((trace.getD 0 default).RectangleTol opts.GetStartTolerance)).foldl
      (fun probs edge => mapSet probs edge 0) []
  ((trace.zip trace.tail).foldlM (forwardStep order key m graph opts tp) (probs, [])).map
    (fun st => (st.1, [] :: st.2))

/-- The loop over `probs` that picks `bestEdgeID`; `none` is the `nil` pointer. -/
def bestEdge (order : MapOrder) (key : List Nat) (probs : List (Nat × K)) : Option Nat :=
  (mapRange order (4 :: key) probs).foldl (fun (best : Option Nat) kv =>
    match best with
    | none => some kv.1
    | some b => if kv.2 > (mapGet probs b).getD 0 then some kv.1 else some b) none

/-- The loop `for j := len(backpointers[i]) - 1; j >= 0; j--` of `matchTrace` on
the state `(curEdge, edgeHits)`. -/
def replayBackpointers (bps : List (List (Nat × Nat))) (st : Nat × List (Nat × Int)) :
    Nat × List (Nat × Int) :=
  bps.reverse.foldl (fun st bp =>
    let prevEdge := (mapGet bp st.1).getD 0
    if prevEdge ≠ st.1 then
      (prevEdge, mapSet st.2 st.1 ((mapGet st.2 st.1).getD 0 + 1))
    else st) st

/-- The loop `for i := len(trace.Observations) - 1; i >= 0; i--` of `matchTrace`:
the final `(curEdge, edgeHits)` and the `EdgePos` values in the order they are
produced (last observation first). -/
def backtrack (m : MathLib K) (graph : Graph K) (opts : Viterbi2Options K) (trace : Trace K)
    (backpointers : List (List (List (Nat × Nat)))) (curEdge : Nat)
    (edgeHits : List (Nat × Int)) : (Nat × List (Nat × Int)) × List (EdgePos K) :=
  (List.range trace.length).reverse.foldl
    (fun (st : (Nat × List (Nat × Int)) × List (EdgePos K)) i =>
      let edgePosList :=
        if !opts.HitsOnly then
          st.2 ++ [⟨st.1.1, (Edge.Segment graph st.1.1).Project m.sqrt (trace.getD i default)
            false⟩]
        else st.2
      (replayBackpointers (backpointers.getD i []) st.1, edgePosList))
    ((curEdge, edgeHits), [])

/-- The closure `matchTrace` of `Viterbi2`; `none` is the panic of `*bestEdgeID`
on a `nil` pointer. -/
def matchTrace (order : MapOrder) (m : MathLib K) (graph : Graph K)
    (opts : Viterbi2Options K) (tp : List (List (Nat × K))) (traceIdx : Nat) (trace : Trace K)
    (st : MatchState K) : Option (MatchState K) :=
  if trace.length < 5 then some st
  else
    match viterbiForward order [traceIdx] m graph opts tp trace with
    | none => some st
    | some (probs, backpointers) =>
      match bestEdge order [traceIdx] probs with
      | none => none
      | some curEdge =>
        let r := backtrack m graph opts trace backpointers curEdge st.edgeHits
        some
          { edgeHits := r.1.2,
            output := st.output.map (fun output => mapSet output traceIdx r.2.reverse),
            metadata :=
              if !opts.HitsOnly && st.output.isNone then mapSet st.metadata traceIdx r.2.reverse
              else st.metadata }

/-- One worker goroutine of `Viterbi2` on the traces it receives, in the order they
are sent. -/
def runWorker (order : MapOrder) (m : MathLib K) (graph : Graph K) (opts : Viterbi2Options K)
    (tp : List (List (Nat × K))) (traces : List (Nat × Trace K)) : Option (MatchState K) :=
  traces.foldlM (fun st t => matchTrace order m graph opts tp t.1 t.2 st)
    ⟨[], opts.Output.map (fun _ => []), []⟩

/-- The loop of `Viterbi2` that receives the results of the workers and adds them
up; `results` holds the worker numbers with their results in the order they
arrive. -/
def collectResults (order : MapOrder) (results : List (Nat × MatchState K))
    (init : MatchState K) : MatchState K :=
  results.foldl (fun (acc : MatchState K) result =>
    { edgeHits := (mapRange order [5, result.1] result.2.edgeHits).foldl
        (fun edgeHits kv => mapSet edgeHits kv.1 ((mapGet edgeHits kv.1).getD 0 + kv.2))
        acc.edgeHits,
      output := acc.output.map (fun output =>
        (mapRange order [6, result.1] (result.2.output.getD [])).foldl
          (fun output kv => mapSet output kv.1 kv.2) output),
      metadata := acc.metadata ++ result.2.metadata }) init

/-- Go `Viterbi2`. The scheduler is the oracle `assign`: the trace with index
`idx` is received by the worker `assign idx % nthreads`; the results arrive in the
order `order [7]` of the workers. `none` is no result: the deadlock of the send on
`traceCh` when there is no worker, or a panic of a worker. The result holds the
returned `edgeHits`, the final `opts.Output`, and the metadata attached to the
traces. -/
def Viterbi2 (order : MapOrder) (assign : Nat → Nat) (m : MathLib K) (traces : List (Trace K))
    (graph : Graph K) (opts : Viterbi2Options K) : Option (MatchState K) :=
  let tp := transitionProbs m graph opts
  let nthreads := opts.GetThreads
  if nthreads ≤ 0 then
    if traces.length = 0 then some ⟨[], opts.Output, []⟩ else none
  else
    let n := nthreads.toNat
    let results := (List.range n).map (fun worker =>
      runWorker order m graph opts tp (traces.enum.filter (fun t => assign t.1 % n = worker)))
    if results.all Option.isSome then
      some (collectResults order
        ((order [7] (List.range n)).map (fun w => (w, ((results.getD w none).getD default))))
        ⟨[], opts.Output, []⟩)
    else none

end Viterbi

/-! ## The bound on `edgeHits` -/

section ViterbiBound

variable {K : Type} [LinearOrderedField K] [FloorRing K]

/-- The number of extra pure-transition rounds that `matchTrace` applies for a
trace: the rounds of the loop `for distance > granularity && granularity > 0`,
added up over the observations after the first. -/
def traceExtra (m : MathLib K) (opts : Viterbi2Options K) (trace : Trace K) : Nat :=
  ((trace.zip trace.tail).map (fun obs =>
    extraCount opts.GetGranularity
      (extraFuel opts.GetGranularity (obs.2.Distance m.sqrt obs.1))
      (obs.2.Distance m.sqrt obs.1))).sum

/-- What a trace may add to `edgeHits`: nothing for a trace of fewer than five
observations or without a surviving candidate, else the number of observations
less one plus the number of extra rounds. -/
def traceBound (order : MapOrder) (m : MathLib K) (graph : Graph K) (opts : Viterbi2Options K)
    (t : Nat × Trace K) : Int :=
  if t.2.length < 5 then 0
  else
    match viterbiForward order [t.1] m graph opts (transitionProbs m graph opts) t.2 with
    | none => 0
    | some _ => ((t.2.length - 1 + traceExtra m opts t.2 : Nat) : Int)

/-- The sum of the values of an `edgeHits` map. -/
def mapSum (edgeHits : List (Nat × Int)) : Int :=
  (edgeHits.map Prod.snd).sum

end ViterbiBound


section ViterbiTest

variable {K : Type} [LinearOrderedField K]

/-- Options for a run with sigma 30, one worker goroutine, and the defaults
otherwise (granularity 50, start tolerance 100, angle-based weights, metadata
output). -/
def viterbiTestOptions : Viterbi2Options K :=
  { Granularity := 0, Sigma := 30, StartTolerance := 0, Threads := 1, HitsOnly := false,
    EdgeWeights := none, NewMode := false, Output := none }

/-- Five observations that lie exactly along the edge `(0, 0) → (8, 0)` of
`oneEdgeGraph`. -/
def viterbiTestTrace : Trace K :=
  [⟨1, 0⟩, ⟨2, 0⟩, ⟨3, 0⟩, ⟨4, 0⟩, ⟨5, 0⟩]

end ViterbiTest


/-! ## common/geom.go: polygon distance -/

section GeomLast

variable {K : Type} [LinearOrderedField K]

/-- Go `Polygon.Distance`. The outer `none` is no result of `Contains` within
`fuel` rounds of its sampling loop, `some none` is the panic of `segments[0]` on an
empty slice, `some (some d)` is the returned distance `d`. -/
def Polygon.Distance (sqrt : K → K) (rand : Nat → K) (fuel : Nat) (poly : Polygon K)
    (p : Point K) : Option (Option K) :=
  match Polygon.Contains sqrt rand fuel poly p with
  | none => none
  | some true => some (some 0)
  | some false =>
    match Polygon.Segments poly with
    | [] => some none
    | first :: rest =>
      some (some (rest.foldl (fun minDistance segment => min minDistance (segment.Distance sqrt p))
        (first.Distance sqrt p)))

/-- Go `Polygon.SegmentIntersections`. -/
def Polygon.SegmentIntersections (sqrt : K → K) (poly : Polygon K) (segment : Segment K) :
    List (Point K) :=
  (Polygon.Segments poly).filterMap (fun polySegment => polySegment.Intersection sqrt segment)

end GeomLast

section RDPSpecDefs

variable {K : Type} [LinearOrderedField K]

/-- The relation between the points `retained` by a simplification and the input
polyline: the input starts with the first retained point and ends with the last
one, the retained points appear in the input in their order, and every input point
between two consecutive retained points `a` and `b` is closer than `epsilon` to
the segment from `a` to `b`. -/
def RDPCovers (sqrt : K → K) (epsilon : WithTop K) : List (Point K) → List (Point K) → Prop
  | [], points => points = []
  | [a], points => points = [a]
  | a :: b :: rest, points => ∃ gap after, points = a :: (gap ++ after) ∧
      (∀ x ∈ gap, ((Segment.Distance sqrt ⟨a, b⟩ x : K) : WithTop K) < epsilon) ∧
      RDPCovers sqrt epsilon (b :: rest) after

end RDPSpecDefs

/-! ## common/osm.go: the regions of a node -/

section OSMRegions

variable {K : Type} [LinearOrderedField K] [FloorRing K]

/-- The Go conversion `int(x)` of a `float64`: the fraction is discarded
(truncation towards zero), and the integral part is converted by `goInt64`. -/
def goInt (x : K) : Int :=
  goInt64 (if 0 ≤ x then ⌊x⌋ else ⌈x⌉)

/-- Go `const OSM_INDEX_SCALE = 2`. -/
def OSM_INDEX_SCALE : K := 2

/-- The map `regionIndex` that `LoadOSMMultiple2` builds from `regions`: the
region ids recorded for each cell, in the order they are appended; a cell without
an entry reads as the empty slice. -/
def regionIndex (regions : List (Rectangle K)) : Int × Int → List Nat :=
  regions.enum.foldl (fun regionIndex (ir : Nat × Rectangle K) =>
    let sx := goInt (ir.2.Min.X * OSM_INDEX_SCALE)
    let sy := goInt (ir.2.Min.Y * OSM_INDEX_SCALE)
    let ex := goInt (ir.2.Max.X * OSM_INDEX_SCALE)
    let ey := goInt (ir.2.Max.Y * OSM_INDEX_SCALE)
    (intRange sx ex).foldl (fun regionIndex x =>
      (intRange sy ey).foldl (fun regionIndex y =>
        Function.update regionIndex (x, y) (regionIndex (x, y) ++ [ir.1]))
        regionIndex) regionIndex)
    (fun _ => [])

/-- The node case of the first pass of `LoadOSMMultiple2` for a node at `point`:
the region ids appended to `vertexRegionMap[v.ID]`, that is the regions whose
graph receives the node, in order. `none` is the panic of `regions[regionID]` on
an index out of range. -/
def nodeRegions (regions : List (Rectangle K)) (point : Point K) : Option (List Nat) :=
  let x := goInt (point.X * OSM_INDEX_SCALE)
  let y := goInt (point.Y * OSM_INDEX_SCALE)
  (regionIndex regions (x, y)).foldlM (fun nodeVertices regionID =>
    match regions[regionID]? with
    | none => none
    | some region =>
      some (if region.Contains point then nodeVertices ++ [regionID] else nodeVertices)) []

/-- The node case of the old version of `LoadOSMMultiple` (kept in a comment of
`osm.go`): the scan `for i := range regions` that appends `i` when
`regions[i].Contains(point)`. -/
def nodeRegionsOld (regions : List (Rectangle K)) (point : Point K) : List Nat :=
  regions.enum.foldl (fun nodeVertices (ir : Nat × Rectangle K) =>
    if ir.2.Contains point then nodeVertices ++ [ir.1] else nodeVertices) []

/-- The scaled corner coordinates of a region are at most `2 ^ 62` in magnitude, so
that their conversion to `int` in `LoadOSMMultiple2` is in range. -/
def RegionInRange (region : Rectangle K) : Prop :=
  ∀ x ∈ [region.Min.X, region.Min.Y, region.Max.X, region.Max.Y],
    -2 ^ 62 ≤ x * OSM_INDEX_SCALE ∧ x * OSM_INDEX_SCALE ≤ 2 ^ 62

end OSMRegions

/-! ## spmetric/spmetric.go: the source node of `SamplePath` -/

section SamplePathDefs

variable {K : Type} [LinearOrderedField K]

/-- Modelled from the spec: `Graph.Bounds`, missing from the sources (§4.C names
`Bounds()`; §4.F uses it as the bounding rectangle of the graph): the fold of
`Extend` over the node points, from `EmptyRectangle`. -/
def Graph.Bounds (graph : Graph K) : Rectangle (EFloat K) :=
  graph.Nodes.foldl (fun r n => r.Extend n.Point.toEFloat) EmptyRectangle

/-- The loop `for i := 0; true; i++` of Go `SamplePath` that draws the source node,
from round `i` with the current `bounds`. The call `rand.Intn(len(graph.Nodes))`
of round `i` returns `rand i % len(graph.Nodes)`. The result is the accepted node
together with the round in which it was accepted and the rectangle it was tested
against; `none` when `fuel` rounds accepted no node. -/
def sampleSourceLoop (rand : Nat → Nat) (graph : Graph K) :
    Nat → Nat → Rectangle K → Option (Nat × Nat × Rectangle K)
  | 0, _, _ => none
  | fuel + 1, i, bounds =>
    let bounds := if i % 50 = 0 then bounds.AddTol 64 else bounds
    let node := rand i % graph.Nodes.length
    if (graph.node node).Out.length > 0 && bounds.Contains (graph.node node).Point then
      some (node, i, bounds)
    else sampleSourceLoop rand graph fuel (i + 1) bounds

/-- The first part of Go `SamplePath`: `bounds := graph.Bounds().AddTol(-512)` and
the loop that draws the source node. `none` when `fuel` rounds accepted no node,
`some none` for the panic of `rand.Intn(0)` on a graph without nodes. -/
def sampleSource (rand : Nat → Nat) (graph : Graph K) (fuel : Nat) :
    Option (Option (Nat × Nat × Rectangle K)) :=
  if graph.Nodes.length = 0 then some none
  else (sampleSourceLoop rand graph fuel 0 (graph.Bounds.toFinite.AddTol (-512))).map some

/-- A graph whose node points span the square from `(0, 0)` to `(2000, 2000)`;
node `0` at `(470, 1000)` has the only edge, to node `2`. -/
def insetTestGraph : Graph K :=
  let graph : Graph K := ⟨[], []⟩
  let (graph, a) := graph.AddNode ⟨470, 1000⟩
  let (graph, _) := graph.AddNode ⟨0, 0⟩
  let (graph, c) := graph.AddNode ⟨2000, 2000⟩
  (graph.AddEdge a c).1

end SamplePathDefs
section NodePathsTree

variable {K : Type} [LinearOrderedField K]

/-- The backpointers that `g` holds for the source `src` form a tree rooted at
`src`: there is a depth that strictly decreases along every backpointer (no
cycle), every backpointer is a node of the graph, and every backpointer other
than `src` has a backpointer itself (so every chain leads to `src`). -/
def NodePathsGraph.IsTree (g : NodePathsGraph K) (src : Nat) : Prop :=
  ∃ depth : Nat → Nat, ∀ n b, n ≠ src →
    mapGet ((mapGet g.NodePaths src).getD ⟨[], []⟩).Backpointers n = some b →
      b < g.Graph.Nodes.length ∧ depth b < depth n ∧
      (b ≠ src → (mapGet ((mapGet g.NodePaths src).getD ⟨[], []⟩).Backpointers b).isSome)

end NodePathsTree

/-! # Theorems -/

section TableLemmas

variable {K : Type} [LinearOrderedField K]

theorem tableGet_tableSet_same (m : List (List (WithTop K))) (i j : Nat) (v : WithTop K)
    (hi : i < m.length) (hj : j < (m.getD i []).length) :
    tableGet (tableSet m i j v) i j = v := by
  simp [tableGet, tableSet, List.getD_eq_getElem?_getD, hi, hj] at *
  simp [hj]

theorem tableGet_tableSet_other (m : List (List (WithTop K))) (i j i2 j2 : Nat) (v : WithTop K)
    (h : ¬ (i2 = i ∧ j2 = j)) :
    tableGet (tableSet m i j v) i2 j2 = tableGet m i2 j2 := by
  simp only [tableGet, tableSet, List.getD_eq_getElem?_getD]
  by_cases hi : i2 = i
  · subst hi
    have hj : j2 ≠ j := fun e => h ⟨rfl, e⟩
    by_cases hlt : i2 < m.length
    · simp [hlt, List.getElem?_set, Ne.symm hj]
    · simp [hlt, List.getElem?_set, List.getElem?_eq_none (not_lt.mp hlt)]
  · simp [List.getElem?_set, Ne.symm hi]

theorem length_tableSet (m : List (List (WithTop K))) (i j : Nat) (v : WithTop K) :
    (tableSet m i j v).length = m.length := by
  simp [tableSet]

theorem rowLength_tableSet (m : List (List (WithTop K))) (i j i2 : Nat) (v : WithTop K) :
    ((tableSet m i j v).getD i2 []).length = (m.getD i2 []).length := by
  simp only [tableSet, List.getD_eq_getElem?_getD]
  by_cases hi : i2 = i
  · subst hi
    by_cases hlt : i2 < m.length
    · simp [hlt, List.getElem?_set]
    · simp [hlt, List.getElem?_set, List.getElem?_eq_none (not_lt.mp hlt)]
  · simp [List.getElem?_set, Ne.symm hi]

theorem frechetCell_inv (sqrt : K → K) (a b : List (Point K)) (m : List (List (WithTop K)))
    (i j : Nat) (hi : i < a.length) (hj : j < b.length) (h : FrechetInv sqrt a b m i j) :
    FrechetInv sqrt a b (frechetCell sqrt a b m i j) i (j + 1) := by
  obtain ⟨hlen, hrow, hfill⟩ := h
  have hshape : ∀ v, (tableSet m i j v).length = a.length ∧
      (∀ r, r < a.length → ((tableSet m i j v).getD r []).length = b.length) := by
    intro v
    exact ⟨by rw [length_tableSet, hlen], fun r hr => by rw [rowLength_tableSet, hrow r hr]⟩
  have hcell : tableGet (frechetCell sqrt a b m i j) i j =
      frechetRec (fun i j => ((pairDist sqrt a b i j : K) : WithTop K)) i j := by
    unfold frechetCell
    have hi' : i < m.length := by omega
    have hj' : j < (m.getD i []).length := by rw [hrow i hi]; exact hj
    cases i with
    | zero =>
      cases j with
      | zero => simp [tableGet_tableSet_same _ _ _ _ hi' hj', frechetRec, pairDist]
      | succ j =>
        have h1 := hfill 0 j hi (by omega) (Or.inr ⟨rfl, by omega⟩)
        simp [tableGet_tableSet_same _ _ _ _ hi' hj', frechetRec, pairDist, h1]
    | succ i =>
      cases j with
      | zero =>
        have h1 := hfill i 0 (by omega) hj (Or.inl (by omega))
        simp [tableGet_tableSet_same _ _ _ _ hi' hj', frechetRec, pairDist, h1]
      | succ j =>
        have h1 := hfill i (j + 1) (by omega) hj (Or.inl (by omega))
        have h2 := hfill (i + 1) j hi (by omega) (Or.inr ⟨rfl, by omega⟩)
        have h3 := hfill i j (by omega) (by omega) (Or.inl (by omega))
        simp [tableGet_tableSet_same _ _ _ _ hi' hj', frechetRec, pairDist, h1, h2, h3]
  have hother : ∀ i2 j2, ¬ (i2 = i ∧ j2 = j) →
      tableGet (frechetCell sqrt a b m i j) i2 j2 = tableGet m i2 j2 := by
    intro i2 j2 hne
    unfold frechetCell
    split
    · exact tableGet_tableSet_other _ _ _ _ _ _ hne
    · exact tableGet_tableSet_other _ _ _ _ _ _ hne
  refine ⟨?_, ?_, ?_⟩
  · unfold frechetCell; split
    · exact (hshape _).1
    · exact (hshape _).1
  · unfold frechetCell; split
    · exact (hshape _).2
    · exact (hshape _).2
  · intro i2 j2 h1 h2 h3
    by_cases hc : i2 = i ∧ j2 = j
    · rw [hc.1, hc.2]; exact hcell
    · rw [hother i2 j2 hc]
      apply hfill i2 j2 h1 h2
      rcases h3 with h3 | ⟨h3, h4⟩
      · exact Or.inl h3
      · refine Or.inr ⟨h3, ?_⟩
        have : j2 ≠ j := fun e => hc ⟨h3, e⟩
        omega

theorem frechetRow_inv (sqrt : K → K) (a b : List (Point K)) (i : Nat) (hi : i < a.length)
    (n : Nat) (hn : n ≤ b.length) (m : List (List (WithTop K)))
    (h : FrechetInv sqrt a b m i 0) :
    FrechetInv sqrt a b
      ((List.range n).foldl (fun m j => frechetCell sqrt a b m i j) m) i n := by
  induction n with
  | zero => simpa using h
  | succ n ih =>
    rw [List.range_succ, List.foldl_append]
    exact frechetCell_inv sqrt a b _ i n hi (by omega) (ih (by omega))

theorem frechetRows_inv (sqrt : K → K) (a b : List (Point K)) (n : Nat) (hn : n ≤ a.length)
    (m : List (List (WithTop K))) (h : FrechetInv sqrt a b m 0 0) :
    FrechetInv sqrt a b
      ((List.range n).foldl
        (fun m i => (List.range (m.getD i []).length).foldl
          (fun m j => frechetCell sqrt a b m i j) m) m) n 0 := by
  induction n with
  | zero => simpa using h
  | succ n ih =>
    rw [List.range_succ, List.foldl_append]
    have h1 := ih (by omega)
    simp only [List.foldl_cons, List.foldl_nil]
    rw [h1.2.1 n (by omega)]
    have h2 := frechetRow_inv sqrt a b n (by omega) b.length le_rfl _ h1
    obtain ⟨h3, h4, h5⟩ := h2
    refine ⟨h3, h4, ?_⟩
    intro i2 j2 hi2 hj2 _
    apply h5 i2 j2 hi2 hj2
    by_cases hc : i2 = n
    · exact Or.inr ⟨hc, hj2⟩
    · exact Or.inl (by omega)

theorem frechetTable_get (sqrt : K → K) (a b : List (Point K)) (i j : Nat)
    (hi : i < a.length) (hj : j < b.length) :
    tableGet (frechetTable sqrt a b) i j =
      frechetRec (fun i j => ((pairDist sqrt a b i j : K) : WithTop K)) i j := by
  have h0 : FrechetInv sqrt a b
      (List.replicate a.length (List.replicate b.length (0 : WithTop K))) 0 0 := by
    refine ⟨by simp, ?_, ?_⟩
    · intro r hr
      simp [List.getD_eq_getElem?_getD, List.getElem?_replicate, hr]
    · intro i2 j2 _ _ h; omega
  have h := frechetRows_inv sqrt a b a.length le_rfl _ h0
  unfold frechetTable
  simp only [List.length_replicate]
  exact h.2.2 i j hi hj (Or.inl hi)

end TableLemmas
section CouplingLemmas

variable {α : Type} [LinearOrder α]

theorem couplingCost_append_singleton (d : Nat → Nat → α) (c : List (Nat × Nat))
    (p : Nat × Nat) (hc : c ≠ []) :
    couplingCost d (c ++ [p]) = max (couplingCost d c) (d p.1 p.2) := by
  cases c with
  | nil => exact absurd rfl hc
  | cons q qs => simp [couplingCost, List.foldl_append]

theorem frechetRec_le_of_step (d : Nat → Nat → α) (p q : Nat × Nat) (h : couplingStep p q) :
    frechetRec d q.1 q.2 ≤ max (frechetRec d p.1 p.2) (d q.1 q.2) := by
  obtain ⟨i, j⟩ := p
  rcases h with h | h | h <;> subst h <;> simp only
  · cases j with
    | zero => simp [frechetRec]
    | succ j =>
      rw [frechetRec]
      exact max_le_max (le_trans (min_le_left _ _) (min_le_left _ _)) le_rfl
  · cases i with
    | zero => simp [frechetRec]
    | succ i =>
      rw [frechetRec]
      exact max_le_max (le_trans (min_le_left _ _) (min_le_right _ _)) le_rfl
  · rw [frechetRec]
    exact max_le_max (min_le_right _ _) le_rfl

theorem frechetRec_le_couplingCost (d : Nat → Nat → α) (c : List (Nat × Nat)) :
    ∀ last : Nat × Nat, IsCoupling last c → frechetRec d last.1 last.2 ≤ couplingCost d c := by
  induction c using List.reverseRecOn with
  | nil => intro last h; simp [IsCoupling] at h
  | append_singleton c p ih =>
    intro last h
    obtain ⟨hhead, hlast, hchain⟩ := h
    have hp : p = last := by simpa using hlast
    subst hp
    by_cases hc : c = []
    · subst hc
      have : p = (0, 0) := by simpa using hhead
      subst this
      simp [couplingCost, frechetRec]
    · rw [couplingCost_append_singleton d c p hc]
      obtain ⟨q, hq⟩ : ∃ q, c.getLast? = some q := by
        cases hgl : c.getLast? with
        | none => exact absurd (List.getLast?_eq_none_iff.mp hgl) hc
        | some q => exact ⟨q, rfl⟩
      rw [List.chain'_append] at hchain
      obtain ⟨hc1, _, hc3⟩ := hchain
      have hstep : couplingStep q p := hc3 q (by simp [hq]) p (by simp)
      have hhead' : c.head? = some (0, 0) := by
        cases c with
        | nil => exact absurd rfl hc
        | cons x xs => simpa using hhead
      have h1 := ih q ⟨hhead', hq, hc1⟩
      exact le_trans (frechetRec_le_of_step d q p hstep) (max_le_max h1 le_rfl)

theorem exists_coupling_cost_eq (d : Nat → Nat → α) :
    ∀ i j : Nat, ∃ c, IsCoupling (i, j) c ∧ couplingCost d c = frechetRec d i j := by
  have hext : ∀ (p q : Nat × Nat) (c : List (Nat × Nat)), couplingStep p q →
      IsCoupling p c → couplingCost d c = frechetRec d p.1 p.2 →
      IsCoupling q (c ++ [q]) ∧
        couplingCost d (c ++ [q]) = max (frechetRec d p.1 p.2) (d q.1 q.2) := by
    intro p q c hstep hc hcost
    obtain ⟨h1, h2, h3⟩ := hc
    have hne : c ≠ [] := by
      intro e; subst e; simp at h1
    refine ⟨⟨?_, by simp, ?_⟩, ?_⟩
    · cases c with
      | nil => exact absurd rfl hne
      | cons x xs => simpa using h1
    · rw [List.chain'_append]
      refine ⟨h3, by simp, ?_⟩
      intro x hx y hy
      have hx' : x = p := by
        rw [h2] at hx; simpa using hx.symm
      have hy' : y = q := by simpa using hy.symm
      rw [hx', hy']; exact hstep
    · rw [couplingCost_append_singleton d c q hne, hcost]
  intro i j
  induction i, j using frechetRec.induct d with
  | case1 => exact ⟨[(0, 0)], ⟨rfl, rfl, List.chain'_singleton _⟩, by simp [couplingCost, frechetRec]⟩
  | case2 i ih =>
    obtain ⟨c, hc, hcost⟩ := ih
    have := hext (i, 0) (i + 1, 0) c (Or.inl rfl) hc hcost
    exact ⟨c ++ [(i + 1, 0)], this.1, by rw [this.2, frechetRec]⟩
  | case3 j ih =>
    obtain ⟨c, hc, hcost⟩ := ih
    have := hext (0, j) (0, j + 1) c (Or.inr (Or.inl rfl)) hc hcost
    exact ⟨c ++ [(0, j + 1)], this.1, by rw [this.2, frechetRec]⟩
  | case4 i j ih1 ih2 ih3 =>
    obtain ⟨c1, hc1, hcost1⟩ := ih1
    obtain ⟨c2, hc2, hcost2⟩ := ih2
    obtain ⟨c3, hc3, hcost3⟩ := ih3
    have e1 := hext (i, j + 1) (i + 1, j + 1) c1 (Or.inl rfl) hc1 hcost1
    have e2 := hext (i + 1, j) (i + 1, j + 1) c2 (Or.inr (Or.inl rfl)) hc2 hcost2
    have e3 := hext (i, j) (i + 1, j + 1) c3 (Or.inr (Or.inr rfl)) hc3 hcost3
    rw [frechetRec]
    rcases le_total (frechetRec d i (j + 1)) (frechetRec d (i + 1) j) with h12 | h12
    · rcases le_total (frechetRec d i (j + 1)) (frechetRec d i j) with h13 | h13
      · exact ⟨_, e1.1, by rw [e1.2, min_eq_left h12, min_eq_left h13]⟩
      · exact ⟨_, e3.1, by rw [e3.2, min_eq_left h12, min_eq_right h13]⟩
    · rcases le_total (frechetRec d (i + 1) j) (frechetRec d i j) with h23 | h23
      · exact ⟨_, e2.1, by rw [e2.2, min_eq_right h12, min_eq_left h23]⟩
      · exact ⟨_, e3.1, by rw [e3.2, min_eq_right h12, min_eq_right h23]⟩

theorem frechetRec_isLeast (d : Nat → Nat → α) (i j : Nat) :
    IsLeast {x | ∃ c, IsCoupling (i, j) c ∧ x = couplingCost d c} (frechetRec d i j) := by
  constructor
  · obtain ⟨c, hc, hcost⟩ := exists_coupling_cost_eq d i j
    exact ⟨c, hc, hcost.symm⟩
  · rintro x ⟨c, hc, rfl⟩
    exact frechetRec_le_couplingCost d c (i, j) hc

end CouplingLemmas

section
variable {K : Type} [LinearOrderedField K]

theorem frechetRec_coe (d : Nat → Nat → K) (i j : Nat) :
    frechetRec (fun i j => ((d i j : K) : WithTop K)) i j = ((frechetRec d i j : K) : WithTop K) := by
  induction i, j using frechetRec.induct d with
  | case1 => simp [frechetRec]
  | case2 i ih => simp [frechetRec, ih]
  | case3 j ih => simp [frechetRec, ih]
  | case4 i j ih1 ih2 ih3 => simp [frechetRec, ih1, ih2, ih3]

theorem ComputeFrechetDistance_eq_frechetRec (sqrt : K → K) (a b : List (Point K))
    (ha : a ≠ []) (hb : b ≠ []) :
    ComputeFrechetDistance sqrt a b =
      some ((frechetRec (pairDist sqrt a b) (a.length - 1) (b.length - 1) : K) : WithTop K) := by
  have ha' : 0 < a.length := List.length_pos.mpr ha
  have hb' : 0 < b.length := List.length_pos.mpr hb
  unfold ComputeFrechetDistance
  simp only
  rw [if_neg (by omega), frechetTable_get sqrt a b _ _ (by omega) (by omega), frechetRec_coe]

end
section FrechetClaims
variable {K : Type} [LinearOrderedField K]

/-- C1: for non-empty point sequences `a` and `b`, `ComputeFrechetDistance a b`
returns the discrete Fréchet distance, the least cost (largest pair distance)
over all couplings from `(0, 0)` to `(|a| - 1, |b| - 1)`. -/
theorem ComputeFrechetDistance_isLeast_coupling (sqrt : K → K) (a b : List (Point K))
    (ha : a ≠ []) (hb : b ≠ []) :
    ∃ F : K, ComputeFrechetDistance sqrt a b = some (F : WithTop K) ∧
      IsLeast {x | ∃ c, IsCoupling (a.length - 1, b.length - 1) c ∧
        x = couplingCost (pairDist sqrt a b) c} F :=
  ⟨_, ComputeFrechetDistance_eq_frechetRec sqrt a b ha hb, frechetRec_isLeast _ _ _⟩

theorem ComputeFrechetDistance_isLeast_coupling_witness :
    [(⟨0, 0⟩ : Point ℚ), ⟨2, 0⟩, ⟨4, 0⟩] ≠ [] ∧
    [(⟨0, 0⟩ : Point ℚ), ⟨4, 0⟩, ⟨0, 0⟩, ⟨4, 0⟩] ≠ [] ∧
    ∃ F : ℚ, ComputeFrechetDistance Rat.sqrt [(⟨0, 0⟩ : Point ℚ), ⟨2, 0⟩, ⟨4, 0⟩]
        [⟨0, 0⟩, ⟨4, 0⟩, ⟨0, 0⟩, ⟨4, 0⟩] = some (F : WithTop ℚ) ∧
      IsLeast {x | ∃ c, IsCoupling (3 - 1, 4 - 1) c ∧
        x = couplingCost (pairDist Rat.sqrt [(⟨0, 0⟩ : Point ℚ), ⟨2, 0⟩, ⟨4, 0⟩]
          [⟨0, 0⟩, ⟨4, 0⟩, ⟨0, 0⟩, ⟨4, 0⟩]) c} F :=
  ⟨by simp, by simp, ComputeFrechetDistance_isLeast_coupling Rat.sqrt _ _ (by simp) (by simp)⟩

theorem frechetRec_swap {α : Type} [LinearOrder α] (d : Nat → Nat → α) (i j : Nat) :
    frechetRec d i j = frechetRec (fun i j => d j i) j i := by
  induction i, j using frechetRec.induct d with
  | case1 => simp [frechetRec]
  | case2 i ih => simp [frechetRec, ih]
  | case3 j ih => simp [frechetRec, ih]
  | case4 i j ih1 ih2 ih3 =>
    simp only [frechetRec, ih1, ih2, ih3]
    rw [min_comm (frechetRec (fun i j => d j i) (j + 1) i)]

theorem Point.Distance_comm (sqrt : K → K) (p q : Point K) :
    p.Distance sqrt q = q.Distance sqrt p := by
  simp only [Point.Distance]
  congr 1
  ring

theorem pairDist_swap (sqrt : K → K) (a b : List (Point K)) :
    (fun i j => pairDist sqrt a b j i) = pairDist sqrt b a := by
  funext i j
  exact Point.Distance_comm sqrt _ _

/-- C4: for non-empty point sequences `a` and `b`,
`ComputeFrechetDistance a b = ComputeFrechetDistance b a`. -/
theorem ComputeFrechetDistance_comm (sqrt : K → K) (a b : List (Point K))
    (ha : a ≠ []) (hb : b ≠ []) :
    ComputeFrechetDistance sqrt a b = ComputeFrechetDistance sqrt b a := by
  rw [ComputeFrechetDistance_eq_frechetRec sqrt a b ha hb,
    ComputeFrechetDistance_eq_frechetRec sqrt b a hb ha, frechetRec_swap, pairDist_swap]

theorem ComputeFrechetDistance_comm_witness :
    [(⟨0, 0⟩ : Point ℚ), ⟨2, 0⟩, ⟨4, 0⟩] ≠ [] ∧
    [(⟨0, 0⟩ : Point ℚ), ⟨4, 0⟩, ⟨0, 0⟩, ⟨4, 0⟩] ≠ [] ∧
    ComputeFrechetDistance Rat.sqrt [(⟨0, 0⟩ : Point ℚ), ⟨2, 0⟩, ⟨4, 0⟩]
        [⟨0, 0⟩, ⟨4, 0⟩, ⟨0, 0⟩, ⟨4, 0⟩] =
      ComputeFrechetDistance Rat.sqrt [⟨0, 0⟩, ⟨4, 0⟩, ⟨0, 0⟩, ⟨4, 0⟩]
        [(⟨0, 0⟩ : Point ℚ), ⟨2, 0⟩, ⟨4, 0⟩] :=
  ⟨by simp, by simp, ComputeFrechetDistance_comm Rat.sqrt _ _ (by simp) (by simp)⟩

theorem frechetRec_diag {α : Type} [LinearOrder α] (d : Nat → Nat → α) (c : α)
    (hd : ∀ i, d i i = c) (i : Nat) : frechetRec d i i = c := by
  induction i with
  | zero => simp [frechetRec, hd]
  | succ i ih =>
    rw [frechetRec, ih, hd]
    exact max_eq_right (min_le_right _ _)

/-- C5: for a non-empty point sequence `a`, `ComputeFrechetDistance a a = 0`
(using only that `math.Sqrt(0) = 0`). -/
theorem ComputeFrechetDistance_self (sqrt : K → K) (h0 : sqrt 0 = 0) (a : List (Point K))
    (ha : a ≠ []) : ComputeFrechetDistance sqrt a a = some 0 := by
  rw [ComputeFrechetDistance_eq_frechetRec sqrt a a ha ha]
  rw [frechetRec_diag (pairDist sqrt a a) 0 (fun i => by simp [pairDist, Point.Distance, h0])]
  rfl

theorem ComputeFrechetDistance_self_witness :
    Real.sqrt 0 = 0 ∧ [(⟨0, 0⟩ : Point ℝ), ⟨4, 0⟩, ⟨0, 0⟩, ⟨4, 0⟩] ≠ [] ∧
    ComputeFrechetDistance Real.sqrt [(⟨0, 0⟩ : Point ℝ), ⟨4, 0⟩, ⟨0, 0⟩, ⟨4, 0⟩]
      [⟨0, 0⟩, ⟨4, 0⟩, ⟨0, 0⟩, ⟨4, 0⟩] = some 0 :=
  ⟨Real.sqrt_zero, by simp, ComputeFrechetDistance_self Real.sqrt Real.sqrt_zero _ (by simp)⟩

theorem frechetRec_covers {α : Type} [LinearOrder α] (d : Nat → Nat → α) (i j : Nat) :
    ∀ i2, i2 ≤ i → ∃ j2, j2 ≤ j ∧ d i2 j2 ≤ frechetRec d i j := by
  induction i, j using frechetRec.induct d with
  | case1 => intro i2 h; exact ⟨0, le_rfl, by simp [Nat.le_zero.mp h, frechetRec]⟩
  | case2 i ih =>
    intro i2 h
    rw [frechetRec]
    by_cases hc : i2 = i + 1
    · subst hc; exact ⟨0, le_rfl, le_max_right _ _⟩
    · obtain ⟨j2, h1, h2⟩ := ih i2 (by omega)
      exact ⟨j2, h1, le_trans h2 (le_max_left _ _)⟩
  | case3 j ih =>
    intro i2 h
    rw [frechetRec]
    obtain ⟨j2, h1, h2⟩ := ih i2 h
    exact ⟨j2, by omega, le_trans h2 (le_max_left _ _)⟩
  | case4 i j ih1 ih2 ih3 =>
    intro i2 h
    rw [frechetRec]
    by_cases hc : i2 = i + 1
    · subst hc; exact ⟨j + 1, le_rfl, le_max_right _ _⟩
    · have key : ∀ x, (x = frechetRec d i (j + 1) ∨ x = frechetRec d (i + 1) j ∨
          x = frechetRec d i j) → ∃ j2, j2 ≤ j + 1 ∧ d i2 j2 ≤ x := by
        rintro x (rfl | rfl | rfl)
        · exact ih1 i2 (by omega)
        · obtain ⟨j2, h1, h2⟩ := ih2 i2 h
          exact ⟨j2, by omega, h2⟩
        · obtain ⟨j2, h1, h2⟩ := ih3 i2 (by omega)
          exact ⟨j2, by omega, h2⟩
      have hmin : min (min (frechetRec d i (j + 1)) (frechetRec d (i + 1) j))
          (frechetRec d i j) = frechetRec d i (j + 1) ∨
          min (min (frechetRec d i (j + 1)) (frechetRec d (i + 1) j))
          (frechetRec d i j) = frechetRec d (i + 1) j ∨
          min (min (frechetRec d i (j + 1)) (frechetRec d (i + 1) j))
          (frechetRec d i j) = frechetRec d i j := by
        rcases min_choice (min (frechetRec d i (j + 1)) (frechetRec d (i + 1) j))
          (frechetRec d i j) with h1 | h1
        · rcases min_choice (frechetRec d i (j + 1)) (frechetRec d (i + 1) j) with h2 | h2
          · exact Or.inl (h1.trans h2)
          · exact Or.inr (Or.inl (h1.trans h2))
        · exact Or.inr (Or.inr h1)
      obtain ⟨j2, h1, h2⟩ := key _ hmin
      exact ⟨j2, h1, le_trans h2 (le_max_left _ _)⟩

/-- C6: for non-empty point sequences `a` and `b`, `ComputeFrechetDistance a b`
is at least the maximum over `i` of the minimum over `j` of the distance
between `a[i]` and `b[j]`. -/
theorem ComputeFrechetDistance_ge_maxMin (sqrt : K → K) (a b : List (Point K))
    (ha : a ≠ []) (hb : b ≠ []) :
    ∃ F : K, ComputeFrechetDistance sqrt a b = some (F : WithTop K) ∧
      (Finset.range a.length).sup' (by simpa [List.length_pos] using ha)
        (fun i => (Finset.range b.length).inf' (by simpa [List.length_pos] using hb)
          (fun j => (a.getD i default).Distance sqrt (b.getD j default))) ≤ F := by
  refine ⟨_, ComputeFrechetDistance_eq_frechetRec sqrt a b ha hb, ?_⟩
  rw [Finset.sup'_le_iff]
  intro i hi
  rw [Finset.inf'_le_iff]
  have hi' : i < a.length := Finset.mem_range.mp hi
  obtain ⟨j, hj, hle⟩ := frechetRec_covers (pairDist sqrt a b) (a.length - 1) (b.length - 1) i
    (by omega)
  have hb' : 0 < b.length := List.length_pos.mpr hb
  exact ⟨j, Finset.mem_range.mpr (by omega), hle⟩

theorem ComputeFrechetDistance_ge_maxMin_witness :
    [(⟨0, 0⟩ : Point ℚ), ⟨2, 0⟩, ⟨4, 0⟩] ≠ [] ∧
    [(⟨0, 0⟩ : Point ℚ), ⟨4, 0⟩, ⟨0, 0⟩, ⟨4, 0⟩] ≠ [] ∧
    ∃ F : ℚ, ComputeFrechetDistance Rat.sqrt [(⟨0, 0⟩ : Point ℚ), ⟨2, 0⟩, ⟨4, 0⟩]
        [⟨0, 0⟩, ⟨4, 0⟩, ⟨0, 0⟩, ⟨4, 0⟩] = some (F : WithTop ℚ) ∧
      (Finset.range [(⟨0, 0⟩ : Point ℚ), ⟨2, 0⟩, ⟨4, 0⟩].length).sup' (by simp)
        (fun i => (Finset.range [(⟨0, 0⟩ : Point ℚ), ⟨4, 0⟩, ⟨0, 0⟩, ⟨4, 0⟩].length).inf'
          (by simp)
          (fun j => (([(⟨0, 0⟩ : Point ℚ), ⟨2, 0⟩, ⟨4, 0⟩]).getD i default).Distance Rat.sqrt
            (([(⟨0, 0⟩ : Point ℚ), ⟨4, 0⟩, ⟨0, 0⟩, ⟨4, 0⟩]).getD j default))) ≤ F :=
  ⟨by simp, by simp, ComputeFrechetDistance_ge_maxMin Rat.sqrt _ _ (by simp) (by simp)⟩

theorem frechetRec_col0 {α : Type} [LinearOrder α] (d : Nat → Nat → α) (i : Nat) :
    frechetRec d i 0 = (Finset.range (i + 1)).sup' (by simp) (fun k => d k 0) := by
  induction i with
  | zero => simp [frechetRec]
  | succ i ih =>
    rw [frechetRec, ih]
    apply le_antisymm
    · apply max_le
      · rw [Finset.sup'_le_iff]
        intro k hk
        exact Finset.le_sup' (fun k => d k 0) (Finset.mem_range.mpr
          (by have := Finset.mem_range.mp hk; omega))
      · exact Finset.le_sup' (fun k => d k 0) (Finset.mem_range.mpr (by omega))
    · rw [Finset.sup'_le_iff]
      intro k hk
      have hk' := Finset.mem_range.mp hk
      by_cases hc : k = i + 1
      · subst hc; exact le_max_right _ _
      · exact le_trans (Finset.le_sup' (fun k => d k 0) (Finset.mem_range.mpr (by omega)))
          (le_max_left _ _)

/-- C7: for a non-empty point sequence `a` and a single point `b`,
`ComputeFrechetDistance a [b]` is the maximum over `i` of the distance between
`a[i]` and `b`. -/
theorem ComputeFrechetDistance_singleton (sqrt : K → K) (a : List (Point K)) (b : Point K)
    (ha : a ≠ []) :
    ComputeFrechetDistance sqrt a [b] =
      some (((Finset.range a.length).sup' (by simpa [List.length_pos] using ha)
        (fun i => (a.getD i default).Distance sqrt b) : K) : WithTop K) := by
  rw [ComputeFrechetDistance_eq_frechetRec sqrt a [b] ha (by simp)]
  have hpos : 0 < a.length := List.length_pos.mpr ha
  have hlen : a.length - 1 + 1 = a.length := by omega
  simp only [List.length_singleton, Nat.sub_self, frechetRec_col0]
  congr 2
  simp only [hlen]
  rfl

theorem sqrt_half : Real.sqrt (1 / 2) = Real.sqrt 2 / 2 := by
  rw [Real.sqrt_eq_iff_mul_self_eq (by norm_num) (by positivity)]
  nlinarith [Real.mul_self_sqrt (show (0 : ℝ) ≤ 2 by norm_num)]

theorem ComputeFrechetDistance_singleton_witness :
    [(⟨1, 1⟩ : Point ℝ)] ≠ [] ∧
    ComputeFrechetDistance Real.sqrt [(⟨1, 1⟩ : Point ℝ)] [⟨3, 1⟩] = some ((2 : ℝ) : WithTop ℝ) ∧
    ComputeFrechetDistance Real.sqrt
      [(⟨0, 0⟩ : Point ℝ), ⟨1, 0⟩, ⟨1, 1⟩, ⟨0, 1⟩, ⟨0, 0⟩] [⟨1 / 2, 1 / 2⟩] =
      some ((Real.sqrt 2 / 2 : ℝ) : WithTop ℝ) := by
  refine ⟨by simp, ?_, ?_⟩
  · rw [ComputeFrechetDistance_singleton Real.sqrt _ _ (by simp)]
    have h4 : Real.sqrt 4 = 2 := by
      rw [show (4 : ℝ) = 2 * 2 by norm_num]; exact Real.sqrt_mul_self (by norm_num)
    simp [Point.Distance]
    norm_num [h4]
  · rw [ComputeFrechetDistance_singleton Real.sqrt _ _ (by simp)]
    congr 2
    apply le_antisymm
    · rw [Finset.sup'_le_iff]
      intro i hi
      have hi' : i < 5 := by simpa using hi
      interval_cases i <;> simp [Point.Distance] <;> norm_num [sqrt_half] <;>
        rw [← sqrt_half] <;> norm_num
    · refine le_trans ?_ (Finset.le_sup' _ (Finset.mem_range.mpr
        (show 0 < _ by simp)))
      simp only [Point.Distance, List.getD_cons_zero]
      rw [← sqrt_half]
      norm_num

end FrechetClaims
section SqrtLemmas
variable {K : Type} [LinearOrderedField K]

theorem IsSqrt.mono {sqrt : K → K} (hs : IsSqrt sqrt) {x y : K} (hx : 0 ≤ x) (hxy : x ≤ y) :
    sqrt x ≤ sqrt y := by
  by_contra h
  push_neg at h
  have h1 := hs.mul_self x hx
  have h2 := hs.mul_self y (le_trans hx hxy)
  have h3 : sqrt y * sqrt y < sqrt x * sqrt x :=
    mul_lt_mul'' h h (hs.nonneg y) (hs.nonneg y)
  linarith

theorem IsSqrt.zero {sqrt : K → K} (hs : IsSqrt sqrt) : sqrt 0 = 0 := by
  have h := hs.mul_self 0 le_rfl
  exact mul_self_eq_zero.mp h

theorem IsSqrt.eq_zero_iff {sqrt : K → K} (hs : IsSqrt sqrt) {x : K} (hx : 0 ≤ x) :
    sqrt x = 0 ↔ x = 0 := by
  constructor
  · intro h
    have := hs.mul_self x hx
    rw [h, mul_zero] at this
    exact this.symm
  · intro h; rw [h]; exact hs.zero

theorem isSqrt_real : IsSqrt Real.sqrt :=
  ⟨Real.sqrt_nonneg, fun _ hx => Real.mul_self_sqrt hx⟩

theorem Point.sqDist_nonneg (p q : Point K) : 0 ≤ p.sqDist q :=
  add_nonneg (mul_self_nonneg _) (mul_self_nonneg _)

theorem Point.Distance_eq_sqrt (sqrt : K → K) (p q : Point K) :
    p.Distance sqrt q = sqrt (p.sqDist q) := rfl

theorem Point.sqDist_eq_zero {p q : Point K} (h : p.sqDist q = 0) : p = q := by
  unfold Point.sqDist at h
  have hx := mul_self_nonneg (p.X - q.X)
  have hy := mul_self_nonneg (p.Y - q.Y)
  have h1 : (p.X - q.X) * (p.X - q.X) = 0 := by linarith
  have h2 : (p.Y - q.Y) * (p.Y - q.Y) = 0 := by linarith
  have h3 := sub_eq_zero.mp (mul_self_eq_zero.mp h1)
  have h4 := sub_eq_zero.mp (mul_self_eq_zero.mp h2)
  cases p; cases q; simp_all

end SqrtLemmas
section SegmentLemmas
variable {K : Type} [LinearOrderedField K]

theorem Segment.sqDist_eq_mag (s : Segment K) :
    s.Start.sqDist s.End = s.Vector.Dot s.Vector := by
  simp only [Point.sqDist, Segment.Vector, Point.Dot, Point.Sub]; ring

theorem Segment.mag_nonneg (s : Segment K) : 0 ≤ s.Vector.Dot s.Vector := by
  rw [← Segment.sqDist_eq_mag]; exact Point.sqDist_nonneg _ _

theorem Segment.Length_mul_self {sqrt : K → K} (hs : IsSqrt sqrt) (s : Segment K) :
    s.Length sqrt * s.Length sqrt = s.Vector.Dot s.Vector := by
  rw [← Segment.sqDist_eq_mag]
  exact hs.mul_self _ (Point.sqDist_nonneg _ _)

theorem Segment.Length_eq_zero_iff {sqrt : K → K} (hs : IsSqrt sqrt) (s : Segment K) :
    s.Length sqrt = 0 ↔ s.Vector.Dot s.Vector = 0 := by
  rw [← Segment.sqDist_eq_mag]
  exact hs.eq_zero_iff (Point.sqDist_nonneg _ _)

theorem Segment.start_eq_end_of_mag {s : Segment K} (h : s.Vector.Dot s.Vector = 0) :
    s.Start = s.End := by
  rw [← Segment.sqDist_eq_mag] at h
  exact Point.sqDist_eq_zero h

end SegmentLemmas
section MapLemmas

variable {β : Type}

theorem mapGet_nil (k : Nat) : mapGet ([] : List (Nat × β)) k = none := rfl

theorem mapGet_cons (kv : Nat × β) (m : List (Nat × β)) (k : Nat) :
    mapGet (kv :: m) k = if kv.1 = k then some kv.2 else mapGet m k := by
  unfold mapGet
  by_cases h : kv.1 = k <;> simp [List.find?_cons, h]

theorem mapGet_eq_none_iff (m : List (Nat × β)) (k : Nat) :
    mapGet m k = none ↔ ∀ kv ∈ m, kv.1 ≠ k := by
  induction m with
  | nil => simp [mapGet_nil]
  | cons kv m ih =>
    rw [mapGet_cons]
    by_cases h : kv.1 = k
    · simp [h]
    · simp [h, ih]

theorem mapGet_mem {m : List (Nat × β)} {k : Nat} {v : β} (h : mapGet m k = some v) :
    (k, v) ∈ m := by
  induction m with
  | nil => simp [mapGet_nil] at h
  | cons kv m ih =>
    rw [mapGet_cons] at h
    by_cases hk : kv.1 = k
    · rw [if_pos hk] at h
      have : kv = (k, v) := by
        cases kv; simp only [Option.some.injEq] at h; simp_all
      rw [this]; exact List.mem_cons_self _ _
    · rw [if_neg hk] at h
      exact List.mem_cons_of_mem _ (ih h)

theorem mapGet_append (m1 m2 : List (Nat × β)) (k : Nat) :
    mapGet (m1 ++ m2) k = (mapGet m1 k).orElse (fun _ => mapGet m2 k) := by
  induction m1 with
  | nil => simp [mapGet_nil]
  | cons kv m ih =>
    rw [List.cons_append, mapGet_cons, mapGet_cons]
    by_cases h : kv.1 = k
    · simp [h]
    · simp [h, ih]

theorem mapGet_mapSet_same (m : List (Nat × β)) (k : Nat) (v : β) :
    mapGet (mapSet m k v) k = some v := by
  unfold mapSet
  split
  · rename_i h
    induction m with
    | nil => simp [mapGet_nil] at h
    | cons kv m ih =>
      rw [List.map_cons, mapGet_cons]
      by_cases hk : kv.1 = k
      · simp [hk]
      · rw [mapGet_cons, if_neg hk] at h
        simp only [hk, if_false]
        exact ih h
  · rename_i h
    have hn : mapGet m k = none := by
      cases hm : mapGet m k with
      | none => rfl
      | some x => rw [hm] at h; simp at h
    rw [mapGet_append, hn]
    simp [mapGet_cons]

theorem mapGet_map_replace (m : List (Nat × β)) (k k2 : Nat) (v : β) (h : k2 ≠ k) :
    mapGet (m.map (fun kv => if kv.1 = k then (k, v) else kv)) k2 = mapGet m k2 := by
  induction m with
  | nil => rfl
  | cons kv m ih =>
    rw [List.map_cons, mapGet_cons, mapGet_cons]
    by_cases hk : kv.1 = k
    · simp only [hk, if_true]
      rw [if_neg (Ne.symm h), if_neg (Ne.symm h)]
      exact ih
    · simp only [hk, if_false]
      rw [ih]

theorem mapGet_mapSet_other (m : List (Nat × β)) (k k2 : Nat) (v : β) (h : k2 ≠ k) :
    mapGet (mapSet m k v) k2 = mapGet m k2 := by
  unfold mapSet
  split
  · exact mapGet_map_replace m k k2 v h
  · rw [mapGet_append]
    simp [mapGet_cons, mapGet_nil, Ne.symm h]

theorem mapRange_mem {order : MapOrder} {key : List Nat} {m : List (Nat × β)} {kv : Nat × β}
    (h : kv ∈ mapRange order key m) : mapGet m kv.1 = some kv.2 := by
  unfold mapRange at h
  rw [List.mem_filterMap] at h
  obtain ⟨k, _, hk⟩ := h
  cases hm : mapGet m k with
  | none => rw [hm] at hk; simp at hk
  | some v =>
    rw [hm] at hk
    simp only [Option.map_some', Option.some.injEq] at hk
    rw [← hk]; exact hm

end MapLemmas
section FoldLemmas

theorem foldlM_option_invariant {α σ : Type} (f : σ → α → Option σ) (Q : σ → Prop)
    (l : List α) : ∀ (init r : σ), Q init →
    (∀ acc x r, x ∈ l → Q acc → f acc x = some r → Q r) →
    l.foldlM f init = some r → Q r := by
  induction l with
  | nil =>
    intro init r h0 _ h
    simp only [List.foldlM_nil] at h
    cases h; exact h0
  | cons a l ih =>
    intro init r h0 hstep h
    rw [List.foldlM_cons] at h
    cases hf : f init a with
    | none => rw [hf] at h; simp at h
    | some s =>
      rw [hf] at h
      simp only [Option.some_bind, Option.bind_eq_bind] at h
      exact ih s r (hstep init a s (List.mem_cons_self _ _) h0 hf)
        (fun acc x r hx => hstep acc x r (List.mem_cons_of_mem _ hx)) h

theorem foldl_invariant {α σ : Type} (f : σ → α → σ) (Q : σ → Prop) (l : List α) :
    ∀ init : σ, Q init → (∀ acc x, x ∈ l → Q acc → Q (f acc x)) → Q (l.foldl f init) := by
  induction l with
  | nil => intro init h0 _; exact h0
  | cons a l ih =>
    intro init h0 hstep
    rw [List.foldl_cons]
    exact ih _ (hstep init a (List.mem_cons_self _ _) h0)
      (fun acc x hx => hstep acc x (List.mem_cons_of_mem _ hx))

end FoldLemmas

section ClosestPathLemmas

variable {K : Type} [LinearOrderedField K] [FloorRing K]

/-- Every initial entry is the entry the first loop builds for its edge. -/
theorem initialEntries_get (sqrt : K → K) (graph : Graph K) (candidates : List Nat)
    (p0 : Point K) (radius : K) (k : Nat) (v : Entry K)
    (h : mapGet (initialEntries sqrt graph candidates p0 radius) k = some v) :
    v = { MaxDistance := (((Edge.Segment graph k).Distance sqrt p0 : K) : WithTop K),
          EdgePos := Edge.ClosestPos sqrt graph k p0, Nodes := [],
          CurDistance := (((Edge.Segment graph k).Distance sqrt p0 : K) : WithTop K),
          EndpointDistance := 0 } := by
  unfold initialEntries at h
  refine foldl_invariant _ (fun entries => ∀ k v, mapGet entries k = some v →
    v = { MaxDistance := (((Edge.Segment graph k).Distance sqrt p0 : K) : WithTop K),
          EdgePos := Edge.ClosestPos sqrt graph k p0, Nodes := [],
          CurDistance := (((Edge.Segment graph k).Distance sqrt p0 : K) : WithTop K),
          EndpointDistance := 0 }) candidates [] ?_ ?_ k v h
  · intro k v h; simp [mapGet_nil] at h
  · intro acc edge _ hacc k v h
    simp only at h
    split at h
    · exact hacc k v h
    · by_cases hk : k = edge
      · subst hk
        rw [mapGet_mapSet_same] at h
        exact (Option.some.inj h).symm
      · rw [mapGet_mapSet_other _ _ _ _ hk] at h
        exact hacc k v h

theorem closestPathEdge_tablesFrom (order : MapOrder) (sqrt : K → K) (graph : NodePathsGraph K)
    (radius : K) (i : Nat) (prevPoint curPoint : Point K) (prevEntries : List (Nat × Entry K))
    (tables r : StepTables K) (edge : Nat)
    (h0 : TablesFrom sqrt graph prevPoint curPoint prevEntries tables)
    (h : closestPathEdge order sqrt graph radius i prevPoint curPoint prevEntries tables edge =
      some r) :
    TablesFrom sqrt graph prevPoint curPoint prevEntries r := by
  unfold closestPathEdge at h
  split at h
  · cases h; exact h0
  · refine foldlM_option_invariant _ (TablesFrom sqrt graph prevPoint curPoint prevEntries)
      _ tables r h0 ?_ h
    intro acc kv r' hkv hacc hstep
    have hprev := mapRange_mem hkv
    simp only at hstep
    split at hstep
    · simp at hstep
    · cases hstep; exact hacc
    · rename_i entry hentry
      split at hstep
      · cases hstep
        intro e y hy
        by_cases he : e = edge
        · subst he
          rw [mapGet_mapSet_same] at hy
          cases hy
          exact ⟨kv.1, kv.2, hprev, hentry, mapGet_mapSet_same _ _ _⟩
        · rw [mapGet_mapSet_other _ _ _ _ he] at hy ⊢
          exact hacc e y hy
      · cases hstep; exact hacc

theorem closestPathStep_tablesFrom (order : MapOrder) (sqrt : K → K) (graph : NodePathsGraph K)
    (edgeIndex : GraphGridIndex K) (radius : K) (i : Nat) (prevPoint curPoint : Point K)
    (prevEntries : List (Nat × Entry K)) (r : StepTables K)
    (h : closestPathStep order sqrt graph edgeIndex radius i prevPoint curPoint prevEntries =
      some r) :
    TablesFrom sqrt graph prevPoint curPoint prevEntries r := by
  unfold closestPathStep at h
  split at h
  · simp at h
  · refine foldlM_option_invariant _ (TablesFrom sqrt graph prevPoint curPoint prevEntries)
      _ ([], []) r ?_ ?_ h
    · intro e y hy; simp [mapGet_nil] at hy
    · intro acc edge r' _ hacc hstep
      exact closestPathEdge_tablesFrom order sqrt graph radius i prevPoint curPoint prevEntries
        acc r' edge hacc hstep

theorem bestEndEntry_mem (order : MapOrder) (lastEntries : List (Nat × Entry K)) (b : Entry K)
    (h : bestEndEntry order lastEntries = some b) :
    ∃ k, mapGet lastEntries k = some b := by
  unfold bestEndEntry at h
  refine foldl_invariant _ (fun best => ∀ b, best = some b → ∃ k, mapGet lastEntries k = some b)
    (mapRange order [2] lastEntries) none ?_ ?_ b h
  · intro b hb; simp at hb
  · intro acc kv hkv hacc b hb
    have hprev := mapRange_mem hkv
    simp only at hb
    split at hb
    · cases hb; exact ⟨kv.1, hprev⟩
    · split at hb
      · cases hb; exact ⟨kv.1, hprev⟩
      · exact hacc b hb

end ClosestPathLemmas
section ClosestPathLemmas2

variable {K : Type} [LinearOrderedField K] [FloorRing K]

/-- The point of the closest position is the projected point. -/
theorem closestPos_point_eq (sqrt : K → K) (graph : Graph K) (edge : Nat) (p : Point K) :
    (Edge.ClosestPos sqrt graph edge p).Point sqrt graph =
      (Edge.Segment graph edge).ProjectPoint sqrt p := by
  simp only [EdgePos.Point, Edge.ClosestPos, Segment.ProjectPoint, Segment.PointAtFactor,
    Segment.Project]
  by_cases hl : (Edge.Segment graph edge).Length sqrt = 0
  · simp [hl]
  · simp [hl]

theorem frechetRec_ge_first {α : Type} [LinearOrder α] (d : Nat → Nat → α) (i j : Nat) :
    d 0 0 ≤ frechetRec d i j := by
  induction i, j using frechetRec.induct d with
  | case1 => simp [frechetRec]
  | case2 i ih => rw [frechetRec]; exact le_trans ih (le_max_left _ _)
  | case3 j ih => rw [frechetRec]; exact le_trans ih (le_max_left _ _)
  | case4 i j ih1 ih2 ih3 =>
    rw [frechetRec]
    exact le_trans (le_min (le_min ih1 ih2) ih3) (le_max_left _ _)

/-- The result of `ComputeFrechetDistance` is at least the distance of the first points. -/
theorem ComputeFrechetDistance_ge_first (sqrt : K → K) (a : Point K) (as : List (Point K))
    (b : Point K) (bs : List (Point K)) (c : WithTop K)
    (h : ComputeFrechetDistance sqrt (a :: as) (b :: bs) = some c) :
    ((a.Distance sqrt b : K) : WithTop K) ≤ c := by
  rw [ComputeFrechetDistance_eq_frechetRec sqrt _ _ (by simp) (by simp)] at h
  cases h
  exact WithTop.coe_le_coe.mpr (frechetRec_ge_first (pairDist sqrt (a :: as) (b :: bs)) _ _)

/-- What a successful `transitionEntry` returns. -/
theorem transitionEntry_spec (sqrt : K → K) (graph : NodePathsGraph K)
    (prevPoint curPoint : Point K) (edge : Nat) (prev y : Entry K)
    (h : transitionEntry sqrt graph prevPoint curPoint edge prev = some (some y)) :
    y.EdgePos.Edge = edge ∧
    ComputeFrechetDistance sqrt
      ([prev.EdgePos.Point sqrt graph.Graph] ++
        y.Nodes.map (fun node => (graph.Graph.node node).Point) ++
        [y.EdgePos.Point sqrt graph.Graph]) [prevPoint, curPoint] = some y.CurDistance ∧
    y.MaxDistance = max prev.MaxDistance y.CurDistance := by
  unfold transitionEntry at h
  simp only at h
  split at h
  · simp at h
  · simp at h
  · rename_i shortestPath hsp
    split at h
    · simp at h
    · rename_i curDistance hcur
      simp only [Option.some.injEq] at h
      subst h
      refine ⟨?_, hcur, rfl⟩
      simp only
      split <;> simp [Edge.ClosestPos]

end ClosestPathLemmas2
section C3

variable {K : Type} [LinearOrderedField K] [FloorRing K]

theorem initialEntries_get_edge (sqrt : K → K) (graph : Graph K) (candidates : List Nat)
    (p0 : Point K) (radius : K) (k : Nat) (v : Entry K)
    (h : mapGet (initialEntries sqrt graph candidates p0 radius) k = some v) :
    v.EdgePos = Edge.ClosestPos sqrt graph k p0 ∧
    v.MaxDistance = (((v.EdgePos.Point sqrt graph).Distance sqrt p0 : K) : WithTop K) := by
  have e := initialEntries_get sqrt graph candidates p0 radius k v h
  subst e
  refine ⟨rfl, ?_⟩
  simp only [closestPos_point_eq]
  rfl

/-- C3 (amended): for an input polyline of one or two points for which
`GetClosestPath` returns a path, the returned distance is `ComputeFrechetDistance` of
the returned path's point sequence (start position point, path node points, end
position point) against the input polyline. -/
theorem GetClosestPath_distance_of_short (order : MapOrder) (sqrt : K → K)
    (graph : NodePathsGraph K) (path : List (Point K)) (radius : K) (hlen : path.length ≤ 2)
    (p : GraphPath K) (d : WithTop K)
    (h : GetClosestPath order sqrt graph path radius = some (some p, d)) :
    ComputeFrechetDistance sqrt (p.points sqrt graph.Graph) path = some d := by
  unfold GetClosestPath at h
  simp only at h
  split at h
  · simp at h
  · rename_i p0 rest
    split at h
    · simp at h
    · rename_i candidates hcand
      split at h
      · simp at h
      · rename_i done hdone
        split at h
        · simp at h
        · rename_i best hbest
          split at h
          · simp at h
          · rename_i curEdgeID nodeSeq hfollow
            split at h
            · simp at h
            · rename_i first hfirst
              simp only [Option.some.injEq, Prod.mk.injEq] at h
              obtain ⟨hp, hd⟩ := h
              subst hp hd
              cases rest with
              | nil =>
                -- one point: the result is an initial entry
                simp only [closestPathLoop, Option.some.injEq] at hdone
                subst hdone
                simp only [followPath, Option.some.injEq, Prod.mk.injEq] at hfollow
                obtain ⟨hk, hn⟩ := hfollow
                subst hk hn
                obtain ⟨k, hk⟩ := bestEndEntry_mem order _ best hbest
                obtain ⟨hb1, hb2⟩ := initialEntries_get_edge sqrt _ _ _ _ k best hk
                obtain ⟨hf1, _⟩ := initialEntries_get_edge sqrt _ _ _ _ _ first hfirst
                have hedge : best.EdgePos.Edge = k := by rw [hb1]; rfl
                have hfb : first.EdgePos = best.EdgePos := by rw [hf1, hedge, hb1]
                rw [hb2]
                simp only [GraphPath.points, hfb, List.map_nil, List.append_nil]
                rw [ComputeFrechetDistance_singleton sqrt _ _ (by simp)]
                congr 2
                apply le_antisymm
                · rw [Finset.sup'_le_iff]
                  intro i hi
                  have hi' : i < 2 := by simpa using hi
                  interval_cases i <;> simp
                · exact Finset.le_sup' (fun i => Point.Distance sqrt
                    (([best.EdgePos.Point sqrt graph.Graph] ++
                      [best.EdgePos.Point sqrt graph.Graph]).getD i default) p0)
                    (Finset.mem_range.mpr (show 0 < _ by simp))
              | cons p1 rest2 =>
                cases rest2 with
                | cons p2 rest3 => simp at hlen
                | nil =>
                  simp only [closestPathLoop] at hdone
                  split at hdone
                  · simp at hdone
                  · rename_i tables htables
                    simp only [Option.some.injEq] at hdone
                    subst hdone
                    have hfrom := closestPathStep_tablesFrom order sqrt graph _ radius 1 p0 p1 _
                      tables htables
                    obtain ⟨k2, hk2⟩ := bestEndEntry_mem order _ best hbest
                    obtain ⟨k, prev, hprev, htrans, hbp⟩ := hfrom k2 best hk2
                    obtain ⟨hedge, hcur, hmax⟩ :=
                      transitionEntry_spec sqrt graph p0 p1 k2 prev best htrans
                    simp only [followPath, hedge, hk2, hbp, Option.getD_some, List.append_nil,
                      Option.some.injEq, Prod.mk.injEq] at hfollow
                    obtain ⟨hk, hn⟩ := hfollow
                    subst hk hn
                    rw [hprev] at hfirst
                    have hfp : prev = first := Option.some.inj hfirst
                    subst hfp
                    obtain ⟨_, hpm⟩ := initialEntries_get_edge sqrt _ _ _ _ k prev hprev
                    have hge := ComputeFrechetDistance_ge_first sqrt _ _ _ _ _ hcur
                    rw [← hpm] at hge
                    rw [hmax, max_eq_right hge]
                    exact hcur

end C3
section C3ce

theorem oneEdgeGraph_eq {K : Type} [LinearOrderedField K] : (oneEdgeGraph : NodePathsGraph K) =
    ⟨⟨[⟨⟨0, 0⟩, [0]⟩, ⟨⟨8, 0⟩, []⟩], [⟨0, 1⟩]⟩, []⟩ := rfl

theorem oneEdge_segment {K : Type} [LinearOrderedField K] :
    Edge.Segment (oneEdgeGraph : NodePathsGraph K).Graph 0 = ⟨⟨0, 0⟩, ⟨8, 0⟩⟩ := rfl

theorem goInt64_of_range (z : Int) (h1 : -2 ^ 63 ≤ z) (h2 : z < 2 ^ 63) : goInt64 z = z := by
  unfold goInt64
  rw [if_pos ⟨h1, h2⟩]

theorem goInt64_zero : goInt64 0 = 0 := goInt64_of_range 0 (by norm_num) (by norm_num)

theorem goInt64_neg_one : goInt64 (-1) = -1 := goInt64_of_range (-1) (by norm_num) (by norm_num)

theorem floor_eq_of {K : Type} [LinearOrderedField K] [FloorRing K] (x : K) (n : ℤ)
    (h1 : (n : K) ≤ x) (h2 : x < n + 1) : ⌊x⌋ = n := by
  rw [Int.floor_eq_iff]; exact ⟨h1, h2⟩

theorem real_sqrt_sq (x : ℝ) (hx : 0 ≤ x) : Real.sqrt (x * x) = x := Real.sqrt_mul_self hx

theorem oneEdge_search (order : List Nat → List Nat) (p : Point ℝ)
    (hx2 : p.X - 10 < 0) (hx3 : 0 ≤ p.X + 10)
    (hy2 : p.Y - 10 < 0) (hy3 : 0 ≤ p.Y + 10) :
    GraphGridIndex.Search order (Graph.GridIndex (oneEdgeGraph : NodePathsGraph ℝ).Graph (10 * 8))
      (p.Bounds.AddTol 10) =
      if (order [0]).all (fun e => e < 1) then some (order [0]) else none := by
  have ha : ⌊(8 : ℝ) / (10 * 8)⌋ = 0 := floor_eq_of _ _ (by norm_num) (by norm_num)
  have hb : ⌊(p.X - 10) / (10 * 8)⌋ = -1 := floor_eq_of _ _ (by norm_num; linarith) (by norm_num; linarith)
  have hc : ⌊(p.X + 10) / (10 * 8)⌋ = 0 := floor_eq_of _ _ (by norm_num; linarith) (by norm_num; linarith)
  have hd : ⌊(p.Y - 10) / (10 * 8)⌋ = -1 := floor_eq_of _ _ (by norm_num; linarith) (by norm_num; linarith)
  have he : ⌊(p.Y + 10) / (10 * 8)⌋ = 0 := floor_eq_of _ _ (by norm_num; linarith) (by norm_num; linarith)
  simp [oneEdgeGraph_eq, Graph.GridIndex, NewGridIndex, GridIndex.Insert, GridIndex.eachCell,
    Edge.Segment, Graph.node, Graph.edge, Segment.Bounds, Point.Rectangle, Point.RectangleTol, Rectangle.Extend,
    Point.Sub, Point.Add, intRange, List.range, List.range.loop, GraphGridIndex.Search, GridIndex.Search,
    Point.Bounds, Rectangle.AddTol, ha, hb, hc, hd, he, goInt64_zero, goInt64_neg_one,
    Function.update]

theorem sqrt9 : Real.sqrt 9 = 3 := by
  rw [show (9 : ℝ) = 3 * 3 by norm_num]; exact Real.sqrt_mul_self (by norm_num)
theorem sqrt16 : Real.sqrt 16 = 4 := by
  rw [show (16 : ℝ) = 4 * 4 by norm_num]; exact Real.sqrt_mul_self (by norm_num)
theorem sqrt25 : Real.sqrt 25 = 5 := by
  rw [show (25 : ℝ) = 5 * 5 by norm_num]; exact Real.sqrt_mul_self (by norm_num)
theorem sqrt64 : Real.sqrt 64 = 8 := by
  rw [show (64 : ℝ) = 8 * 8 by norm_num]; exact Real.sqrt_mul_self (by norm_num)

theorem oneEdge_initial :
    initialEntries Real.sqrt (oneEdgeGraph : NodePathsGraph ℝ).Graph [0] ⟨0, 0⟩ 10 =
      [(0, ⟨((0 : ℝ) : WithTop ℝ), ⟨0, 0⟩, [], ((0 : ℝ) : WithTop ℝ), 0⟩)] := by
  norm_num [initialEntries, oneEdge_segment, Segment.Distance, Segment.ProjectPoint,
    Segment.Project, Segment.PointAtFactor, Segment.Length, Point.Distance, Point.Sub, Point.Dot,
    Point.Add, Point.Scale, sqrt64, mapSet, mapGet, Edge.ClosestPos]

theorem oneEdge_step1 :
    transitionEntry Real.sqrt (oneEdgeGraph : NodePathsGraph ℝ) ⟨0, 0⟩ ⟨4, 3⟩ 0
      ⟨((0 : ℝ) : WithTop ℝ), ⟨0, 0⟩, [], ((0 : ℝ) : WithTop ℝ), 0⟩ =
    some (some ⟨((3 : ℝ) : WithTop ℝ), ⟨0, 4⟩, [], ((3 : ℝ) : WithTop ℝ), 3⟩) := by
  have hc : ComputeFrechetDistance Real.sqrt [(⟨0, 0⟩ : Point ℝ), ⟨4, 0⟩] [⟨0, 0⟩, ⟨4, 3⟩] =
      some ((3 : ℝ) : WithTop ℝ) := by
    rw [ComputeFrechetDistance_eq_frechetRec _ _ _ (by simp) (by simp)]
    norm_num [frechetRec, pairDist, Point.Distance, sqrt9, sqrt16, sqrt25, max_def, min_def]
  norm_num [transitionEntry, oneEdge_segment, Segment.Project, Segment.PointAtFactor,
    Segment.Length, Point.Distance, Point.Sub, Point.Dot, Point.Add, Point.Scale, sqrt64, sqrt9,
    Edge.ClosestPos, EdgePos.Point, max_def, min_def, hc]

theorem oneEdge_step2 :
    transitionEntry Real.sqrt (oneEdgeGraph : NodePathsGraph ℝ) ⟨4, 3⟩ ⟨8, 0⟩ 0
      ⟨((3 : ℝ) : WithTop ℝ), ⟨0, 4⟩, [], ((3 : ℝ) : WithTop ℝ), 3⟩ =
    some (some ⟨((3 : ℝ) : WithTop ℝ), ⟨0, 8⟩, [], ((3 : ℝ) : WithTop ℝ), 3⟩) := by
  have hc : ComputeFrechetDistance Real.sqrt [(⟨4, 0⟩ : Point ℝ), ⟨8, 0⟩] [⟨4, 3⟩, ⟨8, 0⟩] =
      some ((3 : ℝ) : WithTop ℝ) := by
    rw [ComputeFrechetDistance_eq_frechetRec _ _ _ (by simp) (by simp)]
    norm_num [frechetRec, pairDist, Point.Distance, sqrt9, sqrt16, sqrt25, max_def, min_def]
  norm_num [transitionEntry, oneEdge_segment, Segment.Project, Segment.PointAtFactor,
    Segment.Length, Point.Distance, Point.Sub, Point.Dot, Point.Add, Point.Scale, sqrt64, sqrt9,
    Edge.ClosestPos, EdgePos.Point, max_def, min_def, hc]

theorem oneEdge_distance (p : Point ℝ) (hp : p = ⟨4, 3⟩ ∨ p = ⟨8, 0⟩) :
    ¬ (Edge.Segment (oneEdgeGraph : NodePathsGraph ℝ).Graph 0).Distance Real.sqrt p > 10 := by
  rcases hp with rfl | rfl <;>
  norm_num [oneEdge_segment, Segment.Distance, Segment.ProjectPoint,
    Segment.Project, Segment.PointAtFactor, Segment.Length, Point.Distance, Point.Sub, Point.Dot,
    Point.Add, Point.Scale, sqrt64, sqrt9, max_def, min_def]

theorem mapRange_insertion {β : Type} (key : List Nat) (k : Nat) (v : β) :
    mapRange MapOrder.insertion key [(k, v)] = [(k, v)] := by
  simp [mapRange, mapGet, MapOrder.insertion]

theorem oneEdge_edge1 :
    closestPathEdge MapOrder.insertion Real.sqrt (oneEdgeGraph : NodePathsGraph ℝ) 10 1
      ⟨0, 0⟩ ⟨4, 3⟩ [(0, ⟨((0 : ℝ) : WithTop ℝ), ⟨0, 0⟩, [], ((0 : ℝ) : WithTop ℝ), 0⟩)]
      ([], []) 0 =
    some ([(0, ⟨((3 : ℝ) : WithTop ℝ), ⟨0, 4⟩, [], ((3 : ℝ) : WithTop ℝ), 3⟩)], [(0, 0)]) := by
  unfold closestPathEdge
  rw [if_neg (oneEdge_distance ⟨4, 3⟩ (Or.inl rfl)), mapRange_insertion]
  simp only [List.foldlM_cons, List.foldlM_nil, oneEdge_step1]
  rfl

theorem oneEdge_edge2 :
    closestPathEdge MapOrder.insertion Real.sqrt (oneEdgeGraph : NodePathsGraph ℝ) 10 2
      ⟨4, 3⟩ ⟨8, 0⟩ [(0, ⟨((3 : ℝ) : WithTop ℝ), ⟨0, 4⟩, [], ((3 : ℝ) : WithTop ℝ), 3⟩)]
      ([], []) 0 =
    some ([(0, ⟨((3 : ℝ) : WithTop ℝ), ⟨0, 8⟩, [], ((3 : ℝ) : WithTop ℝ), 3⟩)], [(0, 0)]) := by
  unfold closestPathEdge
  rw [if_neg (oneEdge_distance ⟨8, 0⟩ (Or.inr rfl)), mapRange_insertion]
  simp only [List.foldlM_cons, List.foldlM_nil, oneEdge_step2]
  rfl

/-- The run of `GetClosestPath` on the one-edge graph and the input
`[(0,0), (4,3), (8,0)]` with radius 10: it returns the whole edge and distance 3. -/
theorem oneEdge_GetClosestPath :
    GetClosestPath MapOrder.insertion Real.sqrt (oneEdgeGraph : NodePathsGraph ℝ)
      [⟨0, 0⟩, ⟨4, 3⟩, ⟨8, 0⟩] 10 =
    some (some ⟨⟨0, 0⟩, [], ⟨0, 8⟩⟩, ((3 : ℝ) : WithTop ℝ)) := by
  have s0 := oneEdge_search (MapOrder.insertion [0, 0]) ⟨0, 0⟩ (by norm_num) (by norm_num)
    (by norm_num) (by norm_num)
  have s1 := oneEdge_search (MapOrder.insertion [0, 1]) ⟨4, 3⟩ (by norm_num) (by norm_num)
    (by norm_num) (by norm_num)
  have s2 := oneEdge_search (MapOrder.insertion [0, 2]) ⟨8, 0⟩ (by norm_num) (by norm_num)
    (by norm_num) (by norm_num)
  simp only [MapOrder.insertion, List.all_cons, List.all_nil, Nat.lt_one_iff, decide_True,
    Bool.and_self, if_true] at s0 s1 s2
  simp only [GetClosestPath, closestPathLoop, closestPathStep, MapOrder.insertion, s0, s1, s2,
    oneEdge_initial, List.foldlM_cons, List.foldlM_nil]
  have e1 := oneEdge_edge1
  have e2 := oneEdge_edge2
  simp only [MapOrder.insertion] at e1 e2
  simp only [e1, e2, Option.pure_def, Option.bind_eq_bind, Option.some_bind]
  rfl

/-- C3 (counterexample): on the graph with the single edge `(0,0) → (8,0)` and the
input `[(0,0), (4,3), (8,0)]` with radius 10, `GetClosestPath` returns a path and
the distance 3, while `ComputeFrechetDistance` of the returned path's point sequence
`[(0,0), (8,0)]` against the input is 5. -/
theorem GetClosestPath_distance_counterexample :
    GetClosestPath MapOrder.insertion Real.sqrt (oneEdgeGraph : NodePathsGraph ℝ)
      [⟨0, 0⟩, ⟨4, 3⟩, ⟨8, 0⟩] 10 =
      some (some ⟨⟨0, 0⟩, [], ⟨0, 8⟩⟩, ((3 : ℝ) : WithTop ℝ)) ∧
    ComputeFrechetDistance Real.sqrt
      ((⟨⟨0, 0⟩, [], ⟨0, 8⟩⟩ : GraphPath ℝ).points Real.sqrt
        (oneEdgeGraph : NodePathsGraph ℝ).Graph) [⟨0, 0⟩, ⟨4, 3⟩, ⟨8, 0⟩] =
      some ((5 : ℝ) : WithTop ℝ) ∧
    some ((5 : ℝ) : WithTop ℝ) ≠ some ((3 : ℝ) : WithTop ℝ) := by
  refine ⟨oneEdge_GetClosestPath, ?_, ?_⟩
  · have hpts : (⟨⟨0, 0⟩, [], ⟨0, 8⟩⟩ : GraphPath ℝ).points Real.sqrt
        (oneEdgeGraph : NodePathsGraph ℝ).Graph = [⟨0, 0⟩, ⟨8, 0⟩] := by
      norm_num [GraphPath.points, EdgePos.Point, oneEdge_segment, Segment.PointAtFactor,
        Segment.Length, Point.Distance, Point.Sub, Point.Add, Point.Scale, sqrt64]
    rw [hpts, ComputeFrechetDistance_eq_frechetRec _ _ _ (by simp) (by simp)]
    norm_num [frechetRec, pairDist, Point.Distance, sqrt9, sqrt16, sqrt25, sqrt64, max_def,
      min_def]
  · intro h
    have h2 : ((5 : ℝ) : WithTop ℝ) = ((3 : ℝ) : WithTop ℝ) := Option.some.inj h
    have h3 : (5 : ℝ) = 3 := WithTop.coe_injective h2
    norm_num at h3

theorem oneEdge_GetClosestPath_two :
    GetClosestPath MapOrder.insertion Real.sqrt (oneEdgeGraph : NodePathsGraph ℝ)
      [⟨0, 0⟩, ⟨4, 3⟩] 10 =
    some (some ⟨⟨0, 0⟩, [], ⟨0, 4⟩⟩, ((3 : ℝ) : WithTop ℝ)) := by
  have s0 := oneEdge_search (MapOrder.insertion [0, 0]) ⟨0, 0⟩ (by norm_num) (by norm_num)
    (by norm_num) (by norm_num)
  have s1 := oneEdge_search (MapOrder.insertion [0, 1]) ⟨4, 3⟩ (by norm_num) (by norm_num)
    (by norm_num) (by norm_num)
  simp only [MapOrder.insertion, List.all_cons, List.all_nil, Nat.lt_one_iff, decide_True,
    Bool.and_self, if_true] at s0 s1
  simp only [GetClosestPath, closestPathLoop, closestPathStep, MapOrder.insertion, s0, s1,
    oneEdge_initial, List.foldlM_cons, List.foldlM_nil]
  have e1 := oneEdge_edge1
  simp only [MapOrder.insertion] at e1
  simp only [e1, Option.pure_def, Option.bind_eq_bind, Option.some_bind]
  rfl

theorem GetClosestPath_distance_of_short_witness :
    ([⟨0, 0⟩, ⟨4, 3⟩] : List (Point ℝ)).length ≤ 2 ∧
    GetClosestPath MapOrder.insertion Real.sqrt (oneEdgeGraph : NodePathsGraph ℝ)
      [⟨0, 0⟩, ⟨4, 3⟩] 10 = some (some ⟨⟨0, 0⟩, [], ⟨0, 4⟩⟩, ((3 : ℝ) : WithTop ℝ)) ∧
    ComputeFrechetDistance Real.sqrt
      ((⟨⟨0, 0⟩, [], ⟨0, 4⟩⟩ : GraphPath ℝ).points Real.sqrt
        (oneEdgeGraph : NodePathsGraph ℝ).Graph) [⟨0, 0⟩, ⟨4, 3⟩] =
      some ((3 : ℝ) : WithTop ℝ) :=
  ⟨by simp, oneEdge_GetClosestPath_two,
    GetClosestPath_distance_of_short MapOrder.insertion Real.sqrt oneEdgeGraph _ 10 (by simp) _ _
      oneEdge_GetClosestPath_two⟩

end C3ce
section KeyLemmas

variable {K : Type} [LinearOrderedField K]

/-- The closure `less` is the strict lexicographic order of the keys. -/
theorem Entry.less_iff (a b : Entry K) : a.less b = true ↔ a.key < b.key := by
  unfold Entry.less Entry.key
  rw [Prod.Lex.lt_iff]
  simp only
  by_cases h1 : a.MaxDistance < b.MaxDistance
  · simp [h1]
  · by_cases h1e : a.MaxDistance = b.MaxDistance
    · rw [if_neg h1, if_pos h1e, Prod.Lex.lt_iff]
      simp only
      by_cases h2 : a.CurDistance < b.CurDistance
      · simp [h2, h1e]
      · by_cases h2e : a.CurDistance = b.CurDistance
        · rw [if_neg h2, if_pos h2e, Prod.Lex.lt_iff]
          simp only
          by_cases h3 : a.EndpointDistance < b.EndpointDistance
          · simp [h3, h1e, h2e]
          · by_cases h3e : a.EndpointDistance = b.EndpointDistance
            · simp [h1e, h2e, h3e]
            · simp [h1, h1e, h2, h2e, h3, h3e]
        · simp [h1, h1e, h2, h2e]
    · simp [h1, h1e]

theorem Entry.less_eq_false_iff (a b : Entry K) : a.less b = false ↔ b.key ≤ a.key := by
  rw [← not_lt, ← Entry.less_iff]
  simp

end KeyLemmas
section FoldLemmas2

theorem foldlM_option_isSome {α σ : Type} (f : σ → α → Option σ) (l : List α) :
    ∀ init : σ, (∀ acc x, x ∈ l → ∃ r, f acc x = some r) → ∃ r, l.foldlM f init = some r := by
  induction l with
  | nil => intro init _; exact ⟨init, rfl⟩
  | cons a l ih =>
    intro init h
    obtain ⟨s, hs⟩ := h init a (List.mem_cons_self _ _)
    obtain ⟨r, hr⟩ := ih s (fun acc x hx => h acc x (List.mem_cons_of_mem _ hx))
    exact ⟨r, by rw [List.foldlM_cons, hs]; exact hr⟩

theorem foldlM_option_establish {α σ : Type} (f : σ → α → Option σ) (P : σ → Prop)
    (l : List α) (x0 : α) (hx0 : x0 ∈ l) :
    ∀ (init r : σ), (∀ acc r2, f acc x0 = some r2 → P r2) →
    (∀ acc x r2, P acc → f acc x = some r2 → P r2) →
    l.foldlM f init = some r → P r := by
  induction l with
  | nil => simp at hx0
  | cons a l ih =>
    intro init r hest hpres h
    rw [List.foldlM_cons] at h
    cases hf : f init a with
    | none => rw [hf] at h; simp at h
    | some s =>
      rw [hf] at h
      simp only [Option.some_bind, Option.bind_eq_bind] at h
      rcases List.mem_cons.mp hx0 with hx | hx
      · subst hx
        exact foldlM_option_invariant f P l s r (hest init s hf)
          (fun acc x r2 _ => hpres acc x r2) h
      · exact ih hx s r hest hpres h

end FoldLemmas2

section MapRange

variable {β : Type}

theorem mapRange_cover {order : MapOrder} (horder : order.Valid) (key : List Nat)
    (m : List (Nat × β)) (k : Nat) (v : β) (h : mapGet m k = some v) :
    (k, v) ∈ mapRange order key m := by
  unfold mapRange
  rw [List.mem_filterMap]
  refine ⟨k, ?_, by rw [h]; rfl⟩
  rw [(horder key _).mem_iff]
  exact List.mem_map.mpr ⟨(k, v), mapGet_mem h, rfl⟩

end MapRange

section EdgeLemmas

variable {K : Type} [LinearOrderedField K] [FloorRing K]

/-- The loop over `entries[i - 1]`, on any list of visited entries: other keys are
untouched and the entry stored for `edge` is not beaten by the previous entry for
`edge` nor by any transition of a visited entry. -/
theorem closestPathEdge_loop (sqrt : K → K) (graph : NodePathsGraph K)
    (prevPoint curPoint : Point K) (edge : Nat) (l : List (Nat × Entry K)) :
    ∀ (tables r : StepTables K),
    l.foldlM (fun (tables : StepTables K) kv =>
      match transitionEntry sqrt graph prevPoint curPoint edge kv.2 with
      | none => none
      | some none => some tables
      | some (some entry) =>
        if (match mapGet tables.1 edge with
            | none => true
            | some old => entry.less old) then
          some (mapSet tables.1 edge entry, mapSet tables.2 edge kv.1)
        else some tables) tables = some r →
    (∀ e2, e2 ≠ edge → mapGet r.1 e2 = mapGet tables.1 e2) ∧
    (∀ yold, mapGet tables.1 edge = some yold → ∃ y, mapGet r.1 edge = some y ∧ y.key ≤ yold.key) ∧
    (∀ kv y2, kv ∈ l → transitionEntry sqrt graph prevPoint curPoint edge kv.2 = some (some y2) →
      ∃ y, mapGet r.1 edge = some y ∧ y.key ≤ y2.key) := by
  induction l with
  | nil =>
    intro tables r h
    simp only [List.foldlM_nil] at h
    cases h
    exact ⟨fun _ _ => rfl, fun yold h => ⟨yold, h, le_rfl⟩, fun kv y2 hkv => by simp at hkv⟩
  | cons a l ih =>
    intro tables r h
    rw [List.foldlM_cons] at h
    -- the state after the first visited entry
    cases ht : transitionEntry sqrt graph prevPoint curPoint edge a.2 with
    | none => rw [ht] at h; simp at h
    | some res =>
      cases res with
      | none =>
        rw [ht] at h
        simp only [Option.some_bind, Option.bind_eq_bind] at h
        obtain ⟨h1, h2, h3⟩ := ih tables r h
        refine ⟨h1, h2, ?_⟩
        intro kv y2 hkv hy2
        rcases List.mem_cons.mp hkv with hk | hk
        · subst hk; rw [ht] at hy2; simp at hy2
        · exact h3 kv y2 hk hy2
      | some entry =>
        rw [ht] at h
        simp only at h
        by_cases hc : (match mapGet tables.1 edge with
            | none => true
            | some old => entry.less old) = true
        · rw [if_pos hc] at h
          simp only [Option.some_bind, Option.bind_eq_bind] at h
          obtain ⟨h1, h2, h3⟩ := ih _ r h
          obtain ⟨y, hy, hyle⟩ := h2 entry (mapGet_mapSet_same _ _ _)
          refine ⟨?_, ?_, ?_⟩
          · intro e2 he2
            rw [h1 e2 he2]
            exact mapGet_mapSet_other _ _ _ _ he2
          · intro yold hyold
            rw [hyold] at hc
            simp only at hc
            exact ⟨y, hy, le_trans hyle (le_of_lt ((Entry.less_iff _ _).mp hc))⟩
          · intro kv y2 hkv hy2
            rcases List.mem_cons.mp hkv with hk | hk
            · subst hk
              rw [ht] at hy2
              simp only [Option.some.injEq] at hy2
              subst hy2
              exact ⟨y, hy, hyle⟩
            · exact h3 kv y2 hk hy2
        · rw [if_neg hc] at h
          simp only [Option.some_bind, Option.bind_eq_bind] at h
          obtain ⟨h1, h2, h3⟩ := ih tables r h
          refine ⟨h1, h2, ?_⟩
          intro kv y2 hkv hy2
          rcases List.mem_cons.mp hkv with hk | hk
          · subst hk
            rw [ht] at hy2
            simp only [Option.some.injEq] at hy2
            subst hy2
            cases hold : mapGet tables.1 edge with
            | none => rw [hold] at hc; simp at hc
            | some old =>
              rw [hold] at hc
              simp only [Bool.not_eq_true] at hc
              obtain ⟨y, hy, hyle⟩ := h2 old hold
              exact ⟨y, hy, le_trans hyle ((Entry.less_eq_false_iff _ _).mp hc)⟩
          · exact h3 kv y2 hk hy2

/-- Once an entry is stored for `edge` it stays, and each stored entry is not beaten
by the one it replaced. -/
theorem closestPathEdge_spec (order : MapOrder) (horder : order.Valid) (sqrt : K → K)
    (graph : NodePathsGraph K) (radius : K) (i : Nat) (prevPoint curPoint : Point K)
    (prevEntries : List (Nat × Entry K)) (tables r : StepTables K) (edge : Nat)
    (h : closestPathEdge order sqrt graph radius i prevPoint curPoint prevEntries tables edge =
      some r) :
    (∀ e2, e2 ≠ edge → mapGet r.1 e2 = mapGet tables.1 e2) ∧
    (∀ yold, mapGet tables.1 edge = some yold → ∃ y, mapGet r.1 edge = some y ∧ y.key ≤ yold.key) ∧
    (¬ (Edge.Segment graph.Graph edge).Distance sqrt curPoint > radius →
      ∀ k prev y2, mapGet prevEntries k = some prev →
        transitionEntry sqrt graph prevPoint curPoint edge prev = some (some y2) →
        ∃ y, mapGet r.1 edge = some y ∧ y.key ≤ y2.key) := by
  unfold closestPathEdge at h
  split at h
  · rename_i hfar
    cases h
    exact ⟨fun _ _ => rfl, fun yold h => ⟨yold, h, le_rfl⟩, fun hn => absurd hfar hn⟩
  · obtain ⟨h1, h2, h3⟩ := closestPathEdge_loop sqrt graph prevPoint curPoint edge _ tables r h
    refine ⟨h1, h2, ?_⟩
    intro _ k prev y2 hprev hy2
    exact h3 (k, prev) y2 (mapRange_cover horder _ _ k prev hprev) hy2

end EdgeLemmas
section StepLemmas

variable {K : Type} [LinearOrderedField K] [FloorRing K]

theorem closestPathEdge_minimal (order : MapOrder) (horder : order.Valid) (sqrt : K → K)
    (graph : NodePathsGraph K) (radius : K) (i : Nat) (prevPoint curPoint : Point K)
    (prevEntries : List (Nat × Entry K)) (tables r : StepTables K) (edge : Nat)
    (h0 : TablesMinimal sqrt graph prevPoint curPoint prevEntries tables)
    (h : closestPathEdge order sqrt graph radius i prevPoint curPoint prevEntries tables edge =
      some r) :
    TablesMinimal sqrt graph prevPoint curPoint prevEntries r := by
  obtain ⟨h1, h2, h3⟩ := closestPathEdge_spec order horder sqrt graph radius i prevPoint curPoint
    prevEntries tables r edge h
  intro e y hy k prev y2 hprev hy2
  by_cases he : e = edge
  · subst he
    by_cases hfar : (Edge.Segment graph.Graph e).Distance sqrt curPoint > radius
    · unfold closestPathEdge at h
      rw [if_pos hfar] at h
      cases h
      exact h0 e y hy k prev y2 hprev hy2
    · obtain ⟨y', hy', hle⟩ := h3 hfar k prev y2 hprev hy2
      rw [hy] at hy'
      cases hy'
      exact hle
  · rw [h1 e he] at hy
    exact h0 e y hy k prev y2 hprev hy2

theorem closestPathStep_minimal (order : MapOrder) (horder : order.Valid) (sqrt : K → K)
    (graph : NodePathsGraph K) (edgeIndex : GraphGridIndex K) (radius : K) (i : Nat)
    (prevPoint curPoint : Point K) (prevEntries : List (Nat × Entry K)) (r : StepTables K)
    (h : closestPathStep order sqrt graph edgeIndex radius i prevPoint curPoint prevEntries =
      some r) :
    TablesMinimal sqrt graph prevPoint curPoint prevEntries r := by
  unfold closestPathStep at h
  split at h
  · simp at h
  · refine foldlM_option_invariant _ (TablesMinimal sqrt graph prevPoint curPoint prevEntries)
      _ ([], []) r ?_ ?_ h
    · intro e y hy; simp [mapGet_nil] at hy
    · intro acc edge r' _ hacc hstep
      exact closestPathEdge_minimal order horder sqrt graph radius i prevPoint curPoint
        prevEntries acc r' edge hacc hstep

/-- An edge among the candidates, within the radius, with a transition that succeeds,
has an entry after the step. -/
theorem closestPathStep_present (order : MapOrder) (horder : order.Valid) (sqrt : K → K)
    (graph : NodePathsGraph K) (edgeIndex : GraphGridIndex K) (radius : K) (i : Nat)
    (prevPoint curPoint : Point K) (prevEntries : List (Nat × Entry K)) (r : StepTables K)
    (candidates : List Nat)
    (hcand : edgeIndex.Search (order [0, i]) (curPoint.Bounds.AddTol radius) = some candidates)
    (h : closestPathStep order sqrt graph edgeIndex radius i prevPoint curPoint prevEntries =
      some r)
    (edge : Nat) (hedge : edge ∈ candidates)
    (hnear : ¬ (Edge.Segment graph.Graph edge).Distance sqrt curPoint > radius)
    (k : Nat) (prev y2 : Entry K) (hprev : mapGet prevEntries k = some prev)
    (hy2 : transitionEntry sqrt graph prevPoint curPoint edge prev = some (some y2)) :
    ∃ y, mapGet r.1 edge = some y := by
  unfold closestPathStep at h
  rw [hcand] at h
  simp only at h
  refine foldlM_option_establish _ (fun tables : StepTables K => ∃ y, mapGet tables.1 edge = some y)
    candidates edge hedge ([], []) r ?_ ?_ h
  · intro acc r2 hr2
    obtain ⟨_, _, h3⟩ := closestPathEdge_spec order horder sqrt graph radius i prevPoint curPoint
      prevEntries acc r2 edge hr2
    obtain ⟨y, hy, _⟩ := h3 hnear k prev y2 hprev hy2
    exact ⟨y, hy⟩
  · intro acc x r2 hacc hr2
    obtain ⟨h1, h2, _⟩ := closestPathEdge_spec order horder sqrt graph radius i prevPoint curPoint
      prevEntries acc r2 x hr2
    obtain ⟨yold, hyold⟩ := hacc
    by_cases hx : edge = x
    · subst hx
      obtain ⟨y, hy, _⟩ := h2 yold hyold
      exact ⟨y, hy⟩
    · exact ⟨yold, by rw [h1 edge hx]; exact hyold⟩

/-- The step returns when the search does and no transition from an entry of
`entries[i - 1]` panics or loops. -/
theorem closestPathStep_isSome (order : MapOrder) (sqrt : K → K)
    (graph : NodePathsGraph K) (edgeIndex : GraphGridIndex K) (radius : K) (i : Nat)
    (prevPoint curPoint : Point K) (prevEntries : List (Nat × Entry K))
    (candidates : List Nat)
    (hcand : edgeIndex.Search (order [0, i]) (curPoint.Bounds.AddTol radius) = some candidates)
    (htotal : ∀ edge k prev, edge ∈ candidates → mapGet prevEntries k = some prev →
      transitionEntry sqrt graph prevPoint curPoint edge prev ≠ none) :
    ∃ r, closestPathStep order sqrt graph edgeIndex radius i prevPoint curPoint prevEntries =
      some r := by
  unfold closestPathStep
  rw [hcand]
  simp only
  apply foldlM_option_isSome
  intro acc edge hedge
  unfold closestPathEdge
  split
  · exact ⟨acc, rfl⟩
  · apply foldlM_option_isSome
    intro acc2 kv hkv
    have hne := htotal edge kv.1 kv.2 hedge (mapRange_mem hkv)
    cases ht : transitionEntry sqrt graph prevPoint curPoint edge kv.2 with
    | none => exact absurd ht hne
    | some res =>
      cases res with
      | none => exact ⟨acc2, rfl⟩
      | some entry =>
        simp only
        split
        · exact ⟨_, rfl⟩
        · exact ⟨_, rfl⟩

theorem bestEndEntry_loop (l : List (Nat × Entry K)) :
    ∀ acc : Option (Entry K),
    (∀ a, acc = some a → ∃ b, l.foldl (fun (best : Option (Entry K)) kv =>
        match best with
        | none => some kv.2
        | some b => if kv.2.less b then some kv.2 else some b) acc = some b ∧ b.key ≤ a.key) ∧
    (∀ kv, kv ∈ l → ∃ b, l.foldl (fun (best : Option (Entry K)) kv =>
        match best with
        | none => some kv.2
        | some b => if kv.2.less b then some kv.2 else some b) acc = some b ∧
        b.key ≤ kv.2.key) := by
  induction l with
  | nil =>
    intro acc
    exact ⟨fun a ha => ⟨a, ha, le_rfl⟩, fun kv hkv => by simp at hkv⟩
  | cons x l ih =>
    intro acc
    rw [List.foldl_cons]
    cases acc with
    | none =>
      obtain ⟨h1, h2⟩ := ih (some x.2)
      refine ⟨fun a ha => by simp at ha, ?_⟩
      intro kv hkv
      rcases List.mem_cons.mp hkv with hk | hk
      · subst hk; exact h1 _ rfl
      · exact h2 kv hk
    | some a0 =>
      simp only
      by_cases hc : x.2.less a0 = true
      · rw [if_pos hc]
        obtain ⟨h1, h2⟩ := ih (some x.2)
        refine ⟨?_, ?_⟩
        · intro a ha
          cases ha
          obtain ⟨b, hb, hle⟩ := h1 _ rfl
          exact ⟨b, hb, le_trans hle (le_of_lt ((Entry.less_iff _ _).mp hc))⟩
        · intro kv hkv
          rcases List.mem_cons.mp hkv with hk | hk
          · subst hk; exact h1 _ rfl
          · exact h2 kv hk
      · rw [if_neg hc]
        obtain ⟨h1, h2⟩ := ih (some a0)
        refine ⟨?_, ?_⟩
        · intro a ha
          cases ha
          exact h1 _ rfl
        · intro kv hkv
          rcases List.mem_cons.mp hkv with hk | hk
          · subst hk
            obtain ⟨b, hb, hle⟩ := h1 _ rfl
            simp only [Bool.not_eq_true] at hc
            exact ⟨b, hb, le_trans hle ((Entry.less_eq_false_iff _ _).mp hc)⟩
          · exact h2 kv hk

/-- The best end entry exists when the last map is not empty and is not beaten by
any entry of the last map. -/
theorem bestEndEntry_minimal (order : MapOrder) (horder : order.Valid)
    (lastEntries : List (Nat × Entry K)) (k : Nat) (v : Entry K)
    (h : mapGet lastEntries k = some v) :
    ∃ b, bestEndEntry order lastEntries = some b ∧ b.key ≤ v.key := by
  unfold bestEndEntry
  exact (bestEndEntry_loop _ none).2 (k, v) (mapRange_cover horder _ _ k v h)

end StepLemmas
section TransitionLemmas

variable {K : Type} [LinearOrderedField K] [FloorRing K]

theorem initialEntries_eq_initialEntry (sqrt : K → K) (graph : Graph K) (candidates : List Nat)
    (p0 : Point K) (radius : K) (k : Nat) (v : Entry K)
    (h : mapGet (initialEntries sqrt graph candidates p0 radius) k = some v) :
    v = initialEntry sqrt graph k p0 :=
  initialEntries_get sqrt graph candidates p0 radius k v h

theorem initialEntries_loop_present (sqrt : K → K) (graph : Graph K) (p0 : Point K) (radius : K)
    (k : Nat) (hnear : ¬ (Edge.Segment graph k).Distance sqrt p0 > radius) (l : List Nat) :
    ∀ init : List (Nat × Entry K),
    (k ∈ l ∨ mapGet init k = some (initialEntry sqrt graph k p0)) →
    mapGet (l.foldl (fun entries edge =>
      let distance := (Edge.Segment graph edge).Distance sqrt p0
      if distance > radius then entries
      else mapSet entries edge
        { MaxDistance := (distance : K), EdgePos := Edge.ClosestPos sqrt graph edge p0,
          Nodes := [], CurDistance := (distance : K), EndpointDistance := 0 }) init) k =
      some (initialEntry sqrt graph k p0) := by
  induction l with
  | nil =>
    intro init h
    rcases h with h | h
    · simp at h
    · exact h
  | cons a l ih =>
    intro init h
    rw [List.foldl_cons]
    apply ih
    by_cases hak : a = k
    · subst hak
      right
      simp only [if_neg hnear]
      rw [mapGet_mapSet_same]
      rfl
    · rcases h with h | h
      · rcases List.mem_cons.mp h with h | h
        · exact absurd h.symm hak
        · exact Or.inl h
      · right
        simp only
        split
        · exact h
        · rw [mapGet_mapSet_other _ _ _ _ (Ne.symm hak)]; exact h

theorem initialEntries_present (sqrt : K → K) (graph : Graph K) (candidates : List Nat)
    (p0 : Point K) (radius : K) (k : Nat) (hk : k ∈ candidates)
    (hnear : ¬ (Edge.Segment graph k).Distance sqrt p0 > radius) :
    mapGet (initialEntries sqrt graph candidates p0 radius) k =
      some (initialEntry sqrt graph k p0) :=
  initialEntries_loop_present sqrt graph p0 radius k hnear candidates [] (Or.inl hk)

theorem initialEntries_mem (sqrt : K → K) (graph : Graph K) (candidates : List Nat)
    (p0 : Point K) (radius : K) (k : Nat) (v : Entry K)
    (h : mapGet (initialEntries sqrt graph candidates p0 radius) k = some v) :
    k ∈ candidates := by
  unfold initialEntries at h
  refine foldl_invariant _ (fun entries => ∀ k v, mapGet entries k = some v → k ∈ candidates)
    candidates [] ?_ ?_ k v h
  · intro k v h; simp [mapGet_nil] at h
  · intro acc edge hedge hacc k v h
    simp only at h
    split at h
    · exact hacc k v h
    · by_cases hk : k = edge
      · subst hk; exact hedge
      · rw [mapGet_mapSet_other _ _ _ _ hk] at h
        exact hacc k v h

theorem ComputeFrechetDistance_isSome (sqrt : K → K) (a b : List (Point K))
    (ha : a ≠ []) (hb : b ≠ []) : ∃ c, ComputeFrechetDistance sqrt a b = some c :=
  ⟨_, ComputeFrechetDistance_eq_frechetRec sqrt a b ha hb⟩

theorem frechetRec_ge_self {α : Type} [LinearOrder α] (d : Nat → Nat → α) (i j : Nat) :
    d i j ≤ frechetRec d i j := by
  cases i <;> cases j <;> rw [frechetRec] <;> first | exact le_rfl | exact le_max_right _ _

/-- The result of `ComputeFrechetDistance` is at least the distance of the last points. -/
theorem ComputeFrechetDistance_ge_last (sqrt : K → K) (a b : List (Point K))
    (ha : a ≠ []) (hb : b ≠ []) (c : WithTop K)
    (h : ComputeFrechetDistance sqrt a b = some c) :
    (((a.getLast ha).Distance sqrt (b.getLast hb) : K) : WithTop K) ≤ c := by
  rw [ComputeFrechetDistance_eq_frechetRec sqrt _ _ ha hb] at h
  cases h
  have h1 := frechetRec_ge_self (pairDist sqrt a b) (a.length - 1) (b.length - 1)
  have e1 : a.getD (a.length - 1) default = a.getLast ha := by
    rw [List.getLast_eq_getElem, List.getD_eq_getElem]
  have e2 : b.getD (b.length - 1) default = b.getLast hb := by
    rw [List.getLast_eq_getElem, List.getD_eq_getElem]
  unfold pairDist at h1
  rw [e1, e2] at h1
  exact WithTop.coe_le_coe.mpr h1

/-- Every point of the first sequence is within the result of
`ComputeFrechetDistance` of one of the two points of a two-point second sequence. -/
theorem ComputeFrechetDistance_ge_point (sqrt : K → K) (a : List (Point K)) (p q x : Point K)
    (hx : x ∈ a) (c : WithTop K) (h : ComputeFrechetDistance sqrt a [p, q] = some c) :
    ((min (x.Distance sqrt p) (x.Distance sqrt q) : K) : WithTop K) ≤ c := by
  have ha : a ≠ [] := List.ne_nil_of_mem hx
  rw [ComputeFrechetDistance_eq_frechetRec sqrt _ _ ha (by simp)] at h
  cases h
  obtain ⟨i, hi, hxi⟩ := List.getElem_of_mem hx
  obtain ⟨j, hj, hle⟩ := frechetRec_covers (pairDist sqrt a [p, q]) (a.length - 1)
    ([p, q].length - 1) i (by omega)
  have hj' : j = 0 ∨ j = 1 := by simp at hj; omega
  have e : a.getD i default = x := by rw [List.getD_eq_getElem _ _ hi, hxi]
  apply WithTop.coe_le_coe.mpr
  refine le_trans ?_ hle
  unfold pairDist
  rw [e]
  rcases hj' with rfl | rfl
  · exact min_le_left _ _
  · exact min_le_right _ _

/-- More of what a successful `transitionEntry` returns: the endpoint distance and,
unless the edge is kept, the closest position and the path nodes. -/
theorem transitionEntry_spec2 (sqrt : K → K) (graph : NodePathsGraph K)
    (prevPoint curPoint : Point K) (edge : Nat) (prev y : Entry K)
    (h : transitionEntry sqrt graph prevPoint curPoint edge prev = some (some y)) :
    y.EndpointDistance = max ((prev.EdgePos.Point sqrt graph.Graph).Distance sqrt prevPoint)
      ((y.EdgePos.Point sqrt graph.Graph).Distance sqrt curPoint) ∧
    (prev.EdgePos.Edge = edge →
      y.EdgePos = ⟨edge, max ((Edge.Segment graph.Graph edge).Project sqrt curPoint false)
        prev.EdgePos.Position⟩) ∧
    (prev.EdgePos.Edge ≠ edge →
      y.EdgePos = Edge.ClosestPos sqrt graph.Graph edge curPoint ∧
      ((graph.Graph.edge prev.EdgePos.Edge).Dst = (graph.Graph.edge edge).Src →
        y.Nodes = [(graph.Graph.edge edge).Src]) ∧
      ((graph.Graph.edge prev.EdgePos.Edge).Dst ≠ (graph.Graph.edge edge).Src →
        ∃ resultPath, graph.GetShortestPath (graph.Graph.edge prev.EdgePos.Edge).Dst
            (graph.Graph.edge edge).Src (curPoint.Distance sqrt prevPoint * 4) =
            some (some resultPath) ∧
          y.Nodes = (graph.Graph.edge prev.EdgePos.Edge).Dst :: resultPath)) := by
  unfold transitionEntry at h
  simp only at h
  split at h
  · simp at h
  · simp at h
  · rename_i shortestPath hsp
    split at h
    · simp at h
    · rename_i curDistance hcur
      simp only [Option.some.injEq] at h
      subst h
      refine ⟨rfl, ?_, ?_⟩
      · intro he
        simp only [he, if_true, Edge.ClosestPos]
      · intro he
        simp only [he, if_false]
        refine ⟨trivial, ?_, ?_⟩
        · intro hadj
          simp only [ne_eq, he, not_false_eq_true, if_true, hadj] at hsp
          simp only [Option.some.injEq] at hsp
          exact hsp.symm
        · intro hadj
          simp only [ne_eq, he, not_false_eq_true, if_true, hadj, if_false] at hsp
          split at hsp
          · simp at hsp
          · simp at hsp
          · rename_i rp hrp
            simp only [Option.some.injEq] at hsp
            exact ⟨rp, hrp, hsp.symm⟩

/-- A transition returns (possibly with `continue`) unless `GetShortestPath` does not. -/
theorem transitionEntry_ne_none (sqrt : K → K) (graph : NodePathsGraph K)
    (prevPoint curPoint : Point K) (edge : Nat) (prev : Entry K)
    (h : graph.GetShortestPath (graph.Graph.edge prev.EdgePos.Edge).Dst
      (graph.Graph.edge edge).Src (curPoint.Distance sqrt prevPoint * 4) ≠ none) :
    transitionEntry sqrt graph prevPoint curPoint edge prev ≠ none := by
  unfold transitionEntry
  simp only
  split
  · rename_i hsp
    split at hsp
    · split at hsp
      · simp at hsp
      · split at hsp
        · rename_i hg; exact absurd hg h
        · simp at hsp
        · simp at hsp
    · simp at hsp
  · simp
  · split
    · rename_i hnone
      obtain ⟨c, hc⟩ := ComputeFrechetDistance_isSome sqrt _ [prevPoint, curPoint]
        (List.append_ne_nil_of_right_ne_nil _ (List.cons_ne_nil _ [])) (List.cons_ne_nil _ _)
      rw [hc] at hnone
      exact absurd hnone (by simp)
    · simp

end TransitionLemmas
section TestGraphFacts

variable {K : Type} [LinearOrderedField K]

theorem testGraph_eq : (testGraph : Graph K) =
    ⟨[⟨⟨1, 1⟩, [0, 2]⟩, ⟨⟨1, 2⟩, [1]⟩, ⟨⟨3, 1⟩, [3, 4, 6]⟩, ⟨⟨3, 2⟩, [5, 8]⟩,
      ⟨⟨5, 1⟩, [7, 10]⟩, ⟨⟨5, 2⟩, [9, 11]⟩],
     [⟨0, 1⟩, ⟨1, 0⟩, ⟨0, 2⟩, ⟨2, 0⟩, ⟨2, 3⟩, ⟨3, 2⟩, ⟨2, 4⟩, ⟨4, 2⟩, ⟨3, 5⟩, ⟨5, 3⟩,
      ⟨4, 5⟩, ⟨5, 4⟩]⟩ := rfl

theorem IsSqrt.sqrt_mul_self {sqrt : K → K} (hs : IsSqrt sqrt) (x : K) (hx : 0 ≤ x) :
    sqrt (x * x) = x :=
  (mul_self_inj (hs.nonneg _) hx).mp (hs.mul_self _ (mul_self_nonneg x))

theorem IsSqrt.sqrt_one {sqrt : K → K} (hs : IsSqrt sqrt) : sqrt 1 = 1 := by
  have h := hs.sqrt_mul_self 1 zero_le_one
  rwa [mul_one] at h

theorem IsSqrt.sqrt_four {sqrt : K → K} (hs : IsSqrt sqrt) : sqrt 4 = 2 := by
  have h := hs.sqrt_mul_self 2 zero_le_two
  rwa [show (2 : K) * 2 = 4 by norm_num] at h

theorem IsSqrt.sqrt_sixteen {sqrt : K → K} (hs : IsSqrt sqrt) : sqrt 16 = 4 := by
  have h := hs.sqrt_mul_self 4 (by norm_num)
  rwa [show (4 : K) * 4 = 16 by norm_num] at h

theorem IsSqrt.one_le {sqrt : K → K} (hs : IsSqrt sqrt) {x : K} (hx : 1 ≤ x) : 1 ≤ sqrt x := by
  have h := hs.mono zero_le_one hx
  rwa [hs.sqrt_one] at h

theorem testGraph_segment (k : Nat) :
    Edge.Segment (testGraph : Graph K) k =
      ([⟨⟨1, 1⟩, ⟨1, 2⟩⟩, ⟨⟨1, 2⟩, ⟨1, 1⟩⟩, ⟨⟨1, 1⟩, ⟨3, 1⟩⟩, ⟨⟨3, 1⟩, ⟨1, 1⟩⟩,
        ⟨⟨3, 1⟩, ⟨3, 2⟩⟩, ⟨⟨3, 2⟩, ⟨3, 1⟩⟩, ⟨⟨3, 1⟩, ⟨5, 1⟩⟩, ⟨⟨5, 1⟩, ⟨3, 1⟩⟩,
        ⟨⟨3, 2⟩, ⟨5, 2⟩⟩, ⟨⟨5, 2⟩, ⟨3, 2⟩⟩, ⟨⟨5, 1⟩, ⟨5, 2⟩⟩, ⟨⟨5, 2⟩, ⟨5, 1⟩⟩] :
        List (Segment K)).getD k ⟨⟨1, 1⟩, ⟨1, 1⟩⟩ := by
  by_cases hk : k < 12
  · interval_cases k <;> simp [Edge.Segment, testGraph_eq, Graph.edge, Graph.node]
  · have h1 : (testGraph : Graph K).edge k = ⟨0, 0⟩ := by
      unfold Graph.edge
      rw [testGraph_eq]
      exact List.getD_eq_default _ _ (by simp; omega)
    unfold Edge.Segment
    rw [h1, List.getD_eq_default _ _ (by simp; omega)]
    rfl

end TestGraphFacts
section TestGraphSearch

variable {K : Type} [LinearOrderedField K] [FloorRing K]

theorem eachCell_zero (idx : GridIndex K) (rect : Rectangle K) (hg : 0 < idx.gridSize)
    (h1 : 0 ≤ rect.Min.X) (h2 : rect.Max.X < idx.gridSize) (h3 : 0 ≤ rect.Min.Y)
    (h4 : rect.Max.Y < idx.gridSize) (h5 : rect.Min.X ≤ rect.Max.X)
    (h6 : rect.Min.Y ≤ rect.Max.Y) :
    idx.eachCell rect = [(0, 0)] := by
  have f : ∀ x : K, 0 ≤ x → x < idx.gridSize → ⌊x / idx.gridSize⌋ = 0 := by
    intro x hx0 hx1
    apply floor_eq_of
    · simpa using div_nonneg hx0 hg.le
    · simpa using (div_lt_one hg).mpr hx1
  unfold GridIndex.eachCell
  rw [f _ h1 (lt_of_le_of_lt h5 h2), f _ (le_trans h1 h5) h2, f _ h3 (lt_of_le_of_lt h6 h4),
    f _ (le_trans h3 h6) h4, goInt64_zero]
  rfl

theorem insert_zero (idx : GridIndex K) (id : Nat) (rect : Rectangle K) (hg : 0 < idx.gridSize)
    (h1 : 0 ≤ rect.Min.X) (h2 : rect.Max.X < idx.gridSize) (h3 : 0 ≤ rect.Min.Y)
    (h4 : rect.Max.Y < idx.gridSize) (h5 : rect.Min.X ≤ rect.Max.X)
    (h6 : rect.Min.Y ≤ rect.Max.Y) :
    idx.Insert id rect =
      { idx with grid := Function.update idx.grid (0, 0) (idx.grid (0, 0) ++ [id]) } := by
  unfold GridIndex.Insert
  rw [eachCell_zero idx rect hg h1 h2 h3 h4 h5 h6]
  rfl

theorem testGraph_bounds (k : Nat) :
    0 ≤ (Edge.Segment (testGraph : Graph K) k).Bounds.Min.X ∧
    (Edge.Segment (testGraph : Graph K) k).Bounds.Max.X < 80 ∧
    0 ≤ (Edge.Segment (testGraph : Graph K) k).Bounds.Min.Y ∧
    (Edge.Segment (testGraph : Graph K) k).Bounds.Max.Y < 80 ∧
    (Edge.Segment (testGraph : Graph K) k).Bounds.Min.X ≤
      (Edge.Segment (testGraph : Graph K) k).Bounds.Max.X ∧
    (Edge.Segment (testGraph : Graph K) k).Bounds.Min.Y ≤
      (Edge.Segment (testGraph : Graph K) k).Bounds.Max.Y := by
  rw [testGraph_segment]
  by_cases hk : k < 12
  · interval_cases k <;>
      norm_num [Segment.Bounds, Point.Rectangle, Point.RectangleTol, Rectangle.Extend,
        Point.Sub, Point.Add]
  · rw [List.getD_eq_default _ _ (by simp; omega)]
    norm_num [Segment.Bounds, Point.Rectangle, Point.RectangleTol, Rectangle.Extend,
      Point.Sub, Point.Add]

theorem testGraph_index_loop (graph : Graph K)
    (hb : ∀ k, 0 ≤ (Edge.Segment graph k).Bounds.Min.X ∧
      (Edge.Segment graph k).Bounds.Max.X < 80 ∧
      0 ≤ (Edge.Segment graph k).Bounds.Min.Y ∧
      (Edge.Segment graph k).Bounds.Max.Y < 80 ∧
      (Edge.Segment graph k).Bounds.Min.X ≤ (Edge.Segment graph k).Bounds.Max.X ∧
      (Edge.Segment graph k).Bounds.Min.Y ≤ (Edge.Segment graph k).Bounds.Max.Y)
    (l : List Nat) :
    ∀ (idx : GridIndex K), idx.gridSize = 80 →
      l.foldl (fun idx edge => idx.Insert edge (Edge.Segment graph edge).Bounds) idx =
        { idx with grid := Function.update idx.grid (0, 0) (idx.grid (0, 0) ++ l) } := by
  induction l with
  | nil =>
    intro idx _
    simp
  | cons a l ih =>
    intro idx hg
    obtain ⟨h1, h2, h3, h4, h5, h6⟩ := hb a
    rw [List.foldl_cons, insert_zero idx a _ (by rw [hg]; norm_num) h1 (by rw [hg]; exact h2) h3
      (by rw [hg]; exact h4) h5 h6]
    rw [ih ⟨idx.gridSize, Function.update idx.grid (0, 0) (idx.grid (0, 0) ++ [a])⟩ hg]
    simp

theorem testGraph_index :
    Graph.GridIndex (testGraph : Graph K) (10 * 8) =
      ⟨⟨80, Function.update (fun _ => []) (0, 0) (List.range 12)⟩, testGraph⟩ := by
  unfold Graph.GridIndex
  rw [testGraph_index_loop testGraph testGraph_bounds _ _ (by norm_num [NewGridIndex])]
  have h12 : (testGraph : Graph K).Edges.length = 12 := by rw [testGraph_eq]; rfl
  rw [h12]
  norm_num [NewGridIndex]

theorem testGraph_search (order : List Nat → List Nat) (p : Point K)
    (hx2 : p.X - 10 < 0) (hx3 : 0 ≤ p.X + 10)
    (hy2 : p.Y - 10 < 0) (hy3 : 0 ≤ p.Y + 10) :
    GraphGridIndex.Search order (Graph.GridIndex (testGraph : Graph K) (10 * 8))
      (p.Bounds.AddTol 10) =
      if (order (List.range 12)).all (fun e => e < 12) then some (order (List.range 12))
      else none := by
  have hb : ⌊(p.X - 10) / 80⌋ = -1 :=
    floor_eq_of _ _ (by rw [le_div_iff₀ (by norm_num)]; push_cast; linarith)
      (by rw [div_lt_iff₀ (by norm_num)]; push_cast; linarith)
  have hc : ⌊(p.X + 10) / 80⌋ = 0 :=
    floor_eq_of _ _ (by rw [le_div_iff₀ (by norm_num)]; push_cast; linarith)
      (by rw [div_lt_iff₀ (by norm_num)]; push_cast; linarith)
  have hd : ⌊(p.Y - 10) / 80⌋ = -1 :=
    floor_eq_of _ _ (by rw [le_div_iff₀ (by norm_num)]; push_cast; linarith)
      (by rw [div_lt_iff₀ (by norm_num)]; push_cast; linarith)
  have he : ⌊(p.Y + 10) / 80⌋ = 0 :=
    floor_eq_of _ _ (by rw [le_div_iff₀ (by norm_num)]; push_cast; linarith)
      (by rw [div_lt_iff₀ (by norm_num)]; push_cast; linarith)
  have h12 : (testGraph : Graph K).Edges.length = 12 := by rw [testGraph_eq]; rfl
  rw [testGraph_index]
  have hcells : GridIndex.eachCell
      (⟨80, Function.update (fun _ => []) (0, 0) (List.range 12)⟩ : GridIndex K)
      (p.Bounds.AddTol 10) = [(-1, -1), (-1, 0), (0, -1), (0, 0)] := by
    simp only [GridIndex.eachCell, Point.Bounds, Point.Rectangle, Point.RectangleTol,
      Rectangle.AddTol, Point.Sub, Point.Add, sub_zero, add_zero, hb, hc, hd, he,
      goInt64_zero, goInt64_neg_one]
    rfl
  unfold GraphGridIndex.Search GridIndex.Search
  simp only [hcells, h12]
  have hids : List.foldl (fun ids c =>
      List.foldl (fun ids id => if id ∈ ids then ids else ids ++ [id]) ids
        ((Function.update (fun _ => []) ((0 : Int), (0 : Int)) (List.range 12) :
          Int × Int → List Nat) c)) [] [(-1, -1), (-1, 0), (0, -1), (0, 0)] =
      List.range 12 := by
    decide
  rw [hids]

end TestGraphSearch
section TestGraphDistances

variable {K : Type} [LinearOrderedField K]

theorem testGraph_edge (k : Nat) :
    (testGraph : Graph K).edge k =
      ([⟨0, 1⟩, ⟨1, 0⟩, ⟨0, 2⟩, ⟨2, 0⟩, ⟨2, 3⟩, ⟨3, 2⟩, ⟨2, 4⟩, ⟨4, 2⟩, ⟨3, 5⟩, ⟨5, 3⟩,
        ⟨4, 5⟩, ⟨5, 4⟩] : List Edge).getD k ⟨0, 0⟩ := by
  unfold Graph.edge
  rw [testGraph_eq]

/-- The distance from the first input point `(1, 2)` to the edges of the test graph. -/
theorem testGraph_distance0 (sqrt : K → K) (hs : IsSqrt sqrt) (k : Nat) :
    (k = 0 ∨ k = 1 → (Edge.Segment (testGraph : Graph K) k).Distance sqrt ⟨1, 2⟩ = 0) ∧
    (2 ≤ k → k < 12 → 1 ≤ (Edge.Segment (testGraph : Graph K) k).Distance sqrt ⟨1, 2⟩) ∧
    (k < 12 → (Edge.Segment (testGraph : Graph K) k).Distance sqrt ⟨1, 2⟩ ≤ 10) := by
  have h0 := hs.zero
  have h1 := hs.sqrt_one
  have h4 := hs.sqrt_four
  have h16 := hs.sqrt_sixteen
  have h5 : 1 ≤ sqrt 5 := hs.one_le (by norm_num)
  have h5' : sqrt 5 ≤ 10 := by
    have := hs.mono (x := 5) (y := 16) (by norm_num) (by norm_num)
    rw [h16] at this
    linarith
  rw [testGraph_segment]
  refine ⟨?_, ?_, ?_⟩
  · rintro (rfl | rfl) <;>
      norm_num [Segment.Distance, Segment.ProjectPoint, Segment.Project, Segment.PointAtFactor,
        Segment.Length, Point.Distance, Point.Sub, Point.Dot, Point.Add, Point.Scale,
        h0, h1, h4, h16]
  · intro hk2 hk
    interval_cases k <;>
      norm_num [Segment.Distance, Segment.ProjectPoint, Segment.Project, Segment.PointAtFactor,
        Segment.Length, Point.Distance, Point.Sub, Point.Dot, Point.Add, Point.Scale,
        h0, h1, h4, h16, h5]
  · intro hk
    interval_cases k <;>
      norm_num [Segment.Distance, Segment.ProjectPoint, Segment.Project, Segment.PointAtFactor,
        Segment.Length, Point.Distance, Point.Sub, Point.Dot, Point.Add, Point.Scale,
        h0, h1, h4, h16, h5']

/-- The distance from the second input point `(3, 2)` to the edges of the test graph. -/
theorem testGraph_distance1 (sqrt : K → K) (hs : IsSqrt sqrt) (k : Nat) :
    (k = 4 → (Edge.Segment (testGraph : Graph K) k).Distance sqrt ⟨3, 2⟩ = 0) ∧
    (k ≠ 4 → k ≠ 5 → k ≠ 8 → k ≠ 9 →
      1 ≤ (Edge.Segment (testGraph : Graph K) k).Distance sqrt ⟨3, 2⟩) ∧
    (k < 12 → (Edge.Segment (testGraph : Graph K) k).Distance sqrt ⟨3, 2⟩ ≤ 10) := by
  have h0 := hs.zero
  have h1 := hs.sqrt_one
  have h4 := hs.sqrt_four
  rw [testGraph_segment]
  refine ⟨?_, ?_, ?_⟩
  · rintro rfl
    norm_num [Segment.Distance, Segment.ProjectPoint, Segment.Project, Segment.PointAtFactor,
        Segment.Length, Point.Distance, Point.Sub, Point.Dot, Point.Add, Point.Scale,
        h0, h1, h4]
  · intro k4 k5 k8 k9
    have h5 : 1 ≤ sqrt 5 := hs.one_le (by norm_num)
    by_cases hk : k < 12
    · interval_cases k <;>
        first
        | exact absurd rfl k4
        | exact absurd rfl k5
        | exact absurd rfl k8
        | exact absurd rfl k9
        | norm_num [Segment.Distance, Segment.ProjectPoint, Segment.Project,
            Segment.PointAtFactor, Segment.Length, Point.Distance, Point.Sub, Point.Dot,
            Point.Add, Point.Scale, h0, h1, h4]
    · rw [List.getD_eq_default _ _ (by simp; omega)]
      norm_num [Segment.Distance, Segment.ProjectPoint, Segment.Project,
        Segment.PointAtFactor, Segment.Length, Point.Distance, Point.Sub, Point.Dot,
        Point.Add, Point.Scale, h0, h1, h4, h5]
  · intro hk
    interval_cases k <;>
      norm_num [Segment.Distance, Segment.ProjectPoint, Segment.Project, Segment.PointAtFactor,
        Segment.Length, Point.Distance, Point.Sub, Point.Dot, Point.Add, Point.Scale,
        h0, h1, h4]

end TestGraphDistances
section TestGraphPaths

variable {K : Type} [LinearOrderedField K]

theorem testGraph_nodes_length : (testGraph : Graph K).Nodes.length = 6 := by
  rw [testGraph_eq]; rfl

theorem testNodePaths_get (tie : Nat → Bool) (s : Nat) (hs : s < 6) :
    (mapGet (testNodePaths tie : List (Nat × NodePaths K)) s).getD ⟨[], []⟩ =
      testNodePathsOf s (tie s) := by
  interval_cases s <;> rfl

theorem GetShortestPath_ne_none (g : NodePathsGraph K) (src dst : Nat) (maxDistance : K)
    (h : followBackpointers g ((mapGet g.NodePaths src).getD ⟨[], []⟩) src
      (g.Graph.Nodes.length + 2) dst [] ≠ none) :
    g.GetShortestPath src dst maxDistance ≠ none := by
  unfold NodePathsGraph.GetShortestPath
  simp only
  split
  · simp
  · split
    · simp
    · split
      · rename_i hn; exact absurd hn h
      · simp

set_option maxHeartbeats 1600000 in
theorem testGraph_follow (g : NodePathsGraph K) (hg : g.Graph.Nodes.length = 6) (b : Bool)
    (s d : Nat) (hs : s < 6) (hd : d < 6) :
    followBackpointers g (testNodePathsOf s b) s 8 d [] ≠ none := by
  interval_cases s <;> interval_cases d <;> cases b <;>
    simp [followBackpointers, testNodePathsOf, mapGet, hg]

/-- On the test graph the loop of `GetShortestPath` ends for every pair of nodes. -/
theorem testGraph_shortestPath_ne_none (tie : Nat → Bool) (s d : Nat) (hs : s < 6) (hd : d < 6) :
    (testNodePathsGraph tie : NodePathsGraph K).GetShortestPath s d 8 ≠ none := by
  apply GetShortestPath_ne_none
  have h := testNodePaths_get (K := K) tie s hs
  simp only [testNodePathsGraph, testGraph_nodes_length] at h ⊢
  rw [h]
  exact testGraph_follow _ testGraph_nodes_length _ s d hs hd

set_option maxHeartbeats 1600000 in
theorem testGraph_shortestPath_of (g : NodePathsGraph K) (hg : g.Graph.Nodes.length = 6)
    (b : Bool) (s : Nat) (hs : s < 2)
    (hnp : (mapGet g.NodePaths s).getD ⟨[], []⟩ = testNodePathsOf s b) :
    g.GetShortestPath s 2 8 = some (some (if s = 0 then [2] else [0, 2])) ∧
    g.GetShortestPath s 3 8 = some (some (if s = 0 then [2, 3] else [0, 2, 3])) ∧
    ∃ x, g.GetShortestPath s 5 8 =
      some (some (if s = 0 then [2, x, 5] else [0, 2, x, 5])) := by
  unfold NodePathsGraph.GetShortestPath
  simp only [hnp, hg]
  interval_cases s <;> cases b <;>
    norm_num [followBackpointers, testNodePathsOf, mapGet, hg]

theorem testGraph_shortestPath (tie : Nat → Bool) (s : Nat) (hs : s < 2) :
    (testNodePathsGraph tie : NodePathsGraph K).GetShortestPath s 2 8 =
      some (some (if s = 0 then [2] else [0, 2])) ∧
    (testNodePathsGraph tie : NodePathsGraph K).GetShortestPath s 3 8 =
      some (some (if s = 0 then [2, 3] else [0, 2, 3])) ∧
    ∃ x, (testNodePathsGraph tie : NodePathsGraph K).GetShortestPath s 5 8 =
      some (some (if s = 0 then [2, x, 5] else [0, 2, x, 5])) :=
  testGraph_shortestPath_of _ testGraph_nodes_length (tie s) s hs
    (testNodePaths_get tie s (by omega))

end TestGraphPaths
section TestGraphEntries

variable {K : Type} [LinearOrderedField K]

/-- An entry with current distance at least `1` that ends away from the input
points, or has three or more path nodes, is strictly worse than an entry with key
`(1, 1, 0, 2)`. -/
theorem key_lt_of_bounds (x y : Entry K) (hx1 : x.MaxDistance = ((1 : K) : WithTop K))
    (hx2 : x.CurDistance = ((1 : K) : WithTop K)) (hx3 : x.EndpointDistance = 0)
    (hx4 : x.Nodes.length = 2)
    (hmax : y.CurDistance ≤ y.MaxDistance) (hcur : ((1 : K) : WithTop K) ≤ y.CurDistance)
    (hend : 0 < y.EndpointDistance ∨ (0 ≤ y.EndpointDistance ∧ 3 ≤ y.Nodes.length)) :
    x.key < y.key := by
  unfold Entry.key
  rw [Prod.Lex.lt_iff]
  simp only [hx1, hx2, hx3, hx4]
  rcases lt_or_eq_of_le (le_trans hcur hmax) with h | h
  · exact Or.inl h
  · right
    refine ⟨h, ?_⟩
    rw [Prod.Lex.lt_iff]
    simp only
    rcases lt_or_eq_of_le hcur with h2 | h2
    · exact Or.inl h2
    · right
      refine ⟨h2, ?_⟩
      rw [Prod.Lex.lt_iff]
      simp only
      rcases hend with h3 | ⟨h3, h4⟩
      · exact Or.inl h3
      · rcases lt_or_eq_of_le h3 with h5 | h5
        · exact Or.inl h5
        · right
          exact ⟨h5, by show 2 < y.Nodes.length; omega⟩

theorem testGraph_inputDistance (sqrt : K → K) (hs : IsSqrt sqrt) :
    Point.Distance sqrt (⟨3, 2⟩ : Point K) ⟨1, 2⟩ * 4 = 8 := by
  norm_num [Point.Distance, hs.sqrt_four]

theorem testGraph_initial1 (sqrt : K → K) (hs : IsSqrt sqrt) :
    initialEntry sqrt (testGraph : Graph K) 1 ⟨1, 2⟩ =
      ⟨((0 : K) : WithTop K), ⟨1, 0⟩, [], ((0 : K) : WithTop K), 0⟩ := by
  have h0 := hs.zero
  have h1 := hs.sqrt_one
  unfold initialEntry Edge.ClosestPos
  rw [testGraph_segment]
  norm_num [Segment.Distance, Segment.ProjectPoint, Segment.Project, Segment.PointAtFactor,
    Segment.Length, Point.Distance, Point.Sub, Point.Dot, Point.Add, Point.Scale, h0, h1]

theorem testGraph_frechet (sqrt : K → K) (hs : IsSqrt sqrt) :
    ComputeFrechetDistance sqrt [(⟨1, 2⟩ : Point K), ⟨1, 1⟩, ⟨3, 1⟩, ⟨3, 2⟩] [⟨1, 2⟩, ⟨3, 2⟩] =
      some ((1 : K) : WithTop K) := by
  have h0 := hs.zero
  have h1 := hs.sqrt_one
  have h4 := hs.sqrt_four
  rw [ComputeFrechetDistance_eq_frechetRec _ _ _ (by simp) (by simp)]
  congr 2
  norm_num [frechetRec, pairDist, Point.Distance, h0, h1, h4]

end TestGraphEntries
section TestGraphBest

variable {K : Type} [LinearOrderedField K]

theorem testGraph_best_of (sqrt : K → K) (hs : IsSqrt sqrt) (g : NodePathsGraph K)
    (hG : g.Graph = testGraph) (hsp : g.GetShortestPath 0 2 8 = some (some [2])) :
    transitionEntry sqrt g ⟨1, 2⟩ ⟨3, 2⟩ 4
      ⟨((0 : K) : WithTop K), ⟨1, 0⟩, [], ((0 : K) : WithTop K), 0⟩ =
    some (some ⟨((1 : K) : WithTop K), ⟨4, 1⟩, [0, 2], ((1 : K) : WithTop K), 0⟩) := by
  have h0 := hs.zero
  have h1 := hs.sqrt_one
  have hd := testGraph_inputDistance sqrt hs
  have hc := testGraph_frechet sqrt hs
  have e1 : (testGraph : Graph K).edge 1 = ⟨1, 0⟩ := by rw [testGraph_edge]; rfl
  have e4 : (testGraph : Graph K).edge 4 = ⟨2, 3⟩ := by rw [testGraph_edge]; rfl
  have s1 : Edge.Segment (testGraph : Graph K) 1 = ⟨⟨1, 2⟩, ⟨1, 1⟩⟩ := by
    rw [testGraph_segment]; rfl
  have s4 : Edge.Segment (testGraph : Graph K) 4 = ⟨⟨3, 1⟩, ⟨3, 2⟩⟩ := by
    rw [testGraph_segment]; rfl
  have n0 : ((testGraph : Graph K).node 0).Point = ⟨1, 1⟩ := by
    unfold Graph.node; rw [testGraph_eq]; rfl
  have n2 : ((testGraph : Graph K).node 2).Point = ⟨3, 1⟩ := by
    unfold Graph.node; rw [testGraph_eq]; rfl
  have p1 : EdgePos.Point sqrt (testGraph : Graph K) ⟨1, 0⟩ = ⟨1, 2⟩ := by
    unfold EdgePos.Point
    simp only [s1]
    norm_num [Segment.PointAtFactor, Segment.Length, Point.Distance, Point.Sub, Point.Add,
      Point.Scale, h0, h1]
  have c4 : Edge.ClosestPos sqrt (testGraph : Graph K) 4 ⟨3, 2⟩ = ⟨4, 1⟩ := by
    unfold Edge.ClosestPos
    simp only [s4]
    norm_num [Segment.Project, Segment.Length, Point.Distance, Point.Sub, Point.Dot, h0, h1]
  have p4 : EdgePos.Point sqrt (testGraph : Graph K) ⟨4, 1⟩ = ⟨3, 2⟩ := by
    unfold EdgePos.Point
    simp only [s4]
    norm_num [Segment.PointAtFactor, Segment.Length, Point.Distance, Point.Sub, Point.Add,
      Point.Scale, h0, h1]
  unfold transitionEntry
  simp only [hG, e1, e4, hd, hsp]
  norm_num only [if_true, if_false, ne_eq, not_false_eq_true]
  simp only [c4, p1, p4, n0, n2, List.map_cons, List.map_nil,
    List.singleton_append, List.cons_append, List.nil_append, hc]
  have hm : max ((0 : K) : WithTop K) ((1 : K) : WithTop K) = ((1 : K) : WithTop K) :=
    max_eq_right (WithTop.coe_le_coe.mpr zero_le_one)
  have hz : Point.Distance sqrt (⟨1, 2⟩ : Point K) ⟨1, 2⟩ = 0 := by
    norm_num [Point.Distance, h0]
  have hz2 : Point.Distance sqrt (⟨3, 2⟩ : Point K) ⟨3, 2⟩ = 0 := by
    norm_num [Point.Distance, h0]
  simp only [hm, hz, hz2, max_self]

theorem testGraph_best (sqrt : K → K) (hs : IsSqrt sqrt) (tie : Nat → Bool) :
    transitionEntry sqrt (testNodePathsGraph tie) ⟨1, 2⟩ ⟨3, 2⟩ 4
      (initialEntry sqrt (testGraph : Graph K) 1 ⟨1, 2⟩) =
    some (some ⟨((1 : K) : WithTop K), ⟨4, 1⟩, [0, 2], ((1 : K) : WithTop K), 0⟩) := by
  rw [testGraph_initial1 sqrt hs]
  exact testGraph_best_of sqrt hs _ rfl (by simpa using (testGraph_shortestPath tie 0 (by omega)).1)

/-- Staying on edge `0` or `1` ends at `(1, 2)`, at distance `2` from `(3, 2)`. -/
theorem testGraph_stay (sqrt : K → K) (hs : IsSqrt sqrt) (k : Nat) (hk : k < 2) :
    (EdgePos.Point sqrt (testGraph : Graph K)
      ⟨k, max ((Edge.Segment (testGraph : Graph K) k).Project sqrt ⟨3, 2⟩ false)
        (Edge.ClosestPos sqrt (testGraph : Graph K) k ⟨1, 2⟩).Position⟩).Distance sqrt
      ⟨3, 2⟩ = 2 := by
  have h0 := hs.zero
  have h1 := hs.sqrt_one
  have h4 := hs.sqrt_four
  unfold EdgePos.Point Edge.ClosestPos
  simp only [testGraph_segment]
  interval_cases k <;>
    norm_num [Segment.Project, Segment.PointAtFactor, Segment.Length, Point.Distance,
      Point.Sub, Point.Dot, Point.Add, Point.Scale, h0, h1, h4]

end TestGraphBest
section TestGraphWorse

variable {K : Type} [LinearOrderedField K] [FloorRing K]

theorem testGraph_edge_ends :
    ((testGraph : Graph K).edge 0).Dst = 1 ∧ ((testGraph : Graph K).edge 1).Dst = 0 ∧
    ((testGraph : Graph K).edge 4).Src = 2 ∧ ((testGraph : Graph K).edge 5).Src = 3 ∧
    ((testGraph : Graph K).edge 8).Src = 3 ∧ ((testGraph : Graph K).edge 9).Src = 5 := by
  simp [testGraph_edge]

theorem testGraph_node2 : ((testGraph : Graph K).node 2).Point = ⟨3, 1⟩ := by
  unfold Graph.node; rw [testGraph_eq]; rfl

/-- A path through `v31 = (3, 1)` has Fréchet distance at least `1` to the input. -/
theorem testGraph_cur_ge (sqrt : K → K) (hs : IsSqrt sqrt) (a : List (Point K))
    (h2 : (⟨3, 1⟩ : Point K) ∈ a) (c : WithTop K)
    (hC : ComputeFrechetDistance sqrt a [⟨1, 2⟩, ⟨3, 2⟩] = some c) :
    ((1 : K) : WithTop K) ≤ c := by
  refine le_trans ?_ (ComputeFrechetDistance_ge_point sqrt a _ _ _ h2 c hC)
  apply WithTop.coe_le_coe.mpr
  apply le_min
  · have : (1 : K) ≤ sqrt 5 := hs.one_le (by norm_num)
    norm_num [Point.Distance, this]
  · norm_num [Point.Distance, hs.sqrt_one]

/-- The path nodes of a transition from edge `0` or `1` to an edge at `v32`, other
than from edge `1` to edge `4`: at least three nodes, `v31` among them. -/
theorem testGraph_nodes (g : NodePathsGraph K)
    (hsp : ∀ s, s < 2 →
      g.GetShortestPath s 2 8 = some (some (if s = 0 then [2] else [0, 2])) ∧
      g.GetShortestPath s 3 8 = some (some (if s = 0 then [2, 3] else [0, 2, 3])) ∧
      ∃ x, g.GetShortestPath s 5 8 = some (some (if s = 0 then [2, x, 5] else [0, 2, x, 5])))
    (s d : Nat) (hs : s < 2) (hd : d = 2 ∨ d = 3 ∨ d = 5) (hsd : ¬ (s = 0 ∧ d = 2))
    (rp : List Nat) (hrp : g.GetShortestPath s d 8 = some (some rp)) :
    2 ∈ s :: rp ∧ 3 ≤ (s :: rp).length := by
  obtain ⟨h2, h3, x, h5⟩ := hsp s hs
  rcases hd with rfl | rfl | rfl
  · rw [h2] at hrp
    have hrp := Option.some.inj (Option.some.inj hrp)
    subst hrp
    interval_cases s
    · exact absurd ⟨rfl, rfl⟩ hsd
    · simp
  · rw [h3] at hrp
    have hrp := Option.some.inj (Option.some.inj hrp)
    subst hrp
    interval_cases s <;> simp
  · rw [h5] at hrp
    have hrp := Option.some.inj (Option.some.inj hrp)
    subst hrp
    interval_cases s <;> simp

end TestGraphWorse
section TestGraphLower

variable {K : Type} [LinearOrderedField K] [FloorRing K]

/-- Every transition of the test run other than from edge `1` to edge `4` builds an
entry that is strictly worse than one with key `(1, 1, 0, 2)`. -/
theorem testGraph_worse (sqrt : K → K) (hs : IsSqrt sqrt) (g : NodePathsGraph K)
    (hG : g.Graph = testGraph)
    (hsp : ∀ s, s < 2 →
      g.GetShortestPath s 2 8 = some (some (if s = 0 then [2] else [0, 2])) ∧
      g.GetShortestPath s 3 8 = some (some (if s = 0 then [2, 3] else [0, 2, 3])) ∧
      ∃ x, g.GetShortestPath s 5 8 = some (some (if s = 0 then [2, x, 5] else [0, 2, x, 5])))
    (k e : Nat) (hk : k < 12) (hke : ¬ (k = 1 ∧ e = 4)) (x y : Entry K)
    (hx1 : x.MaxDistance = ((1 : K) : WithTop K)) (hx2 : x.CurDistance = ((1 : K) : WithTop K))
    (hx3 : x.EndpointDistance = 0) (hx4 : x.Nodes.length = 2)
    (h : transitionEntry sqrt g ⟨1, 2⟩ ⟨3, 2⟩ e (initialEntry sqrt (testGraph : Graph K) k ⟨1, 2⟩) =
      some (some y)) :
    x.key < y.key := by
  obtain ⟨-, hC, hM⟩ := transitionEntry_spec sqrt g _ _ e _ y h
  obtain ⟨hEnd, hsame, hdiff⟩ := transitionEntry_spec2 sqrt g _ _ e _ y h
  rw [hG] at hC hEnd hsame hdiff
  have hpe : (initialEntry sqrt (testGraph : Graph K) k ⟨1, 2⟩).EdgePos.Edge = k := rfl
  have hpp : ((initialEntry sqrt (testGraph : Graph K) k ⟨1, 2⟩).EdgePos.Point sqrt
      testGraph).Distance sqrt ⟨1, 2⟩ =
      (Edge.Segment (testGraph : Graph K) k).Distance sqrt ⟨1, 2⟩ := by
    show ((Edge.ClosestPos sqrt testGraph k ⟨1, 2⟩).Point sqrt testGraph).Distance sqrt _ = _
    rw [closestPos_point_eq]
    rfl
  rw [hpe] at hsame hdiff
  rw [hpp] at hEnd
  have hmax : y.CurDistance ≤ y.MaxDistance := by rw [hM]; exact le_max_right _ _
  have hfirst : ((((Edge.Segment (testGraph : Graph K) k).Distance sqrt ⟨1, 2⟩ : K)) :
      WithTop K) ≤ y.CurDistance := by
    rw [← hpp]
    simp only [List.singleton_append, List.cons_append] at hC
    exact ComputeFrechetDistance_ge_first sqrt _ _ _ _ _ hC
  have hlast : ((((y.EdgePos.Point sqrt (testGraph : Graph K)).Distance sqrt ⟨3, 2⟩ : K)) :
      WithTop K) ≤ y.CurDistance := by
    have hl := ComputeFrechetDistance_ge_last sqrt _ _ (by simp) (by simp) _ hC
    simpa using hl
  have hd0 := testGraph_distance0 sqrt hs k
  have hd1 := testGraph_distance1 sqrt hs e
  obtain ⟨e0, e1, e4, e5, e8, e9⟩ := testGraph_edge_ends (K := K)
  have hcases : 1 ≤ (Edge.Segment (testGraph : Graph K) k).Distance sqrt ⟨1, 2⟩ ∨
      1 ≤ (y.EdgePos.Point sqrt (testGraph : Graph K)).Distance sqrt ⟨3, 2⟩ ∨
      (2 ∈ y.Nodes ∧ 3 ≤ y.Nodes.length) := by
    by_cases hk2 : 2 ≤ k
    · exact Or.inl (hd0.2.1 hk2 hk)
    · right
      by_cases hek : k = e
      · left
        rw [hsame hek]
        subst hek
        have hst := testGraph_stay sqrt hs k (by omega)
        show 1 ≤ Point.Distance sqrt (EdgePos.Point sqrt testGraph
          ⟨k, max ((Edge.Segment (testGraph : Graph K) k).Project sqrt ⟨3, 2⟩ false)
            (Edge.ClosestPos sqrt (testGraph : Graph K) k ⟨1, 2⟩).Position⟩) ⟨3, 2⟩
        rw [hst]
        norm_num
      · by_cases he4 : e = 4 ∨ e = 5 ∨ e = 8 ∨ e = 9
        · right
          obtain ⟨-, -, hne⟩ := hdiff hek
          rw [testGraph_inputDistance sqrt hs] at hne
          have hkk : k = 0 ∨ k = 1 := by omega
          rcases hkk with rfl | rfl <;> rcases he4 with rfl | rfl | rfl | rfl <;>
            try (simp at hke)
          all_goals
            simp only [e0, e1, e4, e5, e8, e9] at hne
            obtain ⟨rp, hrp, hn⟩ := hne (by decide)
            rw [hn]
            exact testGraph_nodes g hsp _ _ (by omega) (by simp) (by simp) rp hrp
        · left
          rw [(hdiff hek).1, closestPos_point_eq]
          exact hd1.2.1 (fun h => he4 (Or.inl h)) (fun h => he4 (Or.inr (Or.inl h)))
            (fun h => he4 (Or.inr (Or.inr (Or.inl h))))
            (fun h => he4 (Or.inr (Or.inr (Or.inr h))))
  have hnn : 0 ≤ (Edge.Segment (testGraph : Graph K) k).Distance sqrt ⟨1, 2⟩ := hs.nonneg _
  apply key_lt_of_bounds x y hx1 hx2 hx3 hx4 hmax
  · rcases hcases with h1 | h1 | ⟨h1, -⟩
    · exact le_trans (WithTop.coe_le_coe.mpr h1) hfirst
    · exact le_trans (WithTop.coe_le_coe.mpr h1) hlast
    · refine testGraph_cur_ge sqrt hs _ ?_ _ hC
      exact List.mem_append.mpr (Or.inl (List.mem_append.mpr (Or.inr
        (List.mem_map.mpr ⟨2, h1, testGraph_node2⟩))))
  · rw [hEnd]
    rcases hcases with h1 | h1 | ⟨-, h1⟩
    · exact Or.inl (lt_of_lt_of_le zero_lt_one (le_trans h1 (le_max_left _ _)))
    · exact Or.inl (lt_of_lt_of_le zero_lt_one (le_trans h1 (le_max_right _ _)))
    · exact Or.inr ⟨le_trans hnn (le_max_left _ _), h1⟩

end TestGraphLower
section TestGraphRun

variable {K : Type} [LinearOrderedField K] [FloorRing K]

theorem testGraph_edge_lt (k : Nat) :
    ((testGraph : Graph K).edge k).Src < 6 ∧ ((testGraph : Graph K).edge k).Dst < 6 := by
  rw [testGraph_edge]
  by_cases hk : k < 12
  · interval_cases k <;> simp
  · rw [List.getD_eq_default _ _ (by simp; omega)]
    simp

/-- The grid index search around a point of the test input returns all twelve
edges, in the order of the oracle. -/
theorem testGraph_search_valid (order : MapOrder) (horder : order.Valid) (key : List Nat)
    (p : Point K) (hx2 : p.X - 10 < 0) (hx3 : 0 ≤ p.X + 10)
    (hy2 : p.Y - 10 < 0) (hy3 : 0 ≤ p.Y + 10) :
    GraphGridIndex.Search (order key) (Graph.GridIndex (testGraph : Graph K) (10 * 8))
      (p.Bounds.AddTol 10) = some (order key (List.range 12)) ∧
    ∀ e, e ∈ order key (List.range 12) ↔ e < 12 := by
  have hmem : ∀ e, e ∈ order key (List.range 12) ↔ e < 12 := by
    intro e
    rw [(horder key (List.range 12)).mem_iff, List.mem_range]
  refine ⟨?_, hmem⟩
  rw [testGraph_search (order key) p hx2 hx3 hy2 hy3, if_pos]
  rw [List.all_eq_true]
  intro e he
  exact decide_eq_true ((hmem e).mp he)

end TestGraphRun
section TestGraphResult

variable {K : Type} [LinearOrderedField K] [FloorRing K]

/-- The tables of iteration `1` of the test run: the entry of edge `4` comes from
edge `1`, and every other entry is strictly worse. -/
theorem testGraph_step (order : MapOrder) (horder : order.Valid) (sqrt : K → K)
    (hs : IsSqrt sqrt) (tie : Nat → Bool) :
    ∃ tables, closestPathStep order sqrt (testNodePathsGraph tie : NodePathsGraph K)
        (Graph.GridIndex (testGraph : Graph K) (10 * 8)) 10 1 ⟨1, 2⟩ ⟨3, 2⟩
        (initialEntries sqrt (testGraph : Graph K) (order [0, 0] (List.range 12)) ⟨1, 2⟩ 10) =
        some tables ∧
      mapGet tables.1 4 =
        some ⟨((1 : K) : WithTop K), ⟨4, 1⟩, [0, 2], ((1 : K) : WithTop K), 0⟩ ∧
      mapGet tables.2 4 = some 1 ∧
      ∀ e y, mapGet tables.1 e = some y → e ≠ 4 →
        Entry.key (⟨((1 : K) : WithTop K), ⟨4, 1⟩, [0, 2], ((1 : K) : WithTop K), 0⟩ : Entry K) <
          y.key := by
  have hG : (testNodePathsGraph tie : NodePathsGraph K).Graph = testGraph := rfl
  have hsp := testGraph_shortestPath (K := K) tie
  obtain ⟨hs0, hm0⟩ := testGraph_search_valid (K := K) order horder [0, 0] ⟨1, 2⟩
    (by norm_num) (by norm_num) (by norm_num) (by norm_num)
  obtain ⟨hs1, hm1⟩ := testGraph_search_valid (K := K) order horder [0, 1] ⟨3, 2⟩
    (by norm_num) (by norm_num) (by norm_num) (by norm_num)
  -- the entries of iteration 0
  have hent : ∀ k v, mapGet (initialEntries sqrt (testGraph : Graph K)
      (order [0, 0] (List.range 12)) ⟨1, 2⟩ 10) k = some v →
      k < 12 ∧ v = initialEntry sqrt testGraph k ⟨1, 2⟩ := by
    intro k v hkv
    exact ⟨(hm0 k).mp (initialEntries_mem _ _ _ _ _ k v hkv),
      initialEntries_eq_initialEntry _ _ _ _ _ k v hkv⟩
  have hent1 : mapGet (initialEntries sqrt (testGraph : Graph K)
      (order [0, 0] (List.range 12)) ⟨1, 2⟩ 10) 1 = some (initialEntry sqrt testGraph 1 ⟨1, 2⟩) :=
    initialEntries_present _ _ _ _ _ 1 ((hm0 1).mpr (by norm_num))
      (not_lt.mpr ((testGraph_distance0 sqrt hs 1).2.2 (by norm_num)))
  -- the step returns
  obtain ⟨tables, hstep⟩ := closestPathStep_isSome order sqrt
    (testNodePathsGraph tie : NodePathsGraph K) _ 10 1 ⟨1, 2⟩ ⟨3, 2⟩ _ _ hs1 (by
      intro edge k prev _ hprev
      apply transitionEntry_ne_none
      rw [testGraph_inputDistance sqrt hs, hG]
      exact testGraph_shortestPath_ne_none tie _ _ (testGraph_edge_lt _).2 (testGraph_edge_lt _).1)
  have hfrom := closestPathStep_tablesFrom order sqrt _ _ _ _ _ _ _ tables hstep
  have hmin := closestPathStep_minimal order horder sqrt _ _ _ _ _ _ _ tables hstep
  have hbest := testGraph_best sqrt hs tie
  obtain ⟨y4, hy4⟩ := closestPathStep_present order horder sqrt _ _ _ _ _ _ _ tables _ hs1 hstep 4
    ((hm1 4).mpr (by norm_num))
    (by rw [hG]; exact not_lt.mpr ((testGraph_distance1 sqrt hs 4).2.2 (by norm_num)))
    1 _ _ hent1 hbest
  have hworse : ∀ e y, mapGet tables.1 e = some y →
      (e = 4 ∧ y = ⟨((1 : K) : WithTop K), ⟨4, 1⟩, [0, 2], ((1 : K) : WithTop K), 0⟩ ∧
        mapGet tables.2 e = some 1) ∨
      (e ≠ 4 ∧ Entry.key (⟨((1 : K) : WithTop K), ⟨4, 1⟩, [0, 2], ((1 : K) : WithTop K), 0⟩ :
        Entry K) < y.key) := by
    intro e y hey
    obtain ⟨k, prev, hprev, htr, hbp⟩ := hfrom e y hey
    obtain ⟨hk, rfl⟩ := hent k prev hprev
    by_cases hke : k = 1 ∧ e = 4
    · obtain ⟨rfl, rfl⟩ := hke
      left
      rw [hbest] at htr
      exact ⟨rfl, (Option.some.inj (Option.some.inj htr)).symm, hbp⟩
    · have hlt := testGraph_worse sqrt hs _ hG hsp k e hk hke
        (⟨((1 : K) : WithTop K), ⟨4, 1⟩, [0, 2], ((1 : K) : WithTop K), 0⟩ : Entry K) y
        rfl rfl rfl rfl htr
      by_cases he : e = 4
      · subst he
        exact absurd (hmin 4 y hey 1 _ _ hent1 hbest) (not_le.mpr hlt)
      · exact Or.inr ⟨he, hlt⟩
  refine ⟨tables, hstep, ?_, ?_, ?_⟩
  · rcases hworse 4 y4 hy4 with ⟨-, h2, -⟩ | ⟨h1, -⟩
    · rw [hy4, h2]
    · exact absurd rfl h1
  · rcases hworse 4 y4 hy4 with ⟨-, -, h3⟩ | ⟨h1, -⟩
    · exact h3
    · exact absurd rfl h1
  · intro e y hey he
    rcases hworse e y hey with ⟨h1, -⟩ | ⟨-, h2⟩
    · exact absurd h1 he
    · exact h2

end TestGraphResult
section TestGraphClaim

variable {K : Type} [LinearOrderedField K] [FloorRing K]

theorem testGraph_run (order : MapOrder) (horder : order.Valid) (sqrt : K → K)
    (hs : IsSqrt sqrt) (tie : Nat → Bool) :
    GetClosestPath order sqrt (testNodePathsGraph tie : NodePathsGraph K)
      [⟨1, 2⟩, ⟨3, 2⟩] 10 =
    some (some ⟨⟨1, 0⟩, [0, 2], ⟨4, 1⟩⟩, ((1 : K) : WithTop K)) := by
  have hG : (testNodePathsGraph tie : NodePathsGraph K).Graph = testGraph := rfl
  obtain ⟨hs0, hm0⟩ := testGraph_search_valid (K := K) order horder [0, 0] ⟨1, 2⟩
    (by norm_num) (by norm_num) (by norm_num) (by norm_num)
  obtain ⟨tables, hstep, h4, hbp, hother⟩ := testGraph_step order horder sqrt hs tie
  have hent1 : mapGet (initialEntries sqrt (testGraph : Graph K)
      (order [0, 0] (List.range 12)) ⟨1, 2⟩ 10) 1 =
      some ⟨((0 : K) : WithTop K), ⟨1, 0⟩, [], ((0 : K) : WithTop K), 0⟩ := by
    rw [← testGraph_initial1 sqrt hs]
    exact initialEntries_present _ _ _ _ _ 1 ((hm0 1).mpr (by norm_num))
      (not_lt.mpr ((testGraph_distance0 sqrt hs 1).2.2 (by norm_num)))
  have hbest : bestEndEntry order tables.1 =
      some ⟨((1 : K) : WithTop K), ⟨4, 1⟩, [0, 2], ((1 : K) : WithTop K), 0⟩ := by
    obtain ⟨b, hb, hle⟩ := bestEndEntry_minimal order horder tables.1 4 _ h4
    obtain ⟨e, he⟩ := bestEndEntry_mem order tables.1 b hb
    by_cases he4 : e = 4
    · subst he4
      rw [h4] at he
      rw [hb, Option.some.inj he]
    · exact absurd hle (not_le.mpr (hother e b he he4))
  unfold GetClosestPath
  simp only [hG, hs0, closestPathLoop, hstep, hbest, followPath, h4, hbp, Option.getD_some,
    List.append_nil, hent1]

end TestGraphClaim
section TestGraphStatement

variable {K : Type} [LinearOrderedField K] [FloorRing K]

/-- C2: on the six-node graph of `TestGetClosestPath` (nodes `v11, v12, v31, v32, v51,
v52` with ids `0..5`) with its shortest-path tables, `GetClosestPath` with radius `10`
on the input `[(1, 2), (3, 2)]` returns a path whose node sequence
`Start.Edge.Src, Path..., End.Edge.Dst` is `[v12, v11, v31, v32] = [1, 0, 2, 3]`,
and the distance `1`; this holds for every iteration order of the maps, every
exact square root and every choice between equally short paths in the tables. -/
theorem GetClosestPath_testGraph (order : MapOrder) (horder : order.Valid) (sqrt : K → K)
    (hs : IsSqrt sqrt) (tie : Nat → Bool) :
    ∃ outPath : GraphPath K,
      GetClosestPath order sqrt (testNodePathsGraph tie : NodePathsGraph K)
        [⟨1, 2⟩, ⟨3, 2⟩] 10 = some (some outPath, ((1 : K) : WithTop K)) ∧
      [((testGraph : Graph K).edge outPath.Start.Edge).Src] ++ outPath.Path ++
        [((testGraph : Graph K).edge outPath.End.Edge).Dst] = [1, 0, 2, 3] := by
  refine ⟨⟨⟨1, 0⟩, [0, 2], ⟨4, 1⟩⟩, testGraph_run order horder sqrt hs tie, ?_⟩
  simp [testGraph_edge]

theorem GetClosestPath_testGraph_witness :
    MapOrder.Valid MapOrder.insertion ∧ IsSqrt Real.sqrt ∧
    ∃ outPath : GraphPath ℝ,
      GetClosestPath MapOrder.insertion Real.sqrt
        (testNodePathsGraph (fun _ => true) : NodePathsGraph ℝ)
        [⟨1, 2⟩, ⟨3, 2⟩] 10 = some (some outPath, ((1 : ℝ) : WithTop ℝ)) ∧
      [((testGraph : Graph ℝ).edge outPath.Start.Edge).Src] ++ outPath.Path ++
        [((testGraph : Graph ℝ).edge outPath.End.Edge).Dst] = [1, 0, 2, 3] :=
  ⟨fun _ _ => List.Perm.refl _, isSqrt_real,
    GetClosestPath_testGraph MapOrder.insertion (fun _ _ => List.Perm.refl _) Real.sqrt
      isSqrt_real (fun _ => true)⟩

end TestGraphStatement
section ProjectClaims

variable {K : Type} [LinearOrderedField K]

/-- C11: for all segments `s` and points `p`, `s.Distance(p)` is the magnitude of
`s.ProjectPoint(p) - p`, and `s.ProjectPoint(p)` lies on `s`: it is
`Start + t * (End - Start)` for some `t` in `[0, 1]`; on a zero-length segment
(`Start = End`) the projection is `Start`.  This holds whatever `math.Sqrt` returns. -/
theorem Segment.ProjectPoint_on_segment (sqrt : K → K) (s : Segment K) (p : Point K) :
    s.Distance sqrt p = ((s.ProjectPoint sqrt p).Sub p).Magnitude sqrt ∧
    (∃ t, 0 ≤ t ∧ t ≤ 1 ∧
      s.ProjectPoint sqrt p = s.Start.Add ((s.End.Sub s.Start).Scale t)) ∧
    (s.Length sqrt = 0 ∨ s.Start = s.End → s.ProjectPoint sqrt p = s.Start) := by
  refine ⟨rfl, ?_, ?_⟩
  · by_cases hl : s.Length sqrt = 0
    · refine ⟨0, le_rfl, zero_le_one, ?_⟩
      simp [Segment.ProjectPoint, Segment.PointAtFactor, hl, Point.Add, Point.Scale]
    · refine ⟨max 0 (min 1 ((p.Sub s.Start).Dot (s.End.Sub s.Start) / s.Length sqrt /
        s.Length sqrt)), le_max_left _ _, max_le zero_le_one (min_le_left _ _), ?_⟩
      simp [Segment.ProjectPoint, Segment.PointAtFactor, Segment.Project, hl]
  · rintro (hl | he)
    · simp [Segment.ProjectPoint, Segment.PointAtFactor, hl]
    · by_cases hl : s.Length sqrt = 0
      · simp [Segment.ProjectPoint, Segment.PointAtFactor, hl]
      · cases s with
        | mk a b =>
          simp only at he
          subst he
          simp [Segment.ProjectPoint, Segment.PointAtFactor, Segment.Project, hl, Point.Add,
            Point.Scale, Point.Sub]


end ProjectClaims
section NewRoadSegmentClaims

variable {K : Type} [LinearOrderedField K]

/-- The prefix sums the loop of `NewRoadSegment` appends: with `acc` the distances
so far and `last` the final entry of `acc`. -/
theorem newRoadSegmentLoop_spec (sqrt : K → K) (graph : Graph K) (edges : List Nat) :
    ∀ (cur : Option Nat) (acc : List K) (last : K),
      acc ≠ [] → acc.getD (acc.length - 1) 0 = last →
      (cur = none → last = 0) →
      ∀ r, newRoadSegmentLoop sqrt graph edges cur acc = some r →
        r = acc ++ (List.range edges.length).map (fun i =>
          last + edgeLengthSum sqrt graph (edges.take (i + 1))) := by
  induction edges with
  | nil =>
    intro cur acc last _ _ _ r h
    simp [newRoadSegmentLoop] at h
    simp [h]
  | cons e rest ih =>
    intro cur acc last hne hlast hcur r h
    have hstep : ∀ acc2 : List K, acc2 = acc ++ [last + (Edge.Segment graph e).Length sqrt] →
        newRoadSegmentLoop sqrt graph rest (some (graph.edge e).Dst) acc2 = some r →
        r = acc ++ (List.range (e :: rest).length).map (fun i =>
          last + edgeLengthSum sqrt graph ((e :: rest).take (i + 1))) := by
      intro acc2 hacc2 h2
      have := ih (some (graph.edge e).Dst) acc2 (last + (Edge.Segment graph e).Length sqrt)
        (by rw [hacc2]; simp) (by rw [hacc2]; simp) (by simp) r h2
      rw [this, hacc2, List.length_cons, List.range_succ_eq_map, List.map_cons, List.map_map]
      simp only [List.append_assoc, List.singleton_append, List.take_succ_cons, List.take_zero,
        zero_add]
      congr 2
      · simp [edgeLengthSum]
      · apply List.map_congr_left
        intro i _
        simp [edgeLengthSum, add_assoc]
    cases cur with
    | none =>
      rw [newRoadSegmentLoop] at h
      have h0 := hcur rfl
      exact hstep _ (by rw [h0, zero_add]) h
    | some c =>
      rw [newRoadSegmentLoop] at h
      split at h
      · simp at h
      · rw [hlast] at h
        exact hstep _ rfl h

theorem NewRoadSegment_spec (sqrt : K → K) (graph : Graph K) (edges : List Nat)
    (rs : RoadSegment K) (h : NewRoadSegment sqrt graph edges = some rs) :
    rs.Edges = edges ∧
    rs.EdgeDistances = (0 : K) :: (List.range edges.length).map (fun i =>
      edgeLengthSum sqrt graph (edges.take (i + 1))) := by
  unfold NewRoadSegment at h
  split at h
  · simp at h
  · rename_i r hr
    have := newRoadSegmentLoop_spec sqrt graph edges none [0] 0 (by simp) (by simp)
      (fun _ => rfl) r hr
    simp only [Option.some.injEq] at h
    subst h
    simp [this]

/-- C15: for every road segment that `NewRoadSegment` builds from a list of edges,
`EdgeDistances[i]` is the sum of the lengths of the edges `0..i-1` for every edge
index `i`, and `Length()` is the sum of the lengths of all its edges. -/
theorem NewRoadSegment_edgeDistances (sqrt : K → K) (graph : Graph K) (edges : List Nat)
    (rs : RoadSegment K) (h : NewRoadSegment sqrt graph edges = some rs) :
    rs.Edges = edges ∧
    (∀ i, i < rs.Edges.length →
      rs.EdgeDistances[i]? = some (edgeLengthSum sqrt graph (rs.Edges.take i))) ∧
    rs.Length = some (edgeLengthSum sqrt graph rs.Edges) := by
  obtain ⟨h1, h2⟩ := NewRoadSegment_spec sqrt graph edges rs h
  have hall : ∀ i, i ≤ edges.length →
      rs.EdgeDistances[i]? = some (edgeLengthSum sqrt graph (edges.take i)) := by
    intro i hi
    rw [h2]
    cases i with
    | zero => simp [edgeLengthSum]
    | succ j =>
      rw [List.getElem?_cons_succ, List.getElem?_map, List.getElem?_range (by omega)]
      rfl
  refine ⟨h1, ?_, ?_⟩
  · intro i hi
    rw [h1] at hi ⊢
    exact hall i hi.le
  · unfold RoadSegment.Length
    have hlen : rs.EdgeDistances.length = edges.length + 1 := by rw [h2]; simp
    rw [hlen, Nat.add_sub_cancel, hall _ le_rfl, List.take_length, h1]

theorem NewRoadSegment_edgeDistances_witness :
    NewRoadSegment Real.sqrt (testGraph : Graph ℝ) [1, 2, 4] =
      some ⟨0, [1, 2, 4], [0, 1, 3, 4]⟩ ∧
    (⟨0, [1, 2, 4], [0, 1, 3, 4]⟩ : RoadSegment ℝ).Length =
      some (edgeLengthSum Real.sqrt (testGraph : Graph ℝ) [1, 2, 4]) :=
  have h : NewRoadSegment Real.sqrt (testGraph : Graph ℝ) [1, 2, 4] =
      some ⟨0, [1, 2, 4], [0, 1, 3, 4]⟩ := by
    have h1 := isSqrt_real.sqrt_one
    have h4 := isSqrt_real.sqrt_four
    norm_num [NewRoadSegment, newRoadSegmentLoop, testGraph_edge, testGraph_segment,
      Segment.Length, Point.Distance, h1, h4]
  ⟨h, (NewRoadSegment_edgeDistances Real.sqrt testGraph [1, 2, 4] _ h).2.2⟩

end NewRoadSegmentClaims
section ChainClaims

variable {K : Type} [LinearOrderedField K]

theorem chainInvariant_nil (graph : Graph K) : ChainInvariant graph [] := by
  intro i hi; simp at hi

theorem chainInvariant_singleton (graph : Graph K) (e : Nat) : ChainInvariant graph [e] := by
  intro i hi; simp at hi

theorem chainInvariant_cons_cons (graph : Graph K) (e f : Nat) (rest : List Nat) :
    ChainInvariant graph (e :: f :: rest) ↔
      (graph.edge e).Dst = (graph.edge f).Src ∧ ChainInvariant graph (f :: rest) := by
  constructor
  · intro h
    refine ⟨by simpa using h 0 (by simp), ?_⟩
    intro i hi
    have := h (i + 1) (by simp at hi ⊢; omega)
    simpa using this
  · rintro ⟨h0, h⟩ i hi
    cases i with
    | zero => simpa using h0
    | succ j =>
      have := h j (by simp at hi ⊢; omega)
      simpa using this

/-- The loop of `NewRoadSegment` fails exactly when the current node is not the
source of the next edge or the remaining edges are not a chain. -/
theorem newRoadSegmentLoop_eq_none (sqrt : K → K) (graph : Graph K) (edges : List Nat) :
    ∀ (cur : Option Nat) (acc : List K),
      newRoadSegmentLoop sqrt graph edges cur acc = none ↔
        ((∃ c e, cur = some c ∧ edges.head? = some e ∧ c ≠ (graph.edge e).Src) ∨
          ¬ ChainInvariant graph edges) := by
  induction edges with
  | nil =>
    intro cur acc
    simp [newRoadSegmentLoop, chainInvariant_nil]
  | cons e rest ih =>
    intro cur acc
    have hrest : ∀ acc2 : List K,
        newRoadSegmentLoop sqrt graph rest (some (graph.edge e).Dst) acc2 = none ↔
          ¬ ChainInvariant graph (e :: rest) := by
      intro acc2
      rw [ih]
      cases rest with
      | nil => simp [chainInvariant_nil, chainInvariant_singleton]
      | cons f rest2 =>
        rw [chainInvariant_cons_cons]
        simp only [Option.some.injEq, List.head?_cons, exists_and_left, exists_eq_left',
          ne_eq]
        tauto
    cases cur with
    | none =>
      rw [newRoadSegmentLoop, hrest]
      simp
    | some c =>
      rw [newRoadSegmentLoop]
      by_cases hc : c = (graph.edge e).Src
      · rw [if_neg (not_not.mpr hc), hrest]
        simp [hc]
      · rw [if_pos hc]
        simp [hc]

theorem NewRoadSegment_eq_none (sqrt : K → K) (graph : Graph K) (edges : List Nat) :
    NewRoadSegment sqrt graph edges = none ↔ ¬ ChainInvariant graph edges := by
  unfold NewRoadSegment
  have h : newRoadSegmentLoop sqrt graph edges none [0] = none ↔
      ¬ ChainInvariant graph edges := by
    rw [newRoadSegmentLoop_eq_none]
    simp
  rw [← h]
  split
  · rename_i hn; simp [hn]
  · rename_i r hr; simp [hr]

/-- Every road segment in the state of `GetRoadSegments` was built by
`NewRoadSegment`, so any property of the edge lists that `NewRoadSegment` accepts
holds for the returned road segments. -/
theorem GetRoadSegments_all (sqrt : K → K) (graph : Graph K) (P : RoadSegment K → Prop)
    (hP : ∀ edges rs n, NewRoadSegment sqrt graph edges = some rs → P { rs with ID := n })
    (rss : List (RoadSegment K)) (h : graph.GetRoadSegments sqrt = some rss) :
    ∀ rs ∈ rss, P rs := by
  have hinc : ∀ (st st2 : RoadSegmentsState K) (e : Nat) (b : Bool),
      (∀ rs ∈ st.roadSegments, P rs) → incorporate sqrt graph st e b = some st2 →
      ∀ rs ∈ st2.roadSegments, P rs := by
    intro st st2 e b hst hi
    unfold incorporate at hi
    split at hi
    · simp at hi
    · split at hi
      · simp at hi
      · rename_i rs hrs
        simp only [Option.some.injEq] at hi
        subst hi
        intro x hx
        rcases List.mem_append.mp hx with hx | hx
        · exact hst x hx
        · rw [List.mem_singleton] at hx
          subst hx
          exact hP _ _ _ hrs
  unfold Graph.GetRoadSegments at h
  split at h
  · simp at h
  · rename_i st1 h1
    split at h
    · simp at h
    · rename_i st2 h2
      simp only [Option.some.injEq] at h
      subst h
      have q1 : ∀ rs ∈ st1.roadSegments, P rs := by
        unfold roadSegmentsOfJunctions at h1
        refine foldlM_option_invariant _ (fun st => ∀ rs ∈ st.roadSegments, P rs) _ _ _
          (by simp) ?_ h1
        intro acc node r _ hacc hr
        simp only at hr
        split at hr
        · simp only [Option.some.injEq] at hr; subst hr; exact hacc
        · refine foldlM_option_invariant _ (fun st => ∀ rs ∈ st.roadSegments, P rs) _ _ _
            hacc ?_ hr
          intro acc2 e r2 _ hacc2 hr2
          exact hinc _ _ _ _ hacc2 hr2
      unfold roadSegmentsOfLoops at h2
      refine foldlM_option_invariant _ (fun st => ∀ rs ∈ st.roadSegments, P rs) _ _ _
        q1 ?_ h2
      intro acc e r _ hacc hr
      simp only at hr
      split at hr
      · simp only [Option.some.injEq] at hr; subst hr; exact hacc
      · split at hr
        · simp at hr
        · exact hinc _ _ _ _ hacc hr

/-- C16: `NewRoadSegment(edges)` returns an error if and only if some consecutive
pair violates `edges[i].Dst == edges[i+1].Src`; hence every road segment it
constructs, and every one that `GetRoadSegments` returns, satisfies the chain
invariant. -/
theorem NewRoadSegment_error_iff (sqrt : K → K) (graph : Graph K) :
    (∀ edges : List Nat, NewRoadSegment sqrt graph edges = none ↔
      ∃ i, i + 1 < edges.length ∧
        (graph.edge (edges.getD i 0)).Dst ≠ (graph.edge (edges.getD (i + 1) 0)).Src) ∧
    (∀ edges rs, NewRoadSegment sqrt graph edges = some rs →
      ChainInvariant graph rs.Edges) ∧
    (∀ rss, graph.GetRoadSegments sqrt = some rss →
      ∀ rs ∈ rss, ChainInvariant graph rs.Edges) := by
  have hsome : ∀ edges rs, NewRoadSegment sqrt graph edges = some rs →
      ChainInvariant graph rs.Edges := by
    intro edges rs h
    rw [(NewRoadSegment_spec sqrt graph edges rs h).1]
    by_contra hc
    rw [← NewRoadSegment_eq_none sqrt, h] at hc
    simp at hc
  refine ⟨?_, hsome, ?_⟩
  · intro edges
    rw [NewRoadSegment_eq_none]
    unfold ChainInvariant
    push_neg
    rfl
  · intro rss h
    exact GetRoadSegments_all sqrt graph (fun rs => ChainInvariant graph rs.Edges)
      (fun edges rs _ hrs => hsome edges rs hrs) rss h

end ChainClaims
section GridClaims

variable {K : Type} [LinearOrderedField K] [FloorRing K]

theorem mem_intRange (lo hi x : Int) : x ∈ intRange lo hi ↔ lo ≤ x ∧ x ≤ hi := by
  unfold intRange
  constructor
  · intro h
    obtain ⟨k, hk, rfl⟩ := List.mem_map.mp h
    simp at hk
    obtain ⟨a, ha, rfl⟩ := hk
    omega
  · rintro ⟨h1, h2⟩
    apply List.mem_map.mpr
    refine ⟨x - lo, ?_, by omega⟩
    simp
    exact ⟨(x - lo).toNat, by omega, by omega⟩

theorem mem_eachCell (idx : GridIndex K) (rect : Rectangle K) (c : Int × Int) :
    c ∈ idx.eachCell rect ↔
      (goInt64 ⌊rect.Min.X / idx.gridSize⌋ ≤ c.1 ∧
        c.1 ≤ goInt64 ⌊rect.Max.X / idx.gridSize⌋) ∧
      (goInt64 ⌊rect.Min.Y / idx.gridSize⌋ ≤ c.2 ∧
        c.2 ≤ goInt64 ⌊rect.Max.Y / idx.gridSize⌋) := by
  unfold GridIndex.eachCell
  rw [List.mem_flatMap]
  constructor
  · rintro ⟨i, hi, hc⟩
    obtain ⟨j, hj, rfl⟩ := List.mem_map.mp hc
    exact ⟨(mem_intRange _ _ _).mp hi, (mem_intRange _ _ _).mp hj⟩
  · rintro ⟨hi, hj⟩
    exact ⟨c.1, (mem_intRange _ _ _).mpr hi,
      List.mem_map.mpr ⟨c.2, (mem_intRange _ _ _).mpr hj, rfl⟩⟩

/-- The inner loop of `Search` adds the ids of one cell to the set. -/
theorem searchCell_spec (cell : List Nat) :
    ∀ ids : List Nat, ids.Nodup →
      (cell.foldl (fun ids id => if id ∈ ids then ids else ids ++ [id]) ids).Nodup ∧
      ∀ x, x ∈ cell.foldl (fun ids id => if id ∈ ids then ids else ids ++ [id]) ids ↔
        x ∈ ids ∨ x ∈ cell := by
  induction cell with
  | nil => intro ids h; simp [h]
  | cons a rest ih =>
    intro ids h
    rw [List.foldl_cons]
    by_cases ha : a ∈ ids
    · rw [if_pos ha]
      obtain ⟨h1, h2⟩ := ih ids h
      refine ⟨h1, fun x => ?_⟩
      rw [h2, List.mem_cons]
      constructor
      · rintro (h | h)
        · exact Or.inl h
        · exact Or.inr (Or.inr h)
      · rintro (h | h | h)
        · exact Or.inl h
        · exact Or.inl (h ▸ ha)
        · exact Or.inr h
    · rw [if_neg ha]
      have hn : (ids ++ [a]).Nodup := by
        rw [List.nodup_append]
        exact ⟨h, List.nodup_singleton a, by
          intro x hx hx2
          rw [List.mem_singleton] at hx2
          exact ha (hx2 ▸ hx)⟩
      obtain ⟨h1, h2⟩ := ih _ hn
      refine ⟨h1, fun x => ?_⟩
      rw [h2, List.mem_append, List.mem_singleton, List.mem_cons]
      tauto

/-- The loop of `Search` over the covered cells collects the ids of those cells,
each once. -/
theorem searchCells_spec (grid : Int × Int → List Nat) (cells : List (Int × Int)) :
    ∀ ids : List Nat, ids.Nodup →
      (cells.foldl (fun ids c =>
        (grid c).foldl (fun ids id => if id ∈ ids then ids else ids ++ [id]) ids) ids).Nodup ∧
      ∀ x, x ∈ cells.foldl (fun ids c =>
        (grid c).foldl (fun ids id => if id ∈ ids then ids else ids ++ [id]) ids) ids ↔
        x ∈ ids ∨ ∃ c ∈ cells, x ∈ grid c := by
  induction cells with
  | nil => intro ids h; simp [h]
  | cons c rest ih =>
    intro ids h
    rw [List.foldl_cons]
    obtain ⟨h1, h2⟩ := searchCell_spec (grid c) ids h
    obtain ⟨h3, h4⟩ := ih _ h1
    refine ⟨h3, fun x => ?_⟩
    rw [h4, h2]
    simp only [List.mem_cons, exists_eq_or_imp]
    tauto

/-- C20: for every `GridIndex` and query rectangle `q`, `Search(q)` contains each id
at most once, and contains exactly the ids stored in at least one cell covered by
`q`; the order of the result is that of the iteration over the set `ids`, any
permutation. -/
theorem GridIndex.Search_nodup_mem (order : List Nat → List Nat)
    (horder : ∀ l, (order l).Perm l) (idx : GridIndex K) (q : Rectangle K) :
    (idx.Search order q).Nodup ∧
    ∀ id, id ∈ idx.Search order q ↔ ∃ c ∈ idx.eachCell q, id ∈ idx.grid c := by
  unfold GridIndex.Search
  obtain ⟨h1, h2⟩ := searchCells_spec idx.grid (idx.eachCell q) [] List.nodup_nil
  refine ⟨(horder _).nodup_iff.mpr h1, fun id => ?_⟩
  rw [(horder _).mem_iff, h2]
  simp

theorem GridIndex.Search_nodup_mem_witness :
    (∀ l : List Nat, (id l).Perm l) ∧
    ((⟨1, fun c => if c = (0, 0) then [3, 3, 5] else if c = (1, 0) then [5] else []⟩ :
      GridIndex ℚ).Search id ⟨⟨0, 0⟩, ⟨1, 0⟩⟩).Nodup :=
  ⟨fun _ => List.Perm.refl _,
    (GridIndex.Search_nodup_mem id (fun _ => List.Perm.refl _)
      (⟨1, fun c => if c = (0, 0) then [3, 3, 5] else if c = (1, 0) then [5] else []⟩ :
        GridIndex ℚ) ⟨⟨0, 0⟩, ⟨1, 0⟩⟩).1⟩

end GridClaims
section GridSuperset

variable {K : Type} [LinearOrderedField K] [FloorRing K]

/-- The loop of `Insert` over cells: the cell size is kept, every cell keeps its
ids, and every cell of the loop gets `id`. -/
theorem insertCells_spec (id : Nat) (cells : List (Int × Int)) :
    ∀ idx : GridIndex K,
      (cells.foldl (fun idx c =>
        ({ idx with grid := Function.update idx.grid c (idx.grid c ++ [id]) } : GridIndex K))
        idx).gridSize = idx.gridSize ∧
      (∀ c x, x ∈ idx.grid c → x ∈ (cells.foldl (fun idx c =>
        ({ idx with grid := Function.update idx.grid c (idx.grid c ++ [id]) } : GridIndex K))
        idx).grid c) ∧
      (∀ c, c ∈ cells → id ∈ (cells.foldl (fun idx c =>
        ({ idx with grid := Function.update idx.grid c (idx.grid c ++ [id]) } : GridIndex K))
        idx).grid c) := by
  induction cells with
  | nil => intro idx; simp
  | cons a rest ih =>
    intro idx
    rw [List.foldl_cons]
    obtain ⟨h1, h2, h3⟩ := ih
      ({ idx with grid := Function.update idx.grid a (idx.grid a ++ [id]) } : GridIndex K)
    have hkeep : ∀ c x, x ∈ idx.grid c →
        x ∈ Function.update idx.grid a (idx.grid a ++ [id]) c := by
      intro c x hx
      by_cases hc : c = a
      · subst hc; simp [hx]
      · rw [Function.update_noteq hc]; exact hx
    refine ⟨h1, fun c x hx => h2 c x (hkeep c x hx), ?_⟩
    intro c hc
    rcases List.mem_cons.mp hc with rfl | hc
    · exact h2 _ _ (by simp)
    · exact h3 c hc

theorem GridIndex.Insert_spec (idx : GridIndex K) (id : Nat) (rect : Rectangle K) :
    (idx.Insert id rect).gridSize = idx.gridSize ∧
    (∀ c x, x ∈ idx.grid c → x ∈ (idx.Insert id rect).grid c) ∧
    (∀ c, c ∈ idx.eachCell rect → id ∈ (idx.Insert id rect).grid c) :=
  insertCells_spec id (idx.eachCell rect) idx

theorem GridIndex.insertAll_spec (inserts : List (Nat × Rectangle K)) :
    ∀ idx : GridIndex K,
      (idx.insertAll inserts).gridSize = idx.gridSize ∧
      (∀ c x, x ∈ idx.grid c → x ∈ (idx.insertAll inserts).grid c) ∧
      (∀ ir, ir ∈ inserts → ∀ c, c ∈ idx.eachCell ir.2 → ir.1 ∈ (idx.insertAll inserts).grid c) := by
  induction inserts with
  | nil => intro idx; simp [GridIndex.insertAll]
  | cons a rest ih =>
    intro idx
    have hcons : idx.insertAll (a :: rest) = (idx.Insert a.1 a.2).insertAll rest := rfl
    rw [hcons]
    obtain ⟨g1, g2, g3⟩ := GridIndex.Insert_spec idx a.1 a.2
    obtain ⟨h1, h2, h3⟩ := ih (idx.Insert a.1 a.2)
    have hcell : ∀ r : Rectangle K, (idx.Insert a.1 a.2).eachCell r = idx.eachCell r := by
      intro r
      unfold GridIndex.eachCell
      rw [g1]
    refine ⟨h1.trans g1, fun c x hx => h2 c x (g2 c x hx), ?_⟩
    intro ir hir c hc
    rcases List.mem_cons.mp hir with rfl | hir
    · exact h2 c _ (g3 c hc)
    · exact h3 ir hir c (by rw [hcell]; exact hc)

theorem GridIndex.InRange_floor (gridSize : K) (rect : Rectangle K)
    (h : GridIndex.InRange gridSize rect) :
    goInt64 ⌊rect.Min.X / gridSize⌋ = ⌊rect.Min.X / gridSize⌋ ∧
    goInt64 ⌊rect.Min.Y / gridSize⌋ = ⌊rect.Min.Y / gridSize⌋ ∧
    goInt64 ⌊rect.Max.X / gridSize⌋ = ⌊rect.Max.X / gridSize⌋ ∧
    goInt64 ⌊rect.Max.Y / gridSize⌋ = ⌊rect.Max.Y / gridSize⌋ := by
  have key : ∀ y : K, -2 ^ 62 ≤ y ∧ y ≤ 2 ^ 62 → goInt64 ⌊y⌋ = ⌊y⌋ := by
    intro y hy
    have h1 : (-2 ^ 62 : Int) ≤ ⌊y⌋ := Int.le_floor.mpr (by exact_mod_cast hy.1)
    have h2 : ⌊y⌋ ≤ (2 ^ 62 : Int) := by
      exact_mod_cast (Int.floor_le y).trans hy.2
    exact goInt64_of_range _ (by omega) (by omega)
  exact ⟨key _ (h _ (by simp)), key _ (h _ (by simp)), key _ (h _ (by simp)),
    key _ (h _ (by simp))⟩

/-- Two rectangles that intersect cover a common cell of the grid, when the cell
indices of their corners are in the range of `int`. -/
theorem eachCell_common (idx : GridIndex K) (hg : 0 < idx.gridSize) (r q : Rectangle K)
    (hr : r.Min.X ≤ r.Max.X ∧ r.Min.Y ≤ r.Max.Y) (hq : q.Min.X ≤ q.Max.X ∧ q.Min.Y ≤ q.Max.Y)
    (hrr : GridIndex.InRange idx.gridSize r) (hqr : GridIndex.InRange idx.gridSize q)
    (h : r.Intersects q = true) : ∃ c, c ∈ idx.eachCell r ∧ c ∈ idx.eachCell q := by
  unfold Rectangle.Intersects at h
  simp only [Bool.and_eq_true, decide_eq_true_eq, ge_iff_le] at h
  obtain ⟨⟨⟨h1, h2⟩, h3⟩, h4⟩ := h
  obtain ⟨r1, r2, r3, r4⟩ := GridIndex.InRange_floor idx.gridSize r hrr
  obtain ⟨q1, q2, q3, q4⟩ := GridIndex.InRange_floor idx.gridSize q hqr
  have hm : ∀ x y : K, x ≤ y → ⌊x / idx.gridSize⌋ ≤ ⌊y / idx.gridSize⌋ := by
    intro x y hxy
    exact Int.floor_mono (div_le_div_of_nonneg_right hxy hg.le)
  refine ⟨(max ⌊r.Min.X / idx.gridSize⌋ ⌊q.Min.X / idx.gridSize⌋,
    max ⌊r.Min.Y / idx.gridSize⌋ ⌊q.Min.Y / idx.gridSize⌋), ?_, ?_⟩
  · rw [mem_eachCell, r1, r2, r3, r4]
    exact ⟨⟨le_max_left _ _, max_le (hm _ _ hr.1) (hm _ _ h3)⟩,
      ⟨le_max_left _ _, max_le (hm _ _ hr.2) (hm _ _ h1)⟩⟩
  · rw [mem_eachCell, q1, q2, q3, q4]
    exact ⟨⟨le_max_right _ _, max_le (hm _ _ h4) (hm _ _ hq.1)⟩,
      ⟨le_max_right _ _, max_le (hm _ _ h2) (hm _ _ hq.2)⟩⟩

theorem intRange_empty (lo hi : Int) (h : hi < lo) : intRange lo hi = [] := by
  unfold intRange
  have : (hi + 1 - lo).toNat = 0 := by omega
  rw [this]
  rfl

/-- C19, counterexample: cell size `1`, `Insert(5, r)` with `r` from `(0, 0)` to
`(2^64, 0)`, and the query rectangle `q` at the single point `(0, 0)`. The two
rectangles intersect, but `int(math.Floor(2^64 / 1))` is out of range and gives the
least `int`, so the loop of `Insert` from cell `0` up to that cell does not run, and
`Search(q)` is empty. -/
theorem GridIndex.Search_superset_counterexample :
    (0 : ℚ) < 1 ∧
    (⟨⟨0, 0⟩, ⟨2 ^ 64, 0⟩⟩ : Rectangle ℚ).Intersects ⟨⟨0, 0⟩, ⟨0, 0⟩⟩ = true ∧
    ((NewGridIndex (1 : ℚ)).insertAll [(5, ⟨⟨0, 0⟩, ⟨2 ^ 64, 0⟩⟩)]).Search id
      ⟨⟨0, 0⟩, ⟨0, 0⟩⟩ = [] := by
  have hfl : ⌊((2 : ℚ) ^ 64) / 1⌋ = 2 ^ 64 := by
    rw [div_one]
    have : ((2 : ℚ) ^ 64) = (((2 ^ 64 : Int) : Int) : ℚ) := by push_cast; rfl
    rw [this, Int.floor_intCast]
  have hbig : goInt64 (2 ^ 64) = -2 ^ 63 := by
    unfold goInt64
    rw [if_neg (by norm_num)]
  have hins : (NewGridIndex (1 : ℚ)).insertAll [(5, ⟨⟨0, 0⟩, ⟨2 ^ 64, 0⟩⟩)] =
      NewGridIndex (1 : ℚ) := by
    have hcells : (NewGridIndex (1 : ℚ)).eachCell ⟨⟨0, 0⟩, ⟨2 ^ 64, 0⟩⟩ = [] := by
      simp only [GridIndex.eachCell, NewGridIndex, hfl, hbig, zero_div, Int.floor_zero,
        goInt64_zero]
      rw [intRange_empty 0 (-2 ^ 63) (by norm_num)]
      rfl
    simp only [GridIndex.insertAll, List.foldl_cons, List.foldl_nil, GridIndex.Insert, hcells]
  refine ⟨by norm_num, by norm_num [Rectangle.Intersects], ?_⟩
  rw [hins]
  simp [GridIndex.Search, GridIndex.eachCell, NewGridIndex, goInt64_zero, intRange]

/-- C19, amended: for every `GridIndex` with positive cell size, every sequence of
`Insert` calls and every query rectangle `q` (rectangles with `Min ≤ Max`, and with
corner coordinates whose cell index `x / gridSize` is at most `2^62` in magnitude, so
that the conversion to `int` is in range): if `(id, r)` was inserted and `r`
intersects `q` (`Rectangle.Intersects`), then `id` is in `Search(q)`. -/
theorem GridIndex.Search_superset (order : List Nat → List Nat)
    (horder : ∀ l, (order l).Perm l) (gridSize : K) (hg : 0 < gridSize)
    (inserts : List (Nat × Rectangle K)) (q : Rectangle K) (id : Nat) (r : Rectangle K)
    (hin : (id, r) ∈ inserts)
    (hr : r.Min.X ≤ r.Max.X ∧ r.Min.Y ≤ r.Max.Y) (hq : q.Min.X ≤ q.Max.X ∧ q.Min.Y ≤ q.Max.Y)
    (hrr : GridIndex.InRange gridSize r) (hqr : GridIndex.InRange gridSize q)
    (h : r.Intersects q = true) :
    id ∈ ((NewGridIndex gridSize).insertAll inserts).Search order q := by
  obtain ⟨h1, -, h3⟩ := GridIndex.insertAll_spec inserts (NewGridIndex gridSize)
  have hgs : ((NewGridIndex gridSize).insertAll inserts).gridSize = gridSize := h1
  obtain ⟨c, hc1, hc2⟩ := eachCell_common ((NewGridIndex gridSize).insertAll inserts)
    (by rw [hgs]; exact hg) r q hr hq (by rw [hgs]; exact hrr) (by rw [hgs]; exact hqr) h
  have hmem := h3 (id, r) hin c (by
    have : (NewGridIndex gridSize : GridIndex K).eachCell r =
        ((NewGridIndex gridSize).insertAll inserts).eachCell r := by
      unfold GridIndex.eachCell
      rw [hgs]
      rfl
    rw [this]
    exact hc1)
  unfold GridIndex.Search
  rw [(horder _).mem_iff]
  exact ((searchCells_spec _ _ [] List.nodup_nil).2 id).mpr (Or.inr ⟨c, hc2, hmem⟩)

theorem GridIndex.Search_superset_witness :
    (∀ l : List Nat, (id l).Perm l) ∧ (0 : ℚ) < 2 ∧
    ((5, ⟨⟨0, 0⟩, ⟨3, 1⟩⟩) : Nat × Rectangle ℚ) ∈
      [(5, ⟨⟨0, 0⟩, ⟨3, 1⟩⟩), (7, ⟨⟨9, 9⟩, ⟨10, 10⟩⟩)] ∧
    GridIndex.InRange (2 : ℚ) ⟨⟨0, 0⟩, ⟨3, 1⟩⟩ ∧ GridIndex.InRange (2 : ℚ) ⟨⟨3, 1⟩, ⟨4, 4⟩⟩ ∧
    (⟨⟨0, 0⟩, ⟨3, 1⟩⟩ : Rectangle ℚ).Intersects ⟨⟨3, 1⟩, ⟨4, 4⟩⟩ = true ∧
    (5 : Nat) ∈ ((NewGridIndex (2 : ℚ)).insertAll
      [(5, ⟨⟨0, 0⟩, ⟨3, 1⟩⟩), (7, ⟨⟨9, 9⟩, ⟨10, 10⟩⟩)]).Search id ⟨⟨3, 1⟩, ⟨4, 4⟩⟩ :=
  have hr1 : GridIndex.InRange (2 : ℚ) ⟨⟨0, 0⟩, ⟨3, 1⟩⟩ := by
    intro x hx
    simp only [List.mem_cons, List.mem_singleton, List.mem_nil_iff, or_false] at hx
    rcases hx with rfl | rfl | rfl | rfl <;> norm_num
  have hr2 : GridIndex.InRange (2 : ℚ) ⟨⟨3, 1⟩, ⟨4, 4⟩⟩ := by
    intro x hx
    simp only [List.mem_cons, List.mem_singleton, List.mem_nil_iff, or_false] at hx
    rcases hx with rfl | rfl | rfl | rfl <;> norm_num
  ⟨fun _ => List.Perm.refl _, by norm_num, by simp, hr1, hr2, by simp [Rectangle.Intersects],
    GridIndex.Search_superset id (fun _ => List.Perm.refl _) 2 (by norm_num)
      [(5, ⟨⟨0, 0⟩, ⟨3, 1⟩⟩), (7, ⟨⟨9, 9⟩, ⟨10, 10⟩⟩)] ⟨⟨3, 1⟩, ⟨4, 4⟩⟩ 5 ⟨⟨0, 0⟩, ⟨3, 1⟩⟩
      (by simp) (by norm_num) (by norm_num) hr1 hr2 (by simp [Rectangle.Intersects])⟩

end GridSuperset
section RoadSegmentsBasics

variable {K : Type} [LinearOrderedField K]

theorem foldlM_option_flatMap {α β σ : Type} (f : σ → β → Option σ) (g : α → List β)
    (l : List α) : ∀ init : σ,
    (l.flatMap g).foldlM f init = l.foldlM (fun st x => (g x).foldlM f st) init := by
  induction l with
  | nil => intro init; rfl
  | cons a rest ih =>
    intro init
    rw [List.flatMap_cons, List.foldlM_append, List.foldlM_cons]
    cases h : (g a).foldlM f init with
    | none => rfl
    | some st => exact ih st

/-- The initial edges of the first loop of `GetRoadSegments`, in order: the outgoing
edges of the nodes that do not have exactly two of them. -/
theorem roadSegmentsOfJunctions_eq (sqrt : K → K) (graph : Graph K)
    (st : RoadSegmentsState K) :
    roadSegmentsOfJunctions sqrt graph st =
      (graph.Nodes.flatMap (fun node => if node.Out.length = 2 then [] else node.Out)).foldlM
        (fun st edge => incorporate sqrt graph st edge false) st := by
  unfold roadSegmentsOfJunctions
  rw [foldlM_option_flatMap]
  congr 1
  funext st node
  split <;> rfl

theorem NewRoadSegment_singleton (sqrt : K → K) (graph : Graph K) (e : Nat) :
    NewRoadSegment sqrt graph [e] =
      some ⟨0, [e], [0, (Edge.Segment graph e).Length sqrt]⟩ := by
  simp [NewRoadSegment, newRoadSegmentLoop]

/-- An initial edge that ends at a node without exactly two outgoing edges is a
road segment of its own. -/
theorem incorporate_stop (sqrt : K → K) (graph : Graph K) (st : RoadSegmentsState K)
    (e : Nat) (h : (graph.node (graph.edge e).Dst).Out.length ≠ 2) :
    incorporate sqrt graph st e false =
      some ⟨st.roadSegments ++
        [⟨st.roadSegments.length, [e], [0, (Edge.Segment graph e).Length sqrt]⟩],
        st.seenEdges ++ [e]⟩ := by
  unfold incorporate
  rw [incorporateLoop, if_pos h]
  simp [NewRoadSegment_singleton]

theorem Graph.node_mem (graph : Graph K) (n : Nat) (hn : n < graph.Nodes.length) :
    graph.node n ∈ graph.Nodes := by
  unfold Graph.node
  rw [List.getD_eq_getElem _ _ hn]
  exact List.getElem_mem _

theorem Graph.node_out_default (graph : Graph K) (n : Nat) (hn : ¬ n < graph.Nodes.length) :
    (graph.node n).Out = [] := by
  unfold Graph.node
  rw [List.getD_eq_default _ _ (not_lt.mp hn)]

end RoadSegmentsBasics
section NoValidation

variable {K : Type} [LinearOrderedField K]

theorem oneEdgeGraph_graph_eq :
    (oneEdgeGraph : NodePathsGraph K).Graph = ⟨[⟨⟨0, 0⟩, [0]⟩, ⟨⟨8, 0⟩, []⟩], [⟨0, 1⟩]⟩ := rfl

/-- C18, counterexample: the graph with the single edge `(0,0) → (8,0)` has no
accompanying reverse edge, and `GetRoadSegments` returns one road segment for it
instead of failing. -/
theorem GetRoadSegments_counterexample :
    ((oneEdgeGraph : NodePathsGraph ℝ).Graph.edge 0 = ⟨0, 1⟩ ∧
      ¬ ∃ r, r < (oneEdgeGraph : NodePathsGraph ℝ).Graph.Edges.length ∧
        ((oneEdgeGraph : NodePathsGraph ℝ).Graph.edge r).Src = 1 ∧
        ((oneEdgeGraph : NodePathsGraph ℝ).Graph.edge r).Dst = 0) ∧
    (oneEdgeGraph : NodePathsGraph ℝ).Graph.GetRoadSegments Real.sqrt =
      some [⟨0, [0], [0, 8]⟩] := by
  refine ⟨⟨rfl, ?_⟩, ?_⟩
  · rintro ⟨r, hr, h1, -⟩
    rw [oneEdgeGraph_graph_eq] at hr h1
    simp only [List.length_singleton, Nat.lt_one_iff] at hr
    subst hr
    simp [Graph.edge] at h1
  · have hstop : ((oneEdgeGraph : NodePathsGraph ℝ).Graph.node
        ((oneEdgeGraph : NodePathsGraph ℝ).Graph.edge 0).Dst).Out.length ≠ 2 := by
      rw [oneEdgeGraph_graph_eq]; simp [Graph.node, Graph.edge]
    have hlen : (Edge.Segment (oneEdgeGraph : NodePathsGraph ℝ).Graph 0).Length Real.sqrt = 8 := by
      rw [oneEdge_segment]
      norm_num [Segment.Length, Point.Distance, sqrt64]
    have h1 : roadSegmentsOfJunctions Real.sqrt (oneEdgeGraph : NodePathsGraph ℝ).Graph ⟨[], []⟩ =
        some ⟨[⟨0, [0], [0, 8]⟩], [0]⟩ := by
      rw [roadSegmentsOfJunctions_eq]
      have hl : ((oneEdgeGraph : NodePathsGraph ℝ).Graph.Nodes.flatMap
          (fun node => if node.Out.length = 2 then [] else node.Out)) = [0] := by
        rw [oneEdgeGraph_graph_eq]; simp
      rw [hl, List.foldlM_cons, incorporate_stop _ _ _ _ hstop, hlen]
      rfl
    have h2 : roadSegmentsOfLoops Real.sqrt (oneEdgeGraph : NodePathsGraph ℝ).Graph
        ⟨[⟨0, [0], [0, 8]⟩], [0]⟩ = some ⟨[⟨0, [0], [0, 8]⟩], [0]⟩ := by
      unfold roadSegmentsOfLoops
      have hl : (oneEdgeGraph : NodePathsGraph ℝ).Graph.Edges.length = 1 := by
        rw [oneEdgeGraph_graph_eq]; rfl
      rw [hl]
      simp [List.range_succ]
    unfold Graph.GetRoadSegments
    rw [h1]
    simp only [h2]

/-- The first loop of `GetRoadSegments` on initial edges that all end at nodes
without exactly two outgoing edges: one road segment per edge. -/
theorem incorporate_stop_all (sqrt : K → K) (graph : Graph K)
    (hdeg : ∀ n, (graph.node n).Out.length ≠ 2) (l : List Nat) :
    ∀ st : RoadSegmentsState K, ∃ st2,
      l.foldlM (fun st edge => incorporate sqrt graph st edge false) st = some st2 ∧
      st2.roadSegments.map (fun rs => rs.Edges) =
        st.roadSegments.map (fun rs => rs.Edges) ++ l.map (fun e => [e]) ∧
      st2.seenEdges = st.seenEdges ++ l := by
  induction l with
  | nil => intro st; exact ⟨st, rfl, by simp, by simp⟩
  | cons e rest ih =>
    intro st
    rw [List.foldlM_cons, incorporate_stop sqrt graph st e (hdeg _)]
    obtain ⟨st2, h1, h2, h3⟩ := ih ⟨st.roadSegments ++
      [⟨st.roadSegments.length, [e], [0, (Edge.Segment graph e).Length sqrt]⟩],
      st.seenEdges ++ [e]⟩
    refine ⟨st2, h1, ?_, ?_⟩
    · rw [h2]; simp
    · rw [h3]; simp

theorem roadSegmentsOfLoops_seen (sqrt : K → K) (graph : Graph K) (st : RoadSegmentsState K)
    (l : List Nat) (h : ∀ e ∈ l, e ∈ st.seenEdges) :
    l.foldlM (fun st edge =>
      if edge ∈ st.seenEdges then some st
      else if (graph.node (graph.edge edge).Src).Out.length ≠ 2 ∨
          (graph.node (graph.edge edge).Dst).Out.length ≠ 2 then none
      else incorporate sqrt graph st edge true) st = some st := by
  induction l with
  | nil => rfl
  | cons e rest ih =>
    rw [List.foldlM_cons, if_pos (h e (List.mem_cons_self _ _))]
    exact ih (fun x hx => h x (List.mem_cons_of_mem _ hx))

/-- C18, amended: `GetRoadSegments` requires a bidirectional graph but does not
validate it: on every well-formed graph in which no node has exactly two outgoing
edges it returns one single-edge road segment per edge, in the order of the nodes
and their outgoing edges, whether or not every edge `(u,v)` has an accompanying
edge `(v,u)`. -/
theorem GetRoadSegments_no_validation (sqrt : K → K) (graph : Graph K) (hwf : graph.WF)
    (hdeg : ∀ node ∈ graph.Nodes, node.Out.length ≠ 2) :
    ∃ rss, graph.GetRoadSegments sqrt = some rss ∧
      rss.map (fun rs => rs.Edges) =
        (graph.Nodes.flatMap (fun node => node.Out)).map (fun e => [e]) := by
  have hdeg2 : ∀ n, (graph.node n).Out.length ≠ 2 := by
    intro n
    by_cases hn : n < graph.Nodes.length
    · exact hdeg _ (graph.node_mem n hn)
    · rw [graph.node_out_default n hn]; simp
  have hl : graph.Nodes.flatMap (fun node => if node.Out.length = 2 then [] else node.Out) =
      graph.Nodes.flatMap (fun node => node.Out) := by
    apply List.flatMap_congr
    intro node hnode
    rw [if_neg (hdeg node hnode)]
  obtain ⟨st, h1, h2, h3⟩ := incorporate_stop_all sqrt graph hdeg2
    (graph.Nodes.flatMap (fun node => node.Out)) ⟨[], []⟩
  have hseen : ∀ e ∈ List.range graph.Edges.length, e ∈ st.seenEdges := by
    intro e he
    rw [List.mem_range] at he
    obtain ⟨hs, -, hout⟩ := hwf.1 e he
    rw [h3, List.nil_append, List.mem_flatMap]
    exact ⟨_, graph.node_mem _ hs, hout⟩
  refine ⟨st.roadSegments, ?_, by simpa using h2⟩
  unfold Graph.GetRoadSegments
  rw [roadSegmentsOfJunctions_eq, hl, h1]
  simp only
  unfold roadSegmentsOfLoops
  rw [roadSegmentsOfLoops_seen sqrt graph st _ hseen]

theorem GetRoadSegments_no_validation_witness :
    (oneEdgeGraph : NodePathsGraph ℝ).Graph.WF ∧
    (∀ node ∈ (oneEdgeGraph : NodePathsGraph ℝ).Graph.Nodes, node.Out.length ≠ 2) ∧
    ∃ rss, (oneEdgeGraph : NodePathsGraph ℝ).Graph.GetRoadSegments Real.sqrt = some rss ∧
      rss.map (fun rs => rs.Edges) =
        ((oneEdgeGraph : NodePathsGraph ℝ).Graph.Nodes.flatMap (fun node => node.Out)).map
          (fun e => [e]) :=
  have hwf : (oneEdgeGraph : NodePathsGraph ℝ).Graph.WF := by
    rw [oneEdgeGraph_graph_eq]
    constructor
    · intro e he
      simp only [List.length_singleton, Nat.lt_one_iff] at he
      subst he
      simp [Graph.edge, Graph.node]
    · intro n hn
      simp only [List.length_cons, List.length_nil] at hn
      interval_cases n <;> simp [Graph.edge, Graph.node]
  have hdeg : ∀ node ∈ (oneEdgeGraph : NodePathsGraph ℝ).Graph.Nodes, node.Out.length ≠ 2 := by
    rw [oneEdgeGraph_graph_eq]
    intro node hnode
    simp only [List.mem_cons, List.mem_singleton, List.not_mem_nil, or_false] at hnode
    rcases hnode with rfl | rfl <;> simp
  ⟨hwf, hdeg, GetRoadSegments_no_validation Real.sqrt _ hwf hdeg⟩

end NoValidation
section WalkFacts

variable {K : Type} [LinearOrderedField K]

theorem list_eq_pair (l : List Nat) (h : l.length = 2) : l = [l.getD 0 0, l.getD 1 0] := by
  match l, h with
  | [a, b], _ => rfl

/-- What a step of the walk gives on a well-formed graph: an edge of the graph that
starts where the previous one ends, at a node with exactly two outgoing edges, and
does not lead back. -/
theorem Graph.step_spec (graph : Graph K) (hwf : graph.WF) (e f : Nat)
    (he : e < graph.Edges.length) (h : graph.step e = some f) :
    (graph.node (graph.edge e).Dst).Out.length = 2 ∧
    f ∈ (graph.node (graph.edge e).Dst).Out ∧ f < graph.Edges.length ∧
    (graph.edge f).Src = (graph.edge e).Dst ∧ (graph.edge f).Dst ≠ (graph.edge e).Src := by
  unfold Graph.step at h
  split at h
  · simp at h
  · rename_i hlen
    have hlen2 : (graph.node (graph.edge e).Dst).Out.length = 2 := not_not.mp hlen
    have hpair := list_eq_pair _ hlen2
    have hmem : f ∈ (graph.node (graph.edge e).Dst).Out ∧
        (graph.edge f).Dst ≠ (graph.edge e).Src := by
      unfold Graph.nextEdge at h
      simp only at h
      split at h
      · rename_i h0
        simp only [Option.some.injEq] at h
        subst h
        exact ⟨by rw [hpair]; simp, h0⟩
      · split at h
        · rename_i h1
          simp only [Option.some.injEq] at h
          subst h
          exact ⟨by rw [hpair]; simp, h1⟩
        · simp at h
    obtain ⟨-, hd, -⟩ := hwf.1 e he
    obtain ⟨-, hout⟩ := hwf.2 _ hd
    exact ⟨hlen2, hmem.1, (hout f hmem.1).1, (hout f hmem.1).2, hmem.2⟩

theorem Graph.step_not_start (graph : Graph K) (hwf : graph.WF) (e f : Nat)
    (he : e < graph.Edges.length) (h : graph.step e = some f) : ¬ graph.IsStart f := by
  obtain ⟨h1, -, -, h4, -⟩ := graph.step_spec hwf e f he h
  unfold Graph.IsStart
  rw [h4]
  exact not_not.mpr h1

/-- The two outgoing edges of a node of a graph without parallel edges lead to
different nodes. -/
theorem Graph.out_pair (graph : Graph K) (hwf : graph.WF) (hnp : graph.NoParallel)
    (n : Nat) (hn : n < graph.Nodes.length) (h : (graph.node n).Out.length = 2) :
    ∃ a b, (graph.node n).Out = [a, b] ∧ a ≠ b ∧ a < graph.Edges.length ∧
      b < graph.Edges.length ∧ (graph.edge a).Src = n ∧ (graph.edge b).Src = n ∧
      (graph.edge a).Dst ≠ (graph.edge b).Dst := by
  obtain ⟨hnd, hout⟩ := hwf.2 n hn
  have hpair := list_eq_pair _ h
  refine ⟨_, _, hpair, ?_⟩
  rw [hpair] at hnd hout
  have hab : (graph.node n).Out.getD 0 0 ≠ (graph.node n).Out.getD 1 0 := by
    intro hab
    rw [hab] at hnd
    simp at hnd
  obtain ⟨ha1, ha2⟩ := hout ((graph.node n).Out.getD 0 0) (List.mem_cons_self _ _)
  obtain ⟨hb1, hb2⟩ := hout ((graph.node n).Out.getD 1 0)
    (List.mem_cons_of_mem _ (List.mem_singleton.mpr rfl))
  exact ⟨hab, ha1, hb1, ha2, hb2,
    fun hd => hab (hnp _ _ ha1 hb1 (ha2.trans hb2.symm) hd)⟩

/-- The walk is never stuck on a bidirectional graph without parallel edges. -/
theorem Graph.step_of_degree (graph : Graph K) (hwf : graph.WF) (hnp : graph.NoParallel)
    (e : Nat) (he : e < graph.Edges.length)
    (hdeg : (graph.node (graph.edge e).Dst).Out.length = 2) :
    ∃ f, graph.step e = some f ∧ graph.nextEdge e = some f := by
  obtain ⟨-, hd, -⟩ := hwf.1 e he
  obtain ⟨a, b, hpair, -, -, -, -, -, hdst⟩ := graph.out_pair hwf hnp _ hd hdeg
  unfold Graph.step
  rw [if_neg (not_not.mpr hdeg)]
  unfold Graph.nextEdge
  simp only [hpair, List.getD_cons_zero, List.getD_cons_succ]
  by_cases h0 : (graph.edge a).Dst = (graph.edge e).Src
  · have h1 : (graph.edge b).Dst ≠ (graph.edge e).Src := fun h1 => hdst (h0.trans h1.symm)
    exact ⟨b, by simp [h0, h1], by simp [h0, h1]⟩
  · exact ⟨a, by simp [h0], by simp [h0]⟩

end WalkFacts
section WalkFacts2

variable {K : Type} [LinearOrderedField K]

/-- The reverse edge of `e` is one of the outgoing edges of `e.Dst`. -/
theorem Graph.reverse_mem (graph : Graph K) (hwf : graph.WF) (hbi : graph.Bidirectional)
    (e : Nat) (he : e < graph.Edges.length) :
    ∃ r, r ∈ (graph.node (graph.edge e).Dst).Out ∧ r < graph.Edges.length ∧
      (graph.edge r).Src = (graph.edge e).Dst ∧ (graph.edge r).Dst = (graph.edge e).Src := by
  obtain ⟨r, hr, h1, h2⟩ := hbi e he
  obtain ⟨-, -, hout⟩ := hwf.1 r hr
  rw [h1] at hout
  exact ⟨r, hout, hr, h1, h2⟩

/-- The step of the walk is injective. -/
theorem Graph.step_inj (graph : Graph K) (hwf : graph.WF) (hbi : graph.Bidirectional)
    (hnp : graph.NoParallel) (e1 e2 f : Nat) (h1 : e1 < graph.Edges.length)
    (h2 : e2 < graph.Edges.length) (hs1 : graph.step e1 = some f)
    (hs2 : graph.step e2 = some f) : e1 = e2 := by
  obtain ⟨hd1, hf1, -, hsrc1, hne1⟩ := graph.step_spec hwf e1 f h1 hs1
  obtain ⟨-, -, -, hsrc2, hne2⟩ := graph.step_spec hwf e2 f h2 hs2
  have hdst : (graph.edge e1).Dst = (graph.edge e2).Dst := hsrc1.symm.trans hsrc2
  obtain ⟨r1, hr1, -, -, hr1d⟩ := graph.reverse_mem hwf hbi e1 h1
  obtain ⟨r2, hr2, -, -, hr2d⟩ := graph.reverse_mem hwf hbi e2 h2
  rw [← hdst] at hr2
  obtain ⟨-, hd, -⟩ := hwf.1 e1 h1
  obtain ⟨a, b, hpair, -, -, -, -, -, -⟩ := graph.out_pair hwf hnp _ hd hd1
  rw [hpair] at hf1 hr1 hr2
  have hr1f : r1 ≠ f := fun h => hne1 (h ▸ hr1d)
  have hr2f : r2 ≠ f := fun h => hne2 (h ▸ hr2d)
  have hr : r1 = r2 := by
    simp only [List.mem_cons, List.mem_singleton, List.not_mem_nil, or_false] at hf1 hr1 hr2
    rcases hf1 with rfl | rfl
    · rcases hr1 with h | h
      · exact absurd h hr1f
      · rcases hr2 with h' | h'
        · exact absurd h' hr2f
        · rw [h, h']
    · rcases hr1 with h | h
      · rcases hr2 with h' | h'
        · rw [h, h']
        · exact absurd h' hr2f
      · exact absurd h hr1f
  apply hnp e1 e2 h1 h2 _ hdst
  rw [← hr1d, ← hr2d, hr]

/-- Every edge whose source has exactly two outgoing edges is reached by a step. -/
theorem Graph.step_pre (graph : Graph K) (hwf : graph.WF) (hbi : graph.Bidirectional)
    (hnp : graph.NoParallel) (f : Nat) (hf : f < graph.Edges.length)
    (hns : ¬ graph.IsStart f) : ∃ e, e < graph.Edges.length ∧ graph.step e = some f := by
  obtain ⟨hs, -, hfout⟩ := hwf.1 f hf
  have hdeg : (graph.node (graph.edge f).Src).Out.length = 2 := not_not.mp hns
  obtain ⟨a, b, hpair, hab, ha, hb, hsa, hsb, hdab⟩ := graph.out_pair hwf hnp _ hs hdeg
  rw [hpair] at hfout
  simp only [List.mem_cons, List.mem_singleton, List.not_mem_nil, or_false] at hfout
  have key : ∀ g, g < graph.Edges.length → (graph.edge g).Src = (graph.edge f).Src →
      (graph.edge f).Dst ≠ (graph.edge g).Dst →
      (f = a ∨ (f = b ∧ g = a)) → ∃ e, e < graph.Edges.length ∧ graph.step e = some f := by
    intro g hg hgs hgd hcase
    obtain ⟨e, he, hes, hed⟩ := hbi g hg
    refine ⟨e, he, ?_⟩
    unfold Graph.step
    rw [hed, hgs, if_neg (not_not.mpr hdeg)]
    unfold Graph.nextEdge
    simp only [hed, hgs, hpair, hes, List.getD_cons_zero, List.getD_cons_succ]
    rcases hcase with rfl | ⟨rfl, rfl⟩
    · rw [if_pos hgd]
    · rw [if_neg (not_not.mpr rfl), if_pos hgd]
  rcases hfout with rfl | rfl
  · exact key b hb hsb hdab (Or.inl rfl)
  · exact key a ha hsa (Ne.symm hdab) (Or.inr ⟨rfl, rfl⟩)

end WalkFacts2
section WalkInvariant

variable {K : Type} [LinearOrderedField K]

/-- On the edges outside a set that is closed under steps and holds every start
edge, the step is total: it is a bijection of that finite set. -/
theorem Graph.step_total_outside (graph : Graph K) (hwf : graph.WF)
    (hbi : graph.Bidirectional) (hnp : graph.NoParallel) (S : List Nat)
    (hclosed : ∀ e ∈ S, ∀ f, graph.step e = some f → f ∈ S)
    (hstart : ∀ e, e < graph.Edges.length → graph.IsStart e → e ∈ S)
    (e : Nat) (he : e < graph.Edges.length) (heS : e ∉ S) :
    ∃ f, graph.step e = some f := by
  classical
  let T := {x : Nat // x < graph.Edges.length ∧ x ∉ S}
  have hfin : Finite T :=
    Finite.of_injective (fun t : T => (⟨t.1, t.2.1⟩ : Fin graph.Edges.length))
      (fun a b h => Subtype.ext (by simpa using congrArg Fin.val h))
  have hpre : ∀ t : T, ∃ p : T, graph.step p.1 = some t.1 := by
    intro t
    obtain ⟨p, hp, hstep⟩ := graph.step_pre hwf hbi hnp t.1 t.2.1
      (fun hs => t.2.2 (hstart t.1 t.2.1 hs))
    exact ⟨⟨p, hp, fun hpS => t.2.2 (hclosed p hpS t.1 hstep)⟩, hstep⟩
  let g : T → T := fun t => Classical.choose (hpre t)
  have hg : ∀ t, graph.step (g t).1 = some t.1 := fun t => Classical.choose_spec (hpre t)
  have hinj : Function.Injective g := by
    intro a b hab
    have ha := hg a
    rw [hab, hg b] at ha
    exact Subtype.ext (Option.some.inj ha).symm
  obtain ⟨t, ht⟩ := (Finite.injective_iff_surjective.mp hinj) ⟨e, he, heS⟩
  refine ⟨t.1, ?_⟩
  have := hg t
  rw [ht] at this
  exact this

end WalkInvariant
section WalkLoop

variable {K : Type} [LinearOrderedField K]

theorem nodup_length_le (l : List Nat) (m : Nat) (hn : l.Nodup) (hlt : ∀ e ∈ l, e < m) :
    l.length ≤ m := by
  have hsub : l ⊆ List.range m := fun e he => List.mem_range.mpr (hlt e he)
  have := (List.Nodup.subperm hn hsub).length_le
  simpa using this

theorem walkInv_done (graph : Graph K) (hwf : graph.WF) (hbi : graph.Bidirectional)
    (hnp : graph.NoParallel) (S : List Nat) (i fuel : Nat) (edges : List Nat) (prev : Nat)
    (hinv : WalkInv graph S i fuel edges prev)
    (hlast : ∀ f, graph.step prev = some f → f = i)
    (hfirst : ∀ e, e < graph.Edges.length → graph.step e = some i → e = prev) :
    WalkDone graph S i edges := by
  obtain ⟨ha, hb, hc, hd, he, hf, hg, -⟩ := hinv
  have hprev : prev ∈ edges := List.mem_of_mem_getLast? ha
  refine ⟨hc, hd, hb, he, ?_, ?_, ?_⟩
  · intro e hee f hstep
    by_cases hep : e = prev
    · subst hep
      rw [hlast f hstep]; exact hb
    · obtain ⟨g, hg1, hg2⟩ := hf e hee hep
      rw [hg2] at hstep
      rw [← Option.some.inj hstep]; exact hg1
  · intro e hem f hfe hstep
    by_cases hfi : f = i
    · subst hfi
      rw [hfirst e hem hstep]; exact hprev
    · obtain ⟨e2, he2, -, hs2⟩ := hg f hfe hfi
      rw [graph.step_inj hwf hbi hnp e e2 f hem (hd e2 he2).1 hstep hs2]
      exact he2
  · intro g hge hgi
    obtain ⟨e2, he2, -, hs2⟩ := hg g hge hgi
    exact graph.step_not_start hwf e2 g (hd e2 he2).1 hs2

theorem walkInv_extend (graph : Graph K) (hwf : graph.WF) (hbi : graph.Bidirectional)
    (hnp : graph.NoParallel) (S : List Nat)
    (hpre : ∀ e, e < graph.Edges.length → ∀ f ∈ S, graph.step e = some f → e ∈ S)
    (i fuel : Nat) (edges : List Nat) (prev f : Nat)
    (hinv : WalkInv graph S i (fuel + 1) edges prev)
    (hstep : graph.step prev = some f) (hfi : f ≠ i) :
    WalkInv graph S i fuel (edges ++ [f]) f := by
  obtain ⟨ha, hb, hc, hd, he, hf, hg, hh⟩ := hinv
  have hprev : prev ∈ edges := List.mem_of_mem_getLast? ha
  have hpm := (hd prev hprev).1
  obtain ⟨-, -, hfm, hsrc, -⟩ := graph.step_spec hwf prev f hpm hstep
  have hfe : f ∉ edges := by
    intro hfe
    obtain ⟨e2, he2, hne, hs2⟩ := hg f hfe hfi
    exact hne (graph.step_inj hwf hbi hnp e2 prev f (hd e2 he2).1 hpm hs2 hstep)
  refine ⟨by simp, List.mem_append_left _ hb, ?_, ?_, ?_, ?_, ?_, ?_⟩
  · rw [List.nodup_append]
    exact ⟨hc, List.nodup_singleton f, by
      intro x hx hx2
      rw [List.mem_singleton] at hx2
      exact hfe (hx2 ▸ hx)⟩
  · intro e hee
    rcases List.mem_append.mp hee with h | h
    · exact hd e h
    · rw [List.mem_singleton] at h
      subst h
      exact ⟨hfm, fun hS => (hd prev hprev).2 (hpre prev hpm e hS hstep)⟩
  · apply List.Chain'.append he (List.chain'_singleton f)
    intro x hx y hy
    rw [ha] at hx
    simp only [List.head?_cons, Option.mem_def, Option.some.injEq] at hx hy
    subst hx; subst hy
    exact hsrc.symm
  · intro e hee hef
    rcases List.mem_append.mp hee with h | h
    · by_cases hep : e = prev
      · subst hep
        exact ⟨f, by simp, hstep⟩
      · obtain ⟨g, hg1, hg2⟩ := hf e h hep
        exact ⟨g, List.mem_append_left _ hg1, hg2⟩
    · rw [List.mem_singleton] at h
      exact absurd h hef
  · intro g hge hgi
    rcases List.mem_append.mp hge with h | h
    · obtain ⟨e2, he2, -, hs2⟩ := hg g h hgi
      exact ⟨e2, List.mem_append_left _ he2, fun h2 => hfe (h2 ▸ he2), hs2⟩
    · rw [List.mem_singleton] at h
      subst h
      exact ⟨prev, List.mem_append_left _ hprev, fun h2 => hfe (h2 ▸ hprev), hstep⟩
  · simp only [List.length_append, List.length_singleton]
    omega

end WalkLoop
section WalkLoop2

variable {K : Type} [LinearOrderedField K]

/-- The `for` loop of `incorporate` returns, with fuel to spare, a walk as
`WalkDone` describes it: either from a start edge without expecting a loop, or,
expecting a loop, where the step is total outside the edges seen before. -/
theorem incorporateLoop_spec (graph : Graph K) (hwf : graph.WF) (hbi : graph.Bidirectional)
    (hnp : graph.NoParallel) (S : List Nat)
    (hpre : ∀ e, e < graph.Edges.length → ∀ f ∈ S, graph.step e = some f → e ∈ S)
    (i : Nat) (b : Bool)
    (hmode : (b = false ∧ graph.IsStart i) ∨
      (b = true ∧ ∀ e, e < graph.Edges.length → e ∉ S → ∃ f, graph.step e = some f)) :
    ∀ (fuel : Nat) (edges : List Nat) (prev : Nat), WalkInv graph S i fuel edges prev →
      ∃ edges2, incorporateLoop graph i b fuel edges (S ++ edges) prev =
          some (edges2, S ++ edges2) ∧ WalkDone graph S i edges2 := by
  intro fuel
  induction fuel with
  | zero =>
    intro edges prev hinv
    obtain ⟨-, -, hc, hd, -, -, -, hh⟩ := hinv
    have := nodup_length_le edges graph.Edges.length hc (fun e he => (hd e he).1)
    omega
  | succ fuel ih =>
    intro edges prev hinv
    have hprev : prev ∈ edges := List.mem_of_mem_getLast? hinv.1
    have hpm := (hinv.2.2.2.1 prev hprev).1
    have hpS := (hinv.2.2.2.1 prev hprev).2
    rw [incorporateLoop]
    by_cases hdeg : (graph.node (graph.edge prev).Dst).Out.length = 2
    · obtain ⟨f, hstep, hnext⟩ := graph.step_of_degree hwf hnp prev hpm hdeg
      rw [if_neg (not_not.mpr hdeg), hnext]
      simp only
      by_cases hfi : f = i
      · rw [if_pos hfi]
        rcases hmode with ⟨hb, hst⟩ | ⟨hb, -⟩
        · exact absurd hst (hfi ▸ graph.step_not_start hwf prev f hpm hstep)
        · subst hb
          refine ⟨edges, by simp, ?_⟩
          apply walkInv_done graph hwf hbi hnp S i _ edges prev hinv
          · intro f2 hf2
            rw [hstep] at hf2
            rw [← Option.some.inj hf2, hfi]
          · intro e hem hse
            rw [← hfi] at hse
            exact graph.step_inj hwf hbi hnp e prev f hem hpm hse hstep
      · rw [if_neg hfi]
        obtain ⟨edges2, h1, h2⟩ := ih (edges ++ [f]) f
          (walkInv_extend graph hwf hbi hnp S hpre i fuel edges prev f hinv hstep hfi)
        rw [← List.append_assoc] at h1
        exact ⟨edges2, h1, h2⟩
    · have hnone : graph.step prev = none := by
        unfold Graph.step
        rw [if_pos hdeg]
      rw [if_pos hdeg]
      rcases hmode with ⟨hb, hst⟩ | ⟨hb, htot⟩
      · subst hb
        refine ⟨edges, by simp, ?_⟩
        apply walkInv_done graph hwf hbi hnp S i _ edges prev hinv
        · intro f2 hf2
          rw [hnone] at hf2
          simp at hf2
        · intro e hem hse
          exact absurd hst (graph.step_not_start hwf e i hem hse)
      · obtain ⟨f, hf⟩ := htot prev hpm hpS
        rw [hnone] at hf
        simp at hf

theorem chainInvariant_of_chain' (graph : Graph K) (edges : List Nat)
    (h : List.Chain' (fun a b => (graph.edge a).Dst = (graph.edge b).Src) edges) :
    ChainInvariant graph edges := by
  induction edges with
  | nil => exact chainInvariant_nil graph
  | cons e rest ih =>
    cases rest with
    | nil => exact chainInvariant_singleton graph e
    | cons f rest2 =>
      rw [List.chain'_cons] at h
      rw [chainInvariant_cons_cons]
      exact ⟨h.1, ih h.2⟩

end WalkLoop2
section IncorporateInv

variable {K : Type} [LinearOrderedField K]

/-- One call of `incorporate` on an edge not seen before keeps the invariant of
`GetRoadSegments` and marks the walk of that edge. -/
theorem incorporate_inv (sqrt : K → K) (graph : Graph K) (hwf : graph.WF)
    (hbi : graph.Bidirectional) (hnp : graph.NoParallel) (st : RoadSegmentsState K)
    (hst : SeenInv graph st) (i : Nat) (hi : i < graph.Edges.length)
    (hiS : i ∉ st.seenEdges) (b : Bool)
    (hmode : (b = false ∧ graph.IsStart i) ∨
      (b = true ∧ ∀ e, e < graph.Edges.length → e ∉ st.seenEdges →
        ∃ f, graph.step e = some f)) :
    ∃ st2, incorporate sqrt graph st i b = some st2 ∧ SeenInv graph st2 ∧
      i ∈ st2.seenEdges ∧ (∀ e ∈ st.seenEdges, e ∈ st2.seenEdges) ∧
      (∀ g ∈ st2.seenEdges, g ∉ st.seenEdges → g ≠ i → ¬ graph.IsStart g) := by
  obtain ⟨h1, h2, h3, h4, h5⟩ := hst
  have hinit : WalkInv graph st.seenEdges i (graph.Edges.length + 1) [i] i := by
    refine ⟨rfl, by simp, by simp, ?_, List.chain'_singleton i, ?_, ?_, by simp⟩
    · intro e he
      rw [List.mem_singleton] at he
      subst he
      exact ⟨hi, hiS⟩
    · intro e he hne
      rw [List.mem_singleton] at he
      exact absurd he hne
    · intro g hg hne
      rw [List.mem_singleton] at hg
      exact absurd hg hne
  obtain ⟨edges2, hloop, hd1, hd2, hd3, hd4, hd5, hd6, hd7⟩ :=
    incorporateLoop_spec graph hwf hbi hnp st.seenEdges h5 i b hmode _ [i] i hinit
  have hchain := chainInvariant_of_chain' graph edges2 hd4
  cases hrs : NewRoadSegment sqrt graph edges2 with
  | none => exact absurd hchain ((NewRoadSegment_eq_none sqrt graph edges2).mp hrs)
  | some rs =>
    have hE := (NewRoadSegment_spec sqrt graph edges2 rs hrs).1
    refine ⟨⟨st.roadSegments ++ [{ rs with ID := st.roadSegments.length }],
      st.seenEdges ++ edges2⟩, ?_, ?_, ?_, ?_, ?_⟩
    · unfold incorporate
      rw [hloop]
      simp only [hrs]
    · refine ⟨?_, ?_, ?_, ?_, ?_⟩
      · simp only [List.flatMap_append, List.flatMap_cons, List.flatMap_nil,
          List.append_nil, hE]
        rw [← h1]
      · rw [List.nodup_append]
        exact ⟨h2, hd1, fun x hx hx2 => (hd2 x hx2).2 hx⟩
      · intro e he
        rcases List.mem_append.mp he with h | h
        · exact h3 e h
        · exact (hd2 e h).1
      · intro e he f hf
        rcases List.mem_append.mp he with h | h
        · exact List.mem_append_left _ (h4 e h f hf)
        · exact List.mem_append_right _ (hd5 e h f hf)
      · intro e hem f hf hstep
        rcases List.mem_append.mp hf with h | h
        · exact List.mem_append_left _ (h5 e hem f h hstep)
        · exact List.mem_append_right _ (hd6 e hem f h hstep)
    · exact List.mem_append_right _ hd3
    · intro e he
      exact List.mem_append_left _ he
    · intro g hg hgS hgi
      rcases List.mem_append.mp hg with h | h
      · exact absurd h hgS
      · exact hd7 g h hgi

end IncorporateInv
section JunctionLoop

variable {K : Type} [LinearOrderedField K]

theorem Graph.nodes_eq_map (graph : Graph K) :
    graph.Nodes = (List.range graph.Nodes.length).map graph.node := by
  apply List.ext_getElem
  · simp
  · intro n h1 h2
    simp [Graph.node, List.getElem?_eq_getElem h1]

/-- The initial edges of the first loop of `GetRoadSegments` are the start edges of
the graph, each once. -/
theorem Graph.startEdges_spec (graph : Graph K) (hwf : graph.WF) :
    (graph.Nodes.flatMap (fun node => if node.Out.length = 2 then [] else node.Out)).Nodup ∧
    ∀ e, e ∈ graph.Nodes.flatMap (fun node => if node.Out.length = 2 then [] else node.Out) ↔
      e < graph.Edges.length ∧ graph.IsStart e := by
  have hmem : ∀ e n, n < graph.Nodes.length →
      e ∈ (if (graph.node n).Out.length = 2 then [] else (graph.node n).Out) →
      e < graph.Edges.length ∧ (graph.edge e).Src = n ∧ graph.IsStart e := by
    intro e n hn he
    split at he
    · simp at he
    · rename_i hdeg
      obtain ⟨h1, h2⟩ := (hwf.2 n hn).2 e he
      refine ⟨h1, h2, ?_⟩
      unfold Graph.IsStart
      rw [h2]
      exact hdeg
  rw [graph.nodes_eq_map, List.flatMap_map]
  constructor
  · rw [List.nodup_flatMap]
    constructor
    · intro n hn
      rw [List.mem_range] at hn
      split
      · exact List.nodup_nil
      · exact (hwf.2 n hn).1
    · apply List.Nodup.pairwise_of_forall_ne (List.nodup_range _)
      intro a ha b hb hab
      rw [List.mem_range] at ha hb
      simp only [Function.onFun]
      intro e hea heb
      exact hab ((hmem e a ha hea).2.1.symm.trans (hmem e b hb heb).2.1)
  · intro e
    rw [List.mem_flatMap]
    constructor
    · rintro ⟨n, hn, he⟩
      rw [List.mem_range] at hn
      exact ⟨(hmem e n hn he).1, (hmem e n hn he).2.2⟩
    · rintro ⟨he, hs⟩
      obtain ⟨h1, -, h3⟩ := hwf.1 e he
      refine ⟨(graph.edge e).Src, List.mem_range.mpr h1, ?_⟩
      rw [if_neg hs]
      exact h3

/-- The first loop of `GetRoadSegments` over a list of distinct start edges not seen
before returns, keeps the invariant and marks those edges. -/
theorem junctionLoop_inv (sqrt : K → K) (graph : Graph K) (hwf : graph.WF)
    (hbi : graph.Bidirectional) (hnp : graph.NoParallel) (l : List Nat) :
    ∀ st : RoadSegmentsState K, SeenInv graph st → l.Nodup →
      (∀ e ∈ l, e < graph.Edges.length ∧ graph.IsStart e ∧ e ∉ st.seenEdges) →
      ∃ st2, l.foldlM (fun st edge => incorporate sqrt graph st edge false) st = some st2 ∧
        SeenInv graph st2 ∧ (∀ e ∈ l, e ∈ st2.seenEdges) ∧
        (∀ e ∈ st.seenEdges, e ∈ st2.seenEdges) := by
  induction l with
  | nil =>
    intro st hst _ _
    exact ⟨st, rfl, hst, fun e he => by simp at he, fun e he => he⟩
  | cons i rest ih =>
    intro st hst hnd hl
    obtain ⟨hi1, hi2, hi3⟩ := hl i (List.mem_cons_self _ _)
    obtain ⟨st1, h1, h2, h3, h4, h5⟩ := incorporate_inv sqrt graph hwf hbi hnp st hst i hi1 hi3
      false (Or.inl ⟨rfl, hi2⟩)
    rw [List.nodup_cons] at hnd
    obtain ⟨st2, g1, g2, g3, g4⟩ := ih st1 h2 hnd.2 (by
      intro e he
      obtain ⟨he1, he2, he3⟩ := hl e (List.mem_cons_of_mem _ he)
      refine ⟨he1, he2, fun hes => ?_⟩
      exact h5 e hes he3 (fun hei => hnd.1 (hei ▸ he)) he2)
    refine ⟨st2, ?_, g2, ?_, fun e he => g4 e (h4 e he)⟩
    · rw [List.foldlM_cons, h1]
      exact g1
    · intro e he
      rcases List.mem_cons.mp he with rfl | he
      · exact g4 _ h3
      · exact g3 e he

/-- The second loop of `GetRoadSegments`, once every start edge is seen: it returns,
keeps the invariant and marks every edge of its list. -/
theorem loopLoop_inv (sqrt : K → K) (graph : Graph K) (hwf : graph.WF)
    (hbi : graph.Bidirectional) (hnp : graph.NoParallel) (l : List Nat) :
    ∀ st : RoadSegmentsState K, SeenInv graph st →
      (∀ e, e < graph.Edges.length → graph.IsStart e → e ∈ st.seenEdges) →
      (∀ e ∈ l, e < graph.Edges.length) →
      ∃ st2, l.foldlM (fun st edge =>
          if edge ∈ st.seenEdges then some st
          else if (graph.node (graph.edge edge).Src).Out.length ≠ 2 ∨
              (graph.node (graph.edge edge).Dst).Out.length ≠ 2 then none
          else incorporate sqrt graph st edge true) st = some st2 ∧
        SeenInv graph st2 ∧ (∀ e ∈ l, e ∈ st2.seenEdges) ∧
        (∀ e ∈ st.seenEdges, e ∈ st2.seenEdges) := by
  induction l with
  | nil =>
    intro st hst _ _
    exact ⟨st, rfl, hst, fun e he => by simp at he, fun e he => he⟩
  | cons i rest ih =>
    intro st hst hstart hl
    have hi := hl i (List.mem_cons_self _ _)
    have hrest : ∀ e ∈ rest, e < graph.Edges.length := fun e he =>
      hl e (List.mem_cons_of_mem _ he)
    by_cases hseen : i ∈ st.seenEdges
    · obtain ⟨st2, g1, g2, g3, g4⟩ := ih st hst hstart hrest
      refine ⟨st2, ?_, g2, ?_, g4⟩
      · rw [List.foldlM_cons, if_pos hseen]
        exact g1
      · intro e he
        rcases List.mem_cons.mp he with rfl | he
        · exact g4 _ hseen
        · exact g3 e he
    · have htot := graph.step_total_outside hwf hbi hnp st.seenEdges hst.2.2.2.1 hstart
      have hsrc : ¬ graph.IsStart i := fun hs => hseen (hstart i hi hs)
      obtain ⟨f, hf⟩ := htot i hi hseen
      have hdst := (graph.step_spec hwf i f hi hf).1
      obtain ⟨st1, h1, h2, h3, h4, -⟩ := incorporate_inv sqrt graph hwf hbi hnp st hst i hi
        hseen true (Or.inr ⟨rfl, htot⟩)
      obtain ⟨st2, g1, g2, g3, g4⟩ := ih st1 h2
        (fun e he hs => h4 e (hstart e he hs)) hrest
      refine ⟨st2, ?_, g2, ?_, fun e he => g4 e (h4 e he)⟩
      · rw [List.foldlM_cons, if_neg hseen, if_neg, h1]
        · exact g1
        · rw [not_or, not_not, not_not]
          exact ⟨not_not.mp hsrc, hdst⟩
      · intro e he
        rcases List.mem_cons.mp he with rfl | he
        · exact g4 _ h3
        · exact g3 e he

end JunctionLoop
section PartitionClaim

variable {K : Type} [LinearOrderedField K]

theorem parallelGraph_eq : (parallelGraph : Graph K) =
    ⟨[⟨⟨0, 0⟩, [0, 2]⟩, ⟨⟨1, 0⟩, [1, 3]⟩], [⟨0, 1⟩, ⟨1, 0⟩, ⟨0, 1⟩, ⟨1, 0⟩]⟩ := rfl

theorem parallelGraph_edge (e : Nat) : (parallelGraph : Graph K).edge e =
    ([⟨0, 1⟩, ⟨1, 0⟩, ⟨0, 1⟩, ⟨1, 0⟩] : List Edge).getD e ⟨0, 0⟩ := by
  unfold Graph.edge
  rw [parallelGraph_eq]

theorem parallelGraph_out (n : Nat) : ((parallelGraph : Graph K).node n).Out =
    ([[0, 2], [1, 3]] : List (List Nat)).getD n [] := by
  unfold Graph.node
  rw [parallelGraph_eq]
  match n with
  | 0 => rfl
  | 1 => rfl
  | n + 2 => rfl

/-- C14, counterexample: two nodes joined by two bidirectional edges form a
well-formed bidirectional graph on which `GetRoadSegments` fails (the panic
`got stuck following edge`) instead of returning road segments. -/
theorem GetRoadSegments_partition_counterexample :
    (parallelGraph : Graph ℝ).WF ∧ (parallelGraph : Graph ℝ).Bidirectional ∧
    (parallelGraph : Graph ℝ).GetRoadSegments Real.sqrt = none := by
  have hlenE : (parallelGraph : Graph ℝ).Edges.length = 4 := rfl
  have hlenN : (parallelGraph : Graph ℝ).Nodes.length = 2 := rfl
  refine ⟨⟨?_, ?_⟩, ?_, ?_⟩
  · intro e he
    rw [hlenE] at he
    rw [hlenN]
    simp only [parallelGraph_edge, parallelGraph_out]
    interval_cases e <;> simp
  · intro n hn
    rw [hlenN] at hn
    rw [hlenE]
    simp only [parallelGraph_edge, parallelGraph_out]
    interval_cases n <;> simp
  · intro e he
    rw [hlenE] at he ⊢
    simp only [parallelGraph_edge]
    interval_cases e
    · exact ⟨1, by simp⟩
    · exact ⟨0, by simp⟩
    · exact ⟨1, by simp⟩
    · exact ⟨0, by simp⟩
  · have h1 : roadSegmentsOfJunctions Real.sqrt (parallelGraph : Graph ℝ) ⟨[], []⟩ =
        some ⟨[], []⟩ := by
      rw [roadSegmentsOfJunctions_eq]
      have hl : ((parallelGraph : Graph ℝ).Nodes.flatMap
          (fun node => if node.Out.length = 2 then [] else node.Out)) = [] := by
        rw [parallelGraph_eq]; simp
      rw [hl]
      rfl
    have h2 : incorporate Real.sqrt (parallelGraph : Graph ℝ) ⟨[], []⟩ 0 true = none := by
      unfold incorporate
      rw [incorporateLoop]
      simp [Graph.nextEdge, parallelGraph_edge, parallelGraph_out]
    have h3 : roadSegmentsOfLoops Real.sqrt (parallelGraph : Graph ℝ) ⟨[], []⟩ = none := by
      unfold roadSegmentsOfLoops
      rw [hlenE]
      simp [List.range_succ_eq_map, parallelGraph_edge, parallelGraph_out, h2]
    unfold Graph.GetRoadSegments
    rw [h1]
    simp only [h3]

/-- C14, amended: for every well-formed bidirectional graph in which no two edges
have the same source and destination, `GetRoadSegments` returns road segments that
partition the edges: the edges of the returned road segments, taken together, are
the edges of the graph, each exactly once. -/
theorem GetRoadSegments_partition (sqrt : K → K) (graph : Graph K) (hwf : graph.WF)
    (hbi : graph.Bidirectional) (hnp : graph.NoParallel) :
    ∃ rss, graph.GetRoadSegments sqrt = some rss ∧
      (rss.flatMap (fun rs => rs.Edges)).Perm (List.range graph.Edges.length) ∧
      ∀ e, e < graph.Edges.length → (rss.flatMap (fun rs => rs.Edges)).count e = 1 := by
  obtain ⟨hnd, hmem⟩ := graph.startEdges_spec hwf
  have hinit : SeenInv graph (⟨[], []⟩ : RoadSegmentsState K) :=
    ⟨rfl, List.nodup_nil, fun e he => by simp at he, fun e he => by simp at he,
      fun e _ f hf => by simp at hf⟩
  obtain ⟨st1, h1, h2, h3, -⟩ := junctionLoop_inv sqrt graph hwf hbi hnp _ ⟨[], []⟩ hinit hnd
    (fun e he => ⟨((hmem e).mp he).1, ((hmem e).mp he).2, by simp⟩)
  obtain ⟨st2, g1, g2, g3, -⟩ := loopLoop_inv sqrt graph hwf hbi hnp
    (List.range graph.Edges.length) st1 h2
    (fun e he hs => h3 e ((hmem e).mpr ⟨he, hs⟩)) (fun e he => List.mem_range.mp he)
  have hperm : (st2.roadSegments.flatMap (fun rs => rs.Edges)).Perm
      (List.range graph.Edges.length) := by
    rw [← g2.1]
    rw [List.perm_ext_iff_of_nodup g2.2.1 (List.nodup_range _)]
    intro e
    exact ⟨fun he => List.mem_range.mpr (g2.2.2.1 e he), fun he => g3 e he⟩
  refine ⟨st2.roadSegments, ?_, hperm, ?_⟩
  · unfold Graph.GetRoadSegments
    rw [roadSegmentsOfJunctions_eq, h1]
    simp only
    unfold roadSegmentsOfLoops
    rw [g1]
  · intro e he
    rw [hperm.count_eq]
    exact List.count_eq_one_of_mem (List.nodup_range _) (List.mem_range.mpr he)

end PartitionClaim
section PartitionWitness

variable {K : Type} [LinearOrderedField K]

theorem testGraph_out (n : Nat) : ((testGraph : Graph K).node n).Out =
    ([[0, 2], [1], [3, 4, 6], [5, 8], [7, 10], [9, 11]] : List (List Nat)).getD n [] := by
  unfold Graph.node
  rw [testGraph_eq]
  match n with
  | 0 => rfl
  | 1 => rfl
  | 2 => rfl
  | 3 => rfl
  | 4 => rfl
  | 5 => rfl
  | n + 6 => rfl

theorem testGraph_edges_length : (testGraph : Graph K).Edges.length = 12 := by
  rw [testGraph_eq]; rfl

theorem testGraph_wf : (testGraph : Graph K).WF := by
  constructor
  · intro e he
    rw [testGraph_edges_length] at he
    rw [testGraph_nodes_length]
    simp only [testGraph_edge, testGraph_out]
    interval_cases e <;> simp
  · intro n hn
    rw [testGraph_nodes_length] at hn
    rw [testGraph_edges_length]
    simp only [testGraph_edge, testGraph_out]
    interval_cases n <;> simp

theorem testGraph_bidirectional : (testGraph : Graph K).Bidirectional := by
  intro e he
  rw [testGraph_edges_length] at he ⊢
  simp only [testGraph_edge]
  have h : ∀ e, e < 12 → ∃ r, r < 12 ∧
      (([⟨0, 1⟩, ⟨1, 0⟩, ⟨0, 2⟩, ⟨2, 0⟩, ⟨2, 3⟩, ⟨3, 2⟩, ⟨2, 4⟩, ⟨4, 2⟩, ⟨3, 5⟩, ⟨5, 3⟩,
        ⟨4, 5⟩, ⟨5, 4⟩] : List Edge).getD r ⟨0, 0⟩).Src =
      (([⟨0, 1⟩, ⟨1, 0⟩, ⟨0, 2⟩, ⟨2, 0⟩, ⟨2, 3⟩, ⟨3, 2⟩, ⟨2, 4⟩, ⟨4, 2⟩, ⟨3, 5⟩, ⟨5, 3⟩,
        ⟨4, 5⟩, ⟨5, 4⟩] : List Edge).getD e ⟨0, 0⟩).Dst ∧
      (([⟨0, 1⟩, ⟨1, 0⟩, ⟨0, 2⟩, ⟨2, 0⟩, ⟨2, 3⟩, ⟨3, 2⟩, ⟨2, 4⟩, ⟨4, 2⟩, ⟨3, 5⟩, ⟨5, 3⟩,
        ⟨4, 5⟩, ⟨5, 4⟩] : List Edge).getD r ⟨0, 0⟩).Dst =
      (([⟨0, 1⟩, ⟨1, 0⟩, ⟨0, 2⟩, ⟨2, 0⟩, ⟨2, 3⟩, ⟨3, 2⟩, ⟨2, 4⟩, ⟨4, 2⟩, ⟨3, 5⟩, ⟨5, 3⟩,
        ⟨4, 5⟩, ⟨5, 4⟩] : List Edge).getD e ⟨0, 0⟩).Src := by
    decide
  exact h e he

theorem testGraph_noParallel : (testGraph : Graph K).NoParallel := by
  intro e f he hf
  rw [testGraph_edges_length] at he hf
  simp only [testGraph_edge]
  have h : ∀ e, e < 12 → ∀ f, f < 12 →
      (([⟨0, 1⟩, ⟨1, 0⟩, ⟨0, 2⟩, ⟨2, 0⟩, ⟨2, 3⟩, ⟨3, 2⟩, ⟨2, 4⟩, ⟨4, 2⟩, ⟨3, 5⟩, ⟨5, 3⟩,
        ⟨4, 5⟩, ⟨5, 4⟩] : List Edge).getD e ⟨0, 0⟩).Src =
      (([⟨0, 1⟩, ⟨1, 0⟩, ⟨0, 2⟩, ⟨2, 0⟩, ⟨2, 3⟩, ⟨3, 2⟩, ⟨2, 4⟩, ⟨4, 2⟩, ⟨3, 5⟩, ⟨5, 3⟩,
        ⟨4, 5⟩, ⟨5, 4⟩] : List Edge).getD f ⟨0, 0⟩).Src →
      (([⟨0, 1⟩, ⟨1, 0⟩, ⟨0, 2⟩, ⟨2, 0⟩, ⟨2, 3⟩, ⟨3, 2⟩, ⟨2, 4⟩, ⟨4, 2⟩, ⟨3, 5⟩, ⟨5, 3⟩,
        ⟨4, 5⟩, ⟨5, 4⟩] : List Edge).getD e ⟨0, 0⟩).Dst =
      (([⟨0, 1⟩, ⟨1, 0⟩, ⟨0, 2⟩, ⟨2, 0⟩, ⟨2, 3⟩, ⟨3, 2⟩, ⟨2, 4⟩, ⟨4, 2⟩, ⟨3, 5⟩, ⟨5, 3⟩,
        ⟨4, 5⟩, ⟨5, 4⟩] : List Edge).getD f ⟨0, 0⟩).Dst → e = f := by
    decide
  exact h e he f hf

theorem GetRoadSegments_partition_witness :
    (testGraph : Graph ℝ).WF ∧ (testGraph : Graph ℝ).Bidirectional ∧
    (testGraph : Graph ℝ).NoParallel ∧
    ∃ rss, (testGraph : Graph ℝ).GetRoadSegments Real.sqrt = some rss ∧
      (rss.flatMap (fun rs => rs.Edges)).Perm
        (List.range (testGraph : Graph ℝ).Edges.length) ∧
      ∀ e, e < (testGraph : Graph ℝ).Edges.length →
        (rss.flatMap (fun rs => rs.Edges)).count e = 1 :=
  ⟨testGraph_wf, testGraph_bidirectional, testGraph_noParallel,
    GetRoadSegments_partition Real.sqrt testGraph testGraph_wf testGraph_bidirectional
      testGraph_noParallel⟩

end PartitionWitness
section RectangleClaims

variable {K : Type} [LinearOrderedField K]

/-- C28, counterexample: the intersection of the disjoint rectangles
`[5,6] × [0,1]` and `[0,1] × [0,1]` is the degenerate rectangle from `(5, 0)` to
`(5, 1)`, which contains the point `(5, 0)`; the second rectangle does not. -/
theorem Rectangle.Intersection_subset_counterexample :
    ((⟨⟨5, 0⟩, ⟨6, 1⟩⟩ : Rectangle ℚ).Intersection ⟨⟨0, 0⟩, ⟨1, 1⟩⟩) = ⟨⟨5, 0⟩, ⟨5, 1⟩⟩ ∧
    ((⟨⟨5, 0⟩, ⟨6, 1⟩⟩ : Rectangle ℚ).Intersection ⟨⟨0, 0⟩, ⟨1, 1⟩⟩).Contains ⟨5, 0⟩ = true ∧
    (⟨⟨0, 0⟩, ⟨1, 1⟩⟩ : Rectangle ℚ).Contains ⟨5, 0⟩ = false := by
  refine ⟨?_, ?_, ?_⟩ <;> norm_num [Rectangle.Intersection, Rectangle.Contains]

theorem Rectangle.Intersection_min (rect other : Rectangle K) :
    (rect.Intersection other).Min =
      ⟨max rect.Min.X other.Min.X, max rect.Min.Y other.Min.Y⟩ := rfl

theorem Rectangle.Intersection_max_X (rect other : Rectangle K) :
    (rect.Intersection other).Max.X =
      max (min rect.Max.X other.Max.X) (max rect.Min.X other.Min.X) := by
  unfold Rectangle.Intersection
  simp only
  split_ifs with h1 h2 h2
  · exact (max_eq_right h1).symm
  · exact (max_eq_right h1).symm
  · exact (max_eq_left (not_le.mp h1).le).symm
  · exact (max_eq_left (not_le.mp h1).le).symm

theorem Rectangle.Intersection_max_Y (rect other : Rectangle K) :
    (rect.Intersection other).Max.Y =
      max (min rect.Max.Y other.Max.Y) (max rect.Min.Y other.Min.Y) := by
  unfold Rectangle.Intersection
  simp only
  split_ifs with h1 h2 h2
  · exact (max_eq_right h2).symm
  · exact (max_eq_left (not_le.mp h2).le).symm
  · exact (max_eq_right h2).symm
  · exact (max_eq_left (not_le.mp h2).le).symm

theorem Rectangle.contains_iff {α : Type} [LinearOrder α] (rect : Rectangle α) (q : Point α) :
    rect.Contains q = true ↔
      rect.Min.X ≤ q.X ∧ q.X ≤ rect.Max.X ∧ rect.Min.Y ≤ q.Y ∧ q.Y ≤ rect.Max.Y := by
  simp only [Rectangle.Contains, Bool.and_eq_true, decide_eq_true_eq, ge_iff_le, and_assoc]

/-- C28, amended: every point contained in `rect.Intersection other` is contained
in `other` exactly when `rect.Min` and `other.Min` are at most `other.Max` in both
coordinates; then in particular when `other` is well formed and the rectangles
intersect. Otherwise the degenerate rectangle returned for an empty overlap has a
corner outside `other`. -/
theorem Rectangle.Intersection_subset_iff (rect other : Rectangle K) :
    (∀ q, (rect.Intersection other).Contains q = true → other.Contains q = true) ↔
      (rect.Min.X ≤ other.Max.X ∧ other.Min.X ≤ other.Max.X ∧
        rect.Min.Y ≤ other.Max.Y ∧ other.Min.Y ≤ other.Max.Y) := by
  constructor
  · intro h
    have hmax := h (rect.Intersection other).Max
    simp only [Rectangle.contains_iff, Rectangle.Intersection_min, Rectangle.Intersection_max_X,
      Rectangle.Intersection_max_Y] at hmax
    have := hmax ⟨le_max_right _ _, le_refl _, le_max_right _ _, le_refl _⟩
    simp only [max_le_iff] at this
    exact ⟨this.2.1.2.1, this.2.1.2.2, this.2.2.2.2.1, this.2.2.2.2.2⟩
  · rintro ⟨h1, h2, h3, h4⟩ q hq
    simp only [Rectangle.contains_iff, Rectangle.Intersection_min, Rectangle.Intersection_max_X,
      Rectangle.Intersection_max_Y, max_le_iff] at hq ⊢
    obtain ⟨a, b, c, d⟩ := hq
    exact ⟨a.2, b.trans (max_le (min_le_right _ _) (max_le h1 h2)), c.2,
      d.trans (max_le (min_le_right _ _) (max_le h3 h4))⟩

/-- C29: for every rectangle and point, over finite or infinite coordinates,
`rect.Extend p` contains `p` and every point contained in `rect`; and
`EmptyRectangle.Extend p` has `Min = p` and `Max = p`. -/
theorem Rectangle.Extend_spec :
    (∀ (α : Type) [LinearOrder α] (rect : Rectangle α) (p : Point α),
      (rect.Extend p).Contains p = true ∧
      ∀ q, rect.Contains q = true → (rect.Extend p).Contains q = true) ∧
    ∀ p : Point K, ((EmptyRectangle : Rectangle (EFloat K)).Extend p.toEFloat).Min = p.toEFloat ∧
      ((EmptyRectangle : Rectangle (EFloat K)).Extend p.toEFloat).Max = p.toEFloat := by
  refine ⟨?_, ?_⟩
  · intro α _ rect p
    refine ⟨?_, ?_⟩
    · simp [Rectangle.Extend, Rectangle.Contains]
    · intro q hq
      simp only [Rectangle.Extend, Rectangle.Contains, Bool.and_eq_true, decide_eq_true_eq,
        ge_iff_le, min_le_iff, le_max_iff] at hq ⊢
      tauto
  · intro p
    simp [Rectangle.Extend, EmptyRectangle, Point.toEFloat, EFloat.ofFinite]

end RectangleClaims
section PolygonClaims

variable {K : Type} [LinearOrderedField K]

theorem EFloat.ofFinite_le (x y : K) : EFloat.ofFinite x ≤ EFloat.ofFinite y ↔ x ≤ y := by
  simp [EFloat.ofFinite]

theorem Rectangle.ToPolygon_bounds (rect : Rectangle K) (hx : rect.Min.X ≤ rect.Max.X)
    (hy : rect.Min.Y ≤ rect.Max.Y) :
    Polygon.Bounds rect.ToPolygon = ⟨rect.Min.toEFloat, rect.Max.toEFloat⟩ := by
  have hx2 := (EFloat.ofFinite_le _ _).mpr hx
  have hy2 := (EFloat.ofFinite_le _ _).mpr hy
  have tx : ∀ x : K, min (((⊤ : WithTop K) : WithBot (WithTop K))) (EFloat.ofFinite x) =
      EFloat.ofFinite x := fun x => by simp [EFloat.ofFinite]
  have bx : ∀ x : K, max (⊥ : WithBot (WithTop K)) (EFloat.ofFinite x) =
      EFloat.ofFinite x := fun x => by simp
  simp only [Polygon.Bounds, Rectangle.ToPolygon, List.foldl_cons, List.foldl_nil,
    Rectangle.Extend, EmptyRectangle, Point.toEFloat, tx, bx, min_self, max_self,
    min_eq_left hx2, min_eq_left hy2, max_eq_right hx2, max_eq_right hy2,
    max_eq_left hx2, max_eq_left hy2]

theorem Rectangle.contains_toEFloat (rect : Rectangle K) (p : Point K) :
    (⟨rect.Min.toEFloat, rect.Max.toEFloat⟩ : Rectangle (EFloat K)).Contains p.toEFloat =
      rect.Contains p := by
  simp only [Rectangle.Contains, Point.toEFloat, ge_iff_le, EFloat.ofFinite_le]

/-- C30: for every rectangle with `Min ≤ Max` and every point not contained in it,
`Contains` on the polygon of the rectangle returns `false`, whatever numbers the
random source gives and without drawing any of them. -/
theorem Polygon.Contains_outside (sqrt : K → K) (rand : Nat → K) (fuel : Nat)
    (rect : Rectangle K) (p : Point K) (hx : rect.Min.X ≤ rect.Max.X)
    (hy : rect.Min.Y ≤ rect.Max.Y) (hp : rect.Contains p = false) :
    Polygon.Contains sqrt rand fuel rect.ToPolygon p = some false := by
  unfold Polygon.Contains
  simp only [Rectangle.ToPolygon_bounds rect hx hy, Rectangle.contains_toEFloat, hp,
    Bool.not_false, if_true]

theorem Polygon.Contains_outside_witness :
    (0 : ℝ) ≤ 1 ∧ (0 : ℝ) ≤ 1 ∧
    (⟨⟨0, 0⟩, ⟨1, 1⟩⟩ : Rectangle ℝ).Contains ⟨2, 0⟩ = false ∧
    Polygon.Contains Real.sqrt (fun _ => 0) 0 (⟨⟨0, 0⟩, ⟨1, 1⟩⟩ : Rectangle ℝ).ToPolygon ⟨2, 0⟩ =
      some false :=
  ⟨zero_le_one, zero_le_one, by norm_num [Rectangle.Contains],
    Polygon.Contains_outside Real.sqrt (fun _ => 0) 0 ⟨⟨0, 0⟩, ⟨1, 1⟩⟩ ⟨2, 0⟩ zero_le_one
      zero_le_one (by norm_num [Rectangle.Contains])⟩

end PolygonClaims
section RDPClaims

variable {K : Type} [LinearOrderedField K]

theorem rdpFarthest_nonneg (sqrt : K → K) (segment : Segment K) (points : List (Point K)) :
    0 ≤ (rdpFarthest sqrt segment points).2 := by
  unfold rdpFarthest
  apply foldl_invariant _ (fun acc : Nat × K => 0 ≤ acc.2)
  · exact le_refl _
  · intro acc k _ hacc
    simp only
    split_ifs with h
    · exact hacc.trans h.le
    · exact hacc

theorem rdpFarthest_lt (sqrt : K → K) (segment : Segment K) (points : List (Point K))
    (epsilon : WithTop K) (hε : 0 < epsilon)
    (h : ∀ i, 1 ≤ i → i + 1 < points.length →
      ((segment.Distance sqrt (points.getD i default) : K) : WithTop K) < epsilon) :
    (((rdpFarthest sqrt segment points).2 : K) : WithTop K) < epsilon := by
  unfold rdpFarthest
  apply foldl_invariant _ (fun acc : Nat × K => ((acc.2 : K) : WithTop K) < epsilon)
  · exact hε
  · intro acc k hk hacc
    simp only
    split_ifs with h2
    · exact h (k + 1) (Nat.le_add_left _ _) (by have := List.mem_range.mp hk; omega)
    · exact hacc

theorem RDP_nonpos (sqrt : K → K) (epsilon : WithTop K) (hε : epsilon ≤ 0) :
    ∀ (fuel : Nat) (points : List (Point K)), points ≠ [] → RDP sqrt fuel points epsilon = none := by
  intro fuel
  induction fuel with
  | zero => intro points _; rfl
  | succ fuel ih =>
    intro points hne
    cases points with
    | nil => exact absurd rfl hne
    | cons p0 rest =>
      have hd : epsilon ≤ (((rdpFarthest sqrt
          ⟨p0, (p0 :: rest).getLast (List.cons_ne_nil _ _)⟩ (p0 :: rest)).2 : K) : WithTop K) :=
        hε.trans (WithTop.coe_le_coe.mpr (rdpFarthest_nonneg sqrt
          ⟨p0, (p0 :: rest).getLast (List.cons_ne_nil _ _)⟩ (p0 :: rest)))
      have hpre := ih ((p0 :: rest).take ((rdpFarthest sqrt
        ⟨p0, (p0 :: rest).getLast (List.cons_ne_nil _ _)⟩ (p0 :: rest)).1 + 1)) (by simp)
      simp only [RDP, ge_iff_le, hd, if_true, hpre]

/-- C26: with `epsilon = 0` the call `RDP(points, 0)` returns for no non-empty
polyline. The test `dmax >= epsilon` holds in every call, so every call recurses
on a non-empty prefix, and no recursion depth suffices. -/
theorem RDP_zero_never_returns (sqrt : K → K) (fuel : Nat) (points : List (Point K))
    (hne : points ≠ []) : RDP sqrt fuel points 0 = none :=
  RDP_nonpos sqrt 0 (le_refl _) fuel points hne

theorem RDP_zero_never_returns_witness :
    ([⟨0, 0⟩, ⟨1, 1⟩, ⟨2, 0⟩] : List (Point ℝ)) ≠ [] ∧
    RDP Real.sqrt 100 ([⟨0, 0⟩, ⟨1, 1⟩, ⟨2, 0⟩] : List (Point ℝ)) 0 = none :=
  ⟨by simp, RDP_zero_never_returns Real.sqrt 100 _ (by simp)⟩

/-- C27, counterexample: a polyline of two points has no interior point, so every
`epsilon` is larger than the distance of every interior point to the chord; with
`epsilon = -1` the call returns at no recursion depth. -/
theorem RDP_chord_counterexample :
    (∀ i, 1 ≤ i → i + 1 < ([⟨0, 0⟩, ⟨1, 0⟩] : List (Point ℝ)).length →
      ((Segment.Distance Real.sqrt ⟨⟨0, 0⟩, ⟨1, 0⟩⟩
        (([⟨0, 0⟩, ⟨1, 0⟩] : List (Point ℝ)).getD i default) : ℝ) : WithTop ℝ) <
          (((-1 : ℝ) : ℝ) : WithTop ℝ)) ∧
    ∀ fuel, RDP Real.sqrt fuel ([⟨0, 0⟩, ⟨1, 0⟩] : List (Point ℝ)) (((-1 : ℝ) : ℝ) : WithTop ℝ) =
      none := by
  refine ⟨?_, ?_⟩
  · intro i h1 h2
    simp only [List.length_cons, List.length_nil] at h2
    omega
  · intro fuel
    exact RDP_nonpos Real.sqrt _ (WithTop.coe_le_coe.mpr (by norm_num)) fuel _ (by simp)

/-- C27, amended: for every non-empty polyline and every `epsilon > 0`, finite or
`math.Inf(1)`, larger than the distance of every interior point to the chord
between the first and the last point, `RDP` returns exactly the first and the last
point, at every recursion depth of at least one. -/
theorem RDP_chord (sqrt : K → K) (fuel : Nat) (points : List (Point K))
    (epsilon : WithTop K) (hne : points ≠ []) (hε : 0 < epsilon)
    (h : ∀ i, 1 ≤ i → i + 1 < points.length →
      ((Segment.Distance sqrt ⟨points.head hne, points.getLast hne⟩ (points.getD i default) :
        K) : WithTop K) < epsilon) :
    RDP sqrt (fuel + 1) points epsilon = some (some [points.head hne, points.getLast hne]) := by
  cases points with
  | nil => exact absurd rfl hne
  | cons p0 rest =>
    have hd := rdpFarthest_lt sqrt ⟨p0, (p0 :: rest).getLast (List.cons_ne_nil _ _)⟩
      (p0 :: rest) epsilon hε h
    simp only [RDP, ge_iff_le, not_le.mpr hd, if_false, List.head_cons]

theorem RDP_chord_witness :
    ([⟨0, 0⟩, ⟨1, 0⟩, ⟨2, 0⟩] : List (Point ℝ)) ≠ [] ∧ (0 : WithTop ℝ) < ⊤ ∧
    RDP Real.sqrt 1 ([⟨0, 0⟩, ⟨1, 0⟩, ⟨2, 0⟩] : List (Point ℝ)) ⊤ =
      some (some [⟨0, 0⟩, ⟨2, 0⟩]) :=
  ⟨by simp, WithTop.coe_lt_top 0,
    RDP_chord Real.sqrt 0 [⟨0, 0⟩, ⟨1, 0⟩, ⟨2, 0⟩] ⊤ (by simp) (WithTop.coe_lt_top 0)
    (by
      intro i h1 h2
      simp only [List.length_cons, List.length_nil] at h2
      have hi : i = 1 := by omega
      subst hi
      exact WithTop.coe_lt_top _)⟩
end RDPClaims
section OrderIndependence

variable {K : Type} [LinearOrderedField K] [FloorRing K]

theorem transitionEntry_congr (sqrt : K → K) (graph : NodePathsGraph K)
    (prevPoint curPoint : Point K) (edge : Nat) (prev1 prev2 : Entry K)
    (h1 : prev1.EdgePos = prev2.EdgePos) (h2 : prev1.MaxDistance = prev2.MaxDistance) :
    transitionEntry sqrt graph prevPoint curPoint edge prev1 =
      transitionEntry sqrt graph prevPoint curPoint edge prev2 := by
  simp only [transitionEntry, h1, h2]

theorem closestPathEdge_far (order : MapOrder) (sqrt : K → K) (graph : NodePathsGraph K)
    (radius : K) (i : Nat) (prevPoint curPoint : Point K) (prevEntries : List (Nat × Entry K))
    (tables : StepTables K) (edge : Nat)
    (hfar : (Edge.Segment graph.Graph edge).Distance sqrt curPoint > radius) :
    closestPathEdge order sqrt graph radius i prevPoint curPoint prevEntries tables edge =
      some tables := by
  unfold closestPathEdge
  rw [if_pos hfar]

theorem closestPathStep_keys (order : MapOrder) (horder : order.Valid) (sqrt : K → K)
    (graph : NodePathsGraph K) (edgeIndex : GraphGridIndex K) (radius : K) (i : Nat)
    (prevPoint curPoint : Point K) (prevEntries : List (Nat × Entry K)) (r : StepTables K)
    (candidates : List Nat)
    (hcand : edgeIndex.Search (order [0, i]) (curPoint.Bounds.AddTol radius) = some candidates)
    (h : closestPathStep order sqrt graph edgeIndex radius i prevPoint curPoint prevEntries =
      some r) (e : Nat) (y : Entry K) (hy : mapGet r.1 e = some y) :
    e ∈ candidates ∧ ¬ (Edge.Segment graph.Graph e).Distance sqrt curPoint > radius := by
  unfold closestPathStep at h
  rw [hcand] at h
  simp only at h
  refine foldlM_option_invariant _
    (fun t : StepTables K => ∀ e y, mapGet t.1 e = some y →
      e ∈ candidates ∧ ¬ (Edge.Segment graph.Graph e).Distance sqrt curPoint > radius)
    candidates ([], []) r ?_ ?_ h e y hy
  · intro e y hy
    simp [mapGet_nil] at hy
  · intro acc edge r2 hedge hacc hr2 e y hy
    by_cases hfar : (Edge.Segment graph.Graph edge).Distance sqrt curPoint > radius
    · rw [closestPathEdge_far order sqrt graph radius i prevPoint curPoint prevEntries acc edge
        hfar] at hr2
      simp only [Option.some.injEq] at hr2
      subst hr2
      exact hacc e y hy
    · by_cases he : e = edge
      · subst he
        exact ⟨hedge, hfar⟩
      · have hs := (closestPathEdge_spec order horder sqrt graph radius i prevPoint curPoint
          prevEntries acc r2 edge hr2).1 e he
        rw [hs] at hy
        exact hacc e y hy

theorem foldlM_option_none {α σ : Type} (f : σ → α → Option σ) (l : List α) (x0 : α)
    (hx0 : x0 ∈ l) (hnone : ∀ acc, f acc x0 = none) :
    ∀ init : σ, l.foldlM f init = none := by
  induction l with
  | nil => simp at hx0
  | cons a l ih =>
    intro init
    rw [List.foldlM_cons]
    cases hfa : f init a with
    | none => rfl
    | some s =>
      rcases List.mem_cons.mp hx0 with h | h
      · subst h
        rw [hnone init] at hfa
        simp at hfa
      · exact ih h s

theorem closestPathStep_total (order : MapOrder) (horder : order.Valid) (sqrt : K → K)
    (graph : NodePathsGraph K) (edgeIndex : GraphGridIndex K) (radius : K) (i : Nat)
    (prevPoint curPoint : Point K) (prevEntries : List (Nat × Entry K)) (r : StepTables K)
    (candidates : List Nat)
    (hcand : edgeIndex.Search (order [0, i]) (curPoint.Bounds.AddTol radius) = some candidates)
    (h : closestPathStep order sqrt graph edgeIndex radius i prevPoint curPoint prevEntries =
      some r) (edge : Nat) (hedge : edge ∈ candidates)
    (hnear : ¬ (Edge.Segment graph.Graph edge).Distance sqrt curPoint > radius)
    (k : Nat) (prev : Entry K) (hprev : mapGet prevEntries k = some prev) :
    transitionEntry sqrt graph prevPoint curPoint edge prev ≠ none := by
  intro hnone
  unfold closestPathStep at h
  rw [hcand] at h
  simp only at h
  rw [foldlM_option_none _ candidates edge hedge] at h
  · simp at h
  · intro acc
    unfold closestPathEdge
    rw [if_neg hnear]
    apply foldlM_option_none _ _ (k, prev) (mapRange_cover horder _ _ k prev hprev)
    intro acc2
    simp only [hnone]

theorem closestPathStep_isSome_near (order : MapOrder) (sqrt : K → K)
    (graph : NodePathsGraph K) (edgeIndex : GraphGridIndex K) (radius : K) (i : Nat)
    (prevPoint curPoint : Point K) (prevEntries : List (Nat × Entry K))
    (candidates : List Nat)
    (hcand : edgeIndex.Search (order [0, i]) (curPoint.Bounds.AddTol radius) = some candidates)
    (htotal : ∀ edge k prev, edge ∈ candidates →
      ¬ (Edge.Segment graph.Graph edge).Distance sqrt curPoint > radius →
      mapGet prevEntries k = some prev →
      transitionEntry sqrt graph prevPoint curPoint edge prev ≠ none) :
    ∃ r, closestPathStep order sqrt graph edgeIndex radius i prevPoint curPoint prevEntries =
      some r := by
  unfold closestPathStep
  rw [hcand]
  simp only
  apply foldlM_option_isSome
  intro acc edge hedge
  unfold closestPathEdge
  split
  · exact ⟨acc, rfl⟩
  · rename_i hnear
    apply foldlM_option_isSome
    intro acc2 kv hkv
    have hne := htotal edge kv.1 kv.2 hedge hnear (mapRange_mem hkv)
    cases ht : transitionEntry sqrt graph prevPoint curPoint edge kv.2 with
    | none => exact absurd ht hne
    | some res =>
      cases res with
      | none => exact ⟨acc2, rfl⟩
      | some entry =>
        simp only
        split
        · exact ⟨_, rfl⟩
        · exact ⟨_, rfl⟩

theorem GraphGridIndex.Search_order (o1 o2 : List Nat → List Nat)
    (h1 : ∀ l, (o1 l).Perm l) (h2 : ∀ l, (o2 l).Perm l) (idx : GraphGridIndex K)
    (rect : Rectangle K) (c1 : List Nat) (h : idx.Search o1 rect = some c1) :
    ∃ c2, idx.Search o2 rect = some c2 ∧ ∀ e, e ∈ c1 ↔ e ∈ c2 := by
  unfold GraphGridIndex.Search GridIndex.Search at h ⊢
  simp only at h ⊢
  split at h
  · rename_i hall
    simp only [Option.some.injEq] at h
    subst h
    refine ⟨_, if_pos ?_, fun e => ?_⟩
    · rw [List.all_eq_true] at hall ⊢
      intro x hx
      exact hall x ((h1 _).mem_iff.mpr ((h2 _).mem_iff.mp hx))
    · exact ((h1 _).mem_iff).trans ((h2 _).mem_iff).symm
  · simp at h

end OrderIndependence
section OrderIndependence2

variable {K : Type} [LinearOrderedField K] [FloorRing K]

theorem transitionEntry_nodes (sqrt : K → K) (graph : NodePathsGraph K)
    (prevPoint curPoint : Point K) (edge : Nat) (prev y : Entry K)
    (h : transitionEntry sqrt graph prevPoint curPoint edge prev = some (some y)) :
    (prev.EdgePos.Edge = edge → y.Nodes = []) ∧ (prev.EdgePos.Edge ≠ edge → y.Nodes ≠ []) := by
  refine ⟨?_, ?_⟩
  · intro he
    unfold transitionEntry at h
    simp only [he, ne_eq, not_true_eq_false, if_false] at h
    split at h
    · simp at h
    · simp only [Option.some.injEq] at h
      subst h
      rfl
  · intro he
    obtain ⟨-, -, h3⟩ := transitionEntry_spec2 sqrt graph prevPoint curPoint edge prev y h
    obtain ⟨-, h4, h5⟩ := h3 he
    by_cases hadj : (graph.Graph.edge prev.EdgePos.Edge).Dst = (graph.Graph.edge edge).Src
    · rw [h4 hadj]; simp
    · obtain ⟨rp, -, hn⟩ := h5 hadj
      rw [hn]; simp

theorem closestPathStep_keyEdge (order : MapOrder) (sqrt : K → K) (graph : NodePathsGraph K)
    (edgeIndex : GraphGridIndex K) (radius : K) (i : Nat) (prevPoint curPoint : Point K)
    (prevEntries : List (Nat × Entry K)) (r : StepTables K)
    (h : closestPathStep order sqrt graph edgeIndex radius i prevPoint curPoint prevEntries =
      some r) : KeyEdge r.1 := by
  intro e y hy
  obtain ⟨k, prev, -, htr, -⟩ := closestPathStep_tablesFrom order sqrt graph edgeIndex radius i
    prevPoint curPoint prevEntries r h e y hy
  exact (transitionEntry_spec sqrt graph prevPoint curPoint e prev y htr).1

theorem Entry.key_eq {a b : Entry K} (h : a.key = b.key) :
    a.MaxDistance = b.MaxDistance ∧ a.Nodes.length = b.Nodes.length := by
  unfold Entry.key at h
  have h1 := congrArg (fun x => (ofLex x).1) h
  have h2 := congrArg (fun x => (ofLex (ofLex (ofLex x).2).2).2) h
  exact ⟨h1, h2⟩

theorem closestPathStep_agree_half (o1 o2 : MapOrder) (h1 : o1.Valid) (h2 : o2.Valid)
    (sqrt : K → K) (graph : NodePathsGraph K) (edgeIndex : GraphGridIndex K) (radius : K)
    (i : Nat) (prevPoint curPoint : Point K) (prev1 prev2 : List (Nat × Entry K))
    (ha : EntriesAgree prev1 prev2) (hb : EntriesAgree prev2 prev1)
    (hk2 : KeyEdge prev2) (t1 : StepTables K)
    (hs : closestPathStep o1 sqrt graph edgeIndex radius i prevPoint curPoint prev1 = some t1) :
    ∃ t2, closestPathStep o2 sqrt graph edgeIndex radius i prevPoint curPoint prev2 = some t2 ∧
      EntriesAgree t1.1 t2.1 := by
  cases hc1 : edgeIndex.Search (o1 [0, i]) (curPoint.Bounds.AddTol radius) with
  | none => simp [closestPathStep, hc1] at hs
  | some c1 =>
    obtain ⟨c2, hc2, hmem⟩ := GraphGridIndex.Search_order (o1 [0, i]) (o2 [0, i]) (h1 _) (h2 _)
      edgeIndex _ c1 hc1
    obtain ⟨t2, ht2⟩ := closestPathStep_isSome_near o2 sqrt graph edgeIndex radius i prevPoint
      curPoint prev2 c2 hc2 (by
        intro edge k p2 hedge hnear hp2
        obtain ⟨p1, hp1, hE, hM⟩ := hb k p2 hp2
        rw [transitionEntry_congr sqrt graph prevPoint curPoint edge p2 p1 hE hM]
        exact closestPathStep_total o1 h1 sqrt graph edgeIndex radius i prevPoint curPoint prev1
          t1 c1 hc1 hs edge ((hmem edge).mpr hedge) hnear k p1 hp1)
    refine ⟨t2, ht2, ?_⟩
    intro e y1 hy1
    obtain ⟨he1, hnear⟩ := closestPathStep_keys o1 h1 sqrt graph edgeIndex radius i prevPoint
      curPoint prev1 t1 c1 hc1 hs e y1 hy1
    obtain ⟨k, p1, hp1, htr1, -⟩ := closestPathStep_tablesFrom o1 sqrt graph edgeIndex radius i
      prevPoint curPoint prev1 t1 hs e y1 hy1
    obtain ⟨p2, hp2, hE, hM⟩ := ha k p1 hp1
    have htr2 : transitionEntry sqrt graph prevPoint curPoint e p2 = some (some y1) := by
      rw [← transitionEntry_congr sqrt graph prevPoint curPoint e p1 p2 hE hM]; exact htr1
    obtain ⟨y2, hy2⟩ := closestPathStep_present o2 h2 sqrt graph edgeIndex radius i prevPoint
      curPoint prev2 t2 c2 hc2 ht2 e ((hmem e).mp he1) hnear k p2 y1 hp2 htr2
    have hle2 : y2.key ≤ y1.key := closestPathStep_minimal o2 h2 sqrt graph edgeIndex radius i
      prevPoint curPoint prev2 t2 ht2 e y2 hy2 k p2 y1 hp2 htr2
    obtain ⟨k2, q2, hq2, htq2, -⟩ := closestPathStep_tablesFrom o2 sqrt graph edgeIndex radius i
      prevPoint curPoint prev2 t2 ht2 e y2 hy2
    obtain ⟨q1, hq1, hE2, hM2⟩ := hb k2 q2 hq2
    have htq1 : transitionEntry sqrt graph prevPoint curPoint e q1 = some (some y2) := by
      rw [← transitionEntry_congr sqrt graph prevPoint curPoint e q2 q1 hE2 hM2]; exact htq2
    have hle1 : y1.key ≤ y2.key := closestPathStep_minimal o1 h1 sqrt graph edgeIndex radius i
      prevPoint curPoint prev1 t1 hs e y1 hy1 k2 q1 y2 hq1 htq1
    obtain ⟨hmax, hlen⟩ := Entry.key_eq (le_antisymm hle1 hle2)
    refine ⟨y2, hy2, ?_, hmax⟩
    have hn1 := transitionEntry_nodes sqrt graph prevPoint curPoint e p2 y1 htr2
    have hn2 := transitionEntry_nodes sqrt graph prevPoint curPoint e q2 y2 htq2
    have hkp := hk2 k p2 hp2
    have hkq := hk2 k2 q2 hq2
    by_cases hke : k = e
    · by_cases hke2 : k2 = e
      · rw [hke] at hp2
        rw [hke2, hp2] at hq2
        simp only [Option.some.injEq] at hq2
        subst hq2
        rw [htr2] at htq2
        simp only [Option.some.injEq] at htq2
        rw [htq2]
      · exfalso
        have e1 := hn1.1 (hkp.trans hke)
        have e2 := hn2.2 (by rw [hkq]; exact hke2)
        rw [e1] at hlen
        exact e2 (List.length_eq_zero.mp hlen.symm)
    · by_cases hke2 : k2 = e
      · exfalso
        have e1 := hn1.2 (by rw [hkp]; exact hke)
        have e2 := hn2.1 (hkq.trans hke2)
        rw [e2] at hlen
        exact e1 (List.length_eq_zero.mp hlen)
      · have s1 := ((transitionEntry_spec2 sqrt graph prevPoint curPoint e p2 y1 htr2).2.2
          (by rw [hkp]; exact hke)).1
        have s2 := ((transitionEntry_spec2 sqrt graph prevPoint curPoint e q2 y2 htq2).2.2
          (by rw [hkq]; exact hke2)).1
        rw [s1, s2]

theorem closestPathStep_agree (o1 o2 : MapOrder) (h1 : o1.Valid) (h2 : o2.Valid)
    (sqrt : K → K) (graph : NodePathsGraph K) (edgeIndex : GraphGridIndex K) (radius : K)
    (i : Nat) (prevPoint curPoint : Point K) (prev1 prev2 : List (Nat × Entry K))
    (ha : EntriesAgree prev1 prev2) (hb : EntriesAgree prev2 prev1)
    (hk1 : KeyEdge prev1) (hk2 : KeyEdge prev2) (t1 : StepTables K)
    (hs : closestPathStep o1 sqrt graph edgeIndex radius i prevPoint curPoint prev1 = some t1) :
    ∃ t2, closestPathStep o2 sqrt graph edgeIndex radius i prevPoint curPoint prev2 = some t2 ∧
      EntriesAgree t1.1 t2.1 ∧ EntriesAgree t2.1 t1.1 := by
  obtain ⟨t2, ht2, hab⟩ := closestPathStep_agree_half o1 o2 h1 h2 sqrt graph edgeIndex radius i
    prevPoint curPoint prev1 prev2 ha hb hk2 t1 hs
  obtain ⟨t3, ht3, hba⟩ := closestPathStep_agree_half o2 o1 h2 h1 sqrt graph edgeIndex radius i
    prevPoint curPoint prev2 prev1 hb ha hk1 t2 ht2
  rw [hs] at ht3
  simp only [Option.some.injEq] at ht3
  subst ht3
  exact ⟨t2, ht2, hab, hba⟩

end OrderIndependence2
section OrderIndependence3

variable {K : Type} [LinearOrderedField K] [FloorRing K]

theorem closestPathLoop_agree (o1 o2 : MapOrder) (h1 : o1.Valid) (h2 : o2.Valid)
    (sqrt : K → K) (graph : NodePathsGraph K) (edgeIndex : GraphGridIndex K) (radius : K)
    (e01 e02 : List (Nat × Entry K)) (rest : List (Point K)) :
    ∀ (i : Nat) (prevPoint : Point K) (prev1 prev2 : List (Nat × Entry K))
      (done1 done2 d1 : List (StepTables K)),
      EntriesAgree prev1 prev2 → EntriesAgree prev2 prev1 → KeyEdge prev1 → KeyEdge prev2 →
      lastEntries e01 done1 = prev1 → lastEntries e02 done2 = prev2 →
      BackChain e01 done1 → BackChain e02 done2 →
      closestPathLoop o1 sqrt graph edgeIndex radius i prevPoint rest prev1 done1 = some d1 →
      ∃ d2, closestPathLoop o2 sqrt graph edgeIndex radius i prevPoint rest prev2 done2 =
          some d2 ∧
        EntriesAgree (lastEntries e01 d1) (lastEntries e02 d2) ∧
        EntriesAgree (lastEntries e02 d2) (lastEntries e01 d1) ∧
        KeyEdge (lastEntries e01 d1) ∧ KeyEdge (lastEntries e02 d2) ∧
        BackChain e01 d1 ∧ BackChain e02 d2 := by
  induction rest with
  | nil =>
    intro i prevPoint prev1 prev2 done1 done2 d1 ha hb hk1 hk2 hl1 hl2 hc1 hc2 h
    simp only [closestPathLoop, Option.some.injEq] at h
    subst h
    refine ⟨done2, rfl, ?_, ?_, ?_, ?_, hc1, hc2⟩
    · rw [hl1, hl2]; exact ha
    · rw [hl1, hl2]; exact hb
    · rw [hl1]; exact hk1
    · rw [hl2]; exact hk2
  | cons curPoint rest ih =>
    intro i prevPoint prev1 prev2 done1 done2 d1 ha hb hk1 hk2 hl1 hl2 hc1 hc2 h
    cases hs1 : closestPathStep o1 sqrt graph edgeIndex radius i prevPoint curPoint prev1 with
    | none => simp [closestPathLoop, hs1] at h
    | some t1 =>
      obtain ⟨t2, hs2, hab, hba⟩ := closestPathStep_agree o1 o2 h1 h2 sqrt graph edgeIndex
        radius i prevPoint curPoint prev1 prev2 ha hb hk1 hk2 t1 hs1
      simp only [closestPathLoop, hs1] at h
      simp only [closestPathLoop, hs2]
      refine ih (i + 1) curPoint t1.1 t2.1 (t1 :: done1) (t2 :: done2) d1 hab hba
        (closestPathStep_keyEdge o1 sqrt graph edgeIndex radius i prevPoint curPoint prev1 t1 hs1)
        (closestPathStep_keyEdge o2 sqrt graph edgeIndex radius i prevPoint curPoint prev2 t2 hs2)
        rfl rfl ⟨?_, hc1⟩ ⟨?_, hc2⟩ h
      · intro e y hy
        obtain ⟨k, prev, hp, -, hbk⟩ := closestPathStep_tablesFrom o1 sqrt graph edgeIndex radius
          i prevPoint curPoint prev1 t1 hs1 e y hy
        exact ⟨k, hbk, by rw [hl1, hp]; rfl⟩
      · intro e y hy
        obtain ⟨k, prev, hp, -, hbk⟩ := closestPathStep_tablesFrom o2 sqrt graph edgeIndex radius
          i prevPoint curPoint prev2 t2 hs2 e y hy
        exact ⟨k, hbk, by rw [hl2, hp]; rfl⟩

theorem followPath_isSome (e0 : List (Nat × Entry K)) (done : List (StepTables K)) :
    ∀ (e : Nat) (nodeSeq : List Nat), BackChain e0 done →
      (mapGet (lastEntries e0 done) e).isSome →
      ∃ cur ns, followPath done e nodeSeq = some (cur, ns) ∧ (mapGet e0 cur).isSome := by
  induction done with
  | nil =>
    intro e nodeSeq _ he
    exact ⟨e, nodeSeq, rfl, he⟩
  | cons t earlier ih =>
    intro e nodeSeq hc he
    cases hg : mapGet t.1 e with
    | none =>
      simp only [lastEntries, hg] at he
      simp at he
    | some entry =>
      obtain ⟨k, hk, hprev⟩ := hc.1 e entry hg
      simp only [followPath, hg, hk, Option.getD_some]
      exact ih k _ hc.2 hprev

theorem Entry.key_le_max {a b : Entry K} (h : a.key ≤ b.key) : a.MaxDistance ≤ b.MaxDistance := by
  unfold Entry.key at h
  rcases (Prod.Lex.le_iff _ _).mp h with h | h
  · exact h.le
  · exact h.1.le

theorem initialEntries_near (sqrt : K → K) (graph : Graph K) (candidates : List Nat)
    (p0 : Point K) (radius : K) (k : Nat) (v : Entry K)
    (h : mapGet (initialEntries sqrt graph candidates p0 radius) k = some v) :
    ¬ (Edge.Segment graph k).Distance sqrt p0 > radius := by
  unfold initialEntries at h
  refine foldl_invariant _ (fun entries => ∀ k v, mapGet entries k = some v →
    ¬ (Edge.Segment graph k).Distance sqrt p0 > radius) candidates [] ?_ ?_ k v h
  · intro k v h; simp [mapGet_nil] at h
  · intro acc edge _ hacc k v h
    simp only at h
    split at h
    · exact hacc k v h
    · rename_i hnear
      by_cases hk : k = edge
      · subst hk; exact hnear
      · rw [mapGet_mapSet_other _ _ _ _ hk] at h
        exact hacc k v h

theorem initialEntries_agree (sqrt : K → K) (graph : Graph K) (c1 c2 : List Nat)
    (hmem : ∀ e, e ∈ c1 → e ∈ c2) (p0 : Point K) (radius : K) :
    EntriesAgree (initialEntries sqrt graph c1 p0 radius)
      (initialEntries sqrt graph c2 p0 radius) := by
  intro k x1 hx1
  have hx := initialEntries_eq_initialEntry sqrt graph c1 p0 radius k x1 hx1
  subst hx
  exact ⟨_, initialEntries_present sqrt graph c2 p0 radius k
    (hmem k (initialEntries_mem sqrt graph c1 p0 radius k _ hx1))
    (initialEntries_near sqrt graph c1 p0 radius k _ hx1), rfl, rfl⟩

theorem initialEntries_keyEdge (sqrt : K → K) (graph : Graph K) (c : List Nat)
    (p0 : Point K) (radius : K) : KeyEdge (initialEntries sqrt graph c p0 radius) := by
  intro k x hx
  rw [(initialEntries_get_edge sqrt graph c p0 radius k x hx).1]
  rfl

theorem GetClosestPath_tail (order : MapOrder) (sqrt : K → K) (graph : NodePathsGraph K)
    (p0 : Point K) (rest : List (Point K)) (radius : K) (c : List Nat)
    (done : List (StepTables K))
    (hc : (graph.Graph.GridIndex (radius * 8)).Search (order [0, 0]) (p0.Bounds.AddTol radius) =
      some c)
    (hl : closestPathLoop order sqrt graph (graph.Graph.GridIndex (radius * 8)) radius 1 p0 rest
      (initialEntries sqrt graph.Graph c p0 radius) [] = some done) :
    GetClosestPath order sqrt graph (p0 :: rest) radius =
      match bestEndEntry order (lastEntries (initialEntries sqrt graph.Graph c p0 radius) done) with
      | none => some (none, 0)
      | some best =>
        match followPath done best.EdgePos.Edge [] with
        | none => none
        | some (curEdgeID, nodeSeq) =>
          match mapGet (initialEntries sqrt graph.Graph c p0 radius) curEdgeID with
          | none => none
          | some first => some (some ⟨first.EdgePos, nodeSeq, best.EdgePos⟩, best.MaxDistance) := by
  unfold GetClosestPath
  simp only [hc, hl]
  cases done <;> rfl

end OrderIndependence3
section OrderIndependence4

variable {K : Type} [LinearOrderedField K] [FloorRing K]

theorem GetClosestPath_agree_half (o1 o2 : MapOrder) (h1 : o1.Valid) (h2 : o2.Valid)
    (sqrt : K → K) (graph : NodePathsGraph K) (path : List (Point K)) (radius : K)
    (r1 : Option (GraphPath K) × WithTop K)
    (h : GetClosestPath o1 sqrt graph path radius = some r1) :
    ∃ r2, GetClosestPath o2 sqrt graph path radius = some r2 ∧
      r1.1.isSome = r2.1.isSome ∧ r1.2 = r2.2 := by
  cases path with
  | nil => simp [GetClosestPath] at h
  | cons p0 rest =>
    cases hc1 : (graph.Graph.GridIndex (radius * 8)).Search (o1 [0, 0])
        (p0.Bounds.AddTol radius) with
    | none => simp [GetClosestPath, hc1] at h
    | some c1 =>
      obtain ⟨c2, hc2, hmem⟩ := GraphGridIndex.Search_order (o1 [0, 0]) (o2 [0, 0]) (h1 _)
        (h2 _) (graph.Graph.GridIndex (radius * 8)) _ c1 hc1
      cases hl1 : closestPathLoop o1 sqrt graph (graph.Graph.GridIndex (radius * 8)) radius 1 p0
          rest (initialEntries sqrt graph.Graph c1 p0 radius) [] with
      | none => simp [GetClosestPath, hc1, hl1] at h
      | some d1 =>
        obtain ⟨d2, hl2, hab, hba, hk1, hk2, hb1, hb2⟩ := closestPathLoop_agree o1 o2 h1 h2 sqrt
          graph (graph.Graph.GridIndex (radius * 8)) radius
          (initialEntries sqrt graph.Graph c1 p0 radius)
          (initialEntries sqrt graph.Graph c2 p0 radius) rest 1 p0 _ _ [] [] d1
          (initialEntries_agree sqrt graph.Graph c1 c2 (fun e => (hmem e).mp) p0 radius)
          (initialEntries_agree sqrt graph.Graph c2 c1 (fun e => (hmem e).mpr) p0 radius)
          (initialEntries_keyEdge sqrt graph.Graph c1 p0 radius)
          (initialEntries_keyEdge sqrt graph.Graph c2 p0 radius) rfl rfl trivial trivial hl1
        rw [GetClosestPath_tail o1 sqrt graph p0 rest radius c1 d1 hc1 hl1] at h
        rw [GetClosestPath_tail o2 sqrt graph p0 rest radius c2 d2 hc2 hl2]
        cases hbest1 : bestEndEntry o1
            (lastEntries (initialEntries sqrt graph.Graph c1 p0 radius) d1) with
        | none =>
          rw [hbest1] at h
          simp only [Option.some.injEq] at h
          subst h
          cases hbest2 : bestEndEntry o2
              (lastEntries (initialEntries sqrt graph.Graph c2 p0 radius) d2) with
          | none => exact ⟨_, rfl, rfl, rfl⟩
          | some b2 =>
            exfalso
            obtain ⟨k2, hk⟩ := bestEndEntry_mem o2 _ b2 hbest2
            obtain ⟨x1, hx1, -, -⟩ := hba k2 b2 hk
            obtain ⟨b, hb, -⟩ := bestEndEntry_minimal o1 h1 _ k2 x1 hx1
            rw [hbest1] at hb
            simp at hb
        | some b1 =>
          rw [hbest1] at h
          obtain ⟨kb1, hkb1⟩ := bestEndEntry_mem o1 _ b1 hbest1
          obtain ⟨x2, hx2, -, hm2⟩ := hab kb1 b1 hkb1
          obtain ⟨b2, hbest2, hle2⟩ := bestEndEntry_minimal o2 h2 _ kb1 x2 hx2
          obtain ⟨kb2, hkb2⟩ := bestEndEntry_mem o2 _ b2 hbest2
          obtain ⟨x1, hx1, -, hm1⟩ := hba kb2 b2 hkb2
          obtain ⟨b, hb, hle1⟩ := bestEndEntry_minimal o1 h1 _ kb2 x1 hx1
          rw [hbest1] at hb
          simp only [Option.some.injEq] at hb
          subst hb
          have hmax : b1.MaxDistance = b2.MaxDistance :=
            le_antisymm ((Entry.key_le_max hle1).trans hm1.symm.le)
              ((Entry.key_le_max hle2).trans hm2.symm.le)
          obtain ⟨cur1, ns1, hf1, hg1⟩ := followPath_isSome _ d1 b1.EdgePos.Edge [] hb1
            (by rw [hk1 kb1 b1 hkb1, hkb1]; rfl)
          obtain ⟨cur2, ns2, hf2, hg2⟩ := followPath_isSome _ d2 b2.EdgePos.Edge [] hb2
            (by rw [hk2 kb2 b2 hkb2, hkb2]; rfl)
          obtain ⟨f1, hf1e⟩ := Option.isSome_iff_exists.mp hg1
          obtain ⟨f2, hf2e⟩ := Option.isSome_iff_exists.mp hg2
          simp only [hf1, hf1e, Option.some.injEq] at h
          subst h
          simp only [hbest2, hf2, hf2e]
          exact ⟨_, rfl, rfl, hmax⟩

/-- C23: for a fixed graph, shortest-path tables, polyline and radius, two runs of
`GetClosestPath` under any two iteration orders (of the grid-index results and of
the entry maps) either both return no result, or both return, with the same
distance and both with a path or both without one. -/
theorem GetClosestPath_order_independent (o1 o2 : MapOrder) (h1 : o1.Valid) (h2 : o2.Valid)
    (sqrt : K → K) (graph : NodePathsGraph K) (path : List (Point K)) (radius : K) :
    (GetClosestPath o1 sqrt graph path radius).map (fun r => (r.1.isSome, r.2)) =
      (GetClosestPath o2 sqrt graph path radius).map (fun r => (r.1.isSome, r.2)) := by
  cases hr1 : GetClosestPath o1 sqrt graph path radius with
  | none =>
    cases hr2 : GetClosestPath o2 sqrt graph path radius with
    | none => rfl
    | some r2 =>
      obtain ⟨r, hr, -⟩ := GetClosestPath_agree_half o2 o1 h2 h1 sqrt graph path radius r2 hr2
      rw [hr1] at hr
      simp at hr
  | some r1 =>
    obtain ⟨r2, hr2, ha, hb⟩ := GetClosestPath_agree_half o1 o2 h1 h2 sqrt graph path radius r1
      hr1
    rw [hr2]
    simp only [Option.map_some', ha, hb]

theorem GetClosestPath_order_independent_witness :
    MapOrder.insertion.Valid ∧ MapOrder.Valid (fun _ l => l.reverse) ∧
    (GetClosestPath MapOrder.insertion Real.sqrt (testNodePathsGraph (fun _ => true))
        [⟨0, 1⟩, ⟨3, 1⟩, ⟨5, 2⟩] 2).map (fun r => (r.1.isSome, r.2)) =
      (GetClosestPath (fun _ l => l.reverse) Real.sqrt (testNodePathsGraph (fun _ => true))
        [⟨0, 1⟩, ⟨3, 1⟩, ⟨5, 2⟩] 2).map (fun r => (r.1.isSome, r.2)) :=
  ⟨fun _ l => List.Perm.refl l, fun _ l => List.reverse_perm l,
    GetClosestPath_order_independent MapOrder.insertion (fun _ l => l.reverse)
      (fun _ l => List.Perm.refl l) (fun _ l => List.reverse_perm l) Real.sqrt
      (testNodePathsGraph (fun _ => true)) [⟨0, 1⟩, ⟨3, 1⟩, ⟨5, 2⟩] 2⟩

end OrderIndependence4
section HullLemmas

variable {K : Type} [LinearOrderedField K]

theorem crossProduct_eq (o a b : Point K) :
    crossProduct o a b = (a.X - o.X) * (b.Y - o.Y) - (a.Y - o.Y) * (b.X - o.X) := rfl

theorem crossProduct_swap (o a b : Point K) : crossProduct o b a = - crossProduct o a b := by
  simp only [crossProduct_eq]; ring

theorem crossProduct_rotate (o a b : Point K) : crossProduct a b o = crossProduct o a b := by
  simp only [crossProduct_eq]; ring

theorem crossProduct_self_left (a b : Point K) : crossProduct a a b = 0 := by
  simp only [crossProduct_eq]; ring

theorem crossProduct_self_right (a b : Point K) : crossProduct a b a = 0 := by
  simp only [crossProduct_eq]; ring

theorem hullLE_X {a b : Point K} (h : hullLE a b) : a.X ≤ b.X := by
  rcases h with h | h
  · exact h.le
  · exact h.1.le

theorem hullLE_Y {a b : Point K} (h : hullLE a b) (hx : a.X = b.X) : a.Y ≤ b.Y := by
  rcases h with h | h
  · exact absurd hx h.ne
  · exact h.2

/-- A removed point stays on the left when the stack edge is replaced: the point
lies between the ends of the old edge. -/
theorem hull_lemmaA (b x t p : Point K) (h1 : hullLE b x) (h2 : hullLE x t) (h3 : hullLE t p)
    (hx : 0 ≤ crossProduct b t x) (hp : crossProduct b t p < 0) : 0 ≤ crossProduct b p x := by
  simp only [crossProduct_eq] at *
  have hbx := hullLE_X h1
  have hxt := hullLE_X h2
  have htp := hullLE_X h3
  rcases (hbx.trans hxt).lt_or_eq with ht | ht
  · have hid : (t.X - b.X) * ((p.X - b.X) * (x.Y - b.Y) - (p.Y - b.Y) * (x.X - b.X)) =
        (p.X - b.X) * ((t.X - b.X) * (x.Y - b.Y) - (t.Y - b.Y) * (x.X - b.X)) +
        (x.X - b.X) * (-((t.X - b.X) * (p.Y - b.Y) - (t.Y - b.Y) * (p.X - b.X))) := by ring
    have hpos : 0 ≤ (t.X - b.X) * ((p.X - b.X) * (x.Y - b.Y) - (p.Y - b.Y) * (x.X - b.X)) := by
      rw [hid]
      exact add_nonneg (mul_nonneg (sub_nonneg.mpr ((hbx.trans hxt).trans htp)) hx)
        (mul_nonneg (sub_nonneg.mpr hbx) (neg_nonneg.mpr hp.le))
    exact (mul_nonneg_iff_of_pos_left (sub_pos.mpr ht)).mp hpos
  · have hxb : x.X = b.X := le_antisymm (ht ▸ hxt) hbx
    have hy := hullLE_Y h1 hxb.symm
    have hty := hullLE_Y (show hullLE b t from Or.inr ⟨ht, (hy.trans (hullLE_Y h2 (hxb.trans ht)))⟩) ht
    rw [hxb, sub_self, mul_zero, sub_zero]
    rw [← ht, sub_self, zero_mul, zero_sub, neg_lt_zero] at hp
    have hp1 : 0 < p.X - b.X := by
      rcases (sub_nonneg.mpr hty).lt_or_eq with h | h
      · exact (pos_iff_pos_of_mul_pos hp).mp h
      · rw [← h, zero_mul] at hp
        exact absurd hp (lt_irrefl _)
    exact mul_nonneg hp1.le (sub_nonneg.mpr hy)

/-- A point removed earlier for the new point stays on the left when another stack
point is removed: the point lies between the removed stack point and the new one. -/
theorem hull_lemmaB (b t x p : Point K) (h1 : hullLE b t) (h2 : hullLE t x) (h3 : hullLE x p)
    (hx : 0 ≤ crossProduct t p x) (hp : crossProduct b t p < 0) : 0 ≤ crossProduct b p x := by
  simp only [crossProduct_eq] at *
  have hbt := hullLE_X h1
  have htx := hullLE_X h2
  have hxp := hullLE_X h3
  rcases (htx.trans hxp).lt_or_eq with ht | ht
  · have hid : (p.X - t.X) * ((p.X - b.X) * (x.Y - b.Y) - (p.Y - b.Y) * (x.X - b.X)) =
        (p.X - b.X) * ((p.X - t.X) * (x.Y - t.Y) - (p.Y - t.Y) * (x.X - t.X)) +
        (p.X - x.X) * (-((t.X - b.X) * (p.Y - b.Y) - (t.Y - b.Y) * (p.X - b.X))) := by ring
    have hpos : 0 ≤ (p.X - t.X) * ((p.X - b.X) * (x.Y - b.Y) - (p.Y - b.Y) * (x.X - b.X)) := by
      rw [hid]
      exact add_nonneg (mul_nonneg (sub_nonneg.mpr ((hbt.trans htx).trans hxp)) hx)
        (mul_nonneg (sub_nonneg.mpr hxp) (neg_nonneg.mpr hp.le))
    exact (mul_nonneg_iff_of_pos_left (sub_pos.mpr ht)).mp hpos
  · exfalso
    have hxt : x.X = t.X := le_antisymm (ht ▸ hxp) htx
    have hty := (hullLE_Y h2 hxt.symm).trans (hullLE_Y h3 (hxt.trans ht))
    rw [← ht] at hp
    have : (t.X - b.X) * (p.Y - b.Y) - (t.Y - b.Y) * (t.X - b.X) =
        (t.X - b.X) * (p.Y - t.Y) := by ring
    rw [this] at hp
    exact absurd hp (not_lt.mpr (mul_nonneg (sub_nonneg.mpr hbt) (sub_nonneg.mpr hty)))

end HullLemmas
section HullChain

variable {K : Type} [LinearOrderedField K]

theorem topG_mem (a : Point K) (T : List (Point K × List (Point K))) :
    topG a T ∈ a :: flattenG T := by
  cases T with
  | nil => simp [topG]
  | cons tg T0 =>
    obtain ⟨t, g⟩ := tg
    simp [topG, flattenG]

theorem popG_spec (le : Point K → Point K → Prop)
    (hA : ∀ b x t p, le b x → le x t → le t p → 0 ≤ crossProduct b t x →
      crossProduct b t p < 0 → 0 ≤ crossProduct b p x)
    (hB : ∀ b t x p, le b t → le t x → le x p → 0 ≤ crossProduct t p x →
      crossProduct b t p < 0 → 0 ≤ crossProduct b p x)
    (a p : Point K) (T : List (Point K × List (Point K))) :
    ∀ acc : List (Point K), GhostInv a T →
      (∀ x ∈ acc, 0 ≤ crossProduct (topG a T) p x) →
      List.Pairwise le ((a :: flattenG T) ++ (acc ++ [p])) →
      GhostInv a (popG a p T acc).1 ∧
      (∀ x ∈ (popG a p T acc).2, 0 ≤ crossProduct (topG a (popG a p T acc).1) p x) ∧
      flattenG (popG a p T acc).1 ++ (popG a p T acc).2 = flattenG T ++ acc ∧
      (match (popG a p T acc).1 with
        | [] => True
        | (t, _) :: T2 => 0 ≤ crossProduct (topG a T2) t p) := by
  induction T with
  | nil =>
    intro acc hinv hacc _
    exact ⟨hinv, hacc, rfl, trivial⟩
  | cons tg T0 ih =>
    obtain ⟨t, g⟩ := tg
    intro acc hinv hacc hpw
    by_cases hc : crossProduct (topG a T0) t p < 0
    · have hpop : popG a p ((t, g) :: T0) acc = popG a p T0 (g ++ t :: acc) := by
        simp only [popG, if_pos hc]
      rw [hpop]
      have hpw2 : List.Pairwise le ((a :: flattenG T0) ++ (g ++ (t :: (acc ++ [p])))) := by
        simpa [flattenG, List.append_assoc] using hpw
      obtain ⟨-, h2, h12⟩ := List.pairwise_append.mp hpw2
      obtain ⟨-, h3, hg⟩ := List.pairwise_append.mp h2
      obtain ⟨ht, h4⟩ := List.pairwise_cons.mp h3
      obtain ⟨-, -, hap⟩ := List.pairwise_append.mp h4
      have hb := topG_mem a T0
      have hbt : le (topG a T0) t := h12 _ hb t (by simp)
      have htp : le t p := ht p (by simp)
      obtain ⟨r1, r2, r3, r4⟩ := ih (g ++ t :: acc) hinv.2.2 (by
          intro x hx
          rcases List.mem_append.mp hx with hx | hx
          · exact hA _ x t p (h12 _ hb x (by simp [hx])) (hg x hx t (by simp)) htp
              (hinv.1 x hx) hc
          · rcases List.mem_cons.mp hx with hx | hx
            · subst hx
              rw [crossProduct_swap]
              exact neg_nonneg.mpr hc.le
            · exact hB _ t x p hbt (ht x (by simp [hx])) (hap x hx p (by simp))
                (hacc x hx) hc)
        (by simpa [List.append_assoc] using hpw2)
      refine ⟨r1, r2, ?_, r4⟩
      rw [r3]
      simp [flattenG, List.append_assoc]
    · have hpop : popG a p ((t, g) :: T0) acc = ((t, g) :: T0, acc) := by
        simp only [popG, if_neg hc]
      rw [hpop]
      exact ⟨hinv, hacc, rfl, not_lt.mp hc⟩

theorem stepG_spec (le : Point K → Point K → Prop)
    (hA : ∀ b x t p, le b x → le x t → le t p → 0 ≤ crossProduct b t x →
      crossProduct b t p < 0 → 0 ≤ crossProduct b p x)
    (hB : ∀ b t x p, le b t → le t x → le x p → 0 ≤ crossProduct t p x →
      crossProduct b t p < 0 → 0 ≤ crossProduct b p x)
    (a p : Point K) (T : List (Point K × List (Point K))) (hinv : GhostInv a T)
    (hpw : List.Pairwise le ((a :: flattenG T) ++ [p])) :
    GhostInv a (stepG a T p) ∧ flattenG (stepG a T p) = flattenG T ++ [p] := by
  obtain ⟨r1, r2, r3, r4⟩ := popG_spec le hA hB a p T [] hinv (by simp) (by simpa using hpw)
  refine ⟨⟨r2, r4, r1⟩, ?_⟩
  simp only [stepG, flattenG]
  rw [r3]
  simp

theorem chainG_spec (le : Point K → Point K → Prop)
    (hA : ∀ b x t p, le b x → le x t → le t p → 0 ≤ crossProduct b t x →
      crossProduct b t p < 0 → 0 ≤ crossProduct b p x)
    (hB : ∀ b t x p, le b t → le t x → le x p → 0 ≤ crossProduct t p x →
      crossProduct b t p < 0 → 0 ≤ crossProduct b p x)
    (a : Point K) (xs : List (Point K)) :
    ∀ T : List (Point K × List (Point K)), GhostInv a T →
      List.Pairwise le ((a :: flattenG T) ++ xs) →
      GhostInv a (xs.foldl (stepG a) T) ∧ flattenG (xs.foldl (stepG a) T) = flattenG T ++ xs := by
  induction xs with
  | nil => intro T hinv _; exact ⟨hinv, by simp⟩
  | cons p xs ih =>
    intro T hinv hpw
    have hpw1 : List.Pairwise le ((a :: flattenG T) ++ [p]) := by
      rw [show (a :: flattenG T) ++ p :: xs = ((a :: flattenG T) ++ [p]) ++ xs by simp] at hpw
      exact (List.pairwise_append.mp hpw).1
    obtain ⟨s1, s2⟩ := stepG_spec le hA hB a p T hinv hpw1
    rw [List.foldl_cons]
    obtain ⟨r1, r2⟩ := ih (stepG a T p) s1 (by rw [s2]; simpa using hpw)
    exact ⟨r1, by rw [r2, s2]; simp⟩

end HullChain
section HullStack

variable {K : Type} [LinearOrderedField K]

theorem stackG_cons (t : Point K) (g : List (Point K)) (T : List (Point K × List (Point K))) :
    stackG ((t, g) :: T) = stackG T ++ [t] := by
  simp [stackG]

theorem stackG_length (T : List (Point K × List (Point K))) : (stackG T).length = T.length := by
  simp [stackG]

theorem getD_concat_length (l : List (Point K)) (x d : Point K) :
    (l ++ [x]).getD l.length d = x := by
  simp [List.getD_eq_getElem?_getD]

theorem stack_getD_top (pre : List (Point K)) (a : Point K)
    (T : List (Point K × List (Point K))) :
    (pre ++ [a] ++ stackG T).getD (pre.length + T.length) default = topG a T := by
  cases T with
  | nil =>
    simp only [stackG, List.map_nil, List.reverse_nil, List.append_nil, List.length_nil,
      Nat.add_zero, topG]
    exact getD_concat_length pre a default
  | cons tg T0 =>
    obtain ⟨t, g⟩ := tg
    rw [stackG_cons, ← List.append_assoc]
    have hl : pre.length + ((t, g) :: T0).length = (pre ++ [a] ++ stackG T0).length := by
      simp [stackG_length]
    rw [hl]
    exact getD_concat_length _ t default

theorem hullPop_eq (a p : Point K) (pre : List (Point K))
    (T : List (Point K × List (Point K))) (acc : List (Point K)) :
    hullPop (pre.length + 1) p (pre.length + 1 + T.length) (pre ++ [a] ++ stackG T) =
      (pre ++ [a] ++ stackG (popG a p T acc).1, pre.length + 1 + (popG a p T acc).1.length) := by
  induction T generalizing acc with
  | nil =>
    show hullPop (pre.length + 1) p (pre.length + 1) _ = _
    rw [hullPop]
    simp [popG]
  | cons tg T0 ih =>
    obtain ⟨t, g⟩ := tg
    show hullPop (pre.length + 1) p ((pre.length + 1 + T0.length) + 1) _ = _
    rw [hullPop]
    have h1 : (pre ++ [a] ++ stackG ((t, g) :: T0)).getD (pre.length + 1 + T0.length + 1 - 1)
        default = t := by
      rw [stackG_cons, ← List.append_assoc]
      have hl : pre.length + 1 + T0.length + 1 - 1 = (pre ++ [a] ++ stackG T0).length := by
        simp [stackG_length]; omega
      rw [hl]
      exact getD_concat_length _ t default
    have h2 : (pre ++ [a] ++ stackG ((t, g) :: T0)).getD (pre.length + 1 + T0.length + 1 - 2)
        default = topG a T0 := by
      rw [stackG_cons, ← List.append_assoc]
      have hl : pre.length + 1 + T0.length + 1 - 2 = pre.length + T0.length := by omega
      rw [hl, List.getD_append _ _ _ _ (by simp [stackG_length])]
      exact stack_getD_top pre a T0
    have h3 : (pre ++ [a] ++ stackG ((t, g) :: T0)).take (pre.length + 1 + T0.length) =
        pre ++ [a] ++ stackG T0 := by
      rw [stackG_cons, ← List.append_assoc]
      exact List.take_left' (by simp [stackG_length]; omega)
    rw [h1, h2, h3]
    by_cases hc : crossProduct (topG a T0) t p < 0
    · rw [if_pos ⟨by omega, hc⟩, ih (g ++ t :: acc)]
      simp only [popG, if_pos hc]
    · rw [if_neg (fun h => hc h.2)]
      simp only [popG, if_neg hc, List.length_cons, Nat.add_assoc]

theorem hullPush_eq (a p : Point K) (pre : List (Point K))
    (T : List (Point K × List (Point K))) :
    hullPush (pre.length + 1) (pre ++ [a] ++ stackG T, pre.length + 1 + T.length) p =
      (pre ++ [a] ++ stackG (stepG a T p), pre.length + 1 + (stepG a T p).length) := by
  unfold hullPush
  simp only
  rw [hullPop_eq a p pre T []]
  simp only [stepG, stackG_cons, List.length_cons, List.append_assoc]
  rfl

theorem hullFold_eq (a : Point K) (pre xs : List (Point K)) :
    ∀ T : List (Point K × List (Point K)),
      xs.foldl (hullPush (pre.length + 1)) (pre ++ [a] ++ stackG T, pre.length + 1 + T.length) =
        (pre ++ [a] ++ stackG (xs.foldl (stepG a) T),
          pre.length + 1 + (xs.foldl (stepG a) T).length) := by
  induction xs with
  | nil => intro T; rfl
  | cons p xs ih =>
    intro T
    rw [List.foldl_cons, List.foldl_cons, hullPush_eq, ih]

end HullStack
section HullTurns

variable {K : Type} [LinearOrderedField K]

theorem noRightTurn_getD (d : Point K) (l : List (Point K)) (h : NoRightTurn l) :
    ∀ i, i + 2 < l.length →
      0 ≤ crossProduct (l.getD i d) (l.getD (i + 1) d) (l.getD (i + 2) d) := by
  induction l with
  | nil => intro i hi; simp at hi
  | cons a l ih =>
    intro i hi
    match l, h, ih, hi with
    | [], _, _, hi => simp at hi
    | [b], _, _, hi => simp at hi
    | b :: c :: rest, h, ih, hi =>
      cases i with
      | zero => exact h.1
      | succ i =>
        have := ih h.2 i (by simpa using hi)
        simpa using this

theorem noRightTurn_append (x y : Point K) (l2 : List (Point K))
    (h2 : NoRightTurn (y :: l2)) (hj : ∀ w, l2.head? = some w → 0 ≤ crossProduct x y w) :
    ∀ l : List (Point K), NoRightTurn (l ++ [x, y]) → NoRightTurn (l ++ [x, y] ++ l2) := by
  intro l
  induction l with
  | nil =>
    intro _
    cases l2 with
    | nil => trivial
    | cons w l3 => exact ⟨hj w rfl, h2⟩
  | cons c l ih =>
    intro h
    match l, h, ih with
    | [], h, ih => exact ⟨h.1, ih trivial⟩
    | [e], h, ih => exact ⟨h.1, ih h.2⟩
    | e :: f :: l3, h, ih => exact ⟨h.1, ih h.2⟩

theorem noRightTurn_concat (x y z : Point K) (l : List (Point K))
    (h : NoRightTurn (l ++ [x, y])) (hz : 0 ≤ crossProduct x y z) :
    NoRightTurn (l ++ [x, y, z]) := by
  have := noRightTurn_append x y [z] trivial (fun w hw => by
    simp only [List.head?_cons, Option.some.injEq] at hw
    subst hw
    exact hz) l h
  simpa using this

theorem stack_split (a : Point K) (T : List (Point K × List (Point K))) :
    ∃ l, a :: stackG T = l ++ [topG a T] := by
  cases T with
  | nil => exact ⟨[], rfl⟩
  | cons tg T0 =>
    obtain ⟨t, g⟩ := tg
    exact ⟨a :: stackG T0, by rw [stackG_cons]; rfl⟩

theorem flatten_split (a : Point K) (T : List (Point K × List (Point K))) :
    ∃ l, a :: flattenG T = l ++ [topG a T] := by
  cases T with
  | nil => exact ⟨[], rfl⟩
  | cons tg T0 =>
    obtain ⟨t, g⟩ := tg
    exact ⟨a :: (flattenG T0 ++ g), by simp [flattenG, topG]⟩

theorem ghostInv_noRightTurn (a : Point K) (T : List (Point K × List (Point K)))
    (h : GhostInv a T) : NoRightTurn (a :: stackG T) := by
  induction T with
  | nil => trivial
  | cons tg T0 ih =>
    obtain ⟨t, g⟩ := tg
    cases T0 with
    | nil => trivial
    | cons bg T1 =>
      obtain ⟨b, gb⟩ := bg
      obtain ⟨l, hl⟩ := stack_split a T1
      have h1 : a :: stackG ((t, g) :: (b, gb) :: T1) = l ++ [topG a T1, b, t] := by
        rw [stackG_cons, stackG_cons, ← List.cons_append, ← List.cons_append, hl]
        simp
      have h0 : a :: stackG ((b, gb) :: T1) = l ++ [topG a T1, b] := by
        rw [stackG_cons, ← List.cons_append, hl]
        simp
      rw [h1]
      apply noRightTurn_concat
      · rw [← h0]; exact ih h.2.2
      · exact h.2.1

theorem ghost_bottom (a : Point K) (T : List (Point K × List (Point K))) (hne : T ≠ [])
    (h : GhostInv a T) :
    ∃ u g rest, flattenG T = g ++ [u] ++ rest ∧ (stackG T).head? = some u ∧
      ∀ x ∈ g, 0 ≤ crossProduct a u x := by
  induction T with
  | nil => exact absurd rfl hne
  | cons tg T0 ih =>
    obtain ⟨t, g⟩ := tg
    cases T0 with
    | nil => exact ⟨t, g, [], by simp [flattenG], by simp [stackG], h.1⟩
    | cons bg T1 =>
      obtain ⟨u, g0, rest, h1, h2, h3⟩ := ih (by simp) h.2.2
      refine ⟨u, g0, rest ++ g ++ [t], ?_, ?_, h3⟩
      · rw [flattenG, h1]; simp
      · rw [stackG_cons]
        cases hs : stackG (bg :: T1) with
        | nil => rw [hs] at h2; simp at h2
        | cons v vs => rw [hs] at h2; simpa using h2

theorem mid_cases {α : Type} (X1 X2 Y1 Y2 : List α) (s u : α)
    (h : X1 ++ [s] ++ X2 = Y1 ++ [u] ++ Y2) :
    s = u ∨ (s ∈ Y1 ∧ u ∈ X2) ∨ (u ∈ X1 ∧ s ∈ Y2) := by
  simp only [List.append_assoc, List.singleton_append] at h
  rcases List.append_eq_append_iff.mp h with ⟨a2, h1, h2⟩ | ⟨c2, h1, h2⟩
  · cases a2 with
    | nil =>
      simp only [List.nil_append, List.cons.injEq] at h2
      exact Or.inl h2.1
    | cons v vs =>
      simp only [List.cons_append, List.cons.injEq] at h2
      right; left
      refine ⟨?_, ?_⟩
      · rw [h1, h2.1]; simp
      · rw [h2.2]; simp
  · cases c2 with
    | nil =>
      simp only [List.nil_append, List.cons.injEq] at h2
      exact Or.inl h2.1.symm
    | cons v vs =>
      simp only [List.cons_append, List.cons.injEq] at h2
      right; right
      refine ⟨?_, ?_⟩
      · rw [h1, h2.1]; simp
      · rw [h2.2]; simp

end HullTurns
section HullAssembly

variable {K : Type} [LinearOrderedField K]

theorem hullLE_neg (a b : Point K) :
    hullLE (⟨-a.X, -a.Y⟩ : Point K) ⟨-b.X, -b.Y⟩ ↔ hullLE b a := by
  unfold hullLE
  simp only [neg_lt_neg_iff, neg_inj, neg_le_neg_iff]
  constructor
  · rintro (h | ⟨h1, h2⟩)
    · exact Or.inl h
    · exact Or.inr ⟨h1.symm, h2⟩
  · rintro (h | ⟨h1, h2⟩)
    · exact Or.inl h
    · exact Or.inr ⟨h1.symm, h2⟩

theorem crossProduct_neg (o a b : Point K) :
    crossProduct (⟨-o.X, -o.Y⟩ : Point K) ⟨-a.X, -a.Y⟩ ⟨-b.X, -b.Y⟩ = crossProduct o a b := by
  simp only [crossProduct_eq]; ring

theorem hull_lemmaA_desc (b x t p : Point K) (h1 : hullLE x b) (h2 : hullLE t x)
    (h3 : hullLE p t) (hx : 0 ≤ crossProduct b t x) (hp : crossProduct b t p < 0) :
    0 ≤ crossProduct b p x := by
  have := hull_lemmaA (⟨-b.X, -b.Y⟩ : Point K) ⟨-x.X, -x.Y⟩ ⟨-t.X, -t.Y⟩ ⟨-p.X, -p.Y⟩
    ((hullLE_neg _ _).mpr h1) ((hullLE_neg _ _).mpr h2) ((hullLE_neg _ _).mpr h3)
    (by rw [crossProduct_neg]; exact hx) (by rw [crossProduct_neg]; exact hp)
  rwa [crossProduct_neg] at this

theorem hull_lemmaB_desc (b t x p : Point K) (h1 : hullLE t b) (h2 : hullLE x t)
    (h3 : hullLE p x) (hx : 0 ≤ crossProduct t p x) (hp : crossProduct b t p < 0) :
    0 ≤ crossProduct b p x := by
  have := hull_lemmaB (⟨-b.X, -b.Y⟩ : Point K) ⟨-t.X, -t.Y⟩ ⟨-x.X, -x.Y⟩ ⟨-p.X, -p.Y⟩
    ((hullLE_neg _ _).mpr h1) ((hullLE_neg _ _).mpr h2) ((hullLE_neg _ _).mpr h3)
    (by rw [crossProduct_neg]; exact hx) (by rw [crossProduct_neg]; exact hp)
  rwa [crossProduct_neg] at this

theorem flattenG_ne_nil (T : List (Point K × List (Point K))) (h : flattenG T ≠ []) : T ≠ [] := by
  intro hT
  rw [hT] at h
  exact h rfl

theorem head?_append_two (l : List (Point K)) (a b : Point K) :
    (l ++ [a, b]).head? = (l ++ [a]).head? := by
  cases l <;> rfl

/-- The two loops of `GetConvexHull` on a sorted slice of at least two points: the
returned polygon has at least two vertices and, walked around once and on to its
second vertex, makes no right turn. -/
theorem hull_sorted_spec (q0 : Point K) (tl : List (Point K))
    (hs : List.Pairwise hullLE (q0 :: tl)) (hne : tl ≠ []) :
    ∃ R : List (Point K),
      ((q0 :: tl).dropLast.reverse.foldl (hullPush (tl.foldl (hullPush 1) ([q0], 1)).2)
        (tl.foldl (hullPush 1) ([q0], 1))).1 = R.concat q0 ∧
      2 ≤ R.length ∧ NoRightTurn (R ++ R.take 2) := by
  -- the first loop
  obtain ⟨hinvL, hflatL⟩ := chainG_spec hullLE hull_lemmaA hull_lemmaB q0 tl [] trivial
    (by simpa [flattenG] using hs)
  simp only [flattenG, List.nil_append] at hflatL
  have hlow := hullFold_eq q0 [] tl []
  simp only [List.length_nil, List.nil_append, Nat.zero_add] at hlow
  have hlow0 : tl.foldl (hullPush 1) ([q0], 1) =
      ([q0] ++ stackG (tl.foldl (stepG q0) []), 1 + (tl.foldl (stepG q0) []).length) := hlow
  rw [hlow0]
  generalize tl.foldl (stepG q0) [] = TL at hinvL hflatL
  cases TL with
  | nil => exact absurd hflatL.symm hne
  | cons zg TL0 =>
    obtain ⟨z, gz⟩ := zg
    have hfront : tl = (flattenG TL0 ++ gz) ++ [z] := by rw [← hflatL]; rfl
    have hdrop : (q0 :: tl).dropLast = q0 :: (flattenG TL0 ++ gz) := by
      rw [hfront, ← List.cons_append, List.dropLast_concat]
    have hrev : (q0 :: tl).reverse = z :: (q0 :: (flattenG TL0 ++ gz)).reverse := by
      rw [hfront, ← List.cons_append, List.reverse_append]
      rfl
    -- the second loop
    have hsU : List.Pairwise (fun a b => hullLE b a)
        (z :: (q0 :: (flattenG TL0 ++ gz)).reverse) := by
      rw [← hrev]
      exact List.pairwise_reverse.mpr hs
    obtain ⟨hinvU, hflatU⟩ := chainG_spec (fun a b => hullLE b a) hull_lemmaA_desc
      hull_lemmaB_desc z (q0 :: (flattenG TL0 ++ gz)).reverse [] trivial
      (by simpa [flattenG] using hsU)
    simp only [flattenG, List.nil_append] at hflatU
    have hpre : [q0] ++ stackG ((z, gz) :: TL0) = (q0 :: stackG TL0) ++ [z] ++ stackG [] := by
      rw [stackG_cons]; simp [stackG]
    have hcnt : 1 + ((z, gz) :: TL0).length = (q0 :: stackG TL0).length + 1 + ([] :
        List (Point K × List (Point K))).length := by
      simp [stackG_length]; omega
    have hup : (q0 :: (flattenG TL0 ++ gz)).reverse.foldl
        (hullPush ([q0] ++ stackG ((z, gz) :: TL0), 1 + ((z, gz) :: TL0).length).2)
        ([q0] ++ stackG ((z, gz) :: TL0), 1 + ((z, gz) :: TL0).length) =
        ((q0 :: stackG TL0) ++ [z] ++
            stackG ((q0 :: (flattenG TL0 ++ gz)).reverse.foldl (stepG z) []),
          (q0 :: stackG TL0).length + 1 +
            ((q0 :: (flattenG TL0 ++ gz)).reverse.foldl (stepG z) []).length) := by
      rw [hpre, hcnt]
      exact hullFold_eq z (q0 :: stackG TL0) _ []
    rw [hdrop, hup]
    generalize (q0 :: (flattenG TL0 ++ gz)).reverse.foldl (stepG z) [] = TU at hinvU hflatU
    cases TU with
    | nil => simp [flattenG] at hflatU
    | cons tuh TU0 =>
      obtain ⟨tu, h⟩ := tuh
      have hflatU2 : (flattenG TU0 ++ h) ++ [tu] = (flattenG TL0 ++ gz).reverse ++ [q0] := by
        rw [← List.reverse_cons]; exact hflatU
      obtain ⟨hfu, htu⟩ := List.append_inj' hflatU2 rfl
      simp only [List.cons.injEq, and_true] at htu
      rw [htu] at hinvU hflatU ⊢
      clear hflatU2 htu tu
      -- the first stack point above `q0`
      obtain ⟨s1, g1, rest1, hb1, hb2, hb3⟩ := ghost_bottom q0 ((z, gz) :: TL0) (by simp) hinvL
      obtain ⟨u1, h1, restU, hu1, hu2, hu3⟩ := ghost_bottom z ((q0, h) :: TU0) (by simp) hinvU
      obtain ⟨l1, hl1⟩ := stack_split q0 TL0
      obtain ⟨l2, hl2⟩ := stack_split z TU0
      obtain ⟨B1, hB1⟩ := flatten_split q0 TL0
      obtain ⟨B2, hB2⟩ := flatten_split z TU0
      have hstackL : stackG ((z, gz) :: TL0) = stackG TL0 ++ [z] := stackG_cons z gz TL0
      -- the right turn tests at the two ends
      have htype2 : 0 ≤ crossProduct (topG q0 TL0) z u1 := by
        have e1 : gz.reverse ++ [topG q0 TL0] ++ B1.reverse = h1 ++ [u1] ++ restU := by
          rw [← hu1, hflatU, ← List.cons_append, hB1]
          simp
        rcases mid_cases _ _ _ _ _ _ e1 with e | ⟨e, -⟩ | ⟨e, -⟩
        · rw [e]; exact (crossProduct_self_right _ _).ge
        · rw [← crossProduct_rotate]
          exact hu3 _ e
        · exact hinvL.1 _ (List.mem_reverse.mp e)
      have htype4 : 0 ≤ crossProduct (topG z TU0) q0 s1 := by
        have e0 : z :: (flattenG TL0 ++ gz).reverse = rest1.reverse ++ [s1] ++ g1.reverse := by
          have : (flattenG ((z, gz) :: TL0)).reverse = (g1 ++ [s1] ++ rest1).reverse := by
            rw [hb1]
          simpa [flattenG] using this
        have e1 : B2 ++ [topG z TU0] ++ h = rest1.reverse ++ [s1] ++ g1.reverse := by
          rw [← e0, ← hB2, ← hfu]
          simp
        rcases mid_cases _ _ _ _ _ _ e1 with e | ⟨-, e⟩ | ⟨-, e⟩
        · rw [e]; exact (crossProduct_self_right _ _).ge
        · exact hinvU.1 _ e
        · rw [← crossProduct_rotate]
          exact hb3 _ (List.mem_reverse.mp e)
      -- the polygon
      refine ⟨(q0 :: stackG TL0) ++ [z] ++ stackG TU0, ?_, ?_, ?_⟩
      · rw [stackG_cons]
        simp
      · simp only [List.length_append, List.length_cons, List.length_nil]
        omega
      · have hR2 : ((q0 :: stackG TL0) ++ [z] ++ stackG TU0).take 2 = [q0, s1] := by
          rw [hstackL] at hb2
          cases hst : stackG TL0 ++ [z] with
          | nil => simp at hst
          | cons v vs =>
            rw [hst] at hb2
            simp only [List.head?_cons, Option.some.injEq] at hb2
            subst hb2
            have : (q0 :: stackG TL0) ++ [z] ++ stackG TU0 = q0 :: v :: (vs ++ stackG TU0) := by
              rw [List.cons_append, hst]; rfl
            rw [this]; rfl
        rw [hR2]
        have hR : (q0 :: stackG TL0) ++ [z] ++ stackG TU0 ++ [q0, s1] =
            l1 ++ [topG q0 TL0, z] ++ (stackG TU0 ++ [q0, s1]) := by
          rw [hl1]; simp
        rw [hR]
        apply noRightTurn_append
        · have : z :: (stackG TU0 ++ [q0, s1]) = l2 ++ [topG z TU0, q0, s1] := by
            rw [← List.cons_append, hl2]; simp
          rw [this]
          apply noRightTurn_concat
          · have h3 := ghostInv_noRightTurn z ((q0, h) :: TU0) hinvU
            rw [stackG_cons, ← List.cons_append, hl2] at h3
            simpa using h3
          · exact htype4
        · intro w hw
          rw [head?_append_two, ← stackG_cons q0 h TU0, hu2] at hw
          simp only [Option.some.injEq] at hw
          subst hw
          exact htype2
        · have h3 := ghostInv_noRightTurn q0 ((z, gz) :: TL0) hinvL
          rw [stackG_cons, ← List.cons_append, hl1] at h3
          simpa using h3

end HullAssembly
section HullClaims

variable {K : Type} [LinearOrderedField K]

theorem hullLE_total (a b : Point K) : hullLE a b ∨ hullLE b a := by
  unfold hullLE
  rcases lt_trichotomy a.X b.X with h | h | h
  · exact Or.inl (Or.inl h)
  · rcases le_total a.Y b.Y with h2 | h2
    · exact Or.inl (Or.inr ⟨h, h2⟩)
    · exact Or.inr (Or.inr ⟨h.symm, h2⟩)
  · exact Or.inr (Or.inl h)

theorem hullLE_trans (a b c : Point K) (h1 : hullLE a b) (h2 : hullLE b c) : hullLE a c := by
  unfold hullLE at *
  rcases h1 with h1 | ⟨h1, h1y⟩
  · rcases h2 with h2 | ⟨h2, -⟩
    · exact Or.inl (h1.trans h2)
    · exact Or.inl (h2 ▸ h1)
  · rcases h2 with h2 | ⟨h2, h2y⟩
    · exact Or.inl (h1 ▸ h2)
    · exact Or.inr ⟨h1.trans h2, h1y.trans h2y⟩

theorem hull_sorted (points : List (Point K)) :
    List.Pairwise hullLE (points.insertionSort hullLE) :=
  @List.sorted_insertionSort _ hullLE _ ⟨hullLE_total⟩ ⟨hullLE_trans⟩ points

theorem GetConvexHull_of_sorted (points : List (Point K)) (q0 : Point K) (tl : List (Point K))
    (hS : points.insertionSort hullLE = q0 :: tl) :
    (tl = [] → GetConvexHull points = []) ∧
    (tl ≠ [] → 2 ≤ (GetConvexHull points).length ∧
      NoRightTurn (GetConvexHull points ++ (GetConvexHull points).take 2)) := by
  have hlen : points.length ≠ 0 := by
    have := List.length_insertionSort hullLE points
    rw [hS] at this
    simp at this
    omega
  have hdef : GetConvexHull points =
      (((q0 :: tl).dropLast.reverse.foldl (hullPush (tl.foldl (hullPush 1) ([q0], 1)).2)
        (tl.foldl (hullPush 1) ([q0], 1))).1).take
        (((q0 :: tl).dropLast.reverse.foldl (hullPush (tl.foldl (hullPush 1) ([q0], 1)).2)
        (tl.foldl (hullPush 1) ([q0], 1))).1.length - 1) := by
    unfold GetConvexHull
    rw [if_neg hlen]
    simp only [hS]
    rfl
  refine ⟨?_, ?_⟩
  · intro htl
    rw [hdef, htl]
    rfl
  · intro htl
    obtain ⟨R, hR, h2, h3⟩ := hull_sorted_spec q0 tl (hS ▸ hull_sorted points) htl
    have hG : GetConvexHull points = R := by
      rw [hdef, hR]
      simp
    rw [hG]
    exact ⟨h2, h3⟩

theorem getD_wrap (d : Point K) (R : List (Point K)) (h2 : 2 ≤ R.length) (j : Nat)
    (hj : j < R.length + 2) : (R ++ R.take 2).getD j d = R.getD (j % R.length) d := by
  by_cases h : j < R.length
  · rw [List.getD_append _ _ _ _ h, Nat.mod_eq_of_lt h]
  · have hmod : j % R.length = j - R.length := by
      rw [Nat.mod_eq_sub_mod (not_lt.mp h), Nat.mod_eq_of_lt (by omega)]
    rw [List.getD_append_right _ _ _ _ (not_lt.mp h), hmod]
    simp only [List.getD_eq_getElem?_getD, List.getElem?_take]
    rw [if_pos (by omega)]

theorem cross_edges (o a b : Point K) :
    (a.Sub o).Cross (b.Sub a) = crossProduct o a b := by
  simp only [crossProduct_eq, Point.Cross, Point.Sub]; ring

/-- C24: for a single input point `GetConvexHull` returns the empty polygon: the
last line drops the last hull point, which here is the only one, so the input
point lies neither on nor inside the returned polygon. -/
theorem GetConvexHull_single (p : Point K) : GetConvexHull [p] = [] :=
  (GetConvexHull_of_sorted [p] p [] rfl).1 rfl

/-- With exact cross products the polygon returned by `GetConvexHull` is convex:
around the closed polygon, wrap-around included, the cross product of each edge with
the next one is non-negative. -/
theorem GetConvexHull_exact_convex (points : List (Point K)) (i : Nat)
    (hi : i < (GetConvexHull points).length) :
    0 ≤ (((GetConvexHull points).getD ((i + 1) % (GetConvexHull points).length) default).Sub
          ((GetConvexHull points).getD i default)).Cross
        (((GetConvexHull points).getD ((i + 2) % (GetConvexHull points).length) default).Sub
          ((GetConvexHull points).getD ((i + 1) % (GetConvexHull points).length) default)) := by
  rw [cross_edges]
  cases hS : points.insertionSort hullLE with
  | nil =>
    have hl := List.length_insertionSort hullLE points
    rw [hS] at hl
    have hp : points = [] := List.length_eq_zero.mp hl.symm
    rw [hp] at hi
    simp [GetConvexHull] at hi
  | cons q0 tl =>
    obtain ⟨h1, h2⟩ := GetConvexHull_of_sorted points q0 tl hS
    by_cases htl : tl = []
    · rw [h1 htl] at hi
      simp at hi
    · obtain ⟨hlen, hturn⟩ := h2 htl
      have h := noRightTurn_getD default _ hturn i (by
        simp only [List.length_append, List.length_take]
        omega)
      rw [getD_wrap default _ hlen i (by omega), getD_wrap default _ hlen (i + 1) (by omega),
        getD_wrap default _ hlen (i + 2) (by omega), Nat.mod_eq_of_lt hi] at h
      exact h

end HullClaims
section Round64Lemmas

theorem bitLen_le (fuel : Nat) : ∀ (n k : Nat), n < 2 ^ k → bitLen fuel n ≤ k := by
  induction fuel with
  | zero => intro n k _; simp [bitLen]
  | succ fuel ih =>
    intro n k h
    unfold bitLen
    split_ifs with h0
    · exact Nat.zero_le _
    · cases k with
      | zero => simp at h; exact absurd h h0
      | succ k =>
        have : n / 2 < 2 ^ k := by
          rw [Nat.div_lt_iff_lt_mul (by norm_num)]
          rw [pow_succ] at h
          exact h
        have := ih (n / 2) k this
        omega

theorem bitLen_one : bitLen 1 1 = 1 := by decide

theorem roundHalfEven_intCast (m : Int) : roundHalfEven (m : ℚ) = m := by
  unfold roundHalfEven
  simp

theorem binaryExponent_intCast_le (n : Int) (h : |n| < 2 ^ 53) :
    binaryExponent (n : ℚ) ≤ 52 := by
  unfold binaryExponent
  have h1 : (n : ℚ).num = n := Rat.num_intCast n
  have h2 : (n : ℚ).den = 1 := Rat.den_intCast n
  simp only [h1, h2, bitLen_one]
  have h3 : n.natAbs < 2 ^ 53 := by
    have : (n.natAbs : Int) < 2 ^ 53 := by rw [Int.natCast_natAbs]; exact h
    exact_mod_cast this
  have h4 := bitLen_le n.natAbs n.natAbs 53 h3
  split_ifs <;> omega

/-- A whole number below `2^53` in magnitude is a `float64`: rounding leaves it as it
is. -/
theorem round64_intCast (n : Int) (h : |n| < 2 ^ 53) : round64 (n : ℚ) = n := by
  unfold round64
  split_ifs with h0
  · exact h0.symm
  · have he := binaryExponent_intCast_le n h
    obtain ⟨k, hk⟩ : ∃ k : Nat, binaryExponent (n : ℚ) - 52 = -(k : Int) :=
      ⟨(52 - binaryExponent (n : ℚ)).toNat, by omega⟩
    simp only [hk, zpow_neg, zpow_natCast]
    have hq : (n : ℚ) / (2 ^ k)⁻¹ = ((n * 2 ^ k : Int) : ℚ) := by
      push_cast
      field_simp
    rw [hq, roundHalfEven_intCast]
    push_cast
    field_simp

end Round64Lemmas
section Round64Spec

theorem bitLen_spec (fuel : Nat) : ∀ n : Nat, n < 2 ^ fuel →
    n < 2 ^ bitLen fuel n ∧ (0 < n → 2 ^ (bitLen fuel n - 1) ≤ n) := by
  induction fuel with
  | zero =>
    intro n h
    simp at h
    subst h
    simp [bitLen]
  | succ fuel ih =>
    intro n h
    unfold bitLen
    split_ifs with h0
    · subst h0; simp
    · have hlt : n / 2 < 2 ^ fuel := by
        rw [Nat.div_lt_iff_lt_mul (by norm_num)]
        rw [pow_succ] at h
        exact h
      obtain ⟨h1, h2⟩ := ih (n / 2) hlt
      constructor
      · rw [pow_succ]
        omega
      · intro _
        simp only [Nat.add_sub_cancel]
        by_cases hn : n / 2 = 0
        · rw [hn]
          have : bitLen fuel 0 = 0 := by cases fuel <;> simp [bitLen]
          rw [this]
          simp
          omega
        · have h3 := h2 (Nat.pos_of_ne_zero hn)
          have h4 : 1 ≤ bitLen fuel (n / 2) := by
            by_contra hc
            have : bitLen fuel (n / 2) = 0 := by omega
            rw [this] at h1
            simp at h1
            exact hn h1
          have h5 : 2 ^ bitLen fuel (n / 2) = 2 ^ (bitLen fuel (n / 2) - 1) * 2 := by
            rw [← pow_succ]
            congr 1
            omega
          rw [h5]
          omega

theorem bitLen_self (n : Nat) (hn : 0 < n) :
    n < 2 ^ bitLen n n ∧ 2 ^ (bitLen n n - 1) ≤ n ∧ 1 ≤ bitLen n n := by
  obtain ⟨h1, h2⟩ := bitLen_spec n n (Nat.lt_two_pow n)
  refine ⟨h1, h2 hn, ?_⟩
  by_contra hc
  have : bitLen n n = 0 := by omega
  rw [this] at h1
  simp at h1
  omega

/-- The exponent that `binaryExponent` returns is the binary exponent. -/
theorem binaryExponent_spec (q : ℚ) (hq : q ≠ 0) :
    (2 : ℚ) ^ binaryExponent q ≤ |q| ∧ |q| < (2 : ℚ) ^ (binaryExponent q + 1) := by
  have ha : 0 < q.num.natAbs := Int.natAbs_pos.mpr (Rat.num_ne_zero.mpr hq)
  have hb : 0 < q.den := q.den_pos
  obtain ⟨a1, a2, a3⟩ := bitLen_self q.num.natAbs ha
  obtain ⟨b1, b2, b3⟩ := bitLen_self q.den hb
  have habs : |q| = (q.num.natAbs : ℚ) / (q.den : ℚ) := by
    conv_lhs => rw [← Rat.num_div_den q]
    rw [abs_div, Nat.abs_cast]
    congr 1
    rw [Nat.cast_natAbs, Int.cast_abs]
  have hbq : (0 : ℚ) < (q.den : ℚ) := by exact_mod_cast hb
  set A := bitLen q.num.natAbs q.num.natAbs with hA
  set B := bitLen q.den q.den with hB
  have a1q : (q.num.natAbs : ℚ) < 2 ^ A := by exact_mod_cast a1
  have a2q : (2 : ℚ) ^ (A - 1) ≤ (q.num.natAbs : ℚ) := by exact_mod_cast a2
  have b1q : (q.den : ℚ) < 2 ^ B := by exact_mod_cast b1
  have b2q : (2 : ℚ) ^ (B - 1) ≤ (q.den : ℚ) := by exact_mod_cast b2
  have two_pos : ∀ z : Int, (0 : ℚ) < 2 ^ z := fun z => zpow_pos (by norm_num) z
  -- upper bound: |q| < 2 ^ (A - B + 1)
  have hup : |q| < (2 : ℚ) ^ ((A : Int) - (B : Int) + 1) := by
    rw [habs, div_lt_iff₀ hbq]
    have e : (2 : ℚ) ^ ((A : Int) - (B : Int) + 1) * 2 ^ ((B - 1 : Nat) : Int) = 2 ^ (A : Int) := by
      rw [← zpow_add₀ (by norm_num : (2 : ℚ) ≠ 0)]
      congr 1
      omega
    calc (q.num.natAbs : ℚ) < 2 ^ A := a1q
      _ = (2 : ℚ) ^ ((A : Int) - (B : Int) + 1) * 2 ^ ((B - 1 : Nat) : Int) := by
          rw [e, zpow_natCast]
      _ ≤ (2 : ℚ) ^ ((A : Int) - (B : Int) + 1) * (q.den : ℚ) := by
          apply mul_le_mul_of_nonneg_left _ (two_pos _).le
          rw [zpow_natCast]
          exact b2q
  -- lower bound: 2 ^ (A - B - 1) ≤ |q|
  have hlo : (2 : ℚ) ^ ((A : Int) - (B : Int) - 1) ≤ |q| := by
    rw [habs, le_div_iff₀ hbq]
    have e : (2 : ℚ) ^ ((A : Int) - (B : Int) - 1) * 2 ^ (B : Int) = 2 ^ ((A - 1 : Nat) : Int) := by
      rw [← zpow_add₀ (by norm_num : (2 : ℚ) ≠ 0)]
      congr 1
      omega
    calc (2 : ℚ) ^ ((A : Int) - (B : Int) - 1) * (q.den : ℚ)
        ≤ (2 : ℚ) ^ ((A : Int) - (B : Int) - 1) * 2 ^ (B : Int) := by
          apply mul_le_mul_of_nonneg_left _ (two_pos _).le
          rw [zpow_natCast]
          exact b1q.le
      _ = 2 ^ ((A - 1 : Nat) : Int) := e
      _ ≤ (q.num.natAbs : ℚ) := by rw [zpow_natCast]; exact a2q
  unfold binaryExponent
  simp only [← hA, ← hB]
  split_ifs with h
  · exact ⟨h, hup⟩
  · push_neg at h
    refine ⟨hlo, ?_⟩
    rw [sub_add_cancel]
    exact h

theorem roundHalfEven_ge (k : Int) (x : ℚ) (h : (k : ℚ) ≤ x) : k ≤ roundHalfEven x := by
  have hf : k ≤ ⌊x⌋ := Int.le_floor.mpr h
  unfold roundHalfEven
  simp only
  split_ifs <;> omega

theorem roundHalfEven_le (k : Int) (x : ℚ) (h : x ≤ (k : ℚ)) : roundHalfEven x ≤ k := by
  have hf : ⌊x⌋ ≤ k := Int.cast_le.mp (le_trans (Int.floor_le x) h)
  unfold roundHalfEven
  simp only
  split_ifs with h1
  · exact hf
  all_goals
    have hne : ⌊x⌋ ≠ k := by
      intro he
      have hx : x = (k : ℚ) := le_antisymm h (by rw [← he]; exact Int.floor_le x)
      apply h1
      rw [hx]
      simp
    omega

end Round64Spec
section Round64Order

theorem round64_zero : round64 0 = 0 := by simp [round64]

theorem round64_of_ne (q : ℚ) (hq : q ≠ 0) :
    round64 q = (roundHalfEven (q / 2 ^ (binaryExponent q - 52)) : ℚ) *
      2 ^ (binaryExponent q - 52) := by
  unfold round64
  rw [if_neg hq]

theorem two_zpow_pos (z : Int) : (0 : ℚ) < 2 ^ z := zpow_pos (by norm_num) z

theorem two_zpow_split (E : Int) : (2 : ℚ) ^ E = 2 ^ (52 : Nat) * 2 ^ (E - 52) := by
  rw [← zpow_natCast, ← zpow_add₀ (by norm_num : (2 : ℚ) ≠ 0)]
  congr 1
  omega

theorem cast_two_pow_52 : ((2 ^ 52 : Int) : ℚ) = (2 : ℚ) ^ (52 : Nat) := by norm_num

theorem cast_two_pow_53 : ((2 ^ 53 : Int) : ℚ) = (2 : ℚ) ^ (53 : Nat) := by norm_num

/-- A positive number rounds to at least the power of two below it. -/
theorem round64_pos (q : ℚ) (h : 0 < q) : (2 : ℚ) ^ binaryExponent q ≤ round64 q := by
  obtain ⟨h1, _⟩ := binaryExponent_spec q h.ne'
  rw [abs_of_pos h] at h1
  rw [round64_of_ne q h.ne']
  have hu := two_zpow_pos (binaryExponent q - 52)
  have hk : (((2 ^ 52 : Int)) : ℚ) ≤ q / 2 ^ (binaryExponent q - 52) := by
    rw [le_div_iff₀ hu, cast_two_pow_52, ← two_zpow_split]
    exact h1
  have hr := roundHalfEven_ge (2 ^ 52) _ hk
  have hr2 : (2 : ℚ) ^ (52 : Nat) ≤
      (roundHalfEven (q / 2 ^ (binaryExponent q - 52)) : ℚ) := by
    rw [← cast_two_pow_52]
    exact Int.cast_le.mpr hr
  calc (2 : ℚ) ^ binaryExponent q = 2 ^ (52 : Nat) * 2 ^ (binaryExponent q - 52) :=
        two_zpow_split _
    _ ≤ _ := mul_le_mul_of_nonneg_right hr2 hu.le

/-- A negative number rounds to at most minus the power of two below its magnitude. -/
theorem round64_neg (q : ℚ) (h : q < 0) : round64 q ≤ -(2 : ℚ) ^ binaryExponent q := by
  obtain ⟨h1, _⟩ := binaryExponent_spec q h.ne
  rw [abs_of_neg h] at h1
  rw [round64_of_ne q h.ne]
  have hu := two_zpow_pos (binaryExponent q - 52)
  have hk : q / 2 ^ (binaryExponent q - 52) ≤ (((-(2 ^ 52) : Int)) : ℚ) := by
    rw [div_le_iff₀ hu, Int.cast_neg, cast_two_pow_52, neg_mul, ← two_zpow_split]
    linarith
  have hr := roundHalfEven_le (-(2 ^ 52)) _ hk
  have hr2 : (roundHalfEven (q / 2 ^ (binaryExponent q - 52)) : ℚ) ≤
      -(2 : ℚ) ^ (52 : Nat) := by
    rw [← cast_two_pow_52, ← Int.cast_neg]
    exact Int.cast_le.mpr hr
  calc _ ≤ (-(2 : ℚ) ^ (52 : Nat)) * 2 ^ (binaryExponent q - 52) :=
        mul_le_mul_of_nonneg_right hr2 hu.le
    _ = -(2 : ℚ) ^ binaryExponent q := by rw [neg_mul, ← two_zpow_split]

/-- Rounding keeps the sign: the test `x < 0` on a rounded result decides as on the
exact one. -/
theorem round64_neg_iff (q : ℚ) : round64 q < 0 ↔ q < 0 := by
  constructor
  · intro h
    by_contra hc
    push_neg at hc
    rcases hc.eq_or_lt with h0 | h0
    · rw [← h0, round64_zero] at h
      exact lt_irrefl _ h
    · have := round64_pos q h0
      have := two_zpow_pos (binaryExponent q)
      linarith
  · intro h
    have := round64_neg q h
    have := two_zpow_pos (binaryExponent q)
    linarith

/-- A number `m * 2^e` with `|m| < 2^53` is a `float64`: rounding leaves it as it is. -/
theorem round64_dyadic (n e : Int) (h : |n| < 2 ^ 53) :
    round64 ((n : ℚ) * 2 ^ e) = (n : ℚ) * 2 ^ e := by
  by_cases hn : n = 0
  · subst hn; simp [round64_zero]
  have hq : (n : ℚ) * 2 ^ e ≠ 0 :=
    mul_ne_zero (by exact_mod_cast hn) (two_zpow_pos e).ne'
  obtain ⟨h1, _⟩ := binaryExponent_spec _ hq
  set E := binaryExponent ((n : ℚ) * 2 ^ e) with hE
  have habs : |(n : ℚ) * 2 ^ e| < 2 ^ (53 + e) := by
    rw [abs_mul, abs_of_pos (two_zpow_pos e), zpow_add₀ (by norm_num : (2 : ℚ) ≠ 0)]
    apply mul_lt_mul_of_pos_right _ (two_zpow_pos e)
    have : ((|n| : Int) : ℚ) < ((2 ^ 53 : Int) : ℚ) := Int.cast_lt.mpr h
    rw [cast_two_pow_53, Int.cast_abs] at this
    rw [zpow_ofNat]
    exact this
  have hlt : (2 : ℚ) ^ E < 2 ^ (53 + e) := lt_of_le_of_lt h1 habs
  have hEe : E < 53 + e := (zpow_lt_zpow_iff_right₀ (by norm_num : (1 : ℚ) < 2)).mp hlt
  obtain ⟨k, hk⟩ : ∃ k : Nat, e = (E - 52) + (k : Int) := ⟨(e - (E - 52)).toNat, by omega⟩
  rw [round64_of_ne _ hq, ← hE]
  have hu := two_zpow_pos (E - 52)
  have hdiv : (n : ℚ) * 2 ^ e / 2 ^ (E - 52) = ((n * 2 ^ k : Int) : ℚ) := by
    rw [div_eq_iff hu.ne']
    push_cast
    rw [mul_assoc, ← zpow_natCast, ← zpow_add₀ (by norm_num : (2 : ℚ) ≠ 0)]
    congr 2
    omega
  rw [hdiv, roundHalfEven_intCast]
  push_cast
  rw [mul_assoc, ← zpow_natCast, ← zpow_add₀ (by norm_num : (2 : ℚ) ≠ 0)]
  congr 2
  omega

/-- The test `x > 1` on a rounded result decides as on the exact one when the exact
result is not in the gap between `1` and the next `float64` but one. -/
theorem round64_gt_one_iff (q : ℚ) (hgap : 1 < q → 1 + 1 / 2 ^ 51 ≤ q) :
    1 < round64 q ↔ 1 < q := by
  constructor
  · intro h
    by_contra hc
    push_neg at hc
    rcases lt_trichotomy q 0 with h0 | h0 | h0
    · have := (round64_neg_iff q).mpr h0
      linarith
    · rw [h0, round64_zero] at h
      linarith
    · obtain ⟨h1, _⟩ := binaryExponent_spec q h0.ne'
      rw [abs_of_pos h0] at h1
      set E := binaryExponent q with hE
      have hE0 : E ≤ 0 := by
        by_contra hE1
        push_neg at hE1
        have : (2 : ℚ) ^ (1 : Int) ≤ 2 ^ E :=
          (zpow_le_zpow_iff_right₀ (by norm_num : (1 : ℚ) < 2)).mpr (by omega)
        norm_num at this
        linarith
      obtain ⟨k, hk⟩ : ∃ k : Nat, E - 52 = -(k : Int) := ⟨(52 - E).toNat, by omega⟩
      rw [round64_of_ne q h0.ne', ← hE, hk] at h
      have hu := two_zpow_pos (-(k : Int))
      have hle : q / 2 ^ (-(k : Int)) ≤ ((2 ^ k : Int) : ℚ) := by
        rw [div_le_iff₀ hu]
        push_cast
        rw [zpow_neg, zpow_natCast, mul_inv_cancel₀ (by positivity)]
        exact hc
      have hr := roundHalfEven_le _ _ hle
      have hr2 : (roundHalfEven (q / 2 ^ (-(k : Int))) : ℚ) ≤ ((2 ^ k : Int) : ℚ) := by
        exact_mod_cast hr
      have : (roundHalfEven (q / 2 ^ (-(k : Int))) : ℚ) * 2 ^ (-(k : Int)) ≤
          ((2 ^ k : Int) : ℚ) * 2 ^ (-(k : Int)) :=
        mul_le_mul_of_nonneg_right hr2 hu.le
      have e1 : ((2 ^ k : Int) : ℚ) * 2 ^ (-(k : Int)) = 1 := by
        push_cast
        rw [zpow_neg, zpow_natCast, mul_inv_cancel₀ (by positivity)]
      linarith
  · intro h
    have hq := hgap h
    have h0 : 0 < q := by linarith
    obtain ⟨_, h2⟩ := binaryExponent_spec q h0.ne'
    rw [abs_of_pos h0] at h2
    have hpos := round64_pos q h0
    set E := binaryExponent q with hE
    have hE0 : 0 ≤ E := by
      by_contra hE1
      push_neg at hE1
      have : (2 : ℚ) ^ (E + 1) ≤ 2 ^ (0 : Int) :=
        (zpow_le_zpow_iff_right₀ (by norm_num : (1 : ℚ) < 2)).mpr (by omega)
      norm_num at this
      linarith
    rcases hE0.eq_or_lt with hE1 | hE1
    · have hu_eq : (2 : ℚ) ^ (E - 52) = 1 / 2 ^ (52 : Nat) := by
        rw [← hE1, zero_sub, zpow_neg, zpow_ofNat, one_div]
      rw [round64_of_ne q h0.ne', ← hE, hu_eq]
      have hu : (0 : ℚ) < 1 / 2 ^ (52 : Nat) := by positivity
      have hc : ((2 ^ 52 + 2 : Int) : ℚ) = (2 : ℚ) ^ (52 : Nat) + 2 := by norm_num
      have hv : ((2 : ℚ) ^ (52 : Nat) + 2) * (1 / 2 ^ (52 : Nat)) = 1 + 1 / 2 ^ 51 := by
        norm_num
      have hk : (((2 ^ 52 + 2 : Int)) : ℚ) ≤ q / (1 / 2 ^ (52 : Nat)) := by
        rw [le_div_iff₀ hu, hc, hv]
        exact hq
      have hr := roundHalfEven_ge _ _ hk
      have hr2 : (2 : ℚ) ^ (52 : Nat) + 2 ≤
          (roundHalfEven (q / (1 / 2 ^ (52 : Nat))) : ℚ) := by
        rw [← hc]
        exact Int.cast_le.mpr hr
      have := mul_le_mul_of_nonneg_right hr2 hu.le
      rw [hv] at this
      have : (0 : ℚ) < 1 / 2 ^ 51 := by positivity
      linarith
    · have : (2 : ℚ) ^ (1 : Int) ≤ 2 ^ E :=
        (zpow_le_zpow_iff_right₀ (by norm_num : (1 : ℚ) < 2)).mpr (by omega)
      norm_num at this
      linarith

end Round64Order
section HullFloat

variable {K : Type} [LinearOrderedField K]

theorem hullPopWith_crossProduct (base : Nat) (p : Point K) :
    ∀ (count : Nat) (hull : List (Point K)),
      hullPopWith crossProduct base p count hull = hullPop base p count hull := by
  intro count
  induction count with
  | zero => intro hull; rfl
  | succ count ih =>
    intro hull
    unfold hullPopWith hullPop
    rw [ih]

theorem GetConvexHullWith_crossProduct (points : List (Point K)) :
    GetConvexHullWith crossProduct points = GetConvexHull points := by
  have h : ∀ base, hullPushWith (K := K) crossProduct base = hullPush base := by
    intro base
    funext hc p
    unfold hullPushWith hullPush
    rw [hullPopWith_crossProduct]
  unfold GetConvexHullWith GetConvexHull
  simp only [h]

/-- Two cross products that agree in the test `< 0` on the points of `S` remove the
same points. -/
theorem hullPopWith_congr (S : Point K → Prop) (hd : S default)
    (c1 c2 : Point K → Point K → Point K → K)
    (hc : ∀ o a b, S o → S a → S b → (c1 o a b < 0 ↔ c2 o a b < 0))
    (base : Nat) (p : Point K) (hp : S p) :
    ∀ (count : Nat) (hull : List (Point K)), (∀ x ∈ hull, S x) →
      hullPopWith c1 base p count hull = hullPopWith c2 base p count hull ∧
      ∀ x ∈ (hullPopWith c1 base p count hull).1, S x := by
  intro count
  induction count with
  | zero => intro hull hS; exact ⟨rfl, hS⟩
  | succ count ih =>
    intro hull hS
    have hget : ∀ i, S (hull.getD i default) := by
      intro i
      rw [List.getD_eq_getElem?_getD]
      cases hi : hull[i]? with
      | none => exact hd
      | some x => exact hS x (List.getElem?_mem hi)
    have hiff := hc (hull.getD (count + 1 - 2) default) (hull.getD (count + 1 - 1) default) p
      (hget _) (hget _) hp
    have htake : ∀ x ∈ hull.take count, S x := fun x hx => hS x (List.mem_of_mem_take hx)
    unfold hullPopWith
    by_cases h1 : count + 1 > base ∧
        c1 (hull.getD (count + 1 - 2) default) (hull.getD (count + 1 - 1) default) p < 0
    · have h2 : count + 1 > base ∧
          c2 (hull.getD (count + 1 - 2) default) (hull.getD (count + 1 - 1) default) p < 0 :=
        ⟨h1.1, hiff.mp h1.2⟩
      rw [if_pos h1, if_pos h2]
      exact ih _ htake
    · have h2 : ¬ (count + 1 > base ∧
          c2 (hull.getD (count + 1 - 2) default) (hull.getD (count + 1 - 1) default) p < 0) :=
        fun h => h1 ⟨h.1, hiff.mpr h.2⟩
      rw [if_neg h1, if_neg h2]
      exact ⟨rfl, hS⟩

theorem hullPushWith_foldl_congr (S : Point K → Prop) (hd : S default)
    (c1 c2 : Point K → Point K → Point K → K)
    (hc : ∀ o a b, S o → S a → S b → (c1 o a b < 0 ↔ c2 o a b < 0)) (base : Nat) :
    ∀ (l : List (Point K)) (init : List (Point K) × Nat), (∀ x ∈ l, S x) →
      (∀ x ∈ init.1, S x) →
      l.foldl (hullPushWith c1 base) init = l.foldl (hullPushWith c2 base) init ∧
      ∀ x ∈ (l.foldl (hullPushWith c1 base) init).1, S x := by
  intro l
  induction l with
  | nil => intro init _ hi; exact ⟨rfl, hi⟩
  | cons p l ih =>
    intro init hl hi
    have hp : S p := hl p (List.mem_cons_self _ _)
    obtain ⟨e, hS⟩ := hullPopWith_congr S hd c1 c2 hc base p hp init.2 init.1 hi
    have hstep : hullPushWith c1 base init p = hullPushWith c2 base init p := by
      unfold hullPushWith
      rw [e]
    have hS2 : ∀ x ∈ (hullPushWith c1 base init p).1, S x := by
      intro x hx
      unfold hullPushWith at hx
      simp only [List.mem_append, List.mem_singleton] at hx
      rcases hx with hx | rfl
      · exact hS x hx
      · exact hp
    rw [List.foldl_cons, List.foldl_cons, ← hstep]
    exact ih _ (fun x hx => hl x (List.mem_cons_of_mem _ hx)) hS2

/-- The hull does not depend on the values of `crossProduct`, only on the outcome
of its test `< 0` on the input points. -/
theorem GetConvexHullWith_congr (S : Point K → Prop) (hd : S default)
    (c1 c2 : Point K → Point K → Point K → K)
    (hc : ∀ o a b, S o → S a → S b → (c1 o a b < 0 ↔ c2 o a b < 0))
    (points : List (Point K)) (hp : ∀ x ∈ points, S x) :
    GetConvexHullWith c1 points = GetConvexHullWith c2 points := by
  unfold GetConvexHullWith
  split_ifs with h0
  · rfl
  · have hs : ∀ x ∈ points.insertionSort hullLE, S x := fun x hx =>
      hp x ((List.perm_insertionSort hullLE points).mem_iff.mp hx)
    have h0S : S ((points.insertionSort hullLE).getD 0 default) := by
      rw [List.getD_eq_getElem?_getD]
      cases hi : (points.insertionSort hullLE)[0]? with
      | none => exact hd
      | some x => exact hs x (List.getElem?_mem hi)
    obtain ⟨e1, hS1⟩ := hullPushWith_foldl_congr S hd c1 c2 hc 1
      (points.insertionSort hullLE).tail ([(points.insertionSort hullLE).getD 0 default], 1)
      (fun x hx => hs x (List.mem_of_mem_tail hx))
      (by intro x hx; simp only [List.mem_singleton] at hx; rw [hx]; exact h0S)
    obtain ⟨e2, _⟩ := hullPushWith_foldl_congr S hd c1 c2 hc
      ((points.insertionSort hullLE).tail.foldl (hullPushWith c1 1)
        ([(points.insertionSort hullLE).getD 0 default], 1)).2
      (points.insertionSort hullLE).dropLast.reverse
      ((points.insertionSort hullLE).tail.foldl (hullPushWith c1 1)
        ([(points.insertionSort hullLE).getD 0 default], 1))
      (fun x hx => hs x (List.mem_of_mem_dropLast (List.mem_reverse.mp hx))) hS1
    simp only [← e1, e2]

end HullFloat
section HullFloatClaims

theorem round64_sub_int (x y : Int) (h : |x - y| < 2 ^ 53) :
    round64 ((x : ℚ) - y) = (x : ℚ) - y := by
  have := round64_intCast (x - y) h
  push_cast at this
  exact this

theorem round64_mul_int (x y : Int) (h : |x * y| < 2 ^ 53) :
    round64 ((x : ℚ) * y) = (x : ℚ) * y := by
  have := round64_intCast (x * y) h
  push_cast at this
  exact this

theorem isGrid_default : (default : Point ℚ).IsGrid :=
  ⟨0, 0, by norm_num, by norm_num, by simp [default]⟩

/-- On points with integer coordinates up to `2^24` every operation of
`crossProduct` is exact in `float64`: the differences are at most `2^25`, the
products at most `2^50` and their difference at most `2^51` in magnitude. -/
theorem crossProduct64_grid (o a b : Point ℚ) (ho : o.IsGrid) (ha : a.IsGrid)
    (hb : b.IsGrid) : crossProduct64 o a b = crossProduct o a b := by
  obtain ⟨ox, oy, hox, hoy, rfl⟩ := ho
  obtain ⟨ax, ay, hax, hay, rfl⟩ := ha
  obtain ⟨x3, y3, hx3, hby, rfl⟩ := hb
  have d1 : |ax - ox| ≤ 2 ^ 25 := le_trans (abs_sub _ _) (by linarith)
  have d2 : |ay - oy| ≤ 2 ^ 25 := le_trans (abs_sub _ _) (by linarith)
  have d3 : |x3 - ox| ≤ 2 ^ 25 := le_trans (abs_sub _ _) (by linarith)
  have d4 : |y3 - oy| ≤ 2 ^ 25 := le_trans (abs_sub _ _) (by linarith)
  have m1 : |(ax - ox) * (y3 - oy)| ≤ 2 ^ 50 := by
    rw [abs_mul]
    calc |ax - ox| * |y3 - oy| ≤ 2 ^ 25 * 2 ^ 25 :=
          mul_le_mul d1 d4 (abs_nonneg _) (by norm_num)
      _ = 2 ^ 50 := by norm_num
  have m2 : |(ay - oy) * (x3 - ox)| ≤ 2 ^ 50 := by
    rw [abs_mul]
    calc |ay - oy| * |x3 - ox| ≤ 2 ^ 25 * 2 ^ 25 :=
          mul_le_mul d2 d3 (abs_nonneg _) (by norm_num)
      _ = 2 ^ 50 := by norm_num
  have s1 : |(ax - ox) * (y3 - oy) - (ay - oy) * (x3 - ox)| < 2 ^ 53 :=
    lt_of_le_of_lt (abs_sub _ _) (by linarith)
  simp only [crossProduct64, crossProduct, Point.Sub64, Point.Cross64, Point.Sub, Point.Cross]
  rw [round64_sub_int ax ox (by linarith), round64_sub_int ay oy (by linarith),
    round64_sub_int x3 ox (by linarith), round64_sub_int y3 oy (by linarith)]
  have e1 := round64_mul_int (ax - ox) (y3 - oy) (by linarith)
  have e2 := round64_mul_int (ay - oy) (x3 - ox) (by linarith)
  push_cast at e1 e2
  rw [e1, e2]
  have e3 := round64_intCast ((ax - ox) * (y3 - oy) - (ay - oy) * (x3 - ox)) s1
  push_cast at e3
  exact e3

/-- On points with integer coordinates up to `2^24` the hull computed in `float64`
is the hull computed with exact numbers. -/
theorem GetConvexHull64_grid (points : List (Point ℚ)) (hgrid : ∀ p ∈ points, p.IsGrid) :
    GetConvexHull64 points = GetConvexHull points := by
  unfold GetConvexHull64
  rw [GetConvexHullWith_congr Point.IsGrid isGrid_default crossProduct64 crossProduct
    (fun o a b ho ha hb => by rw [crossProduct64_grid o a b ho ha hb]) points hgrid,
    GetConvexHullWith_crossProduct]

/-- C25, counterexample: the six points `(1, 0)`, `(0.5, 0.4)`, `(0.5, 1.1)`,
`(0.8, 0.1)`, `(1.1, 0.5)`, `(0, 0.5)`, each decimal standing for the `float64`
nearest to it. The cross product of `(0, 0.5)`, `(0.8, 0.1)`, `(1, 0)` is negative,
but computed in `float64` it is `0`, so `(0.8, 0.1)` is not removed: the returned
polygon has five vertices, and the cross product of its first two edges is negative
while that of the next two is positive. -/
theorem GetConvexHull64_counterexample :
    crossProduct64 ⟨0, 1 / 2⟩ ⟨3602879701896397 / 2 ^ 52, 3602879701896397 / 2 ^ 55⟩ ⟨1, 0⟩ = 0 ∧
    GetConvexHull64 [⟨1, 0⟩, ⟨1 / 2, 3602879701896397 / 2 ^ 53⟩,
        ⟨1 / 2, 2476979795053773 / 2 ^ 51⟩,
        ⟨3602879701896397 / 2 ^ 52, 3602879701896397 / 2 ^ 55⟩,
        ⟨2476979795053773 / 2 ^ 51, 1 / 2⟩, ⟨0, 1 / 2⟩] =
      [⟨0, 1 / 2⟩, ⟨3602879701896397 / 2 ^ 52, 3602879701896397 / 2 ^ 55⟩, ⟨1, 0⟩,
        ⟨2476979795053773 / 2 ^ 51, 1 / 2⟩, ⟨1 / 2, 2476979795053773 / 2 ^ 51⟩] ∧
    (((⟨3602879701896397 / 2 ^ 52, 3602879701896397 / 2 ^ 55⟩ : Point ℚ).Sub
        ⟨0, 1 / 2⟩).Cross
      ((⟨1, 0⟩ : Point ℚ).Sub ⟨3602879701896397 / 2 ^ 52, 3602879701896397 / 2 ^ 55⟩)) < 0 ∧
    0 < (((⟨1, 0⟩ : Point ℚ).Sub
        ⟨3602879701896397 / 2 ^ 52, 3602879701896397 / 2 ^ 55⟩).Cross
      ((⟨2476979795053773 / 2 ^ 51, 1 / 2⟩ : Point ℚ).Sub ⟨1, 0⟩)) := by
  refine ⟨by decide!, by decide!, ?_, ?_⟩
  · norm_num [Point.Sub, Point.Cross]
  · norm_num [Point.Sub, Point.Cross]

/-- C25, amended: for every list of points with integer coordinates of magnitude at
most `2^24` the polygon that `GetConvexHull` returns, computed in `float64`, is
convex: around the closed polygon, wrap-around included, the cross product of each
edge with the next one is non-negative, so no two of them have opposite strict
signs. -/
theorem GetConvexHull64_convex (points : List (Point ℚ)) (hgrid : ∀ p ∈ points, p.IsGrid)
    (i : Nat) (hi : i < (GetConvexHull64 points).length) :
    0 ≤ (((GetConvexHull64 points).getD ((i + 1) % (GetConvexHull64 points).length)
            default).Sub
          ((GetConvexHull64 points).getD i default)).Cross
        (((GetConvexHull64 points).getD ((i + 2) % (GetConvexHull64 points).length)
            default).Sub
          ((GetConvexHull64 points).getD ((i + 1) % (GetConvexHull64 points).length)
            default)) := by
  rw [GetConvexHull64_grid points hgrid] at hi ⊢
  exact GetConvexHull_exact_convex points i hi

theorem GetConvexHull64_convex_witness :
    (∀ p ∈ ([⟨0, 0⟩, ⟨1, 0⟩, ⟨0, 1⟩] : List (Point ℚ)), p.IsGrid) ∧
    GetConvexHull64 [⟨0, 0⟩, ⟨1, 0⟩, ⟨0, 1⟩] = [⟨0, 0⟩, ⟨1, 0⟩, ⟨0, 1⟩] ∧
    0 ≤ (((GetConvexHull64 [⟨0, 0⟩, ⟨1, 0⟩, ⟨0, 1⟩]).getD
            ((0 + 1) % (GetConvexHull64 [⟨0, 0⟩, ⟨1, 0⟩, ⟨0, 1⟩]).length) default).Sub
          ((GetConvexHull64 [⟨0, 0⟩, ⟨1, 0⟩, ⟨0, 1⟩]).getD 0 default)).Cross
        (((GetConvexHull64 [⟨0, 0⟩, ⟨1, 0⟩, ⟨0, 1⟩]).getD
            ((0 + 2) % (GetConvexHull64 [⟨0, 0⟩, ⟨1, 0⟩, ⟨0, 1⟩]).length) default).Sub
          ((GetConvexHull64 [⟨0, 0⟩, ⟨1, 0⟩, ⟨0, 1⟩]).getD
            ((0 + 1) % (GetConvexHull64 [⟨0, 0⟩, ⟨1, 0⟩, ⟨0, 1⟩]).length) default)) := by
  have hg : ∀ p ∈ ([⟨0, 0⟩, ⟨1, 0⟩, ⟨0, 1⟩] : List (Point ℚ)), p.IsGrid := by
    intro p hp
    simp only [List.mem_cons, List.mem_singleton, List.mem_nil_iff, or_false] at hp
    rcases hp with rfl | rfl | rfl
    · exact ⟨0, 0, by norm_num, by norm_num, by simp⟩
    · exact ⟨1, 0, by norm_num, by norm_num, by simp⟩
    · exact ⟨0, 1, by norm_num, by norm_num, by simp⟩
  have he : GetConvexHull64 [⟨0, 0⟩, ⟨1, 0⟩, ⟨0, 1⟩] = [⟨0, 0⟩, ⟨1, 0⟩, ⟨0, 1⟩] := by decide!
  exact ⟨hg, he, GetConvexHull64_convex _ hg 0 (by rw [he]; decide)⟩

end HullFloatClaims
section IntersectionFloatClaims

/-- The difference of two products of whole numbers up to `2^25` is computed without
rounding: the products are at most `2^50`, their difference at most `2^51`. -/
theorem round64_det_int (p q r s : Int) (hp : |p| ≤ 2 ^ 25) (hq : |q| ≤ 2 ^ 25)
    (hr : |r| ≤ 2 ^ 25) (hs : |s| ≤ 2 ^ 25) :
    round64 (round64 ((p : ℚ) * q) - round64 ((r : ℚ) * s)) = ((p * q - r * s : Int) : ℚ) ∧
    |p * q - r * s| ≤ 2 ^ 51 := by
  have m1 : |p * q| ≤ 2 ^ 50 := by
    rw [abs_mul]
    calc |p| * |q| ≤ 2 ^ 25 * 2 ^ 25 := mul_le_mul hp hq (abs_nonneg _) (by norm_num)
      _ = 2 ^ 50 := by norm_num
  have m2 : |r * s| ≤ 2 ^ 50 := by
    rw [abs_mul]
    calc |r| * |s| ≤ 2 ^ 25 * 2 ^ 25 := mul_le_mul hr hs (abs_nonneg _) (by norm_num)
      _ = 2 ^ 50 := by norm_num
  have s1 : |p * q - r * s| ≤ 2 ^ 51 := le_trans (abs_sub _ _) (by linarith)
  refine ⟨?_, s1⟩
  rw [round64_mul_int p q (by linarith), round64_mul_int r s (by linarith)]
  have e3 := round64_intCast (p * q - r * s) (by linarith)
  push_cast at e3 ⊢
  exact e3

/-- The parameters that `Intersection` computes are those of a common point. -/
theorem Segment.meets_of_params {K : Type} [LinearOrderedField K] (a b : Segment K)
    (hden : a.Vector.Y * b.Vector.X - a.Vector.X * b.Vector.Y ≠ 0)
    (h1 : 0 ≤ (a.Vector.X * (b.Start.Sub a.Start).Y - a.Vector.Y * (b.Start.Sub a.Start).X) /
      (a.Vector.Y * b.Vector.X - a.Vector.X * b.Vector.Y))
    (h2 : (a.Vector.X * (b.Start.Sub a.Start).Y - a.Vector.Y * (b.Start.Sub a.Start).X) /
      (a.Vector.Y * b.Vector.X - a.Vector.X * b.Vector.Y) ≤ 1)
    (h3 : 0 ≤ (b.Vector.X * (b.Start.Sub a.Start).Y - b.Vector.Y * (b.Start.Sub a.Start).X) /
      (a.Vector.Y * b.Vector.X - a.Vector.X * b.Vector.Y))
    (h4 : (b.Vector.X * (b.Start.Sub a.Start).Y - b.Vector.Y * (b.Start.Sub a.Start).X) /
      (a.Vector.Y * b.Vector.X - a.Vector.X * b.Vector.Y) ≤ 1) :
    a.Meets b := by
  refine ⟨_, _, h3, h4, h1, h2, ?_⟩
  cases a with
  | mk a0 a1 =>
    cases b with
    | mk b0 b1 =>
      cases a0; cases a1; cases b0; cases b1
      simp only [Segment.pointAt, Segment.Vector, Point.Add, Point.Sub, Point.Scale,
        Point.mk.injEq] at hden ⊢
      constructor <;> field_simp <;> ring

/-- A quotient of whole numbers with a denominator up to `2^51` that exceeds `1`
exceeds it by at least `2^-51`. -/
theorem int_div_gap (u d : Int) (hd : |d| ≤ 2 ^ 51) (h : 1 < (u : ℚ) / d) :
    1 + 1 / 2 ^ 51 ≤ (u : ℚ) / d := by
  have hd0 : (d : ℚ) ≠ 0 := by
    intro h0
    rw [h0, div_zero] at h
    linarith
  have hdq : |(d : ℚ)| ≤ 2 ^ 51 := by
    have : ((|d| : Int) : ℚ) ≤ ((2 ^ 51 : Int) : ℚ) := Int.cast_le.mpr hd
    rw [Int.cast_abs] at this
    have e : ((2 ^ 51 : Int) : ℚ) = 2 ^ 51 := by norm_num
    rw [e] at this
    exact this
  rcases lt_or_gt_of_ne hd0 with hneg | hpos
  · have hlt : (u : ℚ) < d := by
      rw [lt_div_iff_of_neg hneg] at h
      linarith
    have hui : u < d := by exact_mod_cast hlt
    have hle : (u : ℚ) ≤ d - 1 := by
      have : u ≤ d - 1 := by omega
      exact_mod_cast this
    rw [abs_of_neg hneg] at hdq
    rw [le_div_iff_of_neg hneg]
    have : (1 / 2 ^ 51 : ℚ) * d ≥ -1 := by
      have : (1 / 2 ^ 51 : ℚ) * (-d) ≤ 1 := by
        rw [one_div, inv_mul_le_iff₀ (by positivity)]
        linarith
      linarith
    linarith
  · have hlt : (d : ℚ) < u := by
      rw [lt_div_iff₀ hpos] at h
      linarith
    have hui : d < u := by exact_mod_cast hlt
    have hle : (d : ℚ) + 1 ≤ u := by
      have : d + 1 ≤ u := by omega
      exact_mod_cast this
    rw [abs_of_pos hpos] at hdq
    rw [le_div_iff₀ hpos]
    have : (1 / 2 ^ 51 : ℚ) * d ≤ 1 := by
      rw [one_div, inv_mul_le_iff₀ (by positivity)]
      linarith
    linarith

/-- The four range tests of `Intersection` on a quotient of whole numbers decide in
`float64` as on the exact quotient. -/
theorem round64_range_int (u d : Int) (hd : |d| ≤ 2 ^ 51) :
    (round64 ((u : ℚ) / d) < 0 ↔ (u : ℚ) / d < 0) ∧
    (round64 ((u : ℚ) / d) > 1 ↔ (u : ℚ) / d > 1) :=
  ⟨round64_neg_iff _, round64_gt_one_iff _ (int_div_gap u d hd)⟩

end IntersectionFloatClaims
section IntersectionFloatMain

theorem round64_sub_cast (x y : Int) (hx : |x| ≤ 2 ^ 24) (hy : |y| ≤ 2 ^ 24) :
    round64 ((x : ℚ) - y) = ((x - y : Int) : ℚ) ∧ |x - y| ≤ 2 ^ 25 := by
  have h : |x - y| ≤ 2 ^ 25 := le_trans (abs_sub _ _) (by linarith)
  refine ⟨?_, h⟩
  rw [round64_sub_int x y (by linarith)]
  push_cast
  rfl

/-- On segments with integer coordinates up to `2^24`, `Intersection` computed in
`float64` returns `nil` when the segments have no point in common and are not in the
`collinear` branch. -/
theorem Segment.Intersection64_none_of_int (sqrt : ℚ → ℚ) (x1 y1 x2 y2 x3 y3 x4 y4 : Int)
    (hx1 : |x1| ≤ 2 ^ 24) (hy1 : |y1| ≤ 2 ^ 24) (hx2 : |x2| ≤ 2 ^ 24) (hy2 : |y2| ≤ 2 ^ 24)
    (hx3 : |x3| ≤ 2 ^ 24) (hy3 : |y3| ≤ 2 ^ 24) (hx4 : |x4| ≤ 2 ^ 24) (hy4 : |y4| ≤ 2 ^ 24)
    (hno : ¬ (⟨⟨x1, y1⟩, ⟨x2, y2⟩⟩ : Segment ℚ).Meets ⟨⟨x3, y3⟩, ⟨x4, y4⟩⟩)
    (hnc : ¬ (⟨⟨x1, y1⟩, ⟨x2, y2⟩⟩ : Segment ℚ).Collinear ⟨⟨x3, y3⟩, ⟨x4, y4⟩⟩) :
    (⟨⟨x1, y1⟩, ⟨x2, y2⟩⟩ : Segment ℚ).Intersection64 sqrt ⟨⟨x3, y3⟩, ⟨x4, y4⟩⟩ = none := by
  obtain ⟨e1, b1⟩ := round64_sub_cast x2 x1 hx2 hx1
  obtain ⟨e2, b2⟩ := round64_sub_cast y2 y1 hy2 hy1
  obtain ⟨e3, b3⟩ := round64_sub_cast x4 x3 hx4 hx3
  obtain ⟨e4, b4⟩ := round64_sub_cast y4 y3 hy4 hy3
  obtain ⟨e5, b5⟩ := round64_sub_cast x3 x1 hx3 hx1
  obtain ⟨e6, b6⟩ := round64_sub_cast y3 y1 hy3 hy1
  obtain ⟨fD, bD⟩ := round64_det_int (y2 - y1) (x4 - x3) (x2 - x1) (y4 - y3) b2 b3 b1 b4
  obtain ⟨fU1, _⟩ := round64_det_int (x2 - x1) (y3 - y1) (y2 - y1) (x3 - x1) b1 b6 b2 b5
  obtain ⟨fU2, _⟩ := round64_det_int (x4 - x3) (y3 - y1) (y4 - y3) (x3 - x1) b3 b6 b4 b5
  simp only [Segment.Intersection64, Segment.Vector64, Point.Sub64, e1, e2, e3, e4, e5, e6,
    fD, fU1, fU2]
  simp only [Segment.Collinear, Segment.Vector, Point.Sub] at hnc
  split_ifs with h1 h2 h3
  · exfalso
    apply hnc
    push_cast at h1 h2
    exact ⟨h1, h2.1, h2.2⟩
  · rfl
  · rfl
  · exfalso
    obtain ⟨r1, r2⟩ := round64_range_int ((x2 - x1) * (y3 - y1) - (y2 - y1) * (x3 - x1))
      ((y2 - y1) * (x4 - x3) - (x2 - x1) * (y4 - y3)) bD
    obtain ⟨r3, r4⟩ := round64_range_int ((x4 - x3) * (y3 - y1) - (y4 - y3) * (x3 - x1))
      ((y2 - y1) * (x4 - x3) - (x2 - x1) * (y4 - y3)) bD
    rw [r1, r2, r3, r4] at h3
    push_neg at h3
    obtain ⟨g1, g2, g3, g4⟩ := h3
    apply hno
    apply Segment.meets_of_params
    · simp only [Segment.Vector, Point.Sub]
      push_cast at h1
      exact h1
    · simp only [Segment.Vector, Point.Sub]
      push_cast at g1
      exact g1
    · simp only [Segment.Vector, Point.Sub]
      push_cast at g2
      exact g2
    · simp only [Segment.Vector, Point.Sub]
      push_cast at g3
      exact g3
    · simp only [Segment.Vector, Point.Sub]
      push_cast at g4
      exact g4

end IntersectionFloatMain
section IntersectionFloatFinal

theorem Segment.Intersection64_collinear (sqrt : ℚ → ℚ) :
    (⟨⟨0, 0⟩, ⟨1, 0⟩⟩ : Segment ℚ).Intersection64 sqrt ⟨⟨2, 0⟩, ⟨3, 0⟩⟩ = some ⟨0, 0⟩ := by
  simp only [Segment.Intersection64, Segment.Vector64, Point.Sub64]
  rw [if_pos (by decide!), if_pos (by decide!)]

theorem Segment.Intersection64_rounded (sqrt : ℚ → ℚ) :
    (⟨⟨5 / 2, 5 / 2⟩, ⟨1 / 2, 3602879701896397 / 2 ^ 55⟩⟩ : Segment ℚ).Intersection64 sqrt
      ⟨⟨3 / 2, 5854679515581645 / 2 ^ 52⟩, ⟨1351079888211149 / 2 ^ 52, 1 / 2⟩⟩ ≠ none := by
  simp only [Segment.Intersection64, Segment.Vector64, Point.Sub64]
  rw [if_neg (by decide!), if_neg (by decide!)]
  simp

/-- C13, counterexample: the segments `(0,0)-(1,0)` and `(2,0)-(3,0)` lie on one line
and have no point in common, yet `Intersection` returns the start `(0,0)` of the
first one, not `nil`. And the segments `(2.5,2.5)-(0.5,0.1)` and
`(1.5,1.3)-(0.30000000000000004,0.5)` (each decimal standing for the `float64`
nearest to it) have no point in common and are not on one line, yet `u1` is rounded
to `0` and `Intersection` returns a point. -/
theorem Segment.Intersection_counterexample :
    (¬ (⟨⟨0, 0⟩, ⟨1, 0⟩⟩ : Segment ℚ).Meets ⟨⟨2, 0⟩, ⟨3, 0⟩⟩ ∧
      ∀ sqrt, (⟨⟨0, 0⟩, ⟨1, 0⟩⟩ : Segment ℚ).Intersection64 sqrt ⟨⟨2, 0⟩, ⟨3, 0⟩⟩ =
        some ⟨0, 0⟩) ∧
    (¬ (⟨⟨5 / 2, 5 / 2⟩, ⟨1 / 2, 3602879701896397 / 2 ^ 55⟩⟩ : Segment ℚ).Meets
        ⟨⟨3 / 2, 5854679515581645 / 2 ^ 52⟩, ⟨1351079888211149 / 2 ^ 52, 1 / 2⟩⟩ ∧
      ¬ (⟨⟨5 / 2, 5 / 2⟩, ⟨1 / 2, 3602879701896397 / 2 ^ 55⟩⟩ : Segment ℚ).Collinear
        ⟨⟨3 / 2, 5854679515581645 / 2 ^ 52⟩, ⟨1351079888211149 / 2 ^ 52, 1 / 2⟩⟩ ∧
      ∀ sqrt, (⟨⟨5 / 2, 5 / 2⟩, ⟨1 / 2, 3602879701896397 / 2 ^ 55⟩⟩ :
          Segment ℚ).Intersection64 sqrt
        ⟨⟨3 / 2, 5854679515581645 / 2 ^ 52⟩, ⟨1351079888211149 / 2 ^ 52, 1 / 2⟩⟩ ≠ none) := by
  refine ⟨⟨?_, Segment.Intersection64_collinear⟩, ?_, ?_, Segment.Intersection64_rounded⟩
  · rintro ⟨t, u, _, ht1, hu0, _, he⟩
    have hx := congrArg Point.X he
    simp only [Segment.pointAt, Segment.Vector, Point.Add, Point.Sub, Point.Scale] at hx
    nlinarith
  · rintro ⟨t, u, ht0, ht1, hu0, hu1, he⟩
    have hx := congrArg Point.X he
    have hy := congrArg Point.Y he
    simp only [Segment.pointAt, Segment.Vector, Point.Add, Point.Sub, Point.Scale] at hx hy
    norm_num at hx hy
    linarith
  · rintro ⟨h, _, _⟩
    norm_num [Segment.Vector, Point.Sub] at h

/-- C13, amended: for all segments `A` and `B` whose end points have integer
coordinates of magnitude at most `2^24`, that have no point in common and do not take
the `collinear` branch (direction vectors and the vector between the start points
pairwise parallel), `A.Intersection(B)`, computed in `float64`, returns `nil`. -/
theorem Segment.Intersection_none (sqrt : ℚ → ℚ) (a b : Segment ℚ)
    (hgrid : a.Start.IsGrid ∧ a.End.IsGrid ∧ b.Start.IsGrid ∧ b.End.IsGrid)
    (hno : ¬ a.Meets b) (hnc : ¬ a.Collinear b) : a.Intersection64 sqrt b = none := by
  obtain ⟨⟨x1, y1, hx1, hy1, ha0⟩, ⟨x2, y2, hx2, hy2, ha1⟩, ⟨x3, y3, hx3, hy3, hb0⟩,
    ⟨x4, y4, hx4, hy4, hb1⟩⟩ := hgrid
  cases a with
  | mk a0 a1 =>
    cases b with
    | mk b0 b1 =>
      simp only at ha0 ha1 hb0 hb1
      subst ha0 ha1 hb0 hb1
      exact Segment.Intersection64_none_of_int sqrt x1 y1 x2 y2 x3 y3 x4 y4 hx1 hy1 hx2 hy2
        hx3 hy3 hx4 hy4 hno hnc

theorem Segment.Intersection_none_witness :
    ((⟨0, 0⟩ : Point ℚ).IsGrid ∧ (⟨1, 0⟩ : Point ℚ).IsGrid ∧ (⟨0, 1⟩ : Point ℚ).IsGrid ∧
      (⟨1, 1⟩ : Point ℚ).IsGrid) ∧
    ¬ (⟨⟨0, 0⟩, ⟨1, 0⟩⟩ : Segment ℚ).Meets ⟨⟨0, 1⟩, ⟨1, 1⟩⟩ ∧
    ¬ (⟨⟨0, 0⟩, ⟨1, 0⟩⟩ : Segment ℚ).Collinear ⟨⟨0, 1⟩, ⟨1, 1⟩⟩ ∧
    (⟨⟨0, 0⟩, ⟨1, 0⟩⟩ : Segment ℚ).Intersection64 id ⟨⟨0, 1⟩, ⟨1, 1⟩⟩ = none :=
  have hno : ¬ (⟨⟨0, 0⟩, ⟨1, 0⟩⟩ : Segment ℚ).Meets ⟨⟨0, 1⟩, ⟨1, 1⟩⟩ := by
    rintro ⟨t, u, _, _, _, _, he⟩
    have hy := congrArg Point.Y he
    simp [Segment.pointAt, Segment.Vector, Point.Add, Point.Sub, Point.Scale] at hy
  have hnc : ¬ (⟨⟨0, 0⟩, ⟨1, 0⟩⟩ : Segment ℚ).Collinear ⟨⟨0, 1⟩, ⟨1, 1⟩⟩ := by
    rintro ⟨_, h2, _⟩
    norm_num [Segment.Vector, Point.Sub] at h2
  have hgrid : (⟨0, 0⟩ : Point ℚ).IsGrid ∧ (⟨1, 0⟩ : Point ℚ).IsGrid ∧
      (⟨0, 1⟩ : Point ℚ).IsGrid ∧ (⟨1, 1⟩ : Point ℚ).IsGrid :=
    ⟨⟨0, 0, by norm_num, by norm_num, by norm_num⟩,
      ⟨1, 0, by norm_num, by norm_num, by norm_num⟩,
      ⟨0, 1, by norm_num, by norm_num, by norm_num⟩,
      ⟨1, 1, by norm_num, by norm_num, by norm_num⟩⟩
  ⟨hgrid, hno, hnc, Segment.Intersection_none id _ _ hgrid hno hnc⟩

end IntersectionFloatFinal
section RoadSegmentsFloatLemmas

theorem round64_natCast (n : Nat) (h : n < 2 ^ 53) : round64 (n : ℚ) = n := by
  have := round64_intCast (n : Int) (by
    rw [abs_of_nonneg (Int.natCast_nonneg _)]
    exact_mod_cast h)
  rwa [Int.cast_natCast] at this

theorem round64_nat_add (x y : Nat) (h : x + y < 2 ^ 53) :
    round64 ((x : ℚ) + y) = ((x + y : Nat) : ℚ) := by
  rw [← Nat.cast_add]
  exact round64_natCast _ h

theorem round64_nat_sub (x y : Nat) (hx : x < 2 ^ 53) (hy : y < 2 ^ 53) :
    round64 ((x : ℚ) - y) = (x : ℚ) - y := by
  have := round64_intCast ((x : Int) - y) (by
    rw [abs_lt]
    constructor <;> omega)
  push_cast at this
  exact this

theorem edgeLengthSum64_cons (sqrt : ℚ → ℚ) (graph : Graph ℚ) (e : Nat) (edges : List Nat) :
    edgeLengthSum64 sqrt graph (e :: edges) =
      (Edge.Segment graph e).Length64 sqrt + edgeLengthSum64 sqrt graph edges := by
  simp [edgeLengthSum64]

theorem edgeLengthSum64_nil (sqrt : ℚ → ℚ) (graph : Graph ℚ) :
    edgeLengthSum64 sqrt graph [] = 0 := rfl

/-- The sum of whole lengths up to `2^26` is a whole number up to `2^26` times the
number of edges. -/
theorem edgeLengthSum64_whole (sqrt : ℚ → ℚ) (graph : Graph ℚ) (edges : List Nat)
    (hw : ∀ e ∈ edges, ∃ l : Nat, l ≤ 2 ^ 26 ∧ (Edge.Segment graph e).Length64 sqrt = (l : ℚ)) :
    ∃ s : Nat, s ≤ edges.length * 2 ^ 26 ∧ edgeLengthSum64 sqrt graph edges = (s : ℚ) := by
  induction edges with
  | nil => exact ⟨0, by simp, by simp [edgeLengthSum64]⟩
  | cons e rest ih =>
    obtain ⟨l, hl, he⟩ := hw e (List.mem_cons_self _ _)
    obtain ⟨s, hs, hsum⟩ := ih (fun x hx => hw x (List.mem_cons_of_mem _ hx))
    refine ⟨l + s, ?_, ?_⟩
    · simp only [List.length_cons]
      rw [Nat.add_mul]
      omega
    · rw [edgeLengthSum64_cons, he, hsum]
      push_cast
      rfl

theorem edgeLengthSum64_take_le (sqrt : ℚ → ℚ) (graph : Graph ℚ) (edges : List Nat)
    (hw : ∀ e ∈ edges, ∃ l : Nat, l ≤ 2 ^ 26 ∧ (Edge.Segment graph e).Length64 sqrt = (l : ℚ))
    (k : Nat) :
    edgeLengthSum64 sqrt graph (edges.take k) ≤ edgeLengthSum64 sqrt graph edges := by
  have h : edgeLengthSum64 sqrt graph edges =
      edgeLengthSum64 sqrt graph (edges.take k) + edgeLengthSum64 sqrt graph (edges.drop k) := by
    unfold edgeLengthSum64
    rw [← List.sum_append, ← List.map_append, List.take_append_drop]
  obtain ⟨s, -, hs⟩ := edgeLengthSum64_whole sqrt graph (edges.drop k)
    (fun e he => hw e (List.mem_of_mem_drop he))
  rw [h, hs]
  have : (0 : ℚ) ≤ (s : ℚ) := Nat.cast_nonneg _
  linarith

theorem edgeLengthSum64_take_succ (sqrt : ℚ → ℚ) (graph : Graph ℚ) (edges : List Nat) (k : Nat)
    (hk : k < edges.length) :
    edgeLengthSum64 sqrt graph (edges.take (k + 1)) =
      edgeLengthSum64 sqrt graph (edges.take k) + (Edge.Segment graph edges[k]).Length64 sqrt := by
  unfold edgeLengthSum64
  rw [List.take_succ, List.getElem?_eq_getElem hk]
  simp only [Option.toList_some, List.map_append, List.sum_append, List.map_cons, List.map_nil,
    List.sum_cons, List.sum_nil, add_zero]

/-- The loop of `NewRoadSegment` appends one distance for every edge. -/
theorem newRoadSegmentLoop64_length (sqrt : ℚ → ℚ) (graph : Graph ℚ) :
    ∀ (rest : List Nat) (cur : Option Nat) (ds r : List ℚ),
      newRoadSegmentLoop64 sqrt graph rest cur ds = some r →
      r.length = ds.length + rest.length := by
  intro rest
  induction rest with
  | nil =>
    intro cur ds r h
    simp only [newRoadSegmentLoop64, Option.some.injEq] at h
    simp [h]
  | cons e rest ih =>
    intro cur ds r h
    cases cur with
    | none =>
      simp only [newRoadSegmentLoop64] at h
      have := ih _ _ _ h
      simp only [List.length_append, List.length_singleton, List.length_cons, List.length_nil] at this ⊢
      omega
    | some c =>
      simp only [newRoadSegmentLoop64] at h
      split_ifs at h
      have := ih _ _ _ h
      simp only [List.length_append, List.length_singleton, List.length_cons, List.length_nil] at this ⊢
      omega

theorem NewRoadSegment64_spec (sqrt : ℚ → ℚ) (graph : Graph ℚ) (edges : List Nat)
    (rs : RoadSegment ℚ) (h : NewRoadSegment64 sqrt graph edges = some rs) :
    rs.Edges = edges ∧ rs.EdgeDistances.length = edges.length + 1 ∧
      newRoadSegmentLoop64 sqrt graph edges none [0] = some rs.EdgeDistances := by
  unfold NewRoadSegment64 at h
  split at h
  · simp at h
  · rename_i ds hds
    simp only [Option.some.injEq] at h
    subst h
    have := newRoadSegmentLoop64_length sqrt graph edges none [0] ds hds
    refine ⟨rfl, ?_, hds⟩
    show ds.length = edges.length + 1
    simp only [List.length_singleton, List.length_cons, List.length_nil] at this
    omega

/-- The index that the loop of `DistanceToIndex` returns is `last` or the index of
one of the edges. -/
theorem distanceToIndexLoop64_range (sqrt : ℚ → ℚ) (graph : Graph ℚ) (last : Int) :
    ∀ (rest : List Nat) (i : Nat) (t : ℚ),
      distanceToIndexLoop64 sqrt graph last rest i t = last ∨
      ∃ k : Nat, i ≤ k ∧ k < i + rest.length ∧
        distanceToIndexLoop64 sqrt graph last rest i t = (k : Int) := by
  intro rest
  induction rest with
  | nil => intro i t; left; rfl
  | cons e rest ih =>
    intro i t
    simp only [distanceToIndexLoop64]
    split_ifs with h
    · right
      exact ⟨i, le_rfl, by simp, rfl⟩
    · rcases ih (i + 1) (round64 (t - (Edge.Segment graph e).Length64 sqrt)) with h1 | ⟨k, h1, h2, h3⟩
      · left; exact h1
      · right
        refine ⟨k, by omega, ?_, h3⟩
        simp only [List.length_cons]
        omega

/-- On every input `PosAtFactor` returns a position on an edge of the road segment
that is at most the length of the edge: the position is `t` minus the stored distance
of the edge, rounded, and clamped from above. -/
theorem PosAtFactor64_some (sqrt : ℚ → ℚ) (graph : Graph ℚ) (edges : List Nat)
    (hne : edges ≠ []) (rs : RoadSegment ℚ)
    (h : NewRoadSegment64 sqrt graph edges = some rs) (n : Nat) (t : ℚ) :
    ∃ (k : Nat) (hk : k < edges.length) (d : ℚ),
      distanceToIndexLoop64 sqrt graph ((edges.length : Int) - 1) edges 0 t = (k : Int) ∧
      rs.EdgeDistances[k]? = some d ∧
      ({ rs with ID := n } : RoadSegment ℚ).PosAtFactor64 sqrt graph t =
        some ⟨edges[k],
          if round64 (t - d) > (Edge.Segment graph edges[k]).Length64 sqrt
          then (Edge.Segment graph edges[k]).Length64 sqrt else round64 (t - d)⟩ := by
  obtain ⟨hE, hL, -⟩ := NewRoadSegment64_spec sqrt graph edges rs h
  have hlen : 0 < edges.length := List.length_pos.mpr hne
  obtain ⟨k, hk, hidx⟩ : ∃ k : Nat, k < edges.length ∧
      distanceToIndexLoop64 sqrt graph ((edges.length : Int) - 1) edges 0 t = (k : Int) := by
    rcases distanceToIndexLoop64_range sqrt graph ((edges.length : Int) - 1) edges 0 t with
      h1 | ⟨k, -, h2, h3⟩
    · exact ⟨edges.length - 1, by omega, by rw [h1]; omega⟩
    · exact ⟨k, by omega, h3⟩
  have hkd : k < rs.EdgeDistances.length := by omega
  refine ⟨k, hk, rs.EdgeDistances[k], hidx, List.getElem?_eq_getElem hkd, ?_⟩
  unfold RoadSegment.PosAtFactor64 RoadSegment.DistanceToIndex64
  simp only [hE, hidx, Int.toNat_ofNat, List.getElem?_eq_getElem hk,
    List.getElem?_eq_getElem hkd]
  rw [if_neg (by omega)]

end RoadSegmentsFloatLemmas
section RoadSegmentsFloatWhole

/-- With whole edge lengths the additions of `NewRoadSegment` are exact: the stored
distances are the sums of the lengths. -/
theorem newRoadSegmentLoop64_whole (sqrt : ℚ → ℚ) (graph : Graph ℚ) :
    ∀ (rest : List Nat) (cur : Option Nat) (ds : List ℚ) (S : Nat), ds ≠ [] →
      ds.getD (ds.length - 1) 0 = (S : ℚ) → (cur = none → S = 0) →
      S + rest.length * 2 ^ 26 ≤ 2 ^ 52 →
      (∀ e ∈ rest, ∃ l : Nat, l ≤ 2 ^ 26 ∧ (Edge.Segment graph e).Length64 sqrt = (l : ℚ)) →
      ∀ r, newRoadSegmentLoop64 sqrt graph rest cur ds = some r →
        r = ds ++ (List.range rest.length).map
          (fun j => (S : ℚ) + edgeLengthSum64 sqrt graph (rest.take (j + 1))) := by
  intro rest
  induction rest with
  | nil =>
    intro cur ds S _ _ _ _ _ r h
    simp only [newRoadSegmentLoop64, Option.some.injEq] at h
    simp [h]
  | cons e rest ih =>
    intro cur ds S hne hlast hnone hbound hw r h
    obtain ⟨l, hl, he⟩ := hw e (List.mem_cons_self _ _)
    simp only [List.length_cons] at hbound
    have hb2 : S + l + rest.length * 2 ^ 26 ≤ 2 ^ 52 := by
      rw [Nat.add_mul] at hbound
      omega
    have hstep : newRoadSegmentLoop64 sqrt graph rest (some (graph.edge e).Dst)
        (ds ++ [((S + l : Nat) : ℚ)]) = some r := by
      cases cur with
      | none =>
        simp only [newRoadSegmentLoop64] at h
        rw [he] at h
        have h0 := hnone rfl
        subst h0
        simpa using h
      | some c =>
        simp only [newRoadSegmentLoop64] at h
        split_ifs at h
        rw [hlast, he, round64_nat_add S l (by omega)] at h
        exact h
    have hlast2 : (ds ++ [((S + l : Nat) : ℚ)]).getD
        ((ds ++ [((S + l : Nat) : ℚ)]).length - 1) 0 = ((S + l : Nat) : ℚ) := by
      simp
    have hr := ih (some (graph.edge e).Dst) (ds ++ [((S + l : Nat) : ℚ)]) (S + l) (by simp)
      hlast2 (by simp) hb2 (fun x hx => hw x (List.mem_cons_of_mem _ hx)) r hstep
    rw [hr, List.length_cons, List.range_succ_eq_map, List.map_cons, List.map_map,
      List.append_assoc]
    congr 1
    simp only [List.singleton_append, List.cons.injEq]
    constructor
    · simp [edgeLengthSum64, he]
    · apply List.map_congr_left
      intro j _
      simp only [Function.comp, List.take_succ_cons, edgeLengthSum64_cons, he]
      push_cast
      ring

theorem NewRoadSegment64_distance_at (sqrt : ℚ → ℚ) (graph : Graph ℚ) (edges : List Nat)
    (hw : ∀ e ∈ edges, ∃ l : Nat, l ≤ 2 ^ 26 ∧ (Edge.Segment graph e).Length64 sqrt = (l : ℚ))
    (hn : edges.length ≤ 2 ^ 20)
    (rs : RoadSegment ℚ) (h : NewRoadSegment64 sqrt graph edges = some rs) (i : Nat)
    (hi : i ≤ edges.length) :
    rs.EdgeDistances[i]? = some (edgeLengthSum64 sqrt graph (edges.take i)) := by
  obtain ⟨-, -, hloop⟩ := NewRoadSegment64_spec sqrt graph edges rs h
  have hb : 0 + edges.length * 2 ^ 26 ≤ 2 ^ 52 := by
    have : edges.length * 2 ^ 26 ≤ 2 ^ 20 * 2 ^ 26 := Nat.mul_le_mul_right _ hn
    norm_num at this ⊢
    omega
  have hr := newRoadSegmentLoop64_whole sqrt graph edges none [0] 0 (by simp) (by simp)
    (fun _ => rfl) hb hw _ hloop
  rw [hr]
  cases i with
  | zero => simp [edgeLengthSum64]
  | succ j =>
    simp only [List.singleton_append, List.getElem?_cons_succ]
    rw [List.getElem?_map, List.getElem?_range (by omega)]
    simp

/-- With whole edge lengths and a whole `t` the subtractions of `DistanceToIndex` are
exact: the loop returns the first index at which the remaining distance is used up,
or `last` when it never is. -/
theorem distanceToIndexLoop64_spec (sqrt : ℚ → ℚ) (graph : Graph ℚ) (last : Int) :
    ∀ (edges : List Nat) (i : Nat) (T : Nat), T ≤ 2 ^ 52 →
      (∀ e ∈ edges, ∃ l : Nat, l ≤ 2 ^ 26 ∧ (Edge.Segment graph e).Length64 sqrt = (l : ℚ)) →
      (∃ k, k < edges.length ∧
        distanceToIndexLoop64 sqrt graph last edges i (T : ℚ) = ((i + k : Nat) : Int) ∧
        (T : ℚ) - edgeLengthSum64 sqrt graph (edges.take (k + 1)) ≤ 0 ∧
        ∀ j, j < k → 0 < (T : ℚ) - edgeLengthSum64 sqrt graph (edges.take (j + 1))) ∨
      (distanceToIndexLoop64 sqrt graph last edges i (T : ℚ) = last ∧
        ∀ j, j < edges.length →
          0 < (T : ℚ) - edgeLengthSum64 sqrt graph (edges.take (j + 1))) := by
  intro edges
  induction edges with
  | nil =>
    intro i T _ _
    right
    exact ⟨rfl, fun j hj => by simp at hj⟩
  | cons e rest ih =>
    intro i T hT hw
    obtain ⟨l, hl, he⟩ := hw e (List.mem_cons_self _ _)
    have hsub : round64 ((T : ℚ) - (Edge.Segment graph e).Length64 sqrt) = (T : ℚ) - l := by
      rw [he]
      exact round64_nat_sub T l (by omega) (by omega)
    simp only [distanceToIndexLoop64, hsub]
    by_cases h0 : (T : ℚ) - l ≤ 0
    · left
      refine ⟨0, by simp, by simp [h0], ?_, fun j hj => by omega⟩
      simpa [edgeLengthSum64, he] using h0
    · rw [if_neg h0]
      push_neg at h0
      have hlT : l < T := by
        have : (l : ℚ) < T := by linarith
        exact_mod_cast this
      have hcast : (T : ℚ) - l = ((T - l : Nat) : ℚ) := by
        rw [Nat.cast_sub hlT.le]
      have hstep : ∀ j, (T : ℚ) - edgeLengthSum64 sqrt graph ((e :: rest).take (j + 1 + 1)) =
          ((T - l : Nat) : ℚ) - edgeLengthSum64 sqrt graph (rest.take (j + 1)) := by
        intro j
        rw [List.take_succ_cons, edgeLengthSum64_cons, he, ← hcast]
        ring
      have hzero : 0 < (T : ℚ) - edgeLengthSum64 sqrt graph ((e :: rest).take (0 + 1)) := by
        simpa [edgeLengthSum64, he] using h0
      rw [hcast]
      rcases ih (i + 1) (T - l) (by omega) (fun x hx => hw x (List.mem_cons_of_mem _ hx)) with
        ⟨k, hk, hr, hle, hlt⟩ | ⟨hr, hlt⟩
      · left
        refine ⟨k + 1, by simpa using hk, ?_, ?_, ?_⟩
        · rw [hr]; congr 1; omega
        · rw [hstep]; exact hle
        · intro j hj
          cases j with
          | zero => exact hzero
          | succ j2 => rw [hstep]; exact hlt j2 (by omega)
      · right
        refine ⟨hr, ?_⟩
        intro j hj
        cases j with
        | zero => exact hzero
        | succ j2 => rw [hstep]; exact hlt j2 (by simpa using hj)

end RoadSegmentsFloatWhole
section RoadSegmentsFloatClaims

/-- C17, counterexample: on the road segment of the single edge `v12 → v11` of the
test graph (length `1`), `PosAtFactor(-1)` returns the position `-1`, which is
negative. And on the chain of five edges through `(47,1)`, `(44,7)`, `(49,16)`,
`(35,8)`, `(20,9)`, `(0,14)` with `t = 48.161645948456375 ≥ 0`, `DistanceToIndex`
subtracts the lengths one by one and arrives at the last edge, while `PosAtFactor`
subtracts the stored sum of the first four lengths: the position is `-2^-47`. -/
theorem RoadSegment.PosAtFactor_counterexample :
    (NewRoadSegment64 sqrtFloat64 testGraph [1]).bind
        (fun rs => rs.PosAtFactor64 sqrtFloat64 testGraph (-1)) = some ⟨1, -1⟩ ∧
    (0 : ℚ) ≤ 6778149085844309 / 2 ^ 47 ∧
    (NewRoadSegment64 sqrtFloat64 chainGraph [0, 1, 2, 3, 4]).bind
        (fun rs => rs.PosAtFactor64 sqrtFloat64 chainGraph (6778149085844309 / 2 ^ 47)) =
      some ⟨4, -(1 / 2 ^ 47)⟩ := by
  refine ⟨by decide!, by norm_num, by decide!⟩

/-- C17, amended: for every road segment with at least one edge built by
`NewRoadSegment` (whatever its `ID`) and every `t`, `PosAtFactor(t)`, computed in
`float64`, returns an `EdgePos` on an edge of the segment with `position ≤` the length
of that edge (the clamp from above). When every edge length is a whole number up to
`2^26`, there are at most `2^20` edges and `t` is a whole number from `0` to `2^52`
(`RoadSegment.WholeLengths64`), also `0 ≤ position`, and a `t` beyond the total length
gives the end of the last edge. -/
theorem RoadSegment.PosAtFactor_bounds (sqrt : ℚ → ℚ) (graph : Graph ℚ)
    (edges : List Nat) (hne : edges ≠ []) (rs : RoadSegment ℚ)
    (h : NewRoadSegment64 sqrt graph edges = some rs) (n : Nat) (t : ℚ) :
    ∃ pos, ({ rs with ID := n } : RoadSegment ℚ).PosAtFactor64 sqrt graph t = some pos ∧
      pos.Edge ∈ edges ∧
      pos.Position ≤ (Edge.Segment graph pos.Edge).Length64 sqrt ∧
      (RoadSegment.WholeLengths64 sqrt graph edges t →
        0 ≤ pos.Position ∧
        (edgeLengthSum64 sqrt graph edges < t →
          pos = ⟨edges.getLast hne,
            (Edge.Segment graph (edges.getLast hne)).Length64 sqrt⟩)) := by
  obtain ⟨k, hk, d, hidx, hd, hpos⟩ := PosAtFactor64_some sqrt graph edges hne rs h n t
  have hlen : 0 < edges.length := List.length_pos.mpr hne
  refine ⟨_, hpos, List.getElem_mem _, ?_, ?_⟩
  · simp only
    split
    · exact le_rfl
    · rename_i hgt
      exact not_lt.mp hgt
  · rintro ⟨hw, hn, T, hT, rfl⟩
    have hD := NewRoadSegment64_distance_at sqrt graph edges hw hn rs h k hk.le
    rw [hd, Option.some.injEq] at hD
    obtain ⟨s, hs, hsum⟩ := edgeLengthSum64_whole sqrt graph (edges.take k)
      (fun e he => hw e (List.mem_of_mem_take he))
    have hs2 : s ≤ 2 ^ 46 := by
      have h1 : (edges.take k).length ≤ 2 ^ 20 := by
        rw [List.length_take]
        omega
      have h2 : (edges.take k).length * 2 ^ 26 ≤ 2 ^ 20 * 2 ^ 26 := Nat.mul_le_mul_right _ h1
      norm_num at h2 ⊢
      omega
    have hround : round64 ((T : ℚ) - d) = (T : ℚ) - edgeLengthSum64 sqrt graph (edges.take k) := by
      rw [hD, hsum]
      exact round64_nat_sub T s (by omega) (by omega)
    obtain ⟨l, -, hl⟩ := hw edges[k] (List.getElem_mem _)
    have hl0 : (0 : ℚ) ≤ (Edge.Segment graph edges[k]).Length64 sqrt := by
      rw [hl]; exact Nat.cast_nonneg _
    have hsucc := edgeLengthSum64_take_succ sqrt graph edges k hk
    have hspec := distanceToIndexLoop64_spec sqrt graph ((edges.length : Int) - 1) edges 0 T hT hw
    rw [hidx] at hspec
    have hstart : (∀ j, j < k →
        0 < (T : ℚ) - edgeLengthSum64 sqrt graph (edges.take (j + 1))) →
        0 ≤ (T : ℚ) - edgeLengthSum64 sqrt graph (edges.take k) := by
      intro hlt
      cases k with
      | zero => simp [edgeLengthSum64]
      | succ j => exact (hlt j (by omega)).le
    have hcase : (∀ j, j < k →
        0 < (T : ℚ) - edgeLengthSum64 sqrt graph (edges.take (j + 1))) ∧
        ((T : ℚ) - edgeLengthSum64 sqrt graph (edges.take (k + 1)) ≤ 0 ∨
          (k = edges.length - 1 ∧ 0 < (T : ℚ) - edgeLengthSum64 sqrt graph edges)) := by
      rcases hspec with ⟨k2, hk2, hr, hle, hlt⟩ | ⟨hr, hlt⟩
      · have : k = k2 := by
          have := hr
          simp only [zero_add] at this
          exact_mod_cast this
        subst this
        exact ⟨hlt, Or.inl hle⟩
      · have hkl : k = edges.length - 1 := by omega
        refine ⟨fun j hj => hlt j (by omega), Or.inr ⟨hkl, ?_⟩⟩
        have := hlt (edges.length - 1) (by omega)
        rwa [Nat.sub_add_cancel hlen, List.take_length] at this
    refine ⟨?_, ?_⟩
    · simp only [hround]
      split
      · exact hl0
      · exact hstart hcase.1
    · intro hbeyond
      have hklast : k = edges.length - 1 := by
        rcases hcase.2 with hle | ⟨hk2, -⟩
        · have := edgeLengthSum64_take_le sqrt graph edges hw (k + 1)
          linarith
        · exact hk2
      have hlast : edges.getLast hne = edges[k] := by
        rw [List.getLast_eq_getElem]
        congr 1
        exact hklast.symm
      have htot : edgeLengthSum64 sqrt graph (edges.take (k + 1)) =
          edgeLengthSum64 sqrt graph edges := by
        rw [List.take_of_length_le (by omega)]
      simp only [hround]
      rw [hlast, if_pos (by rw [gt_iff_lt]; linarith)]

theorem RoadSegment.PosAtFactor_bounds_witness :
    ([1, 2] : List Nat) ≠ [] ∧
    NewRoadSegment64 sqrtFloat64 testGraph [1, 2] = some ⟨0, [1, 2], [0, 1, 3]⟩ ∧
    RoadSegment.WholeLengths64 sqrtFloat64 testGraph [1, 2] 2 ∧
    ∃ pos, (⟨7, [1, 2], [0, 1, 3]⟩ : RoadSegment ℚ).PosAtFactor64 sqrtFloat64 testGraph 2 =
        some pos ∧
      pos.Edge ∈ [1, 2] ∧
      pos.Position ≤ (Edge.Segment (testGraph : Graph ℚ) pos.Edge).Length64 sqrtFloat64 ∧
      0 ≤ pos.Position :=
  have hloop : newRoadSegmentLoop64 sqrtFloat64 testGraph [1, 2] none [0] = some [0, 1, 3] := by
    decide!
  have h : NewRoadSegment64 sqrtFloat64 testGraph [1, 2] = some ⟨0, [1, 2], [0, 1, 3]⟩ := by
    unfold NewRoadSegment64
    rw [hloop]
  have hw : RoadSegment.WholeLengths64 sqrtFloat64 testGraph [1, 2] 2 := by
    refine ⟨?_, by norm_num, 2, by norm_num, by norm_num⟩
    intro e he
    simp only [List.mem_cons, List.mem_singleton, List.mem_nil_iff, or_false] at he
    rcases he with rfl | rfl
    · exact ⟨1, by norm_num, by decide!⟩
    · exact ⟨2, by norm_num, by decide!⟩
  have hb := RoadSegment.PosAtFactor_bounds sqrtFloat64 testGraph [1, 2] (by simp) _ h 7 2
  ⟨by simp, h, hw, by
    obtain ⟨pos, h1, h2, h3, h4⟩ := hb
    exact ⟨pos, h1, h2, h3, (h4 hw).1⟩⟩

end RoadSegmentsFloatClaims
section MapSums

theorem mapSet_keys {β : Type} (m : List (Nat × β)) (k : Nat) (v : β) :
    (mapSet m k v).map Prod.fst =
      if (mapGet m k).isSome then m.map Prod.fst else m.map Prod.fst ++ [k] := by
  unfold mapSet
  split
  · rw [List.map_map]
    apply List.map_congr_left
    intro kv _
    simp only [Function.comp]
    split
    · rename_i h; exact h.symm
    · rfl
  · simp

theorem mapSet_nodup {β : Type} (m : List (Nat × β)) (k : Nat) (v : β)
    (h : (m.map Prod.fst).Nodup) : ((mapSet m k v).map Prod.fst).Nodup := by
  rw [mapSet_keys]
  split
  · exact h
  · rename_i hk
    have hn : mapGet m k = none := by
      cases hm : mapGet m k with
      | none => rfl
      | some x => rw [hm] at hk; simp at hk
    rw [List.nodup_append]
    refine ⟨h, List.nodup_singleton k, ?_⟩
    intro a ha hb
    simp only [List.mem_singleton] at hb
    subst hb
    obtain ⟨kv, hkv, rfl⟩ := List.mem_map.mp ha
    exact (mapGet_eq_none_iff m kv.1).mp hn kv hkv rfl

theorem mapSet_mem {β : Type} (m : List (Nat × β)) (k : Nat) (v : β) (kv : Nat × β)
    (h : kv ∈ mapSet m k v) : kv ∈ m ∨ kv = (k, v) := by
  unfold mapSet at h
  split at h
  · obtain ⟨kv0, h0, h1⟩ := List.mem_map.mp h
    split at h1
    · exact Or.inr h1.symm
    · exact Or.inl (h1 ▸ h0)
  · rcases List.mem_append.mp h with h | h
    · exact Or.inl h
    · exact Or.inr (List.mem_singleton.mp h)

theorem mapSum_replace (m : List (Nat × Int)) (k : Nat) (v : Int)
    (h : (m.map Prod.fst).Nodup) :
    mapSum (m.map (fun kv => if kv.1 = k then (k, v) else kv)) =
      mapSum m - (mapGet m k).getD 0 + (if (mapGet m k).isSome then v else 0) := by
  induction m with
  | nil => simp [mapSum, mapGet_nil]
  | cons kv m ih =>
    have hn := List.nodup_cons.mp h
    have ih2 := ih hn.2
    simp only [mapSum, List.map_cons, List.sum_cons] at ih2 ⊢
    rw [mapGet_cons]
    by_cases hk : kv.1 = k
    · have hnone : mapGet m k = none := by
        rw [mapGet_eq_none_iff]
        intro kv2 hkv2 h2
        exact hn.1 (List.mem_map.mpr ⟨kv2, hkv2, h2.trans hk.symm⟩)
      rw [hnone] at ih2
      simp only [Option.getD_none, sub_zero, Option.isSome_none, Bool.false_eq_true, if_false,
        add_zero] at ih2
      simp only [hk, if_true, Option.getD_some, Option.isSome_some]
      rw [ih2]
      ring
    · simp only [hk, if_false]
      rw [ih2]
      ring

theorem mapSum_mapSet (m : List (Nat × Int)) (k : Nat) (v : Int)
    (h : (m.map Prod.fst).Nodup) :
    mapSum (mapSet m k v) = mapSum m - (mapGet m k).getD 0 + v := by
  unfold mapSet
  split
  · rename_i hk
    rw [mapSum_replace m k v h, if_pos hk]
  · rename_i hk
    have hn : mapGet m k = none := by
      cases hm : mapGet m k with
      | none => rfl
      | some x => rw [hm] at hk; simp at hk
    rw [hn]
    simp [mapSum]

theorem mapSum_add (m : List (Nat × Int)) (k : Nat) (d : Int)
    (h : (m.map Prod.fst).Nodup) :
    mapSum (mapSet m k ((mapGet m k).getD 0 + d)) = mapSum m + d := by
  rw [mapSum_mapSet m k _ h]
  ring

theorem mapGet_nonneg (m : List (Nat × Int)) (k : Nat) (h : ∀ kv ∈ m, 0 ≤ kv.2) :
    0 ≤ (mapGet m k).getD 0 := by
  cases hg : mapGet m k with
  | none => simp
  | some v => exact h _ (mapGet_mem hg)

theorem mapAdd_nonneg (m : List (Nat × Int)) (k : Nat) (d : Int) (hd : 0 ≤ d)
    (h : ∀ kv ∈ m, 0 ≤ kv.2) : ∀ kv ∈ mapSet m k ((mapGet m k).getD 0 + d), 0 ≤ kv.2 := by
  intro kv hkv
  rcases mapSet_mem m k _ kv hkv with h1 | h1
  · exact h kv h1
  · rw [h1]
    exact add_nonneg (mapGet_nonneg m k h) hd

end MapSums
section ViterbiCount

variable {K : Type} [LinearOrderedField K] [FloorRing K]

theorem replay_foldl_spec (l : List (List (Nat × Nat))) :
    ∀ st : Nat × List (Nat × Int), (st.2.map Prod.fst).Nodup → (∀ kv ∈ st.2, 0 ≤ kv.2) →
      (((l.foldl (fun (st : Nat × List (Nat × Int)) bp =>
          if (mapGet bp st.1).getD 0 ≠ st.1 then
            ((mapGet bp st.1).getD 0, mapSet st.2 st.1 ((mapGet st.2 st.1).getD 0 + 1))
          else st) st).2.map Prod.fst).Nodup ∧
        (∀ kv ∈ (l.foldl (fun (st : Nat × List (Nat × Int)) bp =>
          if (mapGet bp st.1).getD 0 ≠ st.1 then
            ((mapGet bp st.1).getD 0, mapSet st.2 st.1 ((mapGet st.2 st.1).getD 0 + 1))
          else st) st).2, 0 ≤ kv.2) ∧
        mapSum (l.foldl (fun (st : Nat × List (Nat × Int)) bp =>
          if (mapGet bp st.1).getD 0 ≠ st.1 then
            ((mapGet bp st.1).getD 0, mapSet st.2 st.1 ((mapGet st.2 st.1).getD 0 + 1))
          else st) st).2 ≤ mapSum st.2 + l.length) := by
  induction l with
  | nil =>
    intro st h1 h2
    exact ⟨h1, h2, by simp⟩
  | cons bp l ih =>
    intro st h1 h2
    rw [List.foldl_cons]
    by_cases hc : (mapGet bp st.1).getD 0 ≠ st.1
    · rw [if_pos hc]
      obtain ⟨r1, r2, r3⟩ := ih ((mapGet bp st.1).getD 0,
        mapSet st.2 st.1 ((mapGet st.2 st.1).getD 0 + 1)) (mapSet_nodup _ _ _ h1)
        (mapAdd_nonneg _ _ 1 (by norm_num) h2)
      refine ⟨r1, r2, r3.trans ?_⟩
      simp only [mapSum_add st.2 st.1 1 h1, List.length_cons, Nat.cast_add, Nat.cast_one]
      omega
    · rw [if_neg hc]
      obtain ⟨r1, r2, r3⟩ := ih st h1 h2
      refine ⟨r1, r2, r3.trans ?_⟩
      simp only [List.length_cons, Nat.cast_add, Nat.cast_one]
      omega

theorem replayBackpointers_spec (bps : List (List (Nat × Nat))) (st : Nat × List (Nat × Int))
    (h1 : (st.2.map Prod.fst).Nodup) (h2 : ∀ kv ∈ st.2, 0 ≤ kv.2) :
    ((replayBackpointers bps st).2.map Prod.fst).Nodup ∧
    (∀ kv ∈ (replayBackpointers bps st).2, 0 ≤ kv.2) ∧
    mapSum (replayBackpointers bps st).2 ≤ mapSum st.2 + bps.length := by
  have := replay_foldl_spec bps.reverse st h1 h2
  rw [List.length_reverse] at this
  exact this

theorem backtrack_foldl_spec (m : MathLib K) (graph : Graph K) (opts : Viterbi2Options K)
    (trace : Trace K) (backpointers : List (List (List (Nat × Nat)))) (l : List Nat) :
    ∀ st : (Nat × List (Nat × Int)) × List (EdgePos K),
      (st.1.2.map Prod.fst).Nodup → (∀ kv ∈ st.1.2, 0 ≤ kv.2) →
      (((l.foldl (fun (st : (Nat × List (Nat × Int)) × List (EdgePos K)) i =>
          (replayBackpointers (backpointers.getD i []) st.1,
            if !opts.HitsOnly then
              st.2 ++ [⟨st.1.1, (Edge.Segment graph st.1.1).Project m.sqrt
                (trace.getD i default) false⟩]
            else st.2)) st).1.2.map Prod.fst).Nodup ∧
        (∀ kv ∈ (l.foldl (fun (st : (Nat × List (Nat × Int)) × List (EdgePos K)) i =>
          (replayBackpointers (backpointers.getD i []) st.1,
            if !opts.HitsOnly then
              st.2 ++ [⟨st.1.1, (Edge.Segment graph st.1.1).Project m.sqrt
                (trace.getD i default) false⟩]
            else st.2)) st).1.2, 0 ≤ kv.2) ∧
        mapSum (l.foldl (fun (st : (Nat × List (Nat × Int)) × List (EdgePos K)) i =>
          (replayBackpointers (backpointers.getD i []) st.1,
            if !opts.HitsOnly then
              st.2 ++ [⟨st.1.1, (Edge.Segment graph st.1.1).Project m.sqrt
                (trace.getD i default) false⟩]
            else st.2)) st).1.2 ≤
          mapSum st.1.2 + ((l.map (fun i => (backpointers.getD i []).length)).sum : Nat)) := by
  induction l with
  | nil =>
    intro st h1 h2
    exact ⟨h1, h2, by simp⟩
  | cons i l ih =>
    intro st h1 h2
    rw [List.foldl_cons]
    obtain ⟨s1, s2, s3⟩ := replayBackpointers_spec (backpointers.getD i []) st.1 h1 h2
    obtain ⟨r1, r2, r3⟩ := ih (replayBackpointers (backpointers.getD i []) st.1,
      if !opts.HitsOnly then
        st.2 ++ [⟨st.1.1, (Edge.Segment graph st.1.1).Project m.sqrt (trace.getD i default)
          false⟩]
      else st.2) s1 s2
    refine ⟨r1, r2, r3.trans ?_⟩
    simp only [List.map_cons, List.sum_cons, Nat.cast_add]
    omega

theorem sum_getD_length_le {α : Type} (bp : List (List α)) :
    ∀ n : Nat, ((List.range n).map (fun i => (bp.getD i []).length)).sum ≤
      (bp.map List.length).sum := by
  induction bp with
  | nil =>
    intro n
    simp
  | cons b bp ih =>
    intro n
    cases n with
    | zero => simp
    | succ n =>
      rw [List.range_succ_eq_map, List.map_cons, List.sum_cons, List.map_map]
      have := ih n
      simp only [List.map_cons, List.sum_cons, List.getD_cons_zero]
      have e : ((fun i => ((b :: bp).getD i []).length) ∘ Nat.succ) =
          (fun i => (bp.getD i []).length) := by
        funext i
        simp
      rw [e]
      omega

theorem backtrack_spec (m : MathLib K) (graph : Graph K) (opts : Viterbi2Options K)
    (trace : Trace K) (backpointers : List (List (List (Nat × Nat)))) (curEdge : Nat)
    (edgeHits : List (Nat × Int)) (h1 : (edgeHits.map Prod.fst).Nodup)
    (h2 : ∀ kv ∈ edgeHits, 0 ≤ kv.2) :
    (((backtrack m graph opts trace backpointers curEdge edgeHits).1.2.map Prod.fst).Nodup) ∧
    (∀ kv ∈ (backtrack m graph opts trace backpointers curEdge edgeHits).1.2, 0 ≤ kv.2) ∧
    mapSum (backtrack m graph opts trace backpointers curEdge edgeHits).1.2 ≤
      mapSum edgeHits + ((backpointers.map List.length).sum : Nat) := by
  obtain ⟨r1, r2, r3⟩ := backtrack_foldl_spec m graph opts trace backpointers
    (List.range trace.length).reverse ((curEdge, edgeHits), []) h1 h2
  refine ⟨r1, r2, r3.trans ?_⟩
  have := sum_getD_length_le backpointers trace.length
  rw [List.map_reverse, List.sum_reverse]
  simp only [add_le_add_iff_left, Nat.cast_le]
  exact this

end ViterbiCount
section ViterbiForward

variable {K : Type} [LinearOrderedField K] [FloorRing K]

theorem extraTransitions_length (order : MapOrder) (key : List Nat) (m : MathLib K)
    (tp : List (List (Nat × K))) (granularity : K) (fuel : Nat) :
    ∀ (distance : K) (probs : List (Nat × K)) (bps : List (List (Nat × Nat))),
      (extraTransitions order key m tp granularity fuel distance probs bps).2.length =
        bps.length + extraCount granularity fuel distance := by
  induction fuel with
  | zero => intro distance probs bps; rfl
  | succ fuel ih =>
    intro distance probs bps
    by_cases hc : distance > granularity ∧ granularity > 0
    · simp only [extraTransitions, extraCount, if_pos hc]
      rw [ih]
      simp only [List.length_append, List.length_singleton]
      omega
    · simp only [extraTransitions, extraCount, if_neg hc]
      rfl

/-- The fuel `extraFuel` is enough: with it, and with any more, the loop over the
extra transitions ends because its condition fails. -/
theorem extraTransitions_fuel (order : MapOrder) (key : List Nat) (m : MathLib K)
    (tp : List (List (Nat × K))) (granularity : K) (fuel : Nat) :
    ∀ (more : Nat) (distance : K) (probs : List (Nat × K)) (bps : List (List (Nat × Nat))),
      distance ≤ fuel * granularity →
      extraTransitions order key m tp granularity (fuel + more) distance probs bps =
        extraTransitions order key m tp granularity fuel distance probs bps := by
  induction fuel with
  | zero =>
    intro more distance probs bps hd
    simp only [Nat.cast_zero, zero_mul] at hd
    cases more with
    | zero => rfl
    | succ more =>
      have hc : ¬ (distance > granularity ∧ granularity > 0) := by
        intro h
        exact absurd (h.2.trans h.1) (not_lt.mpr hd)
      simp only [Nat.zero_add, extraTransitions, if_neg hc]
  | succ fuel ih =>
    intro more distance probs bps hd
    rw [show fuel + 1 + more = (fuel + more) + 1 by omega]
    by_cases hc : distance > granularity ∧ granularity > 0
    · simp only [extraTransitions, if_pos hc]
      apply ih
      have : ((fuel + 1 : Nat) : K) * granularity = fuel * granularity + granularity := by
        push_cast; ring
      rw [this] at hd
      linarith
    · simp only [extraTransitions, if_neg hc]

theorem extraFuel_enough (granularity distance : K) (hg : 0 < granularity) :
    distance ≤ (extraFuel granularity distance : K) * granularity := by
  unfold extraFuel
  have := Nat.le_ceil (distance / granularity)
  calc distance = distance / granularity * granularity := by field_simp
    _ ≤ _ := mul_le_mul_of_nonneg_right this hg.le

theorem forwardStep_spec (order : MapOrder) (key : List Nat) (m : MathLib K) (graph : Graph K)
    (opts : Viterbi2Options K) (tp : List (List (Nat × K)))
    (st r : List (Nat × K) × List (List (List (Nat × Nat)))) (obs : Point K × Point K)
    (h : forwardStep order key m graph opts tp st obs = some r) :
    r.1 ≠ [] ∧ (r.2.map List.length).sum = (st.2.map List.length).sum +
      (extraCount opts.GetGranularity
        (extraFuel opts.GetGranularity (obs.2.Distance m.sqrt obs.1))
        (obs.2.Distance m.sqrt obs.1) + 1) := by
  unfold forwardStep at h
  simp only at h
  split at h
  · simp at h
  · rename_i hlen
    simp only [Option.some.injEq] at h
    subst h
    refine ⟨fun h0 => hlen (by rw [h0]; rfl), ?_⟩
    simp only [List.map_append, List.sum_append, List.map_cons, List.map_nil, List.sum_cons,
      List.sum_nil, List.length_append, List.length_singleton, extraTransitions_length,
      List.length_nil]
    omega

theorem forward_foldlM_spec (order : MapOrder) (key : List Nat) (m : MathLib K)
    (graph : Graph K) (opts : Viterbi2Options K) (tp : List (List (Nat × K)))
    (l : List (Point K × Point K)) :
    ∀ st r : List (Nat × K) × List (List (List (Nat × Nat))),
      l.foldlM (forwardStep order key m graph opts tp) st = some r →
      (l ≠ [] → r.1 ≠ []) ∧ (r.2.map List.length).sum = (st.2.map List.length).sum +
        (l.map (fun obs => extraCount opts.GetGranularity
          (extraFuel opts.GetGranularity (obs.2.Distance m.sqrt obs.1))
          (obs.2.Distance m.sqrt obs.1))).sum + l.length := by
  induction l with
  | nil =>
    intro st r h
    simp only [List.foldlM_nil, Option.pure_def, Option.some.injEq] at h
    subst h
    simp
  | cons obs l ih =>
    intro st r h
    rw [List.foldlM_cons] at h
    cases hs : forwardStep order key m graph opts tp st obs with
    | none => rw [hs] at h; simp at h
    | some s =>
      rw [hs] at h
      simp only [Option.bind_eq_bind, Option.some_bind] at h
      obtain ⟨s1, s2⟩ := forwardStep_spec order key m graph opts tp st s obs hs
      obtain ⟨r1, r2⟩ := ih s r h
      refine ⟨fun _ => ?_, ?_⟩
      · cases l with
        | nil =>
          simp only [List.foldlM_nil, Option.pure_def, Option.some.injEq] at h
          rw [← h]; exact s1
        | cons o l2 => exact r1 (by simp)
      · rw [r2, s2]
        simp only [List.map_cons, List.sum_cons, List.length_cons]
        omega

theorem viterbiForward_spec (order : MapOrder) (key : List Nat) (m : MathLib K)
    (graph : Graph K) (opts : Viterbi2Options K) (tp : List (List (Nat × K))) (trace : Trace K)
    (r : List (Nat × K) × List (List (List (Nat × Nat))))
    (h : viterbiForward order key m graph opts tp trace = some r) :
    (2 ≤ trace.length → r.1 ≠ []) ∧
    (r.2.map List.length).sum = trace.length - 1 + traceExtra m opts trace := by
  unfold viterbiForward at h
  simp only [Option.map_eq_some'] at h
  obtain ⟨s, hs, rfl⟩ := h
  obtain ⟨r1, r2⟩ := forward_foldlM_spec order key m graph opts tp _ _ s hs
  refine ⟨fun h2 => r1 ?_, ?_⟩
  · intro h0
    have := congrArg List.length h0
    simp only [List.length_zip, List.length_tail, List.length_nil] at this
    omega
  · simp only [List.map_cons, List.length_nil, List.sum_cons, Nat.zero_add, r2, List.map_nil,
      List.sum_nil, List.length_zip, List.length_tail, traceExtra]
    omega

theorem foldl_best_isSome {α : Type} (f : Option Nat → α → Option Nat)
    (hf : ∀ b x, (f b x).isSome) (l : List α) :
    ∀ init : Option Nat, (init.isSome ∨ l ≠ []) → (l.foldl f init).isSome := by
  induction l with
  | nil =>
    intro init h
    rcases h with h | h
    · exact h
    · exact absurd rfl h
  | cons x l ih =>
    intro init _
    rw [List.foldl_cons]
    exact ih _ (Or.inl (hf init x))

theorem bestEdge_isSome (order : MapOrder) (horder : order.Valid) (key : List Nat)
    (probs : List (Nat × K)) (h : probs ≠ []) : ∃ e, bestEdge order key probs = some e := by
  apply Option.isSome_iff_exists.mp
  unfold bestEdge
  apply foldl_best_isSome
  · intro b x
    cases b with
    | none => rfl
    | some b =>
      simp only
      split <;> rfl
  · right
    cases probs with
    | nil => exact absurd rfl h
    | cons kv rest =>
      have hg : mapGet (kv :: rest) kv.1 = some kv.2 := by
        rw [mapGet_cons, if_pos rfl]
      have := mapRange_cover horder (4 :: key) (kv :: rest) kv.1 kv.2 hg
      intro h0
      rw [h0] at this
      simp at this

theorem matchTrace_spec (order : MapOrder) (horder : order.Valid) (m : MathLib K)
    (graph : Graph K) (opts : Viterbi2Options K) (traceIdx : Nat) (trace : Trace K)
    (st : MatchState K) (h1 : (st.edgeHits.map Prod.fst).Nodup)
    (h2 : ∀ kv ∈ st.edgeHits, 0 ≤ kv.2) :
    ∃ r, matchTrace order m graph opts (transitionProbs m graph opts) traceIdx trace st =
        some r ∧
      (r.edgeHits.map Prod.fst).Nodup ∧ (∀ kv ∈ r.edgeHits, 0 ≤ kv.2) ∧
      mapSum r.edgeHits ≤ mapSum st.edgeHits + traceBound order m graph opts (traceIdx, trace) ∧
      r.output.isSome = st.output.isSome := by
  unfold matchTrace traceBound
  simp only
  by_cases hlen : trace.length < 5
  · rw [if_pos hlen, if_pos hlen]
    exact ⟨st, rfl, h1, h2, by simp, rfl⟩
  · rw [if_neg hlen, if_neg hlen]
    cases hf : viterbiForward order [traceIdx] m graph opts (transitionProbs m graph opts)
        trace with
    | none => exact ⟨st, rfl, h1, h2, by simp, rfl⟩
    | some pb =>
      obtain ⟨probs, backpointers⟩ := pb
      obtain ⟨f1, f2⟩ := viterbiForward_spec order [traceIdx] m graph opts _ trace _ hf
      obtain ⟨e, he⟩ := bestEdge_isSome order horder [traceIdx] probs (f1 (by omega))
      simp only [he]
      obtain ⟨b1, b2, b3⟩ := backtrack_spec m graph opts trace backpointers e st.edgeHits h1 h2
      refine ⟨_, rfl, b1, b2, ?_, ?_⟩
      · simp only at f2
        rw [f2] at b3
        exact b3
      · simp

theorem runWorker_foldlM_spec (order : MapOrder) (horder : order.Valid) (m : MathLib K)
    (graph : Graph K) (opts : Viterbi2Options K) (traces : List (Nat × Trace K)) :
    ∀ st : MatchState K, (st.edgeHits.map Prod.fst).Nodup → (∀ kv ∈ st.edgeHits, 0 ≤ kv.2) →
      ∃ r, traces.foldlM (fun st t =>
          matchTrace order m graph opts (transitionProbs m graph opts) t.1 t.2 st) st = some r ∧
        (r.edgeHits.map Prod.fst).Nodup ∧ (∀ kv ∈ r.edgeHits, 0 ≤ kv.2) ∧
        mapSum r.edgeHits ≤ mapSum st.edgeHits +
          (traces.map (traceBound order m graph opts)).sum ∧
        r.output.isSome = st.output.isSome := by
  induction traces with
  | nil =>
    intro st h1 h2
    exact ⟨st, rfl, h1, h2, by simp, rfl⟩
  | cons t traces ih =>
    intro st h1 h2
    obtain ⟨s, hs, s1, s2, s3, s4⟩ := matchTrace_spec order horder m graph opts t.1 t.2 st h1 h2
    obtain ⟨r, hr, r1, r2, r3, r4⟩ := ih s s1 s2
    refine ⟨r, ?_, r1, r2, ?_, r4.trans s4⟩
    · rw [List.foldlM_cons, hs]
      exact hr
    · simp only [List.map_cons, List.sum_cons]
      have : traceBound order m graph opts (t.1, t.2) = traceBound order m graph opts t := rfl
      rw [this] at s3
      omega

end ViterbiForward
section ViterbiCollect

variable {K : Type} [LinearOrderedField K] [FloorRing K]

theorem filterMap_keys {β : Type} (m : List (Nat × β)) (h : (m.map Prod.fst).Nodup) :
    (m.map Prod.fst).filterMap (fun k => (mapGet m k).map (fun v => (k, v))) = m := by
  induction m with
  | nil => rfl
  | cons kv m ih =>
    have hn := List.nodup_cons.mp h
    rw [List.map_cons, List.filterMap_cons]
    have h0 : mapGet (kv :: m) kv.1 = some kv.2 := by rw [mapGet_cons, if_pos rfl]
    rw [h0]
    simp only [Option.map_some']
    congr 1
    have hc : ∀ k ∈ m.map Prod.fst,
        (mapGet (kv :: m) k).map (fun v => (k, v)) = (mapGet m k).map (fun v => (k, v)) := by
      intro k hk
      rw [mapGet_cons, if_neg]
      intro hkv
      exact hn.1 (hkv ▸ hk)
    rw [List.filterMap_congr hc]
    exact ih hn.2

theorem mapRange_perm {β : Type} (order : MapOrder) (horder : order.Valid) (key : List Nat)
    (m : List (Nat × β)) (h : (m.map Prod.fst).Nodup) : (mapRange order key m).Perm m := by
  unfold mapRange
  have := (horder key (m.map Prod.fst)).filterMap
    (fun k => (mapGet m k).map (fun v => (k, v)))
  rw [filterMap_keys m h] at this
  exact this

theorem addHits_spec (kvs : List (Nat × Int)) (hk : ∀ kv ∈ kvs, 0 ≤ kv.2) :
    ∀ edgeHits : List (Nat × Int), (edgeHits.map Prod.fst).Nodup → (∀ kv ∈ edgeHits, 0 ≤ kv.2) →
      ((kvs.foldl (fun edgeHits kv =>
          mapSet edgeHits kv.1 ((mapGet edgeHits kv.1).getD 0 + kv.2)) edgeHits).map
            Prod.fst).Nodup ∧
      (∀ kv ∈ kvs.foldl (fun edgeHits kv =>
          mapSet edgeHits kv.1 ((mapGet edgeHits kv.1).getD 0 + kv.2)) edgeHits, 0 ≤ kv.2) ∧
      mapSum (kvs.foldl (fun edgeHits kv =>
          mapSet edgeHits kv.1 ((mapGet edgeHits kv.1).getD 0 + kv.2)) edgeHits) =
        mapSum edgeHits + mapSum kvs := by
  induction kvs with
  | nil =>
    intro edgeHits h1 h2
    exact ⟨h1, h2, by simp [mapSum]⟩
  | cons kv kvs ih =>
    intro edgeHits h1 h2
    rw [List.foldl_cons]
    obtain ⟨r1, r2, r3⟩ := ih (fun x hx => hk x (List.mem_cons_of_mem _ hx)) _
      (mapSet_nodup edgeHits kv.1 _ h1)
      (mapAdd_nonneg edgeHits kv.1 kv.2 (hk kv (List.mem_cons_self _ _)) h2)
    refine ⟨r1, r2, ?_⟩
    rw [r3, mapSum_add edgeHits kv.1 kv.2 h1]
    simp only [mapSum, List.map_cons, List.sum_cons]
    ring

theorem collectResults_spec (order : MapOrder) (horder : order.Valid)
    (results : List (Nat × MatchState K))
    (hres : ∀ res ∈ results, (res.2.edgeHits.map Prod.fst).Nodup ∧
      ∀ kv ∈ res.2.edgeHits, 0 ≤ kv.2) :
    ∀ init : MatchState K, (init.edgeHits.map Prod.fst).Nodup →
      (∀ kv ∈ init.edgeHits, 0 ≤ kv.2) →
      (∀ kv ∈ (collectResults order results init).edgeHits, 0 ≤ kv.2) ∧
      mapSum (collectResults order results init).edgeHits =
        mapSum init.edgeHits + (results.map (fun res => mapSum res.2.edgeHits)).sum := by
  induction results with
  | nil =>
    intro init _ h2
    exact ⟨h2, by simp [collectResults]⟩
  | cons res results ih =>
    intro init h1 h2
    obtain ⟨hn, hpos⟩ := hres res (List.mem_cons_self _ _)
    have hperm := mapRange_perm order horder [5, res.1] res.2.edgeHits hn
    obtain ⟨a1, a2, a3⟩ := addHits_spec (mapRange order [5, res.1] res.2.edgeHits)
      (fun kv hkv => hpos kv (hperm.mem_iff.mp hkv)) init.edgeHits h1 h2
    have hsum : mapSum (mapRange order [5, res.1] res.2.edgeHits) = mapSum res.2.edgeHits := by
      unfold mapSum
      exact (hperm.map Prod.snd).sum_eq
    obtain ⟨r1, r2⟩ := ih (fun x hx => hres x (List.mem_cons_of_mem _ hx))
      { edgeHits := (mapRange order [5, res.1] res.2.edgeHits).foldl
          (fun edgeHits kv => mapSet edgeHits kv.1 ((mapGet edgeHits kv.1).getD 0 + kv.2))
          init.edgeHits,
        output := init.output.map (fun output =>
          (mapRange order [6, res.1] (res.2.output.getD [])).foldl
            (fun output kv => mapSet output kv.1 kv.2) output),
        metadata := init.metadata ++ res.2.metadata } a1 a2
    refine ⟨r1, ?_⟩
    have e : collectResults order (res :: results) init = collectResults order results
        { edgeHits := (mapRange order [5, res.1] res.2.edgeHits).foldl
            (fun edgeHits kv => mapSet edgeHits kv.1 ((mapGet edgeHits kv.1).getD 0 + kv.2))
            init.edgeHits,
          output := init.output.map (fun output =>
            (mapRange order [6, res.1] (res.2.output.getD [])).foldl
              (fun output kv => mapSet output kv.1 kv.2) output),
          metadata := init.metadata ++ res.2.metadata } := rfl
    rw [e, r2]
    simp only [a3, hsum, List.map_cons, List.sum_cons]
    ring

theorem sum_ite_range (n k : Nat) (c : Int) :
    ((List.range n).map (fun w => if k = w then c else 0)).sum = if k < n then c else 0 := by
  induction n with
  | zero => simp
  | succ n ih =>
    rw [List.range_succ, List.map_append, List.sum_append, ih]
    simp only [List.map_cons, List.map_nil, List.sum_cons, List.sum_nil, add_zero]
    by_cases h1 : k < n
    · rw [if_pos h1, if_neg (by omega), if_pos (by omega)]
      simp
    · rw [if_neg h1]
      by_cases h2 : k = n
      · rw [if_pos h2, if_pos (by omega)]
        simp
      · rw [if_neg h2, if_neg (by omega)]
        simp

theorem partition_sum {α : Type} (g : α → Nat) (f : α → Int) (n : Nat) (l : List α)
    (hg : ∀ t ∈ l, g t < n) :
    ((List.range n).map (fun w => ((l.filter (fun t => g t = w)).map f).sum)).sum =
      (l.map f).sum := by
  induction l with
  | nil => simp
  | cons t l ih =>
    have e : (fun w => (((t :: l).filter (fun t => g t = w)).map f).sum) =
        (fun w => (if g t = w then f t else 0) + ((l.filter (fun t => g t = w)).map f).sum) := by
      funext w
      by_cases h : g t = w
      · simp [List.filter_cons, h]
      · simp [List.filter_cons, h]
    rw [e, List.sum_map_add, sum_ite_range, if_pos (hg t (List.mem_cons_self _ _)),
      ih (fun x hx => hg x (List.mem_cons_of_mem _ hx))]
    simp

end ViterbiCollect
section ViterbiClaim

variable {K : Type} [LinearOrderedField K] [FloorRing K]

theorem runWorker_spec (order : MapOrder) (horder : order.Valid) (m : MathLib K)
    (graph : Graph K) (opts : Viterbi2Options K) (traces : List (Nat × Trace K)) :
    ∃ r, runWorker order m graph opts (transitionProbs m graph opts) traces = some r ∧
      (r.edgeHits.map Prod.fst).Nodup ∧ (∀ kv ∈ r.edgeHits, 0 ≤ kv.2) ∧
      mapSum r.edgeHits ≤ (traces.map (traceBound order m graph opts)).sum := by
  obtain ⟨r, hr, r1, r2, r3, -⟩ := runWorker_foldlM_spec order horder m graph opts traces
    ⟨[], opts.Output.map (fun _ => []), []⟩ List.nodup_nil (fun kv hkv => by simp at hkv)
  refine ⟨r, hr, r1, r2, ?_⟩
  simpa [mapSum] using r3

/-- C22: `Viterbi2` returns unless there is no worker goroutine for a non-empty set
of traces; every value of the returned `edgeHits` is at least `0`, and their sum is
at most the sum over the traces of the number of observations less one plus the
number of extra pure-transition rounds, where traces of fewer than five
observations and traces without a surviving candidate count `0`. -/
theorem Viterbi2_edgeHits_bound (order : MapOrder) (horder : order.Valid) (assign : Nat → Nat)
    (m : MathLib K) (traces : List (Trace K)) (graph : Graph K) (opts : Viterbi2Options K) :
    (Viterbi2 order assign m traces graph opts = none ↔
      (opts.GetThreads ≤ 0 ∧ traces ≠ [])) ∧
    ∀ r, Viterbi2 order assign m traces graph opts = some r →
      (∀ kv ∈ r.edgeHits, 0 ≤ kv.2) ∧
      mapSum r.edgeHits ≤ (traces.enum.map (traceBound order m graph opts)).sum := by
  by_cases ht : opts.GetThreads ≤ 0
  · by_cases hl : traces.length = 0
    · have hnil : traces = [] := List.length_eq_zero.mp hl
      have hv : Viterbi2 order assign m traces graph opts = some ⟨[], opts.Output, []⟩ := by
        simp only [Viterbi2, if_pos ht, if_pos hl]
      rw [hv]
      refine ⟨⟨fun h => by simp at h, fun h => absurd hnil h.2⟩, ?_⟩
      intro r hr
      simp only [Option.some.injEq] at hr
      subst hr
      subst hnil
      exact ⟨fun kv hkv => by simp at hkv, by simp [mapSum]⟩
    · have hv : Viterbi2 order assign m traces graph opts = none := by
        simp only [Viterbi2, if_pos ht, if_neg hl]
      rw [hv]
      refine ⟨⟨fun _ => ⟨ht, fun h => hl (by rw [h]; rfl)⟩, fun _ => rfl⟩, ?_⟩
      intro r hr
      simp at hr
  · have hn : 0 < opts.GetThreads.toNat := by
      have := not_le.mp ht
      omega
    have hspec := fun w => runWorker_spec order horder m graph opts
      (traces.enum.filter (fun t => assign t.1 % opts.GetThreads.toNat = w))
    have hall : ((List.range opts.GetThreads.toNat).map (fun worker =>
        runWorker order m graph opts (transitionProbs m graph opts)
          (traces.enum.filter (fun t => assign t.1 % opts.GetThreads.toNat = worker)))).all
        Option.isSome = true := by
      rw [List.all_eq_true]
      intro x hx
      obtain ⟨w, -, rfl⟩ := List.mem_map.mp hx
      obtain ⟨r, hr, -⟩ := hspec w
      rw [hr]; rfl
    have hget : ∀ w, w < opts.GetThreads.toNat →
        ((List.range opts.GetThreads.toNat).map (fun worker =>
          runWorker order m graph opts (transitionProbs m graph opts)
            (traces.enum.filter (fun t => assign t.1 % opts.GetThreads.toNat = worker)))).getD
          w none =
        runWorker order m graph opts (transitionProbs m graph opts)
          (traces.enum.filter (fun t => assign t.1 % opts.GetThreads.toNat = w)) := by
      intro w hw
      rw [List.getD_eq_getElem?_getD, List.getElem?_map,
        List.getElem?_range hw]
      rfl
    have hget2 : ∀ w, w < opts.GetThreads.toNat →
        ((((((List.range opts.GetThreads.toNat).map (fun worker =>
          runWorker order m graph opts (transitionProbs m graph opts)
            (traces.enum.filter (fun t => assign t.1 % opts.GetThreads.toNat = worker)))).getD
          w none).getD default).edgeHits.map Prod.fst).Nodup) ∧
        (∀ kv ∈ ((((List.range opts.GetThreads.toNat).map (fun worker =>
          runWorker order m graph opts (transitionProbs m graph opts)
            (traces.enum.filter (fun t => assign t.1 % opts.GetThreads.toNat = worker)))).getD
          w none).getD default).edgeHits, 0 ≤ kv.2) ∧
        mapSum ((((List.range opts.GetThreads.toNat).map (fun worker =>
          runWorker order m graph opts (transitionProbs m graph opts)
            (traces.enum.filter (fun t => assign t.1 % opts.GetThreads.toNat = worker)))).getD
          w none).getD default).edgeHits ≤
          ((traces.enum.filter (fun t => assign t.1 % opts.GetThreads.toNat = w)).map
            (traceBound order m graph opts)).sum := by
      intro w hw
      obtain ⟨r, hr, r1, r2, r3⟩ := hspec w
      rw [hget w hw, hr]
      exact ⟨r1, r2, r3⟩
    have hv : Viterbi2 order assign m traces graph opts = some (collectResults order
        ((order [7] (List.range opts.GetThreads.toNat)).map (fun w =>
          (w, ((((List.range opts.GetThreads.toNat).map (fun worker =>
            runWorker order m graph opts (transitionProbs m graph opts)
              (traces.enum.filter
                (fun t => assign t.1 % opts.GetThreads.toNat = worker)))).getD w none).getD
            default))))
        ⟨[], opts.Output, []⟩) := by
      simp only [Viterbi2, if_neg ht, hall, if_true]
    rw [hv]
    refine ⟨⟨fun h => by simp at h, fun h => absurd h.1 ht⟩, ?_⟩
    intro r hr
    simp only [Option.some.injEq] at hr
    subst hr
    have hperm := horder [7] (List.range opts.GetThreads.toNat)
    have hlt : ∀ w ∈ order [7] (List.range opts.GetThreads.toNat),
        w < opts.GetThreads.toNat := fun w hw => List.mem_range.mp (hperm.mem_iff.mp hw)
    have hL : ∀ res ∈ (order [7] (List.range opts.GetThreads.toNat)).map (fun w =>
          (w, ((((List.range opts.GetThreads.toNat).map (fun worker =>
            runWorker order m graph opts (transitionProbs m graph opts)
              (traces.enum.filter
                (fun t => assign t.1 % opts.GetThreads.toNat = worker)))).getD w none).getD
            default))),
        (res.2.edgeHits.map Prod.fst).Nodup ∧ ∀ kv ∈ res.2.edgeHits, 0 ≤ kv.2 := by
      intro res hres
      obtain ⟨w, hw, rfl⟩ := List.mem_map.mp hres
      exact ⟨(hget2 w (hlt w hw)).1, (hget2 w (hlt w hw)).2.1⟩
    obtain ⟨c1, c2⟩ := collectResults_spec order horder _ hL
      ⟨[], opts.Output, []⟩ List.nodup_nil (fun kv hkv => by simp at hkv)
    refine ⟨c1, ?_⟩
    rw [c2]
    simp only [mapSum, List.map_nil, List.sum_nil, zero_add, List.map_map]
    have hle : ((order [7] (List.range opts.GetThreads.toNat)).map
        ((fun res : Nat × MatchState K => (res.2.edgeHits.map Prod.snd).sum) ∘ (fun w =>
          (w, ((((List.range opts.GetThreads.toNat).map (fun worker =>
            runWorker order m graph opts (transitionProbs m graph opts)
              (traces.enum.filter
                (fun t => assign t.1 % opts.GetThreads.toNat = worker)))).getD w none).getD
            default))))).sum ≤
        ((order [7] (List.range opts.GetThreads.toNat)).map (fun w =>
          ((traces.enum.filter (fun t => assign t.1 % opts.GetThreads.toNat = w)).map
            (traceBound order m graph opts)).sum)).sum := by
      apply List.sum_le_sum
      intro w hw
      exact (hget2 w (hlt w hw)).2.2
    refine hle.trans (le_of_eq ?_)
    rw [(hperm.map _).sum_eq]
    exact partition_sum (fun t => assign t.1 % opts.GetThreads.toNat)
      (traceBound order m graph opts) opts.GetThreads.toNat traces.enum
      (fun t _ => Nat.mod_lt _ hn)

end ViterbiClaim
section ViterbiOneEdge

theorem order_singleton (order : MapOrder) (horder : order.Valid) (key : List Nat) (k : Nat) :
    order key [k] = [k] :=
  List.perm_singleton.mp (horder key [k])

theorem mapRange_singleton {β : Type} (order : MapOrder) (horder : order.Valid)
    (key : List Nat) (k : Nat) (v : β) : mapRange order key [(k, v)] = [(k, v)] := by
  simp [mapRange, order_singleton order horder, mapGet]

theorem oneEdge_transitionProbs (m : MathLib ℝ) :
    transitionProbs m (oneEdgeGraph : NodePathsGraph ℝ).Graph viterbiTestOptions =
      [[(0, 1 / 2)]] := by
  simp [transitionProbs, transitionProbsOf, oneEdgeGraph_graph_eq, Graph.edge, Graph.node,
    viterbiTestOptions, mapSet, mapGet, List.range_succ]

theorem oneEdge_rtreeSearch (order : MapOrder) (horder : order.Valid) (key : List Nat)
    (x tol : ℝ) (hx0 : 0 ≤ x) (hx8 : x ≤ 8) (htol : 0 ≤ tol) :
    (oneEdgeGraph : NodePathsGraph ℝ).Graph.rtreeSearch order key
      ((⟨x, 0⟩ : Point ℝ).RectangleTol tol) = [0] := by
  have hf : (List.range (oneEdgeGraph : NodePathsGraph ℝ).Graph.Edges.length).filter
      (fun edge => (Edge.Segment (oneEdgeGraph : NodePathsGraph ℝ).Graph edge).Bounds.Intersects
        ((⟨x, 0⟩ : Point ℝ).RectangleTol tol)) = [0] := by
    have hl : (oneEdgeGraph : NodePathsGraph ℝ).Graph.Edges.length = 1 := rfl
    rw [hl]
    have hi : (Edge.Segment (oneEdgeGraph : NodePathsGraph ℝ).Graph 0).Bounds.Intersects
        ((⟨x, 0⟩ : Point ℝ).RectangleTol tol) = true := by
      rw [oneEdge_segment]
      simp only [Segment.Bounds, Point.Rectangle, Point.RectangleTol, Rectangle.Extend,
        Rectangle.Intersects, Point.Sub, Point.Add, Bool.and_eq_true, decide_eq_true_eq]
      refine ⟨⟨⟨?_, ?_⟩, ?_⟩, ?_⟩ <;> norm_num <;> linarith
    simp [List.range_succ, hi]
  unfold Graph.rtreeSearch
  rw [hf]
  exact order_singleton order horder key 0

theorem oneEdge_segDistance (x : ℝ) (hx0 : 0 ≤ x) (hx8 : x ≤ 8) :
    (Edge.Segment (oneEdgeGraph : NodePathsGraph ℝ).Graph 0).Distance Real.sqrt ⟨x, 0⟩ = 0 := by
  rw [oneEdge_segment]
  have h1 : max 0 (min 1 (x / 8)) = x / 8 := by
    rw [min_eq_right (by linarith), max_eq_right (by linarith)]
  norm_num [Segment.Distance, Segment.ProjectPoint, Segment.Project, Segment.PointAtFactor,
    Segment.Length, Point.Distance, Point.Magnitude, Point.Sub, Point.Dot, Point.Add,
    Point.Scale, sqrt64, h1]

theorem oneEdge_project (x : ℝ) (hx0 : 0 ≤ x) (hx8 : x ≤ 8) :
    (Edge.Segment (oneEdgeGraph : NodePathsGraph ℝ).Graph 0).Project Real.sqrt ⟨x, 0⟩ false =
      x := by
  rw [oneEdge_segment]
  have h1 : max 0 (min 1 (x / 8)) = x / 8 := by
    rw [min_eq_right (by linarith), max_eq_right (by linarith)]
  norm_num [Segment.Project, Segment.Length, Point.Distance, Point.Magnitude, Point.Sub,
    Point.Dot, sqrt64, h1]

end ViterbiOneEdge
section ViterbiOneEdge2

theorem oneEdge_emissionProbs (order : MapOrder) (horder : order.Valid) (key : List Nat)
    (m : MathLib ℝ) (hsqrt : m.sqrt = Real.sqrt) (hexp : m.exp 0 = 1)
    (x tol sigma : ℝ) (hx0 : 0 ≤ x) (hx8 : x ≤ 8) (htol : 0 ≤ tol) :
    emissionProbs order key m (oneEdgeGraph : NodePathsGraph ℝ).Graph sigma ⟨x, 0⟩ tol =
      [(0, 1)] := by
  unfold emissionProbs
  simp only [oneEdge_rtreeSearch order horder key x tol hx0 hx8 htol, hsqrt,
    List.length_singleton, one_ne_zero, if_false, List.foldl_cons, List.foldl_nil,
    oneEdge_segDistance x hx0 hx8, mul_zero, zero_div, hexp, zero_add]
  simp [mapSet, mapGet]

theorem oneEdge_emissionStep (order : MapOrder) (horder : order.Valid) (key : List Nat)
    (m : MathLib ℝ) (p : ℝ) :
    emissionStep order key m [[(0, 1 / 2)]] [(0, 1)] [(0, p)] =
      ([(0, p + m.log (1 / 2) + m.log 1)], [(0, 0)]) := by
  unfold emissionStep
  rw [mapRange_singleton order horder]
  simp only [List.foldl_cons, List.foldl_nil, List.getD_cons_zero]
  rw [mapRange_singleton order horder]
  simp [mapGet, mapSet]

theorem oneEdge_emissionLoop (order : MapOrder) (horder : order.Valid) (key : List Nat)
    (m : MathLib ℝ) (hsqrt : m.sqrt = Real.sqrt) (hexp : m.exp 0 = 1)
    (x p : ℝ) (hx0 : 0 ≤ x) (hx8 : x ≤ 8) :
    emissionLoop order key m (oneEdgeGraph : NodePathsGraph ℝ).Graph [[(0, 1 / 2)]] 30 100
        ⟨x, 0⟩ [(0, p)] [1, 2, 4] ([], []) =
      ([(0, p + m.log (1 / 2) + m.log 1)], [(0, 0)]) := by
  simp only [emissionLoop, List.length_nil, List.length_cons, Nat.lt_add_one, Nat.zero_lt_succ,
    if_true, Nat.one_lt_ofNat, zero_add, Nat.reduceAdd, Nat.reduceLT,
    oneEdge_emissionProbs order horder _ m hsqrt hexp x _ 30 hx0 hx8 (by norm_num :
      (0 : ℝ) ≤ 100 * 1),
    oneEdge_emissionProbs order horder _ m hsqrt hexp x _ 30 hx0 hx8 (by norm_num :
      (0 : ℝ) ≤ 100 * 2),
    oneEdge_emissionProbs order horder _ m hsqrt hexp x _ 30 hx0 hx8 (by norm_num :
      (0 : ℝ) ≤ 100 * 4),
    oneEdge_emissionStep order horder _ m p]

theorem extraTransitions_stop {K : Type} [LinearOrderedField K] [FloorRing K]
    (order : MapOrder) (key : List Nat) (m : MathLib K)
    (tp : List (List (Nat × K))) (granularity : K) (fuel : Nat) (distance : K)
    (probs : List (Nat × K)) (bps : List (List (Nat × Nat)))
    (h : ¬ (distance > granularity ∧ granularity > 0)) :
    extraTransitions order key m tp granularity fuel distance probs bps = (probs, bps) := by
  cases fuel with
  | zero => rfl
  | succ fuel => simp only [extraTransitions, if_neg h]

theorem oneEdge_forwardStep (order : MapOrder) (horder : order.Valid) (key : List Nat)
    (m : MathLib ℝ) (hsqrt : m.sqrt = Real.sqrt) (hexp : m.exp 0 = 1)
    (x p : ℝ) (hx0 : 0 ≤ x) (hx8 : x + 1 ≤ 8) (bps : List (List (List (Nat × Nat)))) :
    forwardStep order key m (oneEdgeGraph : NodePathsGraph ℝ).Graph viterbiTestOptions
        [[(0, 1 / 2)]] ([(0, p)], bps) (⟨x, 0⟩, ⟨x + 1, 0⟩) =
      some ([(0, p + m.log (1 / 2) + m.log 1)], bps ++ [[[(0, 0)]]]) := by
  have hd : (⟨x + 1, 0⟩ : Point ℝ).Distance Real.sqrt ⟨x, 0⟩ = 1 := by
    norm_num [Point.Distance, Point.Magnitude, Point.Sub, Point.Dot]
  have hg : (viterbiTestOptions : Viterbi2Options ℝ).GetGranularity = 50 := by
    simp [Viterbi2Options.GetGranularity, viterbiTestOptions]
  have hs : (viterbiTestOptions : Viterbi2Options ℝ).GetSigma = 30 := by
    simp [Viterbi2Options.GetSigma, viterbiTestOptions]
  have ht : (viterbiTestOptions : Viterbi2Options ℝ).GetStartTolerance = 100 := by
    simp [Viterbi2Options.GetStartTolerance, viterbiTestOptions]
  unfold forwardStep
  simp only [hsqrt, hd, hg, hs, ht]
  rw [extraTransitions_stop _ _ _ _ _ _ _ _ _ (by norm_num)]
  simp only [oneEdge_emissionLoop order horder _ m hsqrt hexp (x + 1) p (by linarith) hx8,
    List.length_singleton, one_ne_zero, if_false, List.nil_append]

end ViterbiOneEdge2
section ViterbiOneEdge3

theorem oneEdge_viterbiForward (order : MapOrder) (horder : order.Valid) (key : List Nat)
    (m : MathLib ℝ) (hsqrt : m.sqrt = Real.sqrt) (hexp : m.exp 0 = 1) :
    ∃ p : ℝ, viterbiForward order key m (oneEdgeGraph : NodePathsGraph ℝ).Graph
        viterbiTestOptions [[(0, 1 / 2)]] viterbiTestTrace =
      some ([(0, p)], [[], [[(0, 0)]], [[(0, 0)]], [[(0, 0)]], [[(0, 0)]]]) := by
  have ht : (viterbiTestOptions : Viterbi2Options ℝ).GetStartTolerance = 100 := by
    simp [Viterbi2Options.GetStartTolerance, viterbiTestOptions]
  have h2 : ((2 : ℝ)) = 1 + 1 := by norm_num
  have h3 : ((3 : ℝ)) = 2 + 1 := by norm_num
  have h4 : ((4 : ℝ)) = 3 + 1 := by norm_num
  have h5 : ((5 : ℝ)) = 4 + 1 := by norm_num
  have s1 := fun p bps => oneEdge_forwardStep order horder key m hsqrt hexp 1 p (by norm_num)
    (by norm_num) bps
  have s2 := fun p bps => oneEdge_forwardStep order horder key m hsqrt hexp 2 p (by norm_num)
    (by norm_num) bps
  have s3 := fun p bps => oneEdge_forwardStep order horder key m hsqrt hexp 3 p (by norm_num)
    (by norm_num) bps
  have s4 := fun p bps => oneEdge_forwardStep order horder key m hsqrt hexp 4 p (by norm_num)
    (by norm_num) bps
  rw [← h2] at s1
  rw [← h3] at s2
  rw [← h4] at s3
  rw [← h5] at s4
  refine ⟨0 + m.log (1 / 2) + m.log 1 + m.log (1 / 2) + m.log 1 + m.log (1 / 2) + m.log 1 +
    m.log (1 / 2) + m.log 1, ?_⟩
  unfold viterbiForward
  simp only [viterbiTestTrace, List.getD_cons_zero, ht,
    oneEdge_rtreeSearch order horder _ 1 100 (by norm_num) (by norm_num) (by norm_num),
    List.foldl_cons, List.foldl_nil, List.tail_cons, List.zip_cons_cons, List.zip_nil_right,
    List.foldlM_cons, List.foldlM_nil]
  have h0 : mapSet ([] : List (Nat × ℝ)) 0 0 = [(0, 0)] := rfl
  rw [h0, s1]
  simp only [Option.bind_eq_bind, Option.some_bind]
  rw [s2]
  simp only [Option.some_bind]
  rw [s3]
  simp only [Option.some_bind]
  rw [s4]
  simp only [Option.some_bind, Option.pure_def, Option.map_some', List.nil_append,
    List.cons_append]

theorem oneEdge_bestEdge (order : MapOrder) (horder : order.Valid) (key : List Nat) (p : ℝ) :
    bestEdge order key [(0, p)] = some 0 := by
  unfold bestEdge
  rw [mapRange_singleton order horder]
  rfl

theorem oneEdge_backtrack (m : MathLib ℝ) (hsqrt : m.sqrt = Real.sqrt) :
    backtrack m (oneEdgeGraph : NodePathsGraph ℝ).Graph viterbiTestOptions viterbiTestTrace
        [[], [[(0, 0)]], [[(0, 0)]], [[(0, 0)]], [[(0, 0)]]] 0 [] =
      ((0, []), [⟨0, 5⟩, ⟨0, 4⟩, ⟨0, 3⟩, ⟨0, 2⟩, ⟨0, 1⟩]) := by
  have hr : (List.range (viterbiTestTrace : Trace ℝ).length).reverse = [4, 3, 2, 1, 0] := by
    decide
  have hrep : ∀ eh : List (Nat × Int),
      replayBackpointers [[(0, 0)]] (0, eh) = (0, eh) := by
    intro eh
    simp [replayBackpointers, mapGet]
  have hrep0 : ∀ eh : List (Nat × Int), replayBackpointers [] (0, eh) = (0, eh) := fun _ => rfl
  unfold backtrack
  rw [hr]
  simp only [List.foldl_cons, List.foldl_nil, viterbiTestOptions, Bool.not_false, if_true,
    hsqrt, viterbiTestTrace, List.getD_cons_succ, List.getD_cons_zero, hrep, hrep0,
    oneEdge_project 5 (by norm_num) (by norm_num), oneEdge_project 4 (by norm_num) (by norm_num),
    oneEdge_project 3 (by norm_num) (by norm_num), oneEdge_project 2 (by norm_num) (by norm_num),
    oneEdge_project 1 (by norm_num) (by norm_num), List.nil_append, List.cons_append]

theorem oneEdge_matchTrace (order : MapOrder) (horder : order.Valid) (m : MathLib ℝ)
    (hsqrt : m.sqrt = Real.sqrt) (hexp : m.exp 0 = 1) :
    matchTrace order m (oneEdgeGraph : NodePathsGraph ℝ).Graph viterbiTestOptions
        [[(0, 1 / 2)]] 0 viterbiTestTrace ⟨[], none, []⟩ =
      some ⟨[], none, [(0, [⟨0, 1⟩, ⟨0, 2⟩, ⟨0, 3⟩, ⟨0, 4⟩, ⟨0, 5⟩])]⟩ := by
  obtain ⟨p, hp⟩ := oneEdge_viterbiForward order horder [0] m hsqrt hexp
  have hlen : ¬ (viterbiTestTrace : Trace ℝ).length < 5 := by decide
  unfold matchTrace
  rw [if_neg hlen, hp]
  simp only [oneEdge_bestEdge order horder, oneEdge_backtrack m hsqrt]
  simp [viterbiTestOptions, mapSet, mapGet]

/-- C21: a trace of five observations exactly along the single edge of the graph,
matched with sigma 30: whatever the iteration orders and the scheduler, every
observation is annotated with that edge, but the returned `edgeHits` is empty and
not `{0: 1}`. The hit of an edge is counted only when the backward walk leaves
it for a different edge, so the first edge of a matched path is never counted. -/
theorem Viterbi2_single_edge (order : MapOrder) (horder : order.Valid) (assign : Nat → Nat)
    (m : MathLib ℝ) (hsqrt : m.sqrt = Real.sqrt) (hexp : m.exp 0 = 1) :
    Viterbi2 order assign m [viterbiTestTrace] (oneEdgeGraph : NodePathsGraph ℝ).Graph
        viterbiTestOptions =
      some ⟨[], none, [(0, [⟨0, 1⟩, ⟨0, 2⟩, ⟨0, 3⟩, ⟨0, 4⟩, ⟨0, 5⟩])]⟩ := by
  have hth : (viterbiTestOptions : Viterbi2Options ℝ).GetThreads = 1 := by
    simp [Viterbi2Options.GetThreads, viterbiTestOptions]
  have hw : runWorker order m (oneEdgeGraph : NodePathsGraph ℝ).Graph viterbiTestOptions
      [[(0, 1 / 2)]] [(0, viterbiTestTrace)] =
      some ⟨[], none, [(0, [⟨0, 1⟩, ⟨0, 2⟩, ⟨0, 3⟩, ⟨0, 4⟩, ⟨0, 5⟩])]⟩ := by
    unfold runWorker
    simp only [List.foldlM_cons, List.foldlM_nil]
    have ho : (viterbiTestOptions : Viterbi2Options ℝ).Output.map
        (fun _ => ([] : List (Nat × List (EdgePos ℝ)))) = none := rfl
    rw [ho, oneEdge_matchTrace order horder m hsqrt hexp]
    rfl
  unfold Viterbi2
  simp only [hth, oneEdge_transitionProbs, Int.toNat_one, List.range_succ, List.range_zero, List.nil_append, List.map_cons,
    List.map_nil, Nat.mod_one, List.enum_cons, List.enum_nil, List.enumFrom_cons,
    List.enumFrom_nil, List.filter_cons, decide_True, if_true, List.filter_nil, hw,
    order_singleton order horder, List.getD_cons_zero, Option.getD_some, List.all_cons,
    Option.isSome_some, List.all_nil, Bool.and_self]
  norm_num [collectResults, mapRange, viterbiTestOptions, order_singleton order horder,
    List.perm_nil.mp (horder _ [])]

theorem Viterbi2_single_edge_witness :
    MapOrder.insertion.Valid ∧ Real.sqrt = Real.sqrt ∧ Real.exp 0 = 1 ∧
    Viterbi2 MapOrder.insertion (fun _ => 0)
        ⟨Real.sqrt, Real.exp, Real.log, Real.arccos, Real.pi⟩ [viterbiTestTrace]
        (oneEdgeGraph : NodePathsGraph ℝ).Graph viterbiTestOptions =
      some ⟨[], none, [(0, [⟨0, 1⟩, ⟨0, 2⟩, ⟨0, 3⟩, ⟨0, 4⟩, ⟨0, 5⟩])]⟩ :=
  ⟨fun _ l => List.Perm.refl l, rfl, Real.exp_zero,
    Viterbi2_single_edge MapOrder.insertion (fun _ l => List.Perm.refl l) (fun _ => 0)
      ⟨Real.sqrt, Real.exp, Real.log, Real.arccos, Real.pi⟩ rfl Real.exp_zero⟩

theorem Viterbi2_edgeHits_bound_witness :
    MapOrder.insertion.Valid ∧
    ((Viterbi2 MapOrder.insertion (fun _ => 0)
        ⟨Real.sqrt, Real.exp, Real.log, Real.arccos, Real.pi⟩ [viterbiTestTrace]
        (oneEdgeGraph : NodePathsGraph ℝ).Graph viterbiTestOptions = none ↔
      ((viterbiTestOptions : Viterbi2Options ℝ).GetThreads ≤ 0 ∧
        [(viterbiTestTrace : Trace ℝ)] ≠ [])) ∧
    ∀ r, Viterbi2 MapOrder.insertion (fun _ => 0)
        ⟨Real.sqrt, Real.exp, Real.log, Real.arccos, Real.pi⟩ [viterbiTestTrace]
        (oneEdgeGraph : NodePathsGraph ℝ).Graph viterbiTestOptions = some r →
      (∀ kv ∈ r.edgeHits, 0 ≤ kv.2) ∧
      mapSum r.edgeHits ≤ (([(viterbiTestTrace : Trace ℝ)]).enum.map
        (traceBound MapOrder.insertion ⟨Real.sqrt, Real.exp, Real.log, Real.arccos, Real.pi⟩
          (oneEdgeGraph : NodePathsGraph ℝ).Graph viterbiTestOptions)).sum) :=
  ⟨fun _ l => List.Perm.refl l,
    Viterbi2_edgeHits_bound MapOrder.insertion (fun _ l => List.Perm.refl l) (fun _ => 0)
      ⟨Real.sqrt, Real.exp, Real.log, Real.arccos, Real.pi⟩ [viterbiTestTrace]
      (oneEdgeGraph : NodePathsGraph ℝ).Graph viterbiTestOptions⟩

end ViterbiOneEdge3
section LastGeomClaims

variable {K : Type} [LinearOrderedField K]

/-- C31: on the empty polygon `Bounds`, `Segments`, `Contains` and
`SegmentIntersections` return a result (the empty rectangle, no segment, `false`,
no point), but `Distance` does not: `Contains` is `false`, and `segments[0]` on the
empty slice of segments is an index out of range. -/
theorem Polygon.empty_operations (sqrt : K → K) (rand : Nat → K) (fuel : Nat) (p : Point K)
    (s : Segment K) :
    Polygon.Bounds ([] : Polygon K) = EmptyRectangle ∧
    Polygon.Segments ([] : Polygon K) = [] ∧
    Polygon.Contains sqrt rand fuel [] p = some false ∧
    Polygon.SegmentIntersections sqrt [] s = [] ∧
    Polygon.Distance sqrt rand fuel [] p = some none := by
  have hc : Polygon.Contains sqrt rand fuel [] p = some false := by
    unfold Polygon.Contains
    have : (Polygon.Bounds ([] : Polygon K)).Contains p.toEFloat = false := by
      simp [Polygon.Bounds, EmptyRectangle, Rectangle.Contains, Point.toEFloat, EFloat.ofFinite]
    simp only [this, Bool.not_false, if_true]
  refine ⟨rfl, rfl, hc, rfl, ?_⟩
  unfold Polygon.Distance
  rw [hc]
  rfl


end LastGeomClaims

section LessClaim

variable {K : Type} [LinearOrderedField K]

/-- C35: `less a b` holds exactly when the tuple `(MaxDistance, CurDistance,
EndpointDistance, number of path nodes)` of `a` is lexicographically strictly
smaller than that of `b`; so `less` is irreflexive and transitive, and two entries
of which neither is `less` than the other agree in all four keys. -/
theorem Entry.less_strict_lex :
    (∀ a b : Entry K, a.less b = true ↔ a.key < b.key) ∧
    (∀ a : Entry K, a.less a = false) ∧
    (∀ a b c : Entry K, a.less b = true → b.less c = true → a.less c = true) ∧
    (∀ a b : Entry K, a.less b = false → b.less a = false →
      a.MaxDistance = b.MaxDistance ∧ a.CurDistance = b.CurDistance ∧
      a.EndpointDistance = b.EndpointDistance ∧ a.Nodes.length = b.Nodes.length) := by
  refine ⟨Entry.less_iff, ?_, ?_, ?_⟩
  · intro a
    rw [Entry.less_eq_false_iff]
  · intro a b c hab hbc
    rw [Entry.less_iff] at hab hbc ⊢
    exact hab.trans hbc
  · intro a b hab hba
    rw [Entry.less_eq_false_iff] at hab hba
    have h := le_antisymm hba hab
    unfold Entry.key at h
    have h1 := congrArg (fun x => (ofLex x).1) h
    have h2 := congrArg (fun x => (ofLex (ofLex x).2).1) h
    have h3 := congrArg (fun x => (ofLex (ofLex (ofLex x).2).2).1) h
    have h4 := congrArg (fun x => (ofLex (ofLex (ofLex x).2).2).2) h
    exact ⟨h1, h2, h3, h4⟩

end LessClaim
section ExtraSteps

variable {K : Type} [LinearOrderedField K] [FloorRing K]

theorem extraCount_eq (granularity : K) (hg : 0 < granularity) (fuel : Nat) :
    ∀ distance : K, distance ≤ fuel * granularity →
      extraCount granularity fuel distance = ⌈distance / granularity⌉₊ - 1 := by
  induction fuel with
  | zero =>
    intro distance hd
    simp only [Nat.cast_zero, zero_mul] at hd
    have : ⌈distance / granularity⌉₊ = 0 :=
      Nat.ceil_eq_zero.mpr (div_nonpos_of_nonpos_of_nonneg hd hg.le)
    rw [this]
    rfl
  | succ fuel ih =>
    intro distance hd
    by_cases hc : distance > granularity ∧ granularity > 0
    · simp only [extraCount, if_pos hc]
      have hd2 : distance - granularity ≤ fuel * granularity := by
        have : ((fuel + 1 : Nat) : K) * granularity = fuel * granularity + granularity := by
          push_cast; ring
        rw [this] at hd
        linarith
      rw [ih _ hd2]
      have e : (distance - granularity) / granularity = distance / granularity - 1 := by
        field_simp
      have hpos : 0 < distance / granularity - 1 := by
        rw [sub_pos, one_lt_div hg]
        exact hc.1
      rw [e]
      have h1 : 0 < ⌈distance / granularity - 1⌉₊ := Nat.ceil_pos.mpr hpos
      have h2 : ⌈distance / granularity - 1 + 1⌉₊ = ⌈distance / granularity - 1⌉₊ + 1 :=
        Nat.ceil_add_one hpos.le
      rw [sub_add_cancel] at h2
      omega
    · simp only [extraCount, if_neg hc]
      have hle : distance ≤ granularity := by
        by_contra h
        exact hc ⟨not_le.mp h, hg⟩
      have : ⌈distance / granularity⌉₊ ≤ 1 := by
        rw [Nat.ceil_le]
        simpa using (div_le_one hg).mpr hle
      omega

/-- When distance and granularity are multiples `a * 2^e` and `b * 2^e` with
`a < 2^53`, every subtraction of the loop is exact, and the loop runs as in exact
arithmetic. -/
theorem extraCount64_dyadic (b : Nat) (e : Int) (fuel : Nat) :
    ∀ a : Nat, a < 2 ^ 53 →
      extraCount64 ((b : ℚ) * 2 ^ e) fuel ((a : ℚ) * 2 ^ e) =
        extraCount ((b : ℚ) * 2 ^ e) fuel ((a : ℚ) * 2 ^ e) := by
  induction fuel with
  | zero => intro a _; rfl
  | succ fuel ih =>
    intro a ha
    unfold extraCount64 extraCount
    by_cases hc : (a : ℚ) * 2 ^ e > (b : ℚ) * 2 ^ e ∧ (b : ℚ) * 2 ^ e > 0
    · rw [if_pos hc, if_pos hc]
      have hab : (b : ℚ) < a := lt_of_mul_lt_mul_right hc.1 (two_zpow_pos e).le
      have hab2 : b < a := by exact_mod_cast hab
      have hsub : (a : ℚ) * 2 ^ e - (b : ℚ) * 2 ^ e = ((a - b : Nat) : ℚ) * 2 ^ e := by
        rw [Nat.cast_sub hab2.le]
        ring
      have hr : round64 (((a - b : Nat) : ℚ) * 2 ^ e) = ((a - b : Nat) : ℚ) * 2 ^ e := by
        have h := round64_dyadic ((a - b : Nat) : Int) e (by
          rw [abs_of_nonneg (Int.natCast_nonneg _)]
          have : a - b < 2 ^ 53 := lt_of_le_of_lt (Nat.sub_le _ _) ha
          exact_mod_cast this)
        rw [Int.cast_natCast] at h
        exact h
      rw [hsub, hr, ih (a - b) (lt_of_le_of_lt (Nat.sub_le _ _) ha)]
    · rw [if_neg hc, if_neg hc]

/-- C33, counterexample: observations `100` apart with granularity `50`: the loop
runs once (`100 > 50`, then `50 > 50` fails), so one extra transition is applied,
not `⌊100 / 50⌋ = 2`. And with distance `1` and granularity `0.1` (the `float64`
nearest to it) nine subtractions leave a distance that rounding has made larger
than `0.1`: the loop runs ten rounds, not `⌊1 / 0.1⌋ = 9`. -/
theorem extraTransitions_floor_counterexample :
    (extraCount64 50 (extraFuel (50 : ℚ) 100) 100 = 1 ∧ ⌊(100 : ℚ) / 50⌋₊ = 2) ∧
    (extraCount64 (3602879701896397 / 2 ^ 55) 10 1 = 10 ∧
      extraCount64 (3602879701896397 / 2 ^ 55) 11 1 = 10 ∧
      ⌊(1 : ℚ) / (3602879701896397 / 2 ^ 55)⌋₊ = 9 ∧
      ⌈(1 : ℚ) / (3602879701896397 / 2 ^ 55)⌉₊ - 1 = 9) := by
  refine ⟨⟨by decide!, by decide!⟩, by decide!, by decide!, by decide!, by decide!⟩

/-- C33, amended: for granularity `g > 0` and observations at distance `d`, the
loop of the extra transitions, computed in `float64`, runs no round when `d ≤ g` and
at least one when `d > g`. When `d` and `g` are whole multiples `a · u` and `b · u` of
one power of two `u` with `a < 2^53`, the loop ends and runs exactly `⌈d / g⌉ - 1`
rounds, appending that many backpointer maps; that is `⌊d / g⌋` when `d / g` is not a
whole number, and `k - 1` when `d = k · g`, as the package comment says. -/
theorem extraTransitions_count (g d : ℚ) (hg : 0 < g) :
    (∀ fuel, d ≤ g → extraCount64 g fuel d = 0) ∧
    (∀ fuel, g < d → 1 ≤ extraCount64 g (fuel + 1) d) ∧
    ((∃ (e : Int) (a b : Nat), a < 2 ^ 53 ∧ d = (a : ℚ) * 2 ^ e ∧ g = (b : ℚ) * 2 ^ e) →
      (∀ more, extraCount64 g (extraFuel g d + more) d = ⌈d / g⌉₊ - 1) ∧
      (∀ (order : MapOrder) (key : List Nat) (m : MathLib ℚ) (tp : List (List (Nat × ℚ)))
        (probs : List (Nat × ℚ)) (more : Nat),
        (extraTransitions order key m tp g (extraFuel g d + more) d probs []).2.length =
          extraCount64 g (extraFuel g d + more) d) ∧
      ((∀ k : Nat, d / g ≠ k) → 0 ≤ d → ⌈d / g⌉₊ - 1 = ⌊d / g⌋₊) ∧
      (∀ k : Nat, d = k * g → ⌈d / g⌉₊ - 1 = k - 1)) := by
  refine ⟨?_, ?_, ?_⟩
  · intro fuel hle
    cases fuel with
    | zero => rfl
    | succ fuel =>
      unfold extraCount64
      rw [if_neg (fun h => absurd h.1 (not_lt.mpr hle))]
  · intro fuel hlt
    unfold extraCount64
    rw [if_pos ⟨hlt, hg⟩]
    omega
  · rintro ⟨e, a, b, ha, rfl, rfl⟩
    have hfuel : ∀ more : Nat, (a : ℚ) * 2 ^ e ≤
        ((extraFuel ((b : ℚ) * 2 ^ e) ((a : ℚ) * 2 ^ e) + more : Nat) : ℚ) *
          ((b : ℚ) * 2 ^ e) := by
      intro more
      have h1 := extraFuel_enough ((b : ℚ) * 2 ^ e) ((a : ℚ) * 2 ^ e) hg
      have h2 : (0 : ℚ) ≤ (more : ℚ) * ((b : ℚ) * 2 ^ e) :=
        mul_nonneg (Nat.cast_nonneg _) hg.le
      push_cast
      linarith
    have hcount : ∀ more : Nat,
        extraCount64 ((b : ℚ) * 2 ^ e)
          (extraFuel ((b : ℚ) * 2 ^ e) ((a : ℚ) * 2 ^ e) + more) ((a : ℚ) * 2 ^ e) =
        ⌈(a : ℚ) * 2 ^ e / ((b : ℚ) * 2 ^ e)⌉₊ - 1 := by
      intro more
      rw [extraCount64_dyadic b e _ a ha]
      exact extraCount_eq _ hg _ _ (hfuel more)
    refine ⟨hcount, ?_, ?_, ?_⟩
    · intro order key m tp probs more
      rw [extraTransitions_length, extraCount64_dyadic b e _ a ha]
      simp
    · intro hk h0
      have hnn : 0 ≤ (a : ℚ) * 2 ^ e / ((b : ℚ) * 2 ^ e) := div_nonneg h0 hg.le
      have hfl : (⌊(a : ℚ) * 2 ^ e / ((b : ℚ) * 2 ^ e)⌋₊ : ℚ) <
          (a : ℚ) * 2 ^ e / ((b : ℚ) * 2 ^ e) :=
        lt_of_le_of_ne (Nat.floor_le hnn) (fun h => hk _ h.symm)
      have h1 : ⌈(a : ℚ) * 2 ^ e / ((b : ℚ) * 2 ^ e)⌉₊ =
          ⌊(a : ℚ) * 2 ^ e / ((b : ℚ) * 2 ^ e)⌋₊ + 1 := by
        apply le_antisymm
        · exact Nat.ceil_le_floor_add_one _
        · exact Nat.succ_le_of_lt (Nat.cast_lt.mp
            (lt_of_lt_of_le hfl (Nat.le_ceil _)))
      omega
    · intro k hk
      have : (a : ℚ) * 2 ^ e / ((b : ℚ) * 2 ^ e) = k := by
        rw [hk]; field_simp
      rw [this, Nat.ceil_natCast]

theorem extraTransitions_count_witness :
    (0 : ℚ) < 50 ∧
    (∃ (e : Int) (a b : Nat), a < 2 ^ 53 ∧ (120 : ℚ) = (a : ℚ) * 2 ^ e ∧
      (50 : ℚ) = (b : ℚ) * 2 ^ e) ∧
    extraCount64 50 (extraFuel (50 : ℚ) 120 + 0) 120 = ⌈(120 : ℚ) / 50⌉₊ - 1 ∧
    1 ≤ extraCount64 50 (2 + 1) 120 :=
  have hex : ∃ (e : Int) (a b : Nat), a < 2 ^ 53 ∧ (120 : ℚ) = (a : ℚ) * 2 ^ e ∧
      (50 : ℚ) = (b : ℚ) * 2 ^ e := ⟨0, 120, 50, by norm_num, by norm_num, by norm_num⟩
  have hthm := extraTransitions_count 50 120 (by norm_num)
  ⟨by norm_num, hex, (hthm.2.2 hex).1 0, hthm.2.1 2 (by norm_num)⟩

end ExtraSteps
section RDPSpec

variable {K : Type} [LinearOrderedField K]

theorem rdpFarthest_index (sqrt : K → K) (segment : Segment K) (points : List (Point K))
    (h : 0 < (rdpFarthest sqrt segment points).2) :
    1 ≤ (rdpFarthest sqrt segment points).1 ∧
      (rdpFarthest sqrt segment points).1 + 1 < points.length := by
  revert h
  unfold rdpFarthest
  apply foldl_invariant _
    (fun acc : Nat × K => 0 < acc.2 → 1 ≤ acc.1 ∧ acc.1 + 1 < points.length)
  · intro h
    exact absurd h (lt_irrefl _)
  · intro acc k hk hacc
    simp only
    split_ifs with h2
    · intro _
      have := List.mem_range.mp hk
      exact ⟨Nat.le_add_left _ _, by simp only; omega⟩
    · exact hacc

theorem rdpFold_max (sqrt : K → K) (segment : Segment K) (points : List (Point K)) (n : Nat) :
    ∀ k, k < n → segment.Distance sqrt (points.getD (k + 1) default) ≤
      ((List.range n).foldl
        (fun (acc : Nat × K) k =>
          let d := segment.Distance sqrt (points.getD (k + 1) default)
          if d > acc.2 then (k + 1, d) else acc)
        (0, 0)).2 := by
  induction n with
  | zero => intro k hk; omega
  | succ n ih =>
    intro k hk
    rw [List.range_succ, List.foldl_append]
    simp only [List.foldl_cons, List.foldl_nil]
    by_cases hkn : k = n
    · subst hkn
      split_ifs with h2
      · exact le_refl _
      · exact not_lt.mp h2
    · have hk2 := ih k (by omega)
      split_ifs with h2
      · exact hk2.trans h2.le
      · exact hk2

theorem rdpFarthest_max (sqrt : K → K) (segment : Segment K) (points : List (Point K))
    (i : Nat) (h1 : 1 ≤ i) (h2 : i + 1 < points.length) :
    segment.Distance sqrt (points.getD i default) ≤ (rdpFarthest sqrt segment points).2 := by
  have := rdpFold_max sqrt segment points (points.length - 2) (i - 1) (by omega)
  rw [Nat.sub_add_cancel h1] at this
  exact this

theorem take_succ_of_drop {α : Type} (x : α) (B : List α) :
    ∀ (i : Nat) (l : List α), l.drop i = x :: B → l.take (i + 1) = l.take i ++ [x] := by
  intro i
  induction i with
  | zero =>
    intro l h
    rw [List.drop_zero] at h
    subst h
    rfl
  | succ i ih =>
    intro l h
    cases l with
    | nil => simp at h
    | cons y l =>
      rw [List.drop_succ_cons] at h
      rw [List.take_succ_cons, ih l h, List.take_succ_cons, List.cons_append]

theorem RDPCovers_cons_cons (sqrt : K → K) (epsilon : WithTop K) (a b : Point K)
    (rest points : List (Point K)) :
    RDPCovers sqrt epsilon (a :: b :: rest) points ↔
      ∃ gap after, points = a :: (gap ++ after) ∧
        (∀ x ∈ gap, ((Segment.Distance sqrt ⟨a, b⟩ x : K) : WithTop K) < epsilon) ∧
        RDPCovers sqrt epsilon (b :: rest) after := by
  simp only [RDPCovers]

theorem RDPCovers_head (sqrt : K → K) (epsilon : WithTop K) (r points : List (Point K))
    (h : RDPCovers sqrt epsilon r points) : r.head? = points.head? := by
  match r, h with
  | [], h => simp only [RDPCovers] at h; rw [h]
  | [a], h => simp only [RDPCovers] at h; rw [h]
  | a :: b :: rest, h =>
    simp only [RDPCovers] at h
    obtain ⟨gap, after, hp, _, _⟩ := h
    rw [hp]
    rfl

theorem RDPCovers_sublist (sqrt : K → K) (epsilon : WithTop K) :
    ∀ (r points : List (Point K)), RDPCovers sqrt epsilon r points → r.Sublist points := by
  intro r
  induction r with
  | nil => intro points _; exact List.nil_sublist _
  | cons a t ih =>
    intro points h
    cases t with
    | nil =>
      simp only [RDPCovers] at h
      rw [h]
    | cons b rest =>
      simp only [RDPCovers] at h
      obtain ⟨gap, after, hp, _, hc⟩ := h
      rw [hp]
      exact List.Sublist.cons₂ a ((ih after hc).trans (List.sublist_append_right gap after))

theorem RDPCovers_last (sqrt : K → K) (epsilon : WithTop K) :
    ∀ (r points : List (Point K)), RDPCovers sqrt epsilon r points →
      r.getLast? = points.getLast? := by
  intro r
  induction r with
  | nil => intro points h; simp only [RDPCovers] at h; rw [h]
  | cons a t ih =>
    intro points h
    cases t with
    | nil =>
      simp only [RDPCovers] at h
      rw [h]
    | cons b rest =>
      simp only [RDPCovers] at h
      obtain ⟨gap, after, hp, _, hc⟩ := h
      have hh := RDPCovers_head sqrt epsilon _ _ hc
      cases after with
      | nil => simp at hh
      | cons c after =>
        rw [hp, List.getLast?_cons_cons, ih _ hc, ← List.cons_append,
          List.getLast?_append_of_ne_nil _ (List.cons_ne_nil c after)]

theorem RDPCovers_join (sqrt : K → K) (epsilon : WithTop K) (x : Point K)
    (suf B : List (Point K)) (hs : RDPCovers sqrt epsilon suf (x :: B)) :
    ∀ (rest : List (Point K)) (a b : Point K) (A : List (Point K)),
      RDPCovers sqrt epsilon (a :: b :: rest) (A ++ [x]) →
      RDPCovers sqrt epsilon ((a :: b :: rest).dropLast ++ suf) (A ++ x :: B) := by
  intro rest
  induction rest with
  | nil =>
    intro a b A h
    simp only [RDPCovers] at h
    obtain ⟨gap, after, hp, hg, hc⟩ := h
    subst hc
    have hA : A ++ [x] = (a :: gap) ++ [b] := by rw [hp]; rfl
    have h1 := List.append_inj_left' hA rfl
    have h2 := List.append_inj_right' hA rfl
    simp only [List.cons.injEq, and_true] at h2
    subst h1 h2
    have hsh := RDPCovers_head sqrt epsilon _ _ hs
    cases suf with
    | nil => simp at hsh
    | cons c suf =>
      simp only [List.head?_cons, Option.some.injEq] at hsh
      subst hsh
      simp only [List.dropLast, List.cons_append, List.nil_append, RDPCovers]
      exact ⟨gap, c :: B, rfl, hg, hs⟩
  | cons c rest ih =>
    intro a b A h
    obtain ⟨gap, after, hp, hg, hc⟩ := (RDPCovers_cons_cons sqrt epsilon a b _ _).mp h
    have hl := RDPCovers_last sqrt epsilon _ _ hc
    have hne : after ≠ [] := by
      intro h0
      rw [h0] at hl
      simp at hl
    obtain ⟨after1, y, hy⟩ : ∃ after1 y, after = after1 ++ [y] :=
      ⟨after.dropLast, after.getLast hne, (List.dropLast_append_getLast hne).symm⟩
    subst hy
    have hA : A ++ [x] = (a :: (gap ++ after1)) ++ [y] := by
      rw [hp]; simp
    have h1 := List.append_inj_left' hA rfl
    have h2 := List.append_inj_right' hA rfl
    simp only [List.cons.injEq, and_true] at h2
    subst h1 h2
    have hrec := ih b c after1 hc
    have e1 : (a :: b :: c :: rest).dropLast ++ suf = a :: b :: ((c :: rest).dropLast ++ suf) := by
      simp [List.dropLast]
    have e2 : (b :: c :: rest).dropLast ++ suf = b :: ((c :: rest).dropLast ++ suf) := by
      simp [List.dropLast]
    rw [e1]
    rw [e2] at hrec
    exact (RDPCovers_cons_cons sqrt epsilon a b _ _).mpr
      ⟨gap, after1 ++ x :: B, by simp, hg, hrec⟩

end RDPSpec
section RDPMain

variable {K : Type} [LinearOrderedField K]

theorem RDP_succ_rec (sqrt : K → K) (fuel : Nat) (p0 : Point K) (rest : List (Point K))
    (epsilon : WithTop K) (idx : Nat) (dmax : K)
    (h : rdpFarthest sqrt ⟨p0, (p0 :: rest).getLast (List.cons_ne_nil _ _)⟩ (p0 :: rest) =
      (idx, dmax))
    (hd : epsilon ≤ ((dmax : K) : WithTop K)) (pre suf : List (Point K))
    (h1 : RDP sqrt fuel ((p0 :: rest).take (idx + 1)) epsilon = some (some pre))
    (h2 : RDP sqrt fuel ((p0 :: rest).drop idx) epsilon = some (some suf))
    (hp : pre.length ≠ 0) :
    RDP sqrt (fuel + 1) (p0 :: rest) epsilon =
      some (some (pre.take (pre.length - 1) ++ suf)) := by
  simp only [RDP, h, ge_iff_le, hd, if_true, h1, h2, hp, if_false]

theorem RDP_succ_base (sqrt : K → K) (fuel : Nat) (p0 : Point K) (rest : List (Point K))
    (epsilon : WithTop K) (idx : Nat) (dmax : K)
    (h : rdpFarthest sqrt ⟨p0, (p0 :: rest).getLast (List.cons_ne_nil _ _)⟩ (p0 :: rest) =
      (idx, dmax))
    (hd : ¬ epsilon ≤ ((dmax : K) : WithTop K)) :
    RDP sqrt (fuel + 1) (p0 :: rest) epsilon =
      some (some [p0, (p0 :: rest).getLast (List.cons_ne_nil _ _)]) := by
  simp only [RDP, h, ge_iff_le, hd, if_false]

theorem RDPCovers_chord (sqrt : K → K) (epsilon : WithTop K) (p0 : Point K)
    (rest : List (Point K)) (hne : rest ≠ [])
    (hd : ((rdpFarthest sqrt ⟨p0, (p0 :: rest).getLast (List.cons_ne_nil _ _)⟩
      (p0 :: rest)).2 : WithTop K) < epsilon) :
    RDPCovers sqrt epsilon [p0, (p0 :: rest).getLast (List.cons_ne_nil _ _)] (p0 :: rest) := by
  rw [RDPCovers_cons_cons]
  refine ⟨rest.dropLast, [rest.getLast hne], ?_, ?_, ?_⟩
  · rw [List.dropLast_append_getLast hne]
  · intro x hx
    obtain ⟨j, hj, hjx⟩ := List.mem_iff_getElem.mp hx
    rw [List.getElem_dropLast] at hjx
    have hj2 : j < rest.length := by
      rw [List.length_dropLast] at hj; omega
    have hget : (p0 :: rest).getD (j + 1) default = x := by
      rw [List.getD_cons_succ, List.getD_eq_getElem _ _ hj2]
      exact hjx
    have hmax := rdpFarthest_max sqrt ⟨p0, (p0 :: rest).getLast (List.cons_ne_nil _ _)⟩
      (p0 :: rest) (j + 1) (Nat.le_add_left _ _)
      (by rw [List.length_dropLast] at hj; simp only [List.length_cons]; omega)
    rw [hget] at hmax
    exact lt_of_le_of_lt (WithTop.coe_le_coe.mpr hmax) hd
  · rw [List.getLast_cons hne]
    rfl

theorem RDP_spec (sqrt : K → K) (epsilon : WithTop K) (hε : 0 < epsilon) :
    ∀ (n : Nat) (points : List (Point K)), points.length = n → points ≠ [] →
      ∃ r, (∀ fuel, points.length ≤ fuel → RDP sqrt fuel points epsilon = some (some r)) ∧
        2 ≤ r.length ∧ (2 ≤ points.length → RDPCovers sqrt epsilon r points) := by
  intro n
  induction n using Nat.strong_induction_on with
  | _ n ih =>
    intro points hlen hne
    cases points with
    | nil => exact absurd rfl hne
    | cons p0 rest =>
      obtain ⟨⟨idx, dmax⟩, h⟩ : ∃ q, rdpFarthest sqrt
          ⟨p0, (p0 :: rest).getLast (List.cons_ne_nil _ _)⟩ (p0 :: rest) = q := ⟨_, rfl⟩
      by_cases hd : epsilon ≤ ((dmax : K) : WithTop K)
      · have hpos : 0 < dmax := by
          have := lt_of_lt_of_le hε hd
          exact_mod_cast this
        have hidx := rdpFarthest_index sqrt
          ⟨p0, (p0 :: rest).getLast (List.cons_ne_nil _ _)⟩ (p0 :: rest) (by rw [h]; exact hpos)
        rw [h] at hidx
        simp only at hidx
        obtain ⟨hi1, hi2⟩ := hidx
        have hlt : ((p0 :: rest).take (idx + 1)).length = idx + 1 := by
          rw [List.length_take]; omega
        have hld : ((p0 :: rest).drop idx).length = (p0 :: rest).length - idx :=
          List.length_drop _ _
        obtain ⟨pre, hpre, hprelen, hprecov⟩ := ih (idx + 1) (by omega) _ hlt
          (by intro h0; rw [h0] at hlt; simp at hlt)
        obtain ⟨suf, hsuf, hsuflen, hsufcov⟩ := ih ((p0 :: rest).length - idx) (by omega) _ hld
          (by intro h0; rw [h0] at hld; simp only [List.length_nil] at hld; omega)
        refine ⟨pre.take (pre.length - 1) ++ suf, ?_, ?_, ?_⟩
        · intro fuel hf
          cases fuel with
          | zero => simp at hf
          | succ fuel =>
            exact RDP_succ_rec sqrt fuel p0 rest epsilon idx dmax h hd pre suf
              (hpre fuel (by rw [hlt]; omega)) (hsuf fuel (by rw [hld]; omega)) (by omega)
        · rw [List.length_append]; omega
        · intro _
          obtain ⟨x, B, hxB⟩ : ∃ x B, (p0 :: rest).drop idx = x :: B := by
            cases hdr : (p0 :: rest).drop idx with
            | nil => rw [hdr] at hld; simp only [List.length_nil] at hld; omega
            | cons x B => exact ⟨x, B, rfl⟩
          have htake := take_succ_of_drop x B idx (p0 :: rest) hxB
          have hpts : p0 :: rest = (p0 :: rest).take idx ++ x :: B := by
            rw [← hxB, List.take_append_drop]
          have hc1 := hprecov (by omega)
          have hc2 := hsufcov (by omega)
          rw [htake] at hc1
          rw [hxB] at hc2
          rw [← List.dropLast_eq_take]
          match pre, hprelen, hc1 with
          | a :: b :: rest1, _, hc1 =>
            have := RDPCovers_join sqrt epsilon x suf B hc2 rest1 a b _ hc1
            rw [← hpts] at this
            exact this
      · refine ⟨[p0, (p0 :: rest).getLast (List.cons_ne_nil _ _)], ?_, le_refl _, ?_⟩
        · intro fuel hf
          cases fuel with
          | zero => simp at hf
          | succ fuel => exact RDP_succ_base sqrt fuel p0 rest epsilon idx dmax h hd
        · intro h2
          have hne2 : rest ≠ [] := by
            intro h0; rw [h0] at h2; simp at h2
          exact RDPCovers_chord sqrt epsilon p0 rest hne2 (by rw [h]; exact not_le.mp hd)

end RDPMain
section RDPFinal

variable {K : Type} [LinearOrderedField K]

/-- C39: for every non-empty polyline and every `epsilon > 0`, finite or
`math.Inf(1)`, `RDP` returns: there is one result that the call gives at every
recursion depth of at least the number of points. Whenever the call recurses
(`dmax >= epsilon`), the pivot index is at least one and less than the last index,
so the slices `points[:index+1]` and `points[index:]` of the two recursive calls
are non-empty and strictly shorter than `points`. -/
theorem RDP_terminates (sqrt : K → K) (points : List (Point K)) (epsilon : WithTop K)
    (hne : points ≠ []) (hε : 0 < epsilon) :
    (∃ r, ∀ fuel, points.length ≤ fuel → RDP sqrt fuel points epsilon = some (some r)) ∧
    ∀ index dmax,
      rdpFarthest sqrt ⟨points.head hne, points.getLast hne⟩ points = (index, dmax) →
      epsilon ≤ ((dmax : K) : WithTop K) →
        1 ≤ index ∧ index < points.length - 1 ∧
        0 < (points.take (index + 1)).length ∧
        (points.take (index + 1)).length < points.length ∧
        0 < (points.drop index).length ∧ (points.drop index).length < points.length := by
  constructor
  · obtain ⟨r, hr, _, _⟩ := RDP_spec sqrt epsilon hε points.length points rfl hne
    exact ⟨r, hr⟩
  · intro index dmax h hd
    have hpos : 0 < dmax := by
      have := lt_of_lt_of_le hε hd
      exact_mod_cast this
    have hidx := rdpFarthest_index sqrt ⟨points.head hne, points.getLast hne⟩ points
      (by rw [h]; exact hpos)
    rw [h] at hidx
    obtain ⟨h1, h2⟩ := hidx
    simp only at h1 h2
    rw [List.length_take, List.length_drop]
    omega

theorem RDP_terminates_witness :
    ([⟨0, 0⟩, ⟨1, 1⟩, ⟨2, 0⟩] : List (Point ℝ)) ≠ [] ∧
    (0 : WithTop ℝ) < (((1 / 2 : ℝ) : ℝ) : WithTop ℝ) ∧
    ((∃ r, ∀ fuel, ([⟨0, 0⟩, ⟨1, 1⟩, ⟨2, 0⟩] : List (Point ℝ)).length ≤ fuel →
      RDP Real.sqrt fuel ([⟨0, 0⟩, ⟨1, 1⟩, ⟨2, 0⟩] : List (Point ℝ))
        (((1 / 2 : ℝ) : ℝ) : WithTop ℝ) = some (some r)) ∧
    ∀ index dmax,
      rdpFarthest Real.sqrt ⟨⟨0, 0⟩, ⟨2, 0⟩⟩ ([⟨0, 0⟩, ⟨1, 1⟩, ⟨2, 0⟩] : List (Point ℝ)) =
        (index, dmax) →
      (((1 / 2 : ℝ) : ℝ) : WithTop ℝ) ≤ ((dmax : ℝ) : WithTop ℝ) →
        1 ≤ index ∧ index < ([⟨0, 0⟩, ⟨1, 1⟩, ⟨2, 0⟩] : List (Point ℝ)).length - 1 ∧
        0 < (([⟨0, 0⟩, ⟨1, 1⟩, ⟨2, 0⟩] : List (Point ℝ)).take (index + 1)).length ∧
        (([⟨0, 0⟩, ⟨1, 1⟩, ⟨2, 0⟩] : List (Point ℝ)).take (index + 1)).length <
          ([⟨0, 0⟩, ⟨1, 1⟩, ⟨2, 0⟩] : List (Point ℝ)).length ∧
        0 < (([⟨0, 0⟩, ⟨1, 1⟩, ⟨2, 0⟩] : List (Point ℝ)).drop index).length ∧
        (([⟨0, 0⟩, ⟨1, 1⟩, ⟨2, 0⟩] : List (Point ℝ)).drop index).length <
          ([⟨0, 0⟩, ⟨1, 1⟩, ⟨2, 0⟩] : List (Point ℝ)).length) :=
  ⟨by simp, WithTop.coe_lt_coe.mpr (by norm_num),
    RDP_terminates Real.sqrt [⟨0, 0⟩, ⟨1, 1⟩, ⟨2, 0⟩] (((1 / 2 : ℝ) : ℝ) : WithTop ℝ)
      (by simp) (WithTop.coe_lt_coe.mpr (by norm_num))⟩

/-- C40, counterexample: on the polyline of the single point `(0, 0)` with
`epsilon = 1` the call returns that point twice (`points[0]` and
`points[len(points)-1]`), which is no subsequence of the input. -/
theorem RDP_subsequence_counterexample :
    (∀ fuel, RDP Real.sqrt (fuel + 1) ([⟨0, 0⟩] : List (Point ℝ)) (((1 : ℝ) : ℝ) : WithTop ℝ) =
      some (some [⟨0, 0⟩, ⟨0, 0⟩])) ∧
    ¬ List.Sublist ([⟨0, 0⟩, ⟨0, 0⟩] : List (Point ℝ)) [⟨0, 0⟩] := by
  constructor
  · intro fuel
    exact RDP_succ_base Real.sqrt fuel ⟨0, 0⟩ [] _ 0 0 rfl
      (by rw [WithTop.coe_le_coe]; norm_num)
  · intro h
    have := h.length_le
    simp at this

/-- C40, amended: for every polyline of at least two points and every
`epsilon > 0`, finite or `math.Inf(1)`, `RDP` returns (the same result at every
recursion depth of at least the number of points) a subsequence of the input that
starts with `points[0]` and ends with the last point; the retained points split
the input so that every input point dropped between two consecutive retained
points is closer than `epsilon` to the segment joining those two retained points.
A polyline of one point is returned as that point twice. -/
theorem RDP_subsequence (sqrt : K → K) (points : List (Point K)) (epsilon : WithTop K)
    (h2 : 2 ≤ points.length) (hε : 0 < epsilon) :
    ∃ r, (∀ fuel, points.length ≤ fuel → RDP sqrt fuel points epsilon = some (some r)) ∧
      r.Sublist points ∧ r.head? = points.head? ∧ r.getLast? = points.getLast? ∧
      RDPCovers sqrt epsilon r points := by
  obtain ⟨r, hr, _, hc⟩ := RDP_spec sqrt epsilon hε points.length points rfl
    (by intro h0; rw [h0] at h2; simp at h2)
  exact ⟨r, hr, RDPCovers_sublist sqrt epsilon r points (hc h2),
    RDPCovers_head sqrt epsilon r points (hc h2),
    RDPCovers_last sqrt epsilon r points (hc h2), hc h2⟩

theorem RDP_subsequence_witness :
    2 ≤ ([⟨0, 0⟩, ⟨1, 1⟩, ⟨2, 0⟩] : List (Point ℝ)).length ∧
    (0 : WithTop ℝ) < (((1 / 2 : ℝ) : ℝ) : WithTop ℝ) ∧
    ∃ r, (∀ fuel, ([⟨0, 0⟩, ⟨1, 1⟩, ⟨2, 0⟩] : List (Point ℝ)).length ≤ fuel →
        RDP Real.sqrt fuel ([⟨0, 0⟩, ⟨1, 1⟩, ⟨2, 0⟩] : List (Point ℝ))
          (((1 / 2 : ℝ) : ℝ) : WithTop ℝ) = some (some r)) ∧
      r.Sublist ([⟨0, 0⟩, ⟨1, 1⟩, ⟨2, 0⟩] : List (Point ℝ)) ∧
      r.head? = ([⟨0, 0⟩, ⟨1, 1⟩, ⟨2, 0⟩] : List (Point ℝ)).head? ∧
      r.getLast? = ([⟨0, 0⟩, ⟨1, 1⟩, ⟨2, 0⟩] : List (Point ℝ)).getLast? ∧
      RDPCovers Real.sqrt (((1 / 2 : ℝ) : ℝ) : WithTop ℝ) r
        ([⟨0, 0⟩, ⟨1, 1⟩, ⟨2, 0⟩] : List (Point ℝ)) :=
  ⟨by simp, WithTop.coe_lt_coe.mpr (by norm_num),
    RDP_subsequence Real.sqrt [⟨0, 0⟩, ⟨1, 1⟩, ⟨2, 0⟩] (((1 / 2 : ℝ) : ℝ) : WithTop ℝ)
      (by simp) (WithTop.coe_lt_coe.mpr (by norm_num))⟩

end RDPFinal
section OSMRegionClaims

variable {K : Type} [LinearOrderedField K] [FloorRing K]

theorem goInt_of_range (x : K) (h1 : -2 ^ 62 ≤ x) (h2 : x ≤ 2 ^ 62) :
    goInt x = if 0 ≤ x then ⌊x⌋ else ⌈x⌉ := by
  unfold goInt
  apply goInt64_of_range
  · split_ifs with h0
    · have : (-2 ^ 62 : Int) ≤ ⌊x⌋ := Int.le_floor.mpr (by exact_mod_cast h1)
      omega
    · have : (-2 ^ 62 : Int) ≤ ⌈x⌉ := by
        exact_mod_cast h1.trans (Int.le_ceil x)
      omega
  · split_ifs with h0
    · have : ⌊x⌋ ≤ (2 ^ 62 : Int) := by
        exact_mod_cast (Int.floor_le x).trans h2
      omega
    · have : ⌈x⌉ ≤ (2 ^ 62 : Int) := Int.ceil_le.mpr (by exact_mod_cast h2)
      omega

theorem goInt_mono (a b : K) (h : a ≤ b) (ha : -2 ^ 62 ≤ a) (hb : b ≤ 2 ^ 62) :
    goInt a ≤ goInt b := by
  rw [goInt_of_range a ha (h.trans hb), goInt_of_range b (ha.trans h) hb]
  split_ifs with ha0 hb0 hb0
  · exact Int.floor_mono h
  · exact absurd (ha0.trans h) hb0
  · have h1 : ⌈a⌉ ≤ 0 := Int.ceil_le.mpr (by simpa using (not_le.mp ha0).le)
    have h2 : (0 : Int) ≤ ⌊b⌋ := Int.le_floor.mpr (by simpa using hb0)
    exact h1.trans h2
  · exact Int.ceil_mono h

theorem flatMap_singleton_map {α β : Type} (f : α → β) :
    ∀ l : List α, (l.flatMap fun a => [f a]) = l.map f := by
  intro l
  induction l with
  | nil => rfl
  | cons a l ih => simp [List.flatMap_cons, ih]

theorem intRange_eq (lo hi : Int) :
    intRange lo hi = (List.range (hi + 1 - lo).toNat).map (fun k : Nat => lo + (k : Int)) := by
  unfold intRange
  simp [List.map_flatMap, List.flatMap_singleton]
  exact flatMap_singleton_map _ _

theorem intRange_nodup (lo hi : Int) : (intRange lo hi).Nodup := by
  rw [intRange_eq]
  apply List.Nodup.map _ (List.nodup_range _)
  intro a b hab
  simpa using hab

theorem rowFold_spec (id : Nat) (x : Int) :
    ∀ (ys : List Int), ys.Nodup → ∀ (idx : Int × Int → List Nat) (c : Int × Int),
      (ys.foldl (fun idx y => Function.update idx (x, y) (idx (x, y) ++ [id])) idx) c =
        idx c ++ if c.1 = x ∧ c.2 ∈ ys then [id] else [] := by
  intro ys
  induction ys with
  | nil => intro _ idx c; simp
  | cons y ys ih =>
    intro hnd idx c
    rw [List.nodup_cons] at hnd
    rw [List.foldl_cons, ih hnd.2]
    by_cases hc : c = (x, y)
    · subst hc
      simp [hnd.1]
    · rw [Function.update_noteq hc]
      congr 1
      have : ¬ (c.1 = x ∧ c.2 = y) := fun h => hc (Prod.ext h.1 h.2)
      by_cases h1 : c.1 = x
      · have h2 : c.2 ≠ y := fun h => this ⟨h1, h⟩
        simp [h1, h2]
      · simp [h1]

theorem gridFold_spec (id : Nat) (ys : List Int) (hys : ys.Nodup) :
    ∀ (xs : List Int), xs.Nodup → ∀ (idx : Int × Int → List Nat) (c : Int × Int),
      (xs.foldl (fun idx x =>
        ys.foldl (fun idx y => Function.update idx (x, y) (idx (x, y) ++ [id])) idx) idx) c =
        idx c ++ if c.1 ∈ xs ∧ c.2 ∈ ys then [id] else [] := by
  intro xs
  induction xs with
  | nil => intro _ idx c; simp
  | cons x xs ih =>
    intro hnd idx c
    rw [List.nodup_cons] at hnd
    rw [List.foldl_cons, ih hnd.2, rowFold_spec id x ys hys, List.append_assoc]
    congr 1
    by_cases h1 : c.1 = x
    · have h2 : c.1 ∉ xs := by rw [h1]; exact hnd.1
      by_cases h3 : c.2 ∈ ys <;> simp [h1, h3, hnd.1]
    · by_cases h3 : c.1 ∈ xs ∧ c.2 ∈ ys <;> simp [h1, h3]

theorem regionFold_spec (c : Int × Int) :
    ∀ (L : List (Nat × Rectangle K)) (idx : Int × Int → List Nat),
      (L.foldl (fun regionIndex (ir : Nat × Rectangle K) =>
        (intRange (goInt (ir.2.Min.X * OSM_INDEX_SCALE))
            (goInt (ir.2.Max.X * OSM_INDEX_SCALE))).foldl (fun regionIndex x =>
          (intRange (goInt (ir.2.Min.Y * OSM_INDEX_SCALE))
              (goInt (ir.2.Max.Y * OSM_INDEX_SCALE))).foldl (fun regionIndex y =>
            Function.update regionIndex (x, y) (regionIndex (x, y) ++ [ir.1]))
            regionIndex) regionIndex) idx) c =
        idx c ++ (L.filter (fun ir => decide
          (c.1 ∈ intRange (goInt (ir.2.Min.X * OSM_INDEX_SCALE))
            (goInt (ir.2.Max.X * OSM_INDEX_SCALE)) ∧
           c.2 ∈ intRange (goInt (ir.2.Min.Y * OSM_INDEX_SCALE))
            (goInt (ir.2.Max.Y * OSM_INDEX_SCALE))))).map Prod.fst := by
  intro L
  induction L with
  | nil => intro idx; simp
  | cons ir L ih =>
    intro idx
    rw [List.foldl_cons, ih, gridFold_spec ir.1 _ (intRange_nodup _ _) _ (intRange_nodup _ _),
      List.append_assoc, List.filter_cons]
    congr 1
    split_ifs with h1 h2 h2
    · rfl
    · simp only [decide_eq_true_eq] at h2; exact absurd h1 h2
    · simp only [decide_eq_true_eq] at h2; exact absurd h2 h1
    · rfl

theorem regionIndex_spec (regions : List (Rectangle K)) (c : Int × Int) :
    regionIndex regions c = (regions.enum.filter (fun ir => decide
      (c.1 ∈ intRange (goInt (ir.2.Min.X * OSM_INDEX_SCALE))
        (goInt (ir.2.Max.X * OSM_INDEX_SCALE)) ∧
       c.2 ∈ intRange (goInt (ir.2.Min.Y * OSM_INDEX_SCALE))
        (goInt (ir.2.Max.Y * OSM_INDEX_SCALE))))).map Prod.fst := by
  unfold regionIndex
  rw [regionFold_spec]
  rfl

theorem contains_cell (r : Rectangle K) (p : Point K) (hr : RegionInRange r)
    (h : r.Contains p = true) :
    goInt (p.X * OSM_INDEX_SCALE) ∈ intRange (goInt (r.Min.X * OSM_INDEX_SCALE))
      (goInt (r.Max.X * OSM_INDEX_SCALE)) ∧
    goInt (p.Y * OSM_INDEX_SCALE) ∈ intRange (goInt (r.Min.Y * OSM_INDEX_SCALE))
      (goInt (r.Max.Y * OSM_INDEX_SCALE)) := by
  simp only [Rectangle.Contains, Bool.and_eq_true, decide_eq_true_eq, ge_iff_le] at h
  obtain ⟨⟨⟨h1, h2⟩, h3⟩, h4⟩ := h
  have h0 : (0 : K) ≤ OSM_INDEX_SCALE := by unfold OSM_INDEX_SCALE; norm_num
  have r1 := hr r.Min.X (by simp)
  have r2 := hr r.Min.Y (by simp)
  have r3 := hr r.Max.X (by simp)
  have r4 := hr r.Max.Y (by simp)
  have m1 := mul_le_mul_of_nonneg_right h1 h0
  have m2 := mul_le_mul_of_nonneg_right h2 h0
  have m3 := mul_le_mul_of_nonneg_right h3 h0
  have m4 := mul_le_mul_of_nonneg_right h4 h0
  rw [mem_intRange, mem_intRange]
  exact ⟨⟨goInt_mono _ _ m1 r1.1 (m2.trans r3.2), goInt_mono _ _ m2 (r1.1.trans m1) r3.2⟩,
    ⟨goInt_mono _ _ m3 r2.1 (m4.trans r4.2), goInt_mono _ _ m4 (r2.1.trans m3) r4.2⟩⟩

theorem regionScan_spec (regions : List (Rectangle K)) (point : Point K) :
    ∀ (L : List (Nat × Rectangle K)), (∀ ir ∈ L, regions[ir.1]? = some ir.2) →
      ∀ acc : List Nat,
      (L.map Prod.fst).foldlM (fun nodeVertices regionID =>
        match regions[regionID]? with
        | none => none
        | some region =>
          some (if region.Contains point then nodeVertices ++ [regionID] else nodeVertices))
        acc = some (acc ++ (L.filter (fun ir => ir.2.Contains point)).map Prod.fst) := by
  intro L
  induction L with
  | nil => intro _ acc; simp
  | cons ir L ih =>
    intro h acc
    have h1 := h ir (List.mem_cons_self _ _)
    have h2 := ih (fun x hx => h x (List.mem_cons_of_mem _ hx))
    rw [List.map_cons, List.foldlM_cons, h1]
    simp only [Option.bind_eq_bind, Option.some_bind]
    rw [h2, List.filter_cons]
    split_ifs with hc
    · simp
    · rfl

theorem oldScan_spec (point : Point K) :
    ∀ (L : List (Nat × Rectangle K)) (acc : List Nat),
      L.foldl (fun nodeVertices (ir : Nat × Rectangle K) =>
        if ir.2.Contains point then nodeVertices ++ [ir.1] else nodeVertices) acc =
      acc ++ (L.filter (fun ir => ir.2.Contains point)).map Prod.fst := by
  intro L
  induction L with
  | nil => intro acc; simp
  | cons ir L ih =>
    intro acc
    rw [List.foldl_cons, ih, List.filter_cons]
    split_ifs with hc
    · simp
    · rfl

/-- C38, counterexample: the single region from `(-2^70, -2^70)` to `(2^70, 2^70)`
and the node at `(0, 0)`. The region contains the node and the old scan gives the
node to region `0`, but the scaled corners are out of the range of `int`: all four
convert to the least `int`, the region is indexed under that one cell only, and the
lookup of the cell `(0, 0)` of the node finds no region. -/
theorem nodeRegions_counterexample :
    (⟨⟨-2 ^ 70, -2 ^ 70⟩, ⟨2 ^ 70, 2 ^ 70⟩⟩ : Rectangle ℚ).Contains ⟨0, 0⟩ = true ∧
    nodeRegionsOld [(⟨⟨-2 ^ 70, -2 ^ 70⟩, ⟨2 ^ 70, 2 ^ 70⟩⟩ : Rectangle ℚ)] ⟨0, 0⟩ = [0] ∧
    nodeRegions [(⟨⟨-2 ^ 70, -2 ^ 70⟩, ⟨2 ^ 70, 2 ^ 70⟩⟩ : Rectangle ℚ)] ⟨0, 0⟩ = some [] := by
  have hc : (⟨⟨-2 ^ 70, -2 ^ 70⟩, ⟨2 ^ 70, 2 ^ 70⟩⟩ : Rectangle ℚ).Contains ⟨0, 0⟩ = true := by
    norm_num [Rectangle.Contains]
  have hhi : goInt ((2 : ℚ) ^ 70 * OSM_INDEX_SCALE) = -2 ^ 63 := by
    have e : (2 : ℚ) ^ 70 * OSM_INDEX_SCALE = (((2 ^ 71 : Int) : Int) : ℚ) := by
      unfold OSM_INDEX_SCALE; push_cast; norm_num
    unfold goInt
    rw [e, if_pos (by positivity), Int.floor_intCast]
    unfold goInt64
    rw [if_neg (by norm_num)]
  have hlo : goInt (-(2 : ℚ) ^ 70 * OSM_INDEX_SCALE) = -2 ^ 63 := by
    have e : -(2 : ℚ) ^ 70 * OSM_INDEX_SCALE = (((-2 ^ 71 : Int) : Int) : ℚ) := by
      unfold OSM_INDEX_SCALE; push_cast; norm_num
    unfold goInt
    rw [e, if_neg (by norm_num), Int.ceil_intCast]
    unfold goInt64
    rw [if_neg (by norm_num)]
  have h0 : goInt ((0 : ℚ) * OSM_INDEX_SCALE) = 0 := by
    unfold goInt
    rw [zero_mul, if_pos (le_refl _), Int.floor_zero]
    exact goInt64_zero
  have hidx : regionIndex [(⟨⟨-2 ^ 70, -2 ^ 70⟩, ⟨2 ^ 70, 2 ^ 70⟩⟩ : Rectangle ℚ)] (0, 0) = [] := by
    rw [regionIndex_spec]
    simp only [List.enum_cons, List.enum_nil, List.enumFrom_cons, List.enumFrom_nil,
      List.filter_cons, List.filter_nil, hhi, hlo, mem_intRange]
    norm_num
  refine ⟨hc, ?_, ?_⟩
  · unfold nodeRegionsOld
    simp only [List.enum_cons, List.enum_nil, List.enumFrom_cons, List.enumFrom_nil,
      List.foldl_cons, List.foldl_nil, hc, if_true, List.nil_append]
  · unfold nodeRegions
    simp only [h0, hidx, List.foldlM_nil]
    rfl

/-- C38, amended: for every list of region rectangles whose scaled corner
coordinates are at most `2^62` in magnitude (so that their conversion to `int` is in
range) and every node point `p`, the grid-indexed lookup of `LoadOSMMultiple2` ends
without an index panic and gives the node to the same regions, in the same order,
as the scan of the old version: exactly the regions `i` with
`regions[i].Contains(p)`, each once. The cell of `p` in the integer grid (scale 2,
truncating conversion) lists every region whose rectangle contains `p`. -/
theorem nodeRegions_eq_old (regions : List (Rectangle K)) (p : Point K)
    (hreg : ∀ r ∈ regions, RegionInRange r) :
    nodeRegions regions p = some (nodeRegionsOld regions p) ∧
    (∀ i, i ∈ nodeRegionsOld regions p ↔ ∃ r, regions[i]? = some r ∧ r.Contains p = true) ∧
    (nodeRegionsOld regions p).Nodup ∧
    (∀ i r, regions[i]? = some r → r.Contains p = true →
      i ∈ regionIndex regions (goInt (p.X * OSM_INDEX_SCALE), goInt (p.Y * OSM_INDEX_SCALE))) := by
  have hold : nodeRegionsOld regions p =
      (regions.enum.filter (fun ir => ir.2.Contains p)).map Prod.fst := by
    unfold nodeRegionsOld
    rw [oldScan_spec]
    rfl
  have henum : ∀ ir ∈ regions.enum, regions[ir.1]? = some ir.2 := by
    intro ir hir
    exact List.mk_mem_enum_iff_getElem?.mp hir
  have hmemr : ∀ (i : Nat) (r : Rectangle K), regions[i]? = some r → r ∈ regions := by
    intro i r h
    exact List.getElem?_mem h
  refine ⟨?_, ?_, ?_, ?_⟩
  · unfold nodeRegions
    simp only
    rw [regionIndex_spec, regionScan_spec regions p _
      (fun ir hir => henum ir (List.mem_of_mem_filter hir)), hold, List.filter_filter,
      List.nil_append]
    congr 2
    apply List.filter_congr
    intro ir hir
    by_cases hc : ir.2.Contains p = true
    · have := contains_cell ir.2 p (hreg _ (hmemr _ _ (henum ir hir))) hc
      simp [hc, this]
    · simp [hc]
  · intro i
    rw [hold, List.mem_map]
    constructor
    · rintro ⟨ir, hir, rfl⟩
      rw [List.mem_filter] at hir
      exact ⟨ir.2, henum ir hir.1, hir.2⟩
    · rintro ⟨r, hr, hc⟩
      exact ⟨(i, r), List.mem_filter.mpr ⟨List.mk_mem_enum_iff_getElem?.mpr hr, hc⟩, rfl⟩
  · rw [hold]
    have hnd : (regions.enum.map Prod.fst).Nodup := by
      rw [List.enum_map_fst]
      exact List.nodup_range _
    exact (hnd.sublist ((List.filter_sublist _).map _))
  · intro i r hr hc
    rw [regionIndex_spec, List.mem_map]
    refine ⟨(i, r), List.mem_filter.mpr ⟨List.mk_mem_enum_iff_getElem?.mpr hr, ?_⟩, rfl⟩
    have := contains_cell r p (hreg _ (hmemr _ _ hr)) hc
    simp [this]

theorem nodeRegions_eq_old_witness :
    (∀ r ∈ [(⟨⟨0, 0⟩, ⟨2, 2⟩⟩ : Rectangle ℚ), ⟨⟨1, 1⟩, ⟨3, 3⟩⟩], RegionInRange r) ∧
    (nodeRegions [(⟨⟨0, 0⟩, ⟨2, 2⟩⟩ : Rectangle ℚ), ⟨⟨1, 1⟩, ⟨3, 3⟩⟩] ⟨3 / 2, 3 / 2⟩ =
      some (nodeRegionsOld [(⟨⟨0, 0⟩, ⟨2, 2⟩⟩ : Rectangle ℚ), ⟨⟨1, 1⟩, ⟨3, 3⟩⟩]
        ⟨3 / 2, 3 / 2⟩) ∧
    (∀ i, i ∈ nodeRegionsOld [(⟨⟨0, 0⟩, ⟨2, 2⟩⟩ : Rectangle ℚ), ⟨⟨1, 1⟩, ⟨3, 3⟩⟩]
        ⟨3 / 2, 3 / 2⟩ ↔
      ∃ r, [(⟨⟨0, 0⟩, ⟨2, 2⟩⟩ : Rectangle ℚ), ⟨⟨1, 1⟩, ⟨3, 3⟩⟩][i]? = some r ∧
        r.Contains ⟨3 / 2, 3 / 2⟩ = true) ∧
    (nodeRegionsOld [(⟨⟨0, 0⟩, ⟨2, 2⟩⟩ : Rectangle ℚ), ⟨⟨1, 1⟩, ⟨3, 3⟩⟩]
      ⟨3 / 2, 3 / 2⟩).Nodup ∧
    (∀ i r, [(⟨⟨0, 0⟩, ⟨2, 2⟩⟩ : Rectangle ℚ), ⟨⟨1, 1⟩, ⟨3, 3⟩⟩][i]? = some r →
      r.Contains ⟨3 / 2, 3 / 2⟩ = true →
      i ∈ regionIndex [(⟨⟨0, 0⟩, ⟨2, 2⟩⟩ : Rectangle ℚ), ⟨⟨1, 1⟩, ⟨3, 3⟩⟩]
        (goInt ((3 / 2 : ℚ) * OSM_INDEX_SCALE), goInt ((3 / 2 : ℚ) * OSM_INDEX_SCALE)))) :=
  have hreg : ∀ r ∈ [(⟨⟨0, 0⟩, ⟨2, 2⟩⟩ : Rectangle ℚ), ⟨⟨1, 1⟩, ⟨3, 3⟩⟩],
      RegionInRange r := by
    intro r hr x hx
    simp only [List.mem_cons, List.mem_singleton, List.mem_nil_iff, or_false] at hr
    rcases hr with rfl | rfl <;>
    · simp only [List.mem_cons, List.mem_singleton, List.mem_nil_iff, or_false] at hx
      rcases hx with rfl | rfl | rfl | rfl <;> norm_num [OSM_INDEX_SCALE]
  ⟨hreg, nodeRegions_eq_old _ ⟨3 / 2, 3 / 2⟩ hreg⟩

end OSMRegionClaims
section SamplePathClaims

variable {K : Type} [LinearOrderedField K]

theorem Rectangle.AddTol_AddTol (rect : Rectangle K) (a b : K) :
    (rect.AddTol a).AddTol b = rect.AddTol (a + b) := by
  simp only [Rectangle.AddTol]
  congr 2 <;> ring

theorem sampleSourceLoop_spec (rand : Nat → Nat) (graph : Graph K) (B : Rectangle K) :
    ∀ (fuel i : Nat) (node j : Nat) (bounds : Rectangle K),
      sampleSourceLoop rand graph fuel i (B.AddTol (-512 + 64 * (((i + 49) / 50 : Nat) : K))) =
        some (node, j, bounds) →
      bounds = B.AddTol (-512 + 64 * (((j / 50 + 1 : Nat) : Nat) : K)) ∧
      bounds.Contains (graph.node node).Point = true ∧ 0 < (graph.node node).Out.length ∧
      node = rand j % graph.Nodes.length ∧ i ≤ j := by
  intro fuel
  induction fuel with
  | zero => intro i node j bounds h; simp [sampleSourceLoop] at h
  | succ fuel ih =>
    intro i node j bounds h
    have hb : (if i % 50 = 0 then
        (B.AddTol (-512 + 64 * (((i + 49) / 50 : Nat) : K))).AddTol 64
        else B.AddTol (-512 + 64 * (((i + 49) / 50 : Nat) : K))) =
        B.AddTol (-512 + 64 * (((i / 50 + 1 : Nat) : Nat) : K)) := by
      split_ifs with h0
      · rw [Rectangle.AddTol_AddTol]
        have : (i + 49) / 50 = i / 50 := by omega
        rw [this]
        congr 1
        push_cast
        ring
      · have : (i + 49) / 50 = i / 50 + 1 := by omega
        rw [this]
    rw [sampleSourceLoop] at h
    simp only [hb] at h
    split_ifs at h with hacc
    · simp only [Option.some.injEq, Prod.mk.injEq] at h
      obtain ⟨h1, h2, h3⟩ := h
      subst h1 h2 h3
      simp only [gt_iff_lt, Bool.and_eq_true, decide_eq_true_eq] at hacc
      exact ⟨rfl, hacc.2, hacc.1, rfl, le_refl _⟩
    · have hnext : (i + 1 + 49) / 50 = i / 50 + 1 := by omega
      rw [← hnext] at h
      obtain ⟨h1, h2, h3, h4, h5⟩ := ih (i + 1) node j bounds h
      exact ⟨h1, h2, h3, h4, by omega⟩

/-- C37: a node accepted by `SamplePath` in round `i` (counting from 0) was tested
against the graph bounds inset by `512 - 64·(⌊i/50⌋ + 1)`: the test `i % 50 == 0`
holds already in round 0, so the inset is relaxed once before the first draw, and
the rounds 0 to 49 use the inset `448`, never the full `512`. -/
theorem SamplePath_inset (rand : Nat → Nat) (graph : Graph K) (fuel node i : Nat)
    (bounds : Rectangle K)
    (h : sampleSource rand graph fuel = some (some (node, i, bounds))) :
    bounds = graph.Bounds.toFinite.AddTol (-(512 - 64 * (((i / 50 + 1 : Nat) : Nat) : K))) ∧
    (i < 50 → bounds = graph.Bounds.toFinite.AddTol (-448)) ∧
    bounds.Contains (graph.node node).Point = true ∧ 0 < (graph.node node).Out.length := by
  unfold sampleSource at h
  split_ifs at h with h0
  · simp at h
  · rw [Option.map_eq_some'] at h
    obtain ⟨r, hr, hr2⟩ := h
    simp only [Option.some.injEq] at hr2
    subst hr2
    have hstart : graph.Bounds.toFinite.AddTol (-512) =
        graph.Bounds.toFinite.AddTol (-512 + 64 * (((0 + 49) / 50 : Nat) : K)) := by
      norm_num
    rw [hstart] at hr
    obtain ⟨h1, h2, h3, _, _⟩ := sampleSourceLoop_spec rand graph _ fuel 0 node i bounds hr
    have e : (-512 + 64 * (((i / 50 + 1 : Nat) : Nat) : K)) =
        -(512 - 64 * (((i / 50 + 1 : Nat) : Nat) : K)) := by ring
    rw [e] at h1
    refine ⟨h1, ?_, h2, h3⟩
    intro hi
    have : i / 50 = 0 := by omega
    rw [h1, this]
    norm_num

theorem insetTest_bounds :
    (Graph.Bounds (insetTestGraph : Graph ℚ)).toFinite = ⟨⟨0, 0⟩, ⟨2000, 2000⟩⟩ := rfl

theorem insetTest_node :
    ((insetTestGraph : Graph ℚ).node 0) = ⟨⟨470, 1000⟩, [0]⟩ := rfl

theorem insetTest_sample :
    sampleSource (fun _ => 0) (insetTestGraph : Graph ℚ) 1 =
      some (some (0, 0, ⟨⟨448, 448⟩, ⟨1552, 1552⟩⟩)) := by
  have hl : (insetTestGraph : Graph ℚ).Nodes.length = 3 := rfl
  simp only [sampleSource, sampleSourceLoop, insetTest_bounds, hl, Nat.zero_mod,
    insetTest_node]
  norm_num [Rectangle.AddTol, Rectangle.Contains]

theorem insetTest_outside :
    ((Graph.Bounds (insetTestGraph : Graph ℚ)).toFinite.AddTol (-512)).Contains
      ((insetTestGraph : Graph ℚ).node 0).Point = false := by
  rw [insetTest_bounds, insetTest_node]
  norm_num [Rectangle.AddTol, Rectangle.Contains]

theorem SamplePath_inset_witness :
    sampleSource (fun _ => 0) (insetTestGraph : Graph ℚ) 1 =
      some (some (0, 0, ⟨⟨448, 448⟩, ⟨1552, 1552⟩⟩)) ∧
    ((Graph.Bounds (insetTestGraph : Graph ℚ)).toFinite.AddTol (-512)).Contains
      ((insetTestGraph : Graph ℚ).node 0).Point = false ∧
    ((⟨⟨448, 448⟩, ⟨1552, 1552⟩⟩ : Rectangle ℚ) =
      (Graph.Bounds (insetTestGraph : Graph ℚ)).toFinite.AddTol
        (-(512 - 64 * (((0 / 50 + 1 : Nat) : Nat) : ℚ))) ∧
    (0 < 50 → (⟨⟨448, 448⟩, ⟨1552, 1552⟩⟩ : Rectangle ℚ) =
      (Graph.Bounds (insetTestGraph : Graph ℚ)).toFinite.AddTol (-448)) ∧
    (⟨⟨448, 448⟩, ⟨1552, 1552⟩⟩ : Rectangle ℚ).Contains
      ((insetTestGraph : Graph ℚ).node 0).Point = true ∧
    0 < ((insetTestGraph : Graph ℚ).node 0).Out.length) :=
  ⟨insetTest_sample, insetTest_outside,
    SamplePath_inset (fun _ => 0) (insetTestGraph : Graph ℚ) 1 0 0
      ⟨⟨448, 448⟩, ⟨1552, 1552⟩⟩ insetTest_sample⟩

end SamplePathClaims
section NodePathsTreeClaims

variable {K : Type} [LinearOrderedField K]

theorem followBackpointers_tree (g : NodePathsGraph K) (np : NodePaths K) (src : Nat)
    (depth : Nat → Nat)
    (htree : ∀ n b, n ≠ src → mapGet np.Backpointers n = some b →
      b < g.Graph.Nodes.length ∧ depth b < depth n ∧
      (b ≠ src → (mapGet np.Backpointers b).isSome)) :
    ∀ (k n : Nat), depth n ≤ k → (n = src ∨ (mapGet np.Backpointers n).isSome) →
      ∃ seq : List Nat,
        (∀ fuel acc, seq.length + 1 ≤ fuel →
          followBackpointers g np src fuel n acc = some (acc ++ seq)) ∧
        (∀ x ∈ seq, depth x ≤ depth n) ∧ seq.Nodup ∧ src ∉ seq ∧
        List.Chain' (fun x y => mapGet np.Backpointers x = some y) (seq ++ [src]) ∧
        (seq ++ [src]).head? = some n ∧
        (∀ x ∈ seq, x = n ∨ x < g.Graph.Nodes.length) := by
  intro k
  induction k with
  | zero =>
    intro n hk hn
    by_cases hs : n = src
    · subst hs
      refine ⟨[], ?_, by simp, List.nodup_nil, by simp, by simp, by simp, by simp⟩
      intro fuel acc hf
      cases fuel with
      | zero => simp at hf
      | succ fuel => simp [followBackpointers]
    · exfalso
      rcases hn with hn | hn
      · exact hs hn
      · obtain ⟨b, hb⟩ := Option.isSome_iff_exists.mp hn
        have := (htree n b hs hb).2.1
        omega
  | succ k ih =>
    intro n hk hn
    by_cases hs : n = src
    · subst hs
      refine ⟨[], ?_, by simp, List.nodup_nil, by simp, by simp, by simp, by simp⟩
      intro fuel acc hf
      cases fuel with
      | zero => simp at hf
      | succ fuel => simp [followBackpointers]
    · have hn2 : (mapGet np.Backpointers n).isSome := by
        rcases hn with hn | hn
        · exact absurd hn hs
        · exact hn
      obtain ⟨b, hb⟩ := Option.isSome_iff_exists.mp hn2
      obtain ⟨hbL, hbd, hbe⟩ := htree n b hs hb
      have hbcase : b = src ∨ (mapGet np.Backpointers b).isSome := by
        by_cases hbs : b = src
        · exact Or.inl hbs
        · exact Or.inr (hbe hbs)
      obtain ⟨seq, hrun, hdep, hnd, hsrc, hchain, hhead, hlt⟩ := ih b (by omega) hbcase
      refine ⟨n :: seq, ?_, ?_, ?_, ?_, ?_, ?_, ?_⟩
      · intro fuel acc hf
        cases fuel with
        | zero => simp at hf
        | succ fuel =>
          rw [followBackpointers, if_pos hs]
          simp only [hb, Option.getD_some, if_pos hbL]
          rw [hrun fuel (acc ++ [n]) (by simp only [List.length_cons] at hf; omega)]
          simp
      · intro x hx
        rcases List.mem_cons.mp hx with rfl | hx
        · exact le_refl _
        · exact (hdep x hx).trans hbd.le
      · rw [List.nodup_cons]
        refine ⟨fun hmem => ?_, hnd⟩
        have := hdep n hmem
        omega
      · intro hmem
        rcases List.mem_cons.mp hmem with h | h
        · exact hs h.symm
        · exact hsrc h
      · rw [List.cons_append]
        apply List.Chain'.cons' hchain
        intro y hy
        rw [hhead] at hy
        simp only [Option.mem_def, Option.some.injEq] at hy
        rw [← hy]
        exact hb
      · rfl
      · intro x hx
        rcases List.mem_cons.mp hx with h | h
        · exact Or.inl h
        · rcases hlt x h with h2 | h2
          · right; rw [h2]; exact hbL
          · exact Or.inr h2

/-- C36: when the backpointers for the source `src` form a tree rooted at `src`,
`GetShortestPath(src, dst, maxDistance)` returns `nil` exactly when `dst` has no
backpointer entry or `Distances[dst] > maxDistance`; otherwise the loop ends and
the call returns the backpointer chain in forward order: the backpointer of the
first node is `src`, the backpointer of every later node is the node before it,
`src` itself is not in the path, and the chain `src, path...` ends with `dst`. -/
theorem GetShortestPath_tree (g : NodePathsGraph K) (src dst : Nat) (maxDistance : K)
    (htree : g.IsTree src) :
    (g.GetShortestPath src dst maxDistance = some none ↔
      ((mapGet ((mapGet g.NodePaths src).getD ⟨[], []⟩).Backpointers dst).isNone = true ∨
        (mapGet ((mapGet g.NodePaths src).getD ⟨[], []⟩).Distances dst).getD 0 > maxDistance)) ∧
    (¬ ((mapGet ((mapGet g.NodePaths src).getD ⟨[], []⟩).Backpointers dst).isNone = true ∨
        (mapGet ((mapGet g.NodePaths src).getD ⟨[], []⟩).Distances dst).getD 0 > maxDistance) →
      ∃ path, g.GetShortestPath src dst maxDistance = some (some path) ∧
        List.Chain (fun a b =>
          mapGet ((mapGet g.NodePaths src).getD ⟨[], []⟩).Backpointers b = some a) src path ∧
        src ∉ path ∧ (src :: path).getLast? = some dst ∧ path.Nodup) := by
  obtain ⟨depth, hdepth⟩ := htree
  generalize hnp : (mapGet g.NodePaths src).getD ⟨[], []⟩ = np at hdepth ⊢
  have hmain : ¬ ((mapGet np.Backpointers dst).isNone = true ∨
      (mapGet np.Distances dst).getD 0 > maxDistance) →
      ∃ path, g.GetShortestPath src dst maxDistance = some (some path) ∧
        List.Chain (fun a b => mapGet np.Backpointers b = some a) src path ∧
        src ∉ path ∧ (src :: path).getLast? = some dst ∧ path.Nodup := by
    intro hno
    rw [not_or] at hno
    obtain ⟨h1, h2⟩ := hno
    have hsome : (mapGet np.Backpointers dst).isSome = true := by
      cases hm : mapGet np.Backpointers dst with
      | none => rw [hm] at h1; simp at h1
      | some b => rfl
    obtain ⟨seq, hrun, _, hnd, hsrc, hchain, hhead, hlt⟩ :=
      followBackpointers_tree g np src depth hdepth (depth dst) dst (le_refl _) (Or.inr hsome)
    have hlen : seq.length + 1 ≤ g.Graph.Nodes.length + 2 := by
      cases seq with
      | nil => simp
      | cons h rest =>
        rw [List.cons_append, List.head?_cons, Option.some.injEq] at hhead
        subst hhead
        rw [List.nodup_cons] at hnd
        have := nodup_length_le rest g.Graph.Nodes.length hnd.2 (by
          intro x hx
          rcases hlt x (List.mem_cons_of_mem _ hx) with h3 | h3
          · rw [h3] at hx; exact absurd hx hnd.1
          · exact h3)
        simp only [List.length_cons]
        omega
    have hfollow := hrun (g.Graph.Nodes.length + 2) [] hlen
    rw [List.nil_append] at hfollow
    refine ⟨seq.reverse, ?_, ?_, ?_, ?_, ?_⟩
    · unfold NodePathsGraph.GetShortestPath
      simp only [hnp, h1, h2, hfollow, Bool.false_eq_true, if_false]
    · have hrev : List.Chain' (flip (fun x y => mapGet np.Backpointers x = some y))
          (seq ++ [src]).reverse := List.chain'_reverse.mpr hchain
      rw [List.reverse_append, List.reverse_singleton, List.singleton_append] at hrev
      exact hrev
    · rw [List.mem_reverse]; exact hsrc
    · have : (seq ++ [src]).reverse.getLast? = some dst := by
        rw [List.getLast?_reverse]; exact hhead
      rw [List.reverse_append, List.reverse_singleton, List.singleton_append] at this
      exact this
    · exact List.nodup_reverse.mpr hnd
  refine ⟨?_, hmain⟩
  constructor
  · intro hnil
    by_contra hno
    obtain ⟨path, hp, _⟩ := hmain hno
    rw [hp] at hnil
    simp at hnil
  · intro h
    unfold NodePathsGraph.GetShortestPath
    simp only [hnp]
    rcases h with h | h
    · rw [if_pos h]
    · split_ifs <;> rfl

theorem testGraph_isTree :
    (testNodePathsGraph (fun _ => false) : NodePathsGraph ℚ).IsTree 0 := by
  refine ⟨id, ?_⟩
  intro n b hn h
  have hnp : (mapGet (testNodePathsGraph (fun _ => false) : NodePathsGraph ℚ).NodePaths 0).getD
      ⟨[], []⟩ = testNodePathsOf 0 false := testNodePaths_get (fun _ => false) 0 (by norm_num)
  have hL : (testNodePathsGraph (fun _ => false) : NodePathsGraph ℚ).Graph.Nodes.length = 6 :=
    testGraph_nodes_length
  rw [hnp] at h ⊢
  rw [hL]
  simp only [testNodePathsOf, mapGet_cons, mapGet_nil] at h ⊢
  split_ifs at h with h1 h2 h3 h4 h5 <;> cases h <;> subst_vars <;> simp [id]

theorem GetShortestPath_tree_witness :
    (testNodePathsGraph (fun _ => false) : NodePathsGraph ℚ).IsTree 0 ∧
    (((testNodePathsGraph (fun _ => false) : NodePathsGraph ℚ).GetShortestPath 0 5 8 =
        some none ↔
      ((mapGet ((mapGet (testNodePathsGraph (fun _ => false) : NodePathsGraph ℚ).NodePaths
          0).getD ⟨[], []⟩).Backpointers 5).isNone = true ∨
        (mapGet ((mapGet (testNodePathsGraph (fun _ => false) : NodePathsGraph ℚ).NodePaths
          0).getD ⟨[], []⟩).Distances 5).getD 0 > 8)) ∧
    (¬ ((mapGet ((mapGet (testNodePathsGraph (fun _ => false) : NodePathsGraph ℚ).NodePaths
          0).getD ⟨[], []⟩).Backpointers 5).isNone = true ∨
        (mapGet ((mapGet (testNodePathsGraph (fun _ => false) : NodePathsGraph ℚ).NodePaths
          0).getD ⟨[], []⟩).Distances 5).getD 0 > 8) →
      ∃ path, (testNodePathsGraph (fun _ => false) : NodePathsGraph ℚ).GetShortestPath 0 5 8 =
          some (some path) ∧
        List.Chain (fun a b =>
          mapGet ((mapGet (testNodePathsGraph (fun _ => false) : NodePathsGraph ℚ).NodePaths
            0).getD ⟨[], []⟩).Backpointers b = some a) 0 path ∧
        0 ∉ path ∧ (0 :: path).getLast? = some 5 ∧ path.Nodup)) :=
  ⟨testGraph_isTree, GetShortestPath_tree _ 0 5 8 testGraph_isTree⟩

end NodePathsTreeClaims
end Gomapinfer
